import Mathlib

/-!
# BusTub storage core: a shallow embedding

The copy-on-write trie (src/primer/trie.cpp), the LRU-K replacer
(src/buffer/lru_k_replacer.cpp), the buffer pool manager
(src/buffer/buffer_pool_manager.cpp), the extendible hash directory page
(src/storage/page/extendible_htable_directory_page.cpp) and the disk extendible
hash table (src/container/disk/hash/disk_extendible_hash_table.cpp), translated
function by function, followed by the properties proved about them.
-/

namespace Bustub

/-! # Part I: the embedding -/

/-! ## Trie: data model (trie.h is not part of the sources; the node classes are
taken from their use in trie.cpp) -/

/-- A trie node: the children map (std::map from char to child) and the value;
the value is none for a plain TrieNode (is_value_node_ false) and some v for a
TrieNodeWithValue holding v. Clone() copies both fields, so a clone is the node
itself. -/
inductive TrieNode (V : Type) where
  | mk (children : List (Char × TrieNode V)) (value : Option V) : TrieNode V

namespace TrieNode

variable {V : Type}

/-- The field children_. -/
def children : TrieNode V → List (Char × TrieNode V)
  | mk c _ => c

/-- The value of a TrieNodeWithValue, none for a plain TrieNode. -/
def value : TrieNode V → Option V
  | mk _ v => v

/-- The flag is_value_node_. -/
def is_value_node (n : TrieNode V) : Bool := n.value.isSome

end TrieNode

/-- The children map, std::map from char to node, as an association list. -/
abbrev Children (V : Type) := List (Char × TrieNode V)

namespace Children

variable {V : Type}

/-- The call children_.find(c), none standing for children_.end(). -/
def find (c : Char) : Children V → Option (TrieNode V)
  | [] => none
  | (d, n) :: m => if d = c then some n else find c m

/-- The assignment children_.at(c) = n at a place where the key is present
(the enclosing find has succeeded): the entry of c is replaced. -/
def assign (c : Char) (n : TrieNode V) : Children V → Children V
  | [] => []
  | (d, x) :: m => if d = c then (c, n) :: m else (d, x) :: assign c n m

/-- The assignment children_.at(c) = n at a place with no enclosing test; none
when the key is missing (std::map::at throws std::out_of_range). -/
def assignAt (c : Char) (n : TrieNode V) (m : Children V) : Option (Children V) :=
  match find c m with
  | some _ => some (assign c n m)
  | none => none

/-- The call children_.insert(make_pair(c, n)): no effect when the key is
present. -/
def insert (c : Char) (n : TrieNode V) (m : Children V) : Children V :=
  match find c m with
  | some _ => m
  | none => m ++ [(c, n)]

/-- The call children_.erase(c). -/
def erase (c : Char) (m : Children V) : Children V :=
  m.filter (fun p => decide (p.1 ≠ c))

/-- The call children_.empty(). -/
def empty (m : Children V) : Bool := m.isEmpty

end Children

/-- A trie: the root pointer, none for nullptr. -/
structure Trie (V : Type) where
  root : Option (TrieNode V)

/-- A stack of (char, node) pairs, top of the stack first. -/
abbrev NodeStack (V : Type) := List (Char × TrieNode V)

namespace Trie

variable {V : Type}

/-- The loop of Get (trie.cpp lines 22-30): follow the key from a node; none is
the early return of nullptr. -/
def getWalk : List Char → TrieNode V → Option (TrieNode V)
  | [], node => some node
  | c :: cs, node =>
    match Children.find c node.children with
    | some child => getWalk cs child
    | none => none

/-- Trie::Get before the dynamic_cast: the stored value at the key, none for
nullptr (trie.cpp lines 18-37). -/
def GetRaw (t : Trie V) (key : List Char) : Option V :=
  match t.root with
  | none => none
  | some root =>
    match getWalk key root with
    | none => none
    | some node => if node.is_value_node then node.value else none

/-- First loop of Put (trie.cpp lines 71-81); rest is the range from it_key to
key.end(). Returns the remaining range and the stack. -/
def putWalk : List Char → TrieNode V → NodeStack V → List Char × NodeStack V
  | c :: c2 :: cs, parent, stack =>
    match Children.find c parent.children with
    | some child => putWalk (c2 :: cs) child ((c, child) :: stack)
    | none => (c :: c2 :: cs, stack)
  | rest, _, stack => (rest, stack)

/-- Second loop of Put (trie.cpp lines 85-89): push an empty node for every
remaining character but the last. -/
def putPad : List Char → NodeStack V → List Char × NodeStack V
  | c :: c2 :: cs, stack => putPad (c2 :: cs) ((c, TrieNode.mk [] none) :: stack)
  | rest, stack => (rest, stack)

/-- Third loop of Put (trie.cpp lines 93-109). The iterator it_key is the index
it into the key, key_len stands for key.end(); returns the final key_slot and
slot. -/
def putUnwind (key_len : Nat) : NodeStack V → Nat → Char → TrieNode V → Char × TrieNode V
  | [], _, key_slot, slot => (key_slot, slot)
  | (c, top) :: stack, it, key_slot, slot =>
    match Children.find key_slot top.children with
    | some old =>
      let first := decide (it + 1 = key_len)
      let slot2 := if first then TrieNode.mk old.children slot.value else slot
      let it2 := if first then it - 1 else it
      putUnwind key_len stack it2 c (TrieNode.mk (Children.assign key_slot slot2 top.children) top.value)
    | none =>
      putUnwind key_len stack 0 c (TrieNode.mk (Children.insert key_slot slot top.children) top.value)

/-- Trie::Put (trie.cpp lines 42-120). -/
def Put (t : Trie V) (key : List Char) (value : V) : Trie V :=
  let new_root : TrieNode V :=
    match t.root with
    | some r => r
    | none => TrieNode.mk [] none
  if key.isEmpty then
    ⟨some (TrieNode.mk new_root.children (some value))⟩
  else
    let w := putWalk key new_root []
    let p := putPad w.1 w.2
    let key_slot0 := p.1.headD default
    let r := putUnwind key.length p.2 (key.length - 1) key_slot0 (TrieNode.mk [] (some value))
    match Children.find r.1 new_root.children with
    | some _ => ⟨some (TrieNode.mk (Children.assign r.1 r.2 new_root.children) new_root.value)⟩
    | none => ⟨some (TrieNode.mk (Children.insert r.1 r.2 new_root.children) new_root.value)⟩

/-- First loop of Remove (trie.cpp lines 140-153): push a clone of each node
on the key's path; none is the early return at line 150. The stack is never
empty: its top is passed apart. -/
def removeWalk : List Char → Char × TrieNode V → NodeStack V → Option (NodeStack V)
  | [], top, below => some (top :: below)
  | c :: cs, top, below =>
    match Children.find c top.2.children with
    | some child => removeWalk cs (c, child) (top :: below)
    | none => none

/-- The pruning loop of Remove (trie.cpp lines 160-168); the top of the stack
is passed apart from the elements below it. -/
def removePrune : Char × TrieNode V → NodeStack V → NodeStack V
  | top, [] => [top]
  | top, (c2, below) :: rest =>
    if Children.empty top.2.children && !top.2.is_value_node then
      removePrune (c2, TrieNode.mk (Children.erase top.1 below.children) below.value) rest
    else top :: (c2, below) :: rest

/-- The rebuilding loop of Remove (trie.cpp lines 179-184); none when
children_.at throws. -/
def removeRebuild : Char → TrieNode V → NodeStack V → Option (TrieNode V)
  | _, slot, [] => some slot
  | key_char, slot, (c, top) :: rest =>
    match Children.assignAt key_char slot top.children with
    | some m => removeRebuild c (TrieNode.mk m top.value) rest
    | none => none

/-- Lines 155-174 of Remove: what is done to the stack when the walk has
reached the key's node; none when children_.at throws or the stack has no
element below the top. -/
def removeStrip : NodeStack V → Option (NodeStack V)
  | (char_key, top) :: (c2, below) :: rest =>
    if top.is_value_node then
      if Children.empty top.children then
        some (removePrune (c2, TrieNode.mk (Children.erase char_key below.children) below.value) rest)
      else
        match Children.assignAt char_key (TrieNode.mk top.children none) below.children with
        | some m => some ((c2, TrieNode.mk m below.value) :: rest)
        | none => none
    else some ((char_key, top) :: (c2, below) :: rest)
  | [(char_key, top)] => if top.is_value_node then none else some [(char_key, top)]
  | [] => none

/-- Trie::Remove (trie.cpp lines 123-191); none when an exception escapes. -/
def Remove (t : Trie V) (key : List Char) : Option (Trie V) :=
  if key.isEmpty then some ⟨none⟩
  else
    match t.root with
    | none => some ⟨none⟩
    | some root =>
      match removeWalk key ('a', root) [] with
      | none => some ⟨some root⟩
      | some stack =>
        match removeStrip stack with
        | none => none
        | some [] => none
        | some ((key_char, slot) :: rest) =>
          match removeRebuild key_char slot rest with
          | none => none
          | some new_root =>
            if !new_root.is_value_node && Children.empty new_root.children then some ⟨none⟩
            else some ⟨some new_root⟩

end Trie

/-! ### Typed values: the dynamic_cast of Trie::Get -/

/-- A stored value together with its static type T (the template argument of
Put), which the dynamic_cast of Get inspects. -/
structure Dyn (Ty : Type) (El : Ty → Type) where
  ty : Ty
  val : El ty

/-- The dynamic_cast to TrieNodeWithValue of T: the value when the stored type is
T, none for nullptr. -/
def Dyn.cast {Ty : Type} {El : Ty → Type} [DecidableEq Ty] (T : Ty) (d : Dyn Ty El) : Option (El T) :=
  if h : d.ty = T then some (h ▸ d.val) else none

/-- Trie::Get of T (trie.cpp lines 11-39). -/
def Trie.Get {Ty : Type} {El : Ty → Type} [DecidableEq Ty] (t : Trie (Dyn Ty El)) (T : Ty)
    (key : List Char) : Option (El T) :=
  match t.GetRaw key with
  | none => none
  | some d => d.cast T

/-- Trie::Put of T: stores the value with its type. -/
def Trie.PutT {Ty : Type} {El : Ty → Type} (t : Trie (Dyn Ty El)) (T : Ty)
    (key : List Char) (value : El T) : Trie (Dyn Ty El) :=
  t.Put key ⟨T, value⟩

/-! ### Trie: predicates used in the proofs -/

namespace Trie

variable {V : Type}

/-- The key of the top of a stack, read off the characters of the stack: the
element at the bottom of the stack is the root, whose character is a dummy. -/
def stackKey : Char → NodeStack V → List Char
  | _, [] => []
  | kc, (c, _) :: rest => stackKey c rest ++ [kc]

/-- Every node of the stack has its successor's character among its children. -/
def Linked : Char → NodeStack V → Prop
  | _, [] => True
  | kc, (c, top) :: rest => (Children.find kc top.children).isSome = true ∧ Linked c rest

/-- What Remove needs of the stack it rebuilds the trie from: the stack is
linked, and reading the rest of the key from its top finds no value. -/
def NoValueAt (key : List Char) (stack : NodeStack V) : Prop :=
  ∃ kc slot rest suffix, stack = (kc, slot) :: rest ∧ Linked kc rest ∧
    stackKey kc rest ++ suffix = key ∧
    ∀ n, getWalk suffix slot = some n → n.value = none

end Trie

/-- The value types for which trie.cpp instantiates Put and Get (lines 201-218). -/
inductive ValueType where
  | uint32
  | uint64
  | string
  | integer
  | moveBlocked
  deriving DecidableEq, Repr

/-- The values of each type: uint32_t, uint64_t, std::string, Integer (a
unique_ptr to a uint32_t, by the number it points to) and MoveBlocked (by its
flag). -/
@[reducible] def ValueType.El : ValueType → Type
  | .uint32 => Fin (2 ^ 32)
  | .uint64 => Fin (2 ^ 64)
  | .string => String
  | .integer => Fin (2 ^ 32)
  | .moveBlocked => Bool

/-- A trie over the value types of trie.cpp. -/
abbrev TypedTrie := Trie (Dyn ValueType ValueType.El)

/-! ### Trie: what a trie stores, and the pruning invariant -/

namespace Trie

variable {V : Type}

/-- The value stored at a key below a node: what Get reads at the end of its
walk, none when the path is missing or the node has no value. -/
def valueAt (key : List Char) (n : TrieNode V) : Option V :=
  match getWalk key n with
  | some x => x.value
  | none => none

/-- Two nodes store the same value at every key but the one given. -/
def AgreeExcept (key : List Char) (n1 n2 : TrieNode V) : Prop :=
  ∀ k, k ≠ key → valueAt k n1 = valueAt k n2

/-- The node old is the child at kc of the top of the stack, and every node of
the stack is the child, at its own character, of the node below it. -/
def Attached : Char → TrieNode V → NodeStack V → Prop
  | _, _, [] => True
  | kc, old, (c, top) :: rest => Children.find kc top.children = some old ∧ Attached c top rest

/-- The node at the bottom of the stack, the root; the node itself when the
stack is empty. -/
def bottom : TrieNode V → NodeStack V → TrieNode V
  | old, [] => old
  | _, (_, top) :: rest => bottom top rest

/-- What Remove has made of the stack when it starts to rebuild the trie: below
the top the stack is a path of the trie, and the top stores what the node of
the trie at its place stores, but at the rest of the key. -/
def Patch (key : List Char) (root : TrieNode V) (stack : NodeStack V) : Prop :=
  ∃ kc slot rest old suffix, stack = (kc, slot) :: rest ∧ Attached kc old rest ∧
    bottom old rest = root ∧ stackKey kc rest ++ suffix = key ∧ AgreeExcept suffix old slot

/-- Every node below n that has no children carries a value. -/
def Pruned (n : TrieNode V) : Prop :=
  ∀ k x, k ≠ [] → getWalk k n = some x → Children.empty x.children = true →
    x.is_value_node = true

/-- The node n, and every node below it, carries a value when it has no
children. -/
def Good (n : TrieNode V) : Prop :=
  ∀ k x, getWalk k n = some x → Children.empty x.children = true → x.is_value_node = true

/-- A well-pruned trie: the root is null, or else every node other than the
root that has no children carries a value, and the root is not both childless
and value-less. -/
def WellPruned (t : Trie V) : Prop :=
  match t.root with
  | none => True
  | some root =>
    Pruned root ∧ ¬ (Children.empty root.children = true ∧ root.is_value_node = false)

/-- Every node of the stack is pruned. -/
def AllPruned (stack : NodeStack V) : Prop := ∀ p ∈ stack, Pruned p.2

end Trie

/-! ## LRU-K replacer (src/buffer/lru_k_replacer.cpp)

The header lru_k_replacer.h and the macro BUSTUB_ASSERT are not part of the
sources. Frame ids are int32 values (Int); the size_t counters
current_timestamp_ and the recorded timestamps are natural numbers, the logical
clock staying below 2^64; curr_size_ wraps modulo 2^64 as size_t does. An
operation returns none when the program does not continue: a failed assertion,
or a read that C++ leaves undefined. -/

/-- The macro BUSTUB_ASSERT (common/macros.h, not in src) is a parameter of the
replacer: what a reached BUSTUB_ASSERT(text, frame_id) does. With abort every
reached assertion ends the program (the spec: a programming error aborts); with
unlessNonzero it ends the program only when its second argument, the frame id,
is 0 (the macro asserting the conjunction of its two arguments, the first a
string literal); with ignore assertions are compiled out. -/
inductive AssertMode where
  | abort
  | unlessNonzero
  | ignore
  deriving DecidableEq, Repr

/-- Whether a reached BUSTUB_ASSERT(text, frame_id) ends the program. -/
def AssertMode.fails : AssertMode → Int → Bool
  | .abort, _ => true
  | .unlessNonzero, frame_id => decide (frame_id = 0)
  | .ignore, _ => false

/-- Modelled from the spec: the class LRUKNode of lru_k_replacer.h, which is not
in src. A node holds the access timestamps of its frame, oldest first (Access
appends the timestamp it is given), and the flag is_evictable; history_entry()
is the number of recorded accesses. A fresh node has no recorded access and is
not evictable. -/
structure LRUKNode where
  history : List Nat
  is_evictable : Bool
  deriving DecidableEq, Repr

namespace LRUKNode

/-- Modelled from the spec: the default constructor LRUKNode(). -/
def fresh : LRUKNode := ⟨[], false⟩

/-- Modelled from the spec: history_entry(), the number of recorded accesses. -/
def history_entry (n : LRUKNode) : Nat := n.history.length

/-- Modelled from the spec: Access(timestamp) appends the timestamp. -/
def Access (n : LRUKNode) (timestamp : Nat) : LRUKNode :=
  { n with history := n.history ++ [timestamp] }

/-- Modelled from the spec: verse_evictable() flips the flag. -/
def verse_evictable (n : LRUKNode) : LRUKNode :=
  { n with is_evictable := !n.is_evictable }

end LRUKNode

/-- The map node_store_ (a std::unordered_map from frame id to node), as the
list of its entries in iteration order. -/
abbrev NodeStore := List (Int × LRUKNode)

namespace NodeStore

/-- The call node_store_.find(f), none standing for node_store_.end(). -/
def find (f : Int) : NodeStore → Option LRUKNode
  | [] => none
  | (g, n) :: m => if g = f then some n else find f m

/-- The call node_store_.erase(f). -/
def erase (f : Int) (m : NodeStore) : NodeStore :=
  m.filter (fun p => decide (p.1 ≠ f))

/-- An update through the reference node_store_.at(f) or node_store_[f] of an
entry that is present. -/
def modify (f : Int) (g : LRUKNode → LRUKNode) (m : NodeStore) : NodeStore :=
  m.map (fun p => if p.1 = f then (p.1, g p.2) else p)

/-- The call node_store_.insert(make_pair(f, n)) for a key that is absent. -/
def insert (f : Int) (n : LRUKNode) (m : NodeStore) : NodeStore :=
  (f, n) :: m

/-- The entry of f made present: node_store_[f], and lines 69-71 of
RecordAccess, which insert a fresh node when find(f) gives end(). -/
def touch (f : Int) (m : NodeStore) : NodeStore :=
  match find f m with
  | none => insert f LRUKNode.fresh m
  | some _ => m

/-- The frame is tracked and its evictable flag is set. -/
def evictable (m : NodeStore) (f : Int) : Prop :=
  ∃ n, find f m = some n ∧ n.is_evictable = true

/-- No frame id has two entries, as in every map. -/
def KeysNodup (m : NodeStore) : Prop := (m.map Prod.fst).Nodup

end NodeStore

/-- The size_t decrement, wrapping at zero. -/
def decrSize (n : Nat) : Nat := (n + 2 ^ 64 - 1) % 2 ^ 64

/-- The size_t increment, wrapping at 2^64. -/
def incrSize (n : Nat) : Nat := (n + 1) % 2 ^ 64

/-- The state of an LRUKReplacer. -/
structure LRUKReplacer where
  node_store : NodeStore
  current_timestamp : Nat
  curr_size : Nat
  replacer_size : Nat
  k : Nat
  assert_mode : AssertMode
  deriving DecidableEq, Repr

/-- The local variables of Evict (lru_k_replacer.cpp lines 23-27). -/
structure EvictVars where
  max_distance : Nat
  inf : Bool
  evict : Bool
  frame_to_evict : Int
  deriving DecidableEq, Repr

namespace LRUKReplacer

/-- The constructor (line 18). -/
def new (num_frames k : Nat) (mode : AssertMode) : LRUKReplacer :=
  { node_store := [], current_timestamp := 0, curr_size := 0, replacer_size := num_frames, k := k,
    assert_mode := mode }

/-- The inner loop of Evict (lines 42-46) over the reversed history: count runs
from k down, and kth_stamp takes the entry met when count is 1. The branch is
entered with at least k entries, so the list does not run out. -/
def kthLoop : List Nat → Nat → Nat → Nat
  | _, 0, kth_stamp => kth_stamp
  | [], _ + 1, kth_stamp => kth_stamp
  | x :: xs, count + 1, kth_stamp => kthLoop xs count (if count + 1 = 1 then x else kth_stamp)

/-- The value of kth_stamp after lines 39-46. -/
def kthStamp (k : Nat) (history : List Nat) : Nat :=
  kthLoop history.reverse k 0

/-- One iteration of the loop of Evict (lines 29-53); none when history().back()
is read on an empty history. -/
def evictStep (k current_timestamp : Nat) (v : EvictVars) (it : Int × LRUKNode) :
    Option EvictVars :=
  if it.2.is_evictable then
    let v1 := { v with evict := true }
    if it.2.history_entry < k then
      match it.2.history.getLast? with
      | none => none
      | some back =>
        if !(v1.inf && decide (v1.max_distance ≥ current_timestamp - back)) then
          some { v1 with inf := true, max_distance := current_timestamp - back,
                         frame_to_evict := it.1 }
        else some v1
    else if !v1.inf then
      let kth_stamp := kthStamp k it.2.history
      if v1.max_distance < current_timestamp - kth_stamp then
        some { v1 with max_distance := current_timestamp - kth_stamp, frame_to_evict := it.1 }
      else some v1
    else some v1
  else some v

/-- The loop of Evict (lines 29-53) over the entries in iteration order. -/
def evictLoop (k current_timestamp : Nat) : NodeStore → EvictVars → Option EvictVars
  | [], v => some v
  | it :: rest, v =>
    match evictStep k current_timestamp v it with
    | none => none
    | some v2 => evictLoop k current_timestamp rest v2

/-- LRUKReplacer::Evict (lines 20-61): the frame written to frame_id when the
call returns true, none when it returns false, and the state afterwards. -/
def Evict (r : LRUKReplacer) : Option (Option Int × LRUKReplacer) :=
  match evictLoop r.k r.current_timestamp r.node_store ⟨0, false, false, 0⟩ with
  | none => none
  | some v =>
    if !v.evict then some (none, r)
    else some (some v.frame_to_evict,
      { r with node_store := r.node_store.erase v.frame_to_evict,
               curr_size := decrSize r.curr_size })

/-- The range test of RecordAccess and SetEvictable (lines 65 and 82): the frame
id, cast to size_t, is at least replacer_size_, or it is negative. -/
def outOfRange (r : LRUKReplacer) (frame_id : Int) : Bool :=
  decide (frame_id < 0) || decide ((r.replacer_size : Int) ≤ frame_id)

/-- Lines 65-67 and 82-84: the range test holds and the assertion it guards ends
the program. -/
def rangeAssertFails (r : LRUKReplacer) (frame_id : Int) : Bool :=
  r.outOfRange frame_id && r.assert_mode.fails frame_id

/-- LRUKReplacer::RecordAccess (lines 62-77). -/
def RecordAccess (r : LRUKReplacer) (frame_id : Int) : Option LRUKReplacer :=
  if r.rangeAssertFails frame_id then none
  else
    let store1 := r.node_store.touch frame_id
    some { r with node_store := store1.modify frame_id (fun n => n.Access r.current_timestamp),
                  current_timestamp := r.current_timestamp + 1 }

/-- LRUKReplacer::SetEvictable (lines 79-93); node_store_[frame_id] creates a
fresh node when the frame is not tracked. -/
def SetEvictable (r : LRUKReplacer) (frame_id : Int) (set_evictable : Bool) :
    Option LRUKReplacer :=
  if r.rangeAssertFails frame_id then none
  else
    let store1 := r.node_store.touch frame_id
    match store1.find frame_id with
    | none => none
    | some node =>
      if node.is_evictable != set_evictable then
        some { r with node_store := store1.modify frame_id LRUKNode.verse_evictable,
                      curr_size := if set_evictable then incrSize r.curr_size
                                   else decrSize r.curr_size }
      else some { r with node_store := store1 }

/-- The range test of Remove (line 99): the frame id is above replacer_size_ or
not positive. -/
def removeOutOfRange (r : LRUKReplacer) (frame_id : Int) : Bool :=
  decide (frame_id ≤ 0) || decide ((r.replacer_size : Int) < frame_id)

/-- Lines 99-101: the range test of Remove holds and the assertion it guards
ends the program. -/
def removeRangeAssertFails (r : LRUKReplacer) (frame_id : Int) : Bool :=
  r.removeOutOfRange frame_id && r.assert_mode.fails frame_id

/-- Lines 107-109: the node is not evictable and the assertion this guards ends
the program. -/
def notEvictableAssertFails (r : LRUKReplacer) (node : LRUKNode) (frame_id : Int) : Bool :=
  !node.is_evictable && r.assert_mode.fails frame_id

/-- LRUKReplacer::Remove (lines 95-115). -/
def Remove (r : LRUKReplacer) (frame_id : Int) : Option LRUKReplacer :=
  if r.removeRangeAssertFails frame_id then none
  else
    match r.node_store.find frame_id with
    | none => some r
    | some node =>
      if r.notEvictableAssertFails node frame_id then none
      else some { r with node_store := r.node_store.erase frame_id }

/-- LRUKReplacer::Size (lines 117-120). -/
def Size (r : LRUKReplacer) : Nat := r.curr_size

/-- The number of tracked nodes whose evictable flag is true. -/
def evictableCount (r : LRUKReplacer) : Nat :=
  (r.node_store.filter (fun p => p.2.is_evictable)).length

end LRUKReplacer

namespace LRUKReplacer

/-- The replacer states that can occur: the freshly constructed replacer, and
what RecordAccess, SetEvictable, Remove and Evict make of a state that can occur
when they return. The iteration order of a std::unordered_map is unspecified, so
every reordering of node_store_ can occur as well. -/
inductive Reachable : LRUKReplacer → Prop
  | init (num_frames k : Nat) (mode : AssertMode) : Reachable (new num_frames k mode)
  | recordAccess {r r2 : LRUKReplacer} (f : Int) :
      Reachable r → r.RecordAccess f = some r2 → Reachable r2
  | setEvictable {r r2 : LRUKReplacer} (f : Int) (b : Bool) :
      Reachable r → r.SetEvictable f b = some r2 → Reachable r2
  | remove {r r2 : LRUKReplacer} (f : Int) :
      Reachable r → r.Remove f = some r2 → Reachable r2
  | evict {r r2 : LRUKReplacer} (res : Option Int) :
      Reachable r → r.Evict = some (res, r2) → Reachable r2
  | reorder {r : LRUKReplacer} (store : NodeStore) :
      Reachable r → store.Perm r.node_store → Reachable { r with node_store := store }

/-- Every recorded timestamp lies before the clock. -/
def StampsBelowClock (r : LRUKReplacer) : Prop :=
  ∀ p ∈ r.node_store, ∀ ts ∈ p.2.history, ts < r.current_timestamp

/-- The most recent recorded access of a node (history().back()), 0 when there
is none. -/
def backStamp (n : LRUKNode) : Nat := n.history.getLast?.getD 0

/-- The earliest recorded access of a node (history().front()), 0 when there
is none. -/
def frontStamp (n : LRUKNode) : Nat := n.history.head?.getD 0

/-- The timestamp of the k-th most recent access, in the spec's words: the
entry k - 1 places before the newest one; 0 when there is none. -/
def kthMostRecent (k : Nat) (n : LRUKNode) : Nat := n.history.reverse.getD (k - 1) 0

/-- The loop invariant of Evict, after the entries pre. -/
def LoopInv (k cur : Nat) (pre : NodeStore) (v : EvictVars) : Prop :=
  (v.evict = false →
    v.inf = false ∧ v.max_distance = 0 ∧ ∀ p ∈ pre, p.2.is_evictable = false) ∧
  (v.evict = true → ∃ n, (v.frame_to_evict, n) ∈ pre ∧ n.is_evictable = true ∧
    (v.inf = true → n.history.length < k ∧ v.max_distance = cur - backStamp n ∧
      ∀ q ∈ pre, q.2.is_evictable = true → q.2.history.length < k →
        cur - backStamp q.2 ≤ v.max_distance) ∧
    (v.inf = false → v.max_distance = cur - kthStamp k n.history ∧ 0 < v.max_distance ∧
      ∀ q ∈ pre, q.2.is_evictable = true →
        k ≤ q.2.history.length ∧ cur - kthStamp k q.2.history ≤ v.max_distance))

/-- A node with at least one recorded access, all before the clock. -/
def Stamped (cur : Nat) (n : LRUKNode) : Prop :=
  n.history ≠ [] ∧ ∀ ts ∈ n.history, ts < cur

/-- A list of replacer operations, for building concrete states. -/
inductive Op where
  | recordAccess (f : Int)
  | setEvictable (f : Int) (b : Bool)
  | remove (f : Int)
  | evict
  deriving DecidableEq, Repr

/-- Run one operation. -/
def step (r : LRUKReplacer) : Op → Option LRUKReplacer
  | .recordAccess f => r.RecordAccess f
  | .setEvictable f b => r.SetEvictable f b
  | .remove f => r.Remove f
  | .evict => r.Evict.map Prod.snd

/-- Run a list of operations, none as soon as one does not return. -/
def run : LRUKReplacer → List Op → Option LRUKReplacer
  | r, [] => some r
  | r, op :: ops =>
    match r.step op with
    | none => none
    | some r2 => run r2 ops

/-- The access sequence of the spec's boundary scenario 2: frames 1, 2, 3, 4, 5,
1, 2, 3, 1, 2, 4 accessed in this order, then all five marked evictable. -/
def scenarioOps : List Op :=
  [.recordAccess 1, .recordAccess 2, .recordAccess 3, .recordAccess 4, .recordAccess 5,
   .recordAccess 1, .recordAccess 2, .recordAccess 3, .recordAccess 1, .recordAccess 2,
   .recordAccess 4, .setEvictable 1 true, .setEvictable 2 true, .setEvictable 3 true,
   .setEvictable 4 true, .setEvictable 5 true]

/-- The state the scenario leaves a replacer of 7 frames with k = 2 in. -/
def scenarioState : LRUKReplacer :=
  { node_store := [(5, ⟨[4], true⟩), (4, ⟨[3, 10], true⟩), (3, ⟨[2, 7], true⟩),
                   (2, ⟨[1, 6, 9], true⟩), (1, ⟨[0, 5, 8], true⟩)],
    current_timestamp := 11, curr_size := 5, replacer_size := 7, k := 2,
    assert_mode := .abort }

/-- With k = 3: frame 1 accessed, frame 2 accessed, frame 1 accessed again, both
marked evictable. -/
def tieOps : List Op :=
  [.recordAccess 1, .recordAccess 2, .recordAccess 1, .setEvictable 1 true,
   .setEvictable 2 true]

/-- The state tieOps leaves a replacer of 7 frames with k = 3 in. -/
def tieState : LRUKReplacer :=
  { node_store := [(2, ⟨[1], true⟩), (1, ⟨[0, 2], true⟩)],
    current_timestamp := 3, curr_size := 2, replacer_size := 7, k := 3,
    assert_mode := .abort }

end LRUKReplacer
/-! ## Buffer pool manager (src/buffer/buffer_pool_manager.cpp)

The class declarations (buffer_pool_manager.h, page.h), the disk scheduler and
the disk manager are not part of the sources. The contents of a page are a
value of a type D whose default value is the zeroed buffer that ResetMemory
leaves; pin counts are natural numbers; page ids and frame ids are int32 values
(Int), the counter next_page_id_ staying below 2^31. -/

/-- The sentinel INVALID_PAGE_ID. -/
def INVALID_PAGE_ID : Int := -1

/-- Modelled from the spec: a Page (page.h is not in src): page id, pin count,
dirty flag and contents. -/
structure Page (D : Type) where
  page_id : Int
  pin_count : Nat
  is_dirty : Bool
  data : D
  deriving DecidableEq, Repr

/-- The page of a frame at pool construction: no page id, not pinned, clean,
zeroed. -/
def Page.init (D : Type) [Inhabited D] : Page D := ⟨INVALID_PAGE_ID, 0, false, default⟩

/-- The map page_table_ (a std::unordered_map from page id to frame id). -/
abbrev PageTable := List (Int × Int)

namespace PageTable

/-- The call page_table_.find(p), none standing for page_table_.end(). -/
def find (p : Int) : PageTable → Option Int
  | [] => none
  | (q, f) :: t => if q = p then some f else find p t

/-- The call page_table_.erase(p). -/
def erase (p : Int) (t : PageTable) : PageTable :=
  t.filter (fun e => decide (e.1 ≠ p))

/-- The call page_table_.emplace(p, f): no effect when the key is present. -/
def emplace (p f : Int) (t : PageTable) : PageTable :=
  match find p t with
  | some _ => t
  | none => (p, f) :: t

end PageTable

/-- Modelled from the spec: the disk behind the scheduler, as the list of the
writes issued, the latest first. -/
abbrev Disk (D : Type) := List (Int × D)

/-- Modelled from the spec: a read request returns the contents last written
for the page id, the zeroed buffer when none was. -/
def Disk.read {D : Type} [Inhabited D] (p : Int) : Disk D → D
  | [] => default
  | (q, d) :: rest => if q = p then d else Disk.read p rest

/-- The state of a BufferPoolManager. -/
structure BufferPoolManager (D : Type) where
  pool_size : Nat
  pages : List (Page D)
  page_table : PageTable
  free_list : List Int
  replacer : LRUKReplacer
  next_page_id : Int
  disk : Disk D
  deriving DecidableEq, Repr

namespace BufferPoolManager

variable {D : Type} [Inhabited D]

/-- The constructor (lines 21-32): every frame is in the free list. The replacer's
assertion parameter is passed along. -/
def new (pool_size replacer_k : Nat) (mode : AssertMode) : BufferPoolManager D :=
  { pool_size := pool_size,
    pages := List.replicate pool_size (Page.init D),
    page_table := [],
    free_list := List.map Int.ofNat (List.range pool_size),
    replacer := LRUKReplacer.new pool_size replacer_k mode,
    next_page_id := 0,
    disk := [] }

/-- The page pages_ + frame_id; none outside the array. -/
def pageAt (b : BufferPoolManager D) (f : Int) : Option (Page D) :=
  if 0 ≤ f then b.pages[f.toNat]? else none

/-- A write through the pointer pages_ + frame_id. -/
def setPage (b : BufferPoolManager D) (f : Int) (pg : Page D) : BufferPoolManager D :=
  { b with pages := b.pages.set f.toNat pg }

/-- The choice of a frame (lines 42-53 of NewPage, again 102-111 of FetchPage):
the back of the free list, else the frame the replacer evicts; the inner none is
the return of nullptr. -/
def pickFrame (b : BufferPoolManager D) : Option (Option Int × BufferPoolManager D) :=
  match b.free_list.getLast? with
  | some f => some (some f, { b with free_list := b.free_list.dropLast })
  | none =>
    match b.replacer.Evict with
    | none => none
    | some (none, _) => some (none, b)
    | some (some f, r) => some (some f, { b with replacer := r })

/-- The write-back of a dirty page (lines 56-63 of NewPage, again 112-118 of
FetchPage). -/
def writeBack (disk : Disk D) (page : Page D) : Disk D × Page D :=
  if page.is_dirty then ((page.page_id, page.data) :: disk, { page with is_dirty := false })
  else (disk, page)

/-- The rebinding of a frame to a page id (lines 66-75 of NewPage, again 120-126
of FetchPage). -/
def bindFrame (b : BufferPoolManager D) (f : Int) (page : Page D) (pid : Int) :
    Option (BufferPoolManager D) :=
  let table := (b.page_table.erase page.page_id).emplace pid f
  let page2 : Page D := { page with page_id := pid, pin_count := 1, data := default }
  match b.replacer.RecordAccess f with
  | none => none
  | some r1 =>
    match r1.SetEvictable f false with
    | none => none
    | some r2 => some { (b.setPage f page2) with page_table := table, replacer := r2 }

/-- BufferPoolManager::NewPage (lines 36-77): the new page id and the frame of the
returned page, none for nullptr. -/
def NewPage (b : BufferPoolManager D) : Option (Option (Int × Int) × BufferPoolManager D) :=
  match b.pickFrame with
  | none => none
  | some (none, b1) => some (none, b1)
  | some (some f, b1) =>
    match b1.pageAt f with
    | none => none
    | some page =>
      let wb := writeBack b1.disk page
      let pid := b1.next_page_id
      match bindFrame { b1 with disk := wb.1, next_page_id := pid + 1 } f wb.2 pid with
      | none => none
      | some b3 => some (some (pid, f), b3)

/-- BufferPoolManager::FetchPage (lines 79-133): the frame of the returned page,
none for nullptr. -/
def FetchPage (b : BufferPoolManager D) (page_id : Int) :
    Option (Option Int × BufferPoolManager D) :=
  if page_id = INVALID_PAGE_ID then some (none, b)
  else
    match b.page_table.find page_id with
    | some f =>
      match b.pageAt f with
      | none => none
      | some page =>
        match b.replacer.RecordAccess f with
        | none => none
        | some r1 =>
          match r1.SetEvictable f false with
          | none => none
          | some r2 =>
            some (some f, { (b.setPage f { page with pin_count := page.pin_count + 1 }) with
                            replacer := r2 })
    | none =>
      match b.pickFrame with
      | none => none
      | some (none, b1) => some (none, b1)
      | some (some f, b1) =>
        match b1.pageAt f with
        | none => none
        | some page =>
          let wb := writeBack b1.disk page
          match bindFrame { b1 with disk := wb.1 } f wb.2 page_id with
          | none => none
          | some b3 =>
            match b3.pageAt f with
            | none => none
            | some page3 =>
              some (some f, b3.setPage f { page3 with data := Disk.read page_id b3.disk })

/-- BufferPoolManager::UnpinPage (lines 135-158). -/
def UnpinPage (b : BufferPoolManager D) (page_id : Int) (is_dirty : Bool) :
    Option (Bool × BufferPoolManager D) :=
  if page_id = INVALID_PAGE_ID then some (false, b)
  else
    match b.page_table.find page_id with
    | none => some (false, b)
    | some f =>
      match b.pageAt f with
      | none => none
      | some page =>
        let page1 : Page D := { page with is_dirty := is_dirty || page.is_dirty }
        if page1.pin_count = 0 then some (false, b.setPage f page1)
        else
          let page2 : Page D := { page1 with pin_count := page1.pin_count - 1 }
          if page2.pin_count = 0 then
            match b.replacer.SetEvictable f true with
            | none => none
            | some r => some (true, { (b.setPage f page2) with replacer := r })
          else some (true, b.setPage f page2)

/-- BufferPoolManager::FlushPage (lines 160-181). -/
def FlushPage (b : BufferPoolManager D) (page_id : Int) :
    Option (Bool × BufferPoolManager D) :=
  if page_id = INVALID_PAGE_ID then some (false, b)
  else
    match b.page_table.find page_id with
    | none => some (false, b)
    | some f =>
      match b.pageAt f with
      | none => none
      | some page =>
        some (true, { (b.setPage f { page with is_dirty := false }) with
                      disk := (page.page_id, page.data) :: b.disk })

/-- One iteration of the loop of FlushAllPages (lines 185-197) on a page. -/
def flushOne (disk : Disk D) (page : Page D) : Disk D × Page D :=
  if page.page_id = INVALID_PAGE_ID then (disk, page)
  else ((page.page_id, page.data) :: disk, { page with is_dirty := false })

/-- The loop of FlushAllPages over the pages in frame order. -/
def flushLoop : Disk D → List (Page D) → Disk D × List (Page D)
  | disk, [] => (disk, [])
  | disk, page :: rest =>
    let r := flushLoop (flushOne disk page).1 rest
    (r.1, (flushOne disk page).2 :: r.2)

/-- BufferPoolManager::FlushAllPages (lines 183-198). -/
def FlushAllPages (b : BufferPoolManager D) : BufferPoolManager D :=
  { b with disk := (flushLoop b.disk b.pages).1, pages := (flushLoop b.disk b.pages).2 }

/-- BufferPoolManager::DeletePage (lines 200-226); DeallocatePage does nothing. -/
def DeletePage (b : BufferPoolManager D) (page_id : Int) :
    Option (Bool × BufferPoolManager D) :=
  if page_id = INVALID_PAGE_ID then some (true, b)
  else
    match b.page_table.find page_id with
    | none => some (true, b)
    | some f =>
      match b.pageAt f with
      | none => none
      | some page =>
        if page.pin_count > 0 then some (false, b)
        else
          match b.replacer.Remove f with
          | none => none
          | some r =>
            some (true, { b with page_table := b.page_table.erase page_id,
                                 free_list := b.free_list ++ [f],
                                 replacer := r,
                                 pages := b.pages.set f.toNat
                                   { page with data := default, page_id := INVALID_PAGE_ID,
                                               is_dirty := false, pin_count := 0 } })

/-- The frame is evictable in the replacer: it is tracked and its flag is set. -/
def evictable (b : BufferPoolManager D) (f : Int) : Prop :=
  b.replacer.node_store.evictable f

/-- The pool states that can occur: the freshly constructed pool, and what the
public operations make of a state that can occur when they return; the replacer's
node_store_ may be iterated in any order. -/
inductive Reachable : BufferPoolManager D → Prop
  | init (pool_size replacer_k : Nat) (mode : AssertMode) :
      Reachable (new pool_size replacer_k mode)
  | newPage {b b2 : BufferPoolManager D} (res : Option (Int × Int)) :
      Reachable b → b.NewPage = some (res, b2) → Reachable b2
  | fetchPage {b b2 : BufferPoolManager D} (page_id : Int) (res : Option Int) :
      Reachable b → b.FetchPage page_id = some (res, b2) → Reachable b2
  | unpinPage {b b2 : BufferPoolManager D} (page_id : Int) (is_dirty res : Bool) :
      Reachable b → b.UnpinPage page_id is_dirty = some (res, b2) → Reachable b2
  | flushPage {b b2 : BufferPoolManager D} (page_id : Int) (res : Bool) :
      Reachable b → b.FlushPage page_id = some (res, b2) → Reachable b2
  | flushAllPages {b : BufferPoolManager D} : Reachable b → Reachable b.FlushAllPages
  | deletePage {b b2 : BufferPoolManager D} (page_id : Int) (res : Bool) :
      Reachable b → b.DeletePage page_id = some (res, b2) → Reachable b2
  | reorder {b : BufferPoolManager D} (store : NodeStore) :
      Reachable b → store.Perm b.replacer.node_store →
      Reachable { b with replacer := { b.replacer with node_store := store } }

/-- The pool states that can occur when FetchPage is only asked for page ids
that AllocatePage has handed out (ids below next_page_id_). -/
inductive ReachableAllocated : BufferPoolManager D → Prop
  | init (pool_size replacer_k : Nat) (mode : AssertMode) :
      ReachableAllocated (new pool_size replacer_k mode)
  | newPage {b b2 : BufferPoolManager D} (res : Option (Int × Int)) :
      ReachableAllocated b → b.NewPage = some (res, b2) → ReachableAllocated b2
  | fetchPage {b b2 : BufferPoolManager D} (page_id : Int) (res : Option Int) :
      ReachableAllocated b → page_id < b.next_page_id →
      b.FetchPage page_id = some (res, b2) → ReachableAllocated b2
  | unpinPage {b b2 : BufferPoolManager D} (page_id : Int) (is_dirty res : Bool) :
      ReachableAllocated b → b.UnpinPage page_id is_dirty = some (res, b2) →
      ReachableAllocated b2
  | flushPage {b b2 : BufferPoolManager D} (page_id : Int) (res : Bool) :
      ReachableAllocated b → b.FlushPage page_id = some (res, b2) → ReachableAllocated b2
  | flushAllPages {b : BufferPoolManager D} :
      ReachableAllocated b → ReachableAllocated b.FlushAllPages
  | deletePage {b b2 : BufferPoolManager D} (page_id : Int) (res : Bool) :
      ReachableAllocated b → b.DeletePage page_id = some (res, b2) → ReachableAllocated b2
  | reorder {b : BufferPoolManager D} (store : NodeStore) :
      ReachableAllocated b → store.Perm b.replacer.node_store →
      ReachableAllocated { b with replacer := { b.replacer with node_store := store } }

/-- Invariant BP1 for one frame: the frame is in exactly one of the free list and
the set of frames that page_table_ maps some page id to. -/
def frameInExactlyOne (b : BufferPoolManager D) (f : Int) : Prop :=
  (f ∈ b.free_list ∧ ¬ ∃ p, b.page_table.find p = some f) ∨
  (f ∉ b.free_list ∧ ∃ p, b.page_table.find p = some f)

/-- Invariant BP1: every frame index below pool_size is in exactly one of the two. -/
def BP1 (b : BufferPoolManager D) : Prop :=
  ∀ f : Int, 0 ≤ f → f < b.pool_size → b.frameInExactlyOne f

/-- Invariant BP2: a frame whose page is pinned is not evictable in the replacer. -/
def BP2 (b : BufferPoolManager D) : Prop :=
  ∀ f pg, b.pageAt f = some pg → 0 < pg.pin_count → ¬ b.evictable f

/-- A list of pool operations, for building concrete states. -/
inductive Op where
  | newPage
  | fetchPage (page_id : Int)
  | unpinPage (page_id : Int) (is_dirty : Bool)
  | flushPage (page_id : Int)
  | flushAllPages
  | deletePage (page_id : Int)
  deriving DecidableEq, Repr

/-- Run one operation. -/
def step (b : BufferPoolManager D) : Op → Option (BufferPoolManager D)
  | .newPage => b.NewPage.map Prod.snd
  | .fetchPage p => (b.FetchPage p).map Prod.snd
  | .unpinPage p d => (b.UnpinPage p d).map Prod.snd
  | .flushPage p => (b.FlushPage p).map Prod.snd
  | .flushAllPages => some b.FlushAllPages
  | .deletePage p => (b.DeletePage p).map Prod.snd

/-- Run a list of operations, none as soon as one does not return. -/
def run : BufferPoolManager D → List Op → Option (BufferPoolManager D)
  | b, [] => some b
  | b, op :: ops =>
    match b.step op with
    | none => none
    | some b2 => run b2 ops

end BufferPoolManager

namespace BufferPoolManager

variable {D : Type} [Inhabited D]

/-- What holds of the pool's bookkeeping in every state reached with FetchPage
asked only for allocated page ids; BP1 follows from it. -/
structure Coherent (b : BufferPoolManager D) : Prop where
  free_nodup : b.free_list.Nodup
  free_frames : ∀ f ∈ b.free_list, 0 ≤ f ∧ f < b.pool_size ∧
    (∀ p, b.page_table.find p ≠ some f) ∧
    ∃ pg, b.pageAt f = some pg ∧ pg.page_id = INVALID_PAGE_ID
  bound_frames : ∀ p f, b.page_table.find p = some f → 0 ≤ f ∧ f < b.pool_size ∧
    p ≠ INVALID_PAGE_ID ∧ p < b.next_page_id ∧ ∃ pg, b.pageAt f = some pg ∧ pg.page_id = p
  covered : ∀ f : Int, 0 ≤ f → f < b.pool_size →
    f ∈ b.free_list ∨ ∃ p, b.page_table.find p = some f
  tracked : ∀ g ∈ b.replacer.node_store.map Prod.fst, 0 ≤ g ∧ g < b.pool_size
  next_nonneg : 0 ≤ b.next_page_id

/-- A pool of two frames after FetchPage(0) and NewPage(). -/
def clashState : BufferPoolManager Nat :=
  { pool_size := 2,
    pages := [⟨0, 1, false, 0⟩, ⟨0, 1, false, 0⟩],
    page_table := [(0, 1)],
    free_list := [],
    replacer := { node_store := [(0, ⟨[1], false⟩), (1, ⟨[0], false⟩)],
                  current_timestamp := 2, curr_size := 0, replacer_size := 2, k := 2,
                  assert_mode := .abort },
    next_page_id := 1,
    disk := [] }

/-- A pool of two frames after NewPage(). -/
def onePageState : BufferPoolManager Nat :=
  { pool_size := 2,
    pages := [⟨INVALID_PAGE_ID, 0, false, 0⟩, ⟨0, 1, false, 0⟩],
    page_table := [(0, 1)],
    free_list := [0],
    replacer := { node_store := [(1, ⟨[0], false⟩)],
                  current_timestamp := 1, curr_size := 0, replacer_size := 2, k := 2,
                  assert_mode := .abort },
    next_page_id := 1,
    disk := [] }

end BufferPoolManager

/-! ### Buffer pool manager: callers' writes, and the bookkeeping of every state -/

namespace BufferPoolManager

variable {D : Type} [Inhabited D]

/-- A caller writes bytes into a page through the Page pointer that NewPage or
FetchPage returned: the data of frame f becomes d; none outside the array. -/
def writeData (b : BufferPoolManager D) (f : Int) (d : D) : Option (BufferPoolManager D) :=
  match b.pageAt f with
  | none => none
  | some pg => some (b.setPage f { pg with data := d })

/-- The pool states that can occur when the callers also write into the bytes of
pages: the freshly constructed pool, and what the public operations and a write
into a frame make of a state that can occur; the replacer's node_store_ may be
iterated in any order. -/
inductive ReachableWithWrites : BufferPoolManager D → Prop
  | init (pool_size replacer_k : Nat) (mode : AssertMode) :
      ReachableWithWrites (new pool_size replacer_k mode)
  | newPage {b b2 : BufferPoolManager D} (res : Option (Int × Int)) :
      ReachableWithWrites b → b.NewPage = some (res, b2) → ReachableWithWrites b2
  | fetchPage {b b2 : BufferPoolManager D} (page_id : Int) (res : Option Int) :
      ReachableWithWrites b → b.FetchPage page_id = some (res, b2) → ReachableWithWrites b2
  | unpinPage {b b2 : BufferPoolManager D} (page_id : Int) (is_dirty res : Bool) :
      ReachableWithWrites b → b.UnpinPage page_id is_dirty = some (res, b2) →
      ReachableWithWrites b2
  | flushPage {b b2 : BufferPoolManager D} (page_id : Int) (res : Bool) :
      ReachableWithWrites b → b.FlushPage page_id = some (res, b2) → ReachableWithWrites b2
  | flushAllPages {b : BufferPoolManager D} :
      ReachableWithWrites b → ReachableWithWrites b.FlushAllPages
  | deletePage {b b2 : BufferPoolManager D} (page_id : Int) (res : Bool) :
      ReachableWithWrites b → b.DeletePage page_id = some (res, b2) → ReachableWithWrites b2
  | write {b b2 : BufferPoolManager D} (f : Int) (d : D) :
      ReachableWithWrites b → b.writeData f d = some b2 → ReachableWithWrites b2
  | reorder {b : BufferPoolManager D} (store : NodeStore) :
      ReachableWithWrites b → store.Perm b.replacer.node_store →
      ReachableWithWrites { b with replacer := { b.replacer with node_store := store } }

/-- What holds of the pool's bookkeeping in every state that can occur, whatever
page ids FetchPage is asked for. -/
structure Consistent (b : BufferPoolManager D) : Prop where
  pages_len : b.pages.length = b.pool_size
  size_eq : b.replacer.replacer_size = b.pool_size
  replacer_ok : b.replacer.Reachable
  keys_nodup : b.replacer.node_store.KeysNodup
  free_nodup : b.free_list.Nodup
  free_frames : ∀ f ∈ b.free_list, 0 ≤ f ∧ f < b.pool_size ∧
    (∀ p, b.page_table.find p ≠ some f) ∧
    ∃ pg, b.pageAt f = some pg ∧ pg.page_id = INVALID_PAGE_ID ∧ pg.is_dirty = false
  bound_frames : ∀ p f, b.page_table.find p = some f → 0 ≤ f ∧ f < b.pool_size ∧
    p ≠ INVALID_PAGE_ID ∧ (∃ pg, b.pageAt f = some pg ∧ pg.page_id = p) ∧
    ∃ n, NodeStore.find f b.replacer.node_store = some n ∧ n.history ≠ []
  evictable_bound : ∀ g, b.evictable g →
    ∃ pg, b.pageAt g = some pg ∧ b.page_table.find pg.page_id = some g
  dirty_bound : ∀ f pg, b.pageAt f = some pg → pg.is_dirty = true →
    b.page_table.find pg.page_id = some f
  next_nonneg : 0 ≤ b.next_page_id

/-- The pool states that can occur when the callers write into the bytes of
pages and FetchPage is only asked for page ids that AllocatePage has handed out
(ids below next_page_id_). -/
inductive ReachableAllocatedWithWrites : BufferPoolManager D → Prop
  | init (pool_size replacer_k : Nat) (mode : AssertMode) :
      ReachableAllocatedWithWrites (new pool_size replacer_k mode)
  | newPage {b b2 : BufferPoolManager D} (res : Option (Int × Int)) :
      ReachableAllocatedWithWrites b → b.NewPage = some (res, b2) →
      ReachableAllocatedWithWrites b2
  | fetchPage {b b2 : BufferPoolManager D} (page_id : Int) (res : Option Int) :
      ReachableAllocatedWithWrites b → page_id < b.next_page_id →
      b.FetchPage page_id = some (res, b2) → ReachableAllocatedWithWrites b2
  | unpinPage {b b2 : BufferPoolManager D} (page_id : Int) (is_dirty res : Bool) :
      ReachableAllocatedWithWrites b → b.UnpinPage page_id is_dirty = some (res, b2) →
      ReachableAllocatedWithWrites b2
  | flushPage {b b2 : BufferPoolManager D} (page_id : Int) (res : Bool) :
      ReachableAllocatedWithWrites b → b.FlushPage page_id = some (res, b2) →
      ReachableAllocatedWithWrites b2
  | flushAllPages {b : BufferPoolManager D} :
      ReachableAllocatedWithWrites b → ReachableAllocatedWithWrites b.FlushAllPages
  | deletePage {b b2 : BufferPoolManager D} (page_id : Int) (res : Bool) :
      ReachableAllocatedWithWrites b → b.DeletePage page_id = some (res, b2) →
      ReachableAllocatedWithWrites b2
  | write {b b2 : BufferPoolManager D} (f : Int) (d : D) :
      ReachableAllocatedWithWrites b → b.writeData f d = some b2 →
      ReachableAllocatedWithWrites b2
  | reorder {b : BufferPoolManager D} (store : NodeStore) :
      ReachableAllocatedWithWrites b → store.Perm b.replacer.node_store →
      ReachableAllocatedWithWrites
        { b with replacer := { b.replacer with node_store := store } }

/-- The pool b2 is what a series of calls makes of the pool b, the bytes of page
p being left alone: any of the public operations, whatever they return, with
FetchPage asked only for allocated page ids, and callers' writes into the frames
that do not hold page p; the replacer's node_store_ may be iterated in any order.
The page p itself may be fetched, unpinned, flushed, evicted and deleted. -/
inductive Undisturbed (p : Int) : BufferPoolManager D → BufferPoolManager D → Prop
  | refl (b : BufferPoolManager D) : Undisturbed p b b
  | newPage {b b1 b2 : BufferPoolManager D} (res : Option (Int × Int)) :
      Undisturbed p b b1 → b1.NewPage = some (res, b2) → Undisturbed p b b2
  | fetchPage {b b1 b2 : BufferPoolManager D} (page_id : Int) (res : Option Int) :
      Undisturbed p b b1 → page_id < b1.next_page_id →
      b1.FetchPage page_id = some (res, b2) → Undisturbed p b b2
  | unpinPage {b b1 b2 : BufferPoolManager D} (page_id : Int) (is_dirty res : Bool) :
      Undisturbed p b b1 → b1.UnpinPage page_id is_dirty = some (res, b2) →
      Undisturbed p b b2
  | flushPage {b b1 b2 : BufferPoolManager D} (page_id : Int) (res : Bool) :
      Undisturbed p b b1 → b1.FlushPage page_id = some (res, b2) → Undisturbed p b b2
  | flushAllPages {b b1 : BufferPoolManager D} :
      Undisturbed p b b1 → Undisturbed p b b1.FlushAllPages
  | deletePage {b b1 b2 : BufferPoolManager D} (page_id : Int) (res : Bool) :
      Undisturbed p b b1 → b1.DeletePage page_id = some (res, b2) → Undisturbed p b b2
  | write {b b1 b2 : BufferPoolManager D} (f : Int) (d : D) :
      Undisturbed p b b1 → b1.page_table.find p ≠ some f → b1.writeData f d = some b2 →
      Undisturbed p b b2
  | reorder {b b1 : BufferPoolManager D} (store : NodeStore) :
      Undisturbed p b b1 → store.Perm b1.replacer.node_store →
      Undisturbed p b { b1 with replacer := { b1.replacer with node_store := store } }

/-- The bytes d of page p are kept: the disk holds d for p, and if p is resident
its frame holds d too. -/
def Keeps (b : BufferPoolManager D) (p : Int) (d : D) : Prop :=
  Disk.read p b.disk = d ∧
  ∀ g pg, b.page_table.find p = some g → b.pageAt g = some pg → pg.data = d

/-- The spec's boundary scenario 1, a pool of one frame with k = 2, after the
first NewPage: page 0 is pinned in frame 0. -/
def oneFramePinned (mode : AssertMode) : BufferPoolManager Nat :=
  { pool_size := 1,
    pages := [⟨0, 1, false, 0⟩],
    page_table := [(0, 0)],
    free_list := [],
    replacer := { node_store := [(0, ⟨[0], false⟩)],
                  current_timestamp := 1, curr_size := 0, replacer_size := 1, k := 2,
                  assert_mode := mode },
    next_page_id := 1,
    disk := [] }

/-- The pool of one frame after NewPage and UnpinPage(0, false): page 0 is in
frame 0, not pinned, clean and evictable. -/
def oneFrameUnpinned (mode : AssertMode) : BufferPoolManager Nat :=
  { pool_size := 1,
    pages := [⟨0, 0, false, 0⟩],
    page_table := [(0, 0)],
    free_list := [],
    replacer := { node_store := [(0, ⟨[0], true⟩)],
                  current_timestamp := 1, curr_size := 1, replacer_size := 1, k := 2,
                  assert_mode := mode },
    next_page_id := 1,
    disk := [] }

/-- The pool of one frame after NewPage and a write of the bytes 7 into the page
returned: page 0 is pinned in frame 0 and holds 7. -/
def oneFrameWritten : BufferPoolManager Nat :=
  { pool_size := 1,
    pages := [⟨0, 1, false, 7⟩],
    page_table := [(0, 0)],
    free_list := [],
    replacer := { node_store := [(0, ⟨[0], false⟩)],
                  current_timestamp := 1, curr_size := 0, replacer_size := 1, k := 2,
                  assert_mode := .abort },
    next_page_id := 1,
    disk := [] }

/-- The pool of one frame after NewPage, a write of the bytes 7 into the page
returned, and UnpinPage(0, true): page 0 is in frame 0, dirty with the bytes 7,
not pinned and evictable, and the disk holds nothing yet. -/
def oneFrameDirty : BufferPoolManager Nat :=
  { pool_size := 1,
    pages := [⟨0, 0, true, 7⟩],
    page_table := [(0, 0)],
    free_list := [],
    replacer := { node_store := [(0, ⟨[0], true⟩)],
                  current_timestamp := 1, curr_size := 1, replacer_size := 1, k := 2,
                  assert_mode := .abort },
    next_page_id := 1,
    disk := [] }

/-- A pool of two frames after FetchPage(0), NewPage() and a write of the bytes 7
into the page that FetchPage returned: frame 1 holds page 0 with the bytes 7, and
frame 0, which NewPage bound to the page id 0 as well, is not in the page table. -/
def clashWritten : BufferPoolManager Nat :=
  { pool_size := 2,
    pages := [⟨0, 1, false, 0⟩, ⟨0, 1, false, 7⟩],
    page_table := [(0, 1)],
    free_list := [],
    replacer := { node_store := [(0, ⟨[1], false⟩), (1, ⟨[0], false⟩)],
                  current_timestamp := 2, curr_size := 0, replacer_size := 2, k := 2,
                  assert_mode := .abort },
    next_page_id := 1,
    disk := [] }

/-- The pool of two frames after FetchPage(0), NewPage(), the write of 7 and
UnpinPage(0, true): frame 1 holds page 0, dirty with the bytes 7, not pinned and
evictable; frame 0 still carries the page id 0 and stays pinned. -/
def clashDirty : BufferPoolManager Nat :=
  { pool_size := 2,
    pages := [⟨0, 1, false, 0⟩, ⟨0, 0, true, 7⟩],
    page_table := [(0, 1)],
    free_list := [],
    replacer := { node_store := [(0, ⟨[1], false⟩), (1, ⟨[0], true⟩)],
                  current_timestamp := 2, curr_size := 1, replacer_size := 2, k := 2,
                  assert_mode := .abort },
    next_page_id := 1,
    disk := [] }

end BufferPoolManager

/-! ## Extendible hash directory page
(src/storage/page/extendible_htable_directory_page.cpp)

The arrays local_depths_ and bucket_page_ids_ have HTABLE_DIRECTORY_ARRAY_SIZE
cells each. They are maps from the slot index to the cell, of which the cells
below the array size are the cells of the page: the functions of the page are
those of the source for the slots below the array size, and the index checks
every slot it passes to them against the array size (an access outside the
arrays is undefined behaviour, after which the program does not continue).
Depths stay small, so the uint32 and uint8 arithmetic does not wrap; shifts and
masks are those of the source. -/

/-- The number of cells of local_depths_ and of bucket_page_ids_, the constant
HTABLE_DIRECTORY_ARRAY_SIZE of extendible_htable_directory_page.h (which is not
in src): 1 << HTABLE_DIRECTORY_MAX_DEPTH with HTABLE_DIRECTORY_MAX_DEPTH = 9, the
largest directory for which the page fits the 4096 bytes of a page. -/
def HTABLE_DIRECTORY_ARRAY_SIZE : Nat := 512

/-- An array cell assignment a[i] = v. -/
def setAt {α : Type} (a : Nat → α) (i : Nat) (v : α) : Nat → α :=
  fun j => if j = i then v else a j

/-- The fields of an ExtendibleHTableDirectoryPage. -/
structure DirectoryPage where
  max_depth : Nat
  global_depth : Nat
  local_depths : Nat → Nat
  bucket_page_ids : Nat → Int

namespace DirectoryPage

/-- Init (lines 23-29). It fills the cells below 1 << max_depth; the cells from
there on are those of the new page, which the index does not read before it
writes them, but for the local depth, which is 0 in a new page as well. -/
def Init (max_depth : Nat) : DirectoryPage :=
  { max_depth := max_depth, global_depth := 0, local_depths := fun _ => 0,
    bucket_page_ids := fun _ => INVALID_PAGE_ID }

/-- GetGlobalDepth (line 47). -/
def GetGlobalDepth (d : DirectoryPage) : Nat := d.global_depth

/-- Modelled from the spec: GetMaxDepth, which is declared in the header only. -/
def GetMaxDepth (d : DirectoryPage) : Nat := d.max_depth

/-- GetGlobalDepthMask (lines 49-53). -/
def GetGlobalDepthMask (d : DirectoryPage) : Nat := (1 <<< d.GetGlobalDepth) - 1

/-- HashToBucketIndex (lines 31-33). -/
def HashToBucketIndex (d : DirectoryPage) (hash : Nat) : Nat := hash &&& d.GetGlobalDepthMask

/-- GetBucketPageId (lines 35-37). -/
def GetBucketPageId (d : DirectoryPage) (bucket_idx : Nat) : Int := d.bucket_page_ids bucket_idx

/-- SetBucketPageId (lines 39-41). -/
def SetBucketPageId (d : DirectoryPage) (bucket_idx : Nat) (bucket_page_id : Int) :
    DirectoryPage :=
  { d with bucket_page_ids := setAt d.bucket_page_ids bucket_idx bucket_page_id }

/-- GetSplitImageIndex (lines 43-45). -/
def GetSplitImageIndex (d : DirectoryPage) (bucket_idx : Nat) : Nat :=
  bucket_idx + (1 <<< (d.global_depth - 1))

/-- GetLocalDepth (lines 96-98). -/
def GetLocalDepth (d : DirectoryPage) (bucket_idx : Nat) : Nat := d.local_depths bucket_idx

/-- GetLocalDepthMask (lines 55-59). -/
def GetLocalDepthMask (d : DirectoryPage) (bucket_idx : Nat) : Nat :=
  (1 <<< d.GetLocalDepth bucket_idx) - 1

/-- SetLocalDepth (lines 104-106). -/
def SetLocalDepth (d : DirectoryPage) (bucket_idx : Nat) (local_depth : Nat) : DirectoryPage :=
  { d with local_depths := setAt d.local_depths bucket_idx local_depth }

/-- The loop of IncrGlobalDepth (lines 65-68), for i from 0 up to n - 1. -/
def incrCopy (d : DirectoryPage) : Nat → DirectoryPage
  | 0 => d
  | i + 1 =>
    let d1 := incrCopy d i
    { d1 with
      bucket_page_ids :=
        setAt d1.bucket_page_ids ((1 <<< d1.global_depth) + i) (d1.bucket_page_ids i),
      local_depths := setAt d1.local_depths ((1 <<< d1.global_depth) + i) (d1.local_depths i) }

/-- IncrGlobalDepth (lines 61-70). -/
def IncrGlobalDepth (d : DirectoryPage) : DirectoryPage :=
  if d.global_depth ≥ d.max_depth then d
  else
    let d1 := incrCopy d (1 <<< d.global_depth)
    { d1 with global_depth := d1.global_depth + 1 }

/-- DecrGlobalDepth (lines 72-77). -/
def DecrGlobalDepth (d : DirectoryPage) : DirectoryPage :=
  if d.global_depth ≤ 0 then d else { d with global_depth := d.global_depth - 1 }

/-- Size (lines 92-94). -/
def Size (d : DirectoryPage) : Nat := 1 <<< d.global_depth

/-- CanShrink (lines 79-90). -/
def CanShrink (d : DirectoryPage) : Bool :=
  if d.global_depth = 0 then false
  else (List.range d.Size).all (fun i => decide (d.local_depths i ≠ d.global_depth))

/-- IncrLocalDepth (lines 108-112). -/
def IncrLocalDepth (d : DirectoryPage) (bucket_idx : Nat) : DirectoryPage :=
  if d.local_depths bucket_idx < d.global_depth then
    { d with local_depths := setAt d.local_depths bucket_idx (d.local_depths bucket_idx + 1) }
  else d

/-- DecrLocalDepth (lines 114-118). -/
def DecrLocalDepth (d : DirectoryPage) (bucket_idx : Nat) : DirectoryPage :=
  if d.local_depths bucket_idx > 0 then
    { d with local_depths := setAt d.local_depths bucket_idx (d.local_depths bucket_idx - 1) }
  else d

end DirectoryPage

/-! ## Header and bucket pages (their sources are not in src) -/

/-- Modelled from the spec: the header page, a fixed array of directory page
ids; the top max_depth bits of a hash select the slot. -/
structure HeaderPage where
  max_depth : Nat
  directory_page_ids : Nat → Int

namespace HeaderPage

/-- Modelled from the spec: init(max_depth), every slot invalid. -/
def Init (max_depth : Nat) : HeaderPage :=
  { max_depth := max_depth, directory_page_ids := fun _ => INVALID_PAGE_ID }

/-- Modelled from the spec: hash_to_directory_index(h) = h >> (32 - max_depth). -/
def HashToDirectoryIndex (h : HeaderPage) (hash : Nat) : Nat := hash >>> (32 - h.max_depth)

/-- Modelled from the spec: get_directory_page_id. -/
def GetDirectoryPageId (h : HeaderPage) (directory_idx : Nat) : Int :=
  h.directory_page_ids directory_idx

/-- Modelled from the spec: set_directory_page_id. -/
def SetDirectoryPageId (h : HeaderPage) (directory_idx : Nat) (directory_page_id : Int) :
    HeaderPage :=
  { h with directory_page_ids := setAt h.directory_page_ids directory_idx directory_page_id }

end HeaderPage

/-- Modelled from the spec: the bucket page, the pairs in insertion order, at
most max_size of them, no key twice. -/
structure BucketPage (K V : Type) where
  max_size : Nat
  entries : List (K × V)

namespace BucketPage

variable {K V : Type} [DecidableEq K]

/-- Modelled from the spec: init(max_size). -/
def Init (max_size : Nat) : BucketPage K V := { max_size := max_size, entries := [] }

/-- Modelled from the spec: lookup, a linear scan. -/
def Lookup (b : BucketPage K V) (key : K) : Option V :=
  (b.entries.find? (fun e => decide (e.1 = key))).map Prod.snd

/-- Modelled from the spec: insert, none standing for false (the key is
present, or the page is full). -/
def Insert (b : BucketPage K V) (key : K) (value : V) : Option (BucketPage K V) :=
  if b.entries.length ≥ b.max_size then none
  else if (b.Lookup key).isSome then none
  else some { b with entries := b.entries ++ [(key, value)] }

/-- Modelled from the spec: deletion is by swap with the last pair. -/
def removeAt : List (K × V) → Nat → List (K × V)
  | entries, i =>
    match entries.getLast? with
    | none => entries
    | some last => (entries.set i last).dropLast

/-- Modelled from the spec: remove, none standing for false (the key is
absent). -/
def Remove (b : BucketPage K V) (key : K) : Option (BucketPage K V) :=
  match b.entries.findIdx? (fun e => decide (e.1 = key)) with
  | none => none
  | some i => some { b with entries := removeAt b.entries i }

/-- Modelled from the spec: is_empty. -/
def IsEmpty (b : BucketPage K V) : Bool := b.entries.isEmpty

/-- Modelled from the spec: clear. -/
def Clear (b : BucketPage K V) : BucketPage K V := { b with entries := [] }

end BucketPage

/-! ## Disk extendible hash table
(src/container/disk/hash/disk_extendible_hash_table.cpp)

The buffer pool is a map from page id to the page's contents, read through the
typed views of the guards, a counter for the page ids NewPage hands out, and the
number pool_size of its frames. The pages the index holds pinned through its
guards are the only pinned pages of the pool, so FetchPage and NewPage fail (they
return nullptr, buffer_pool_manager.cpp lines 42-53 and 102-111) exactly when
the guards alive at the call pin as many pages as the pool has frames. An
operation returns none when the program does not continue: a page is read
through a guard whose page is null or through the wrong view, a variable is read
that was never set, or a cell outside the arrays of the directory page is
accessed; and when the fuel of a loop is used up. -/

/-- The contents of a page of the pool, by the view it was written through. -/
inductive PageContent (K V : Type) where
  | unwritten
  | header (h : HeaderPage)
  | directory (d : DirectoryPage)
  | bucket (b : BucketPage K V)

/-- The state of a DiskExtendibleHashTable together with the pages of its buffer
pool and the number of frames of the pool. hash_fn is the hash function; the
comparator cmp_ is equality of keys. -/
structure DiskExtendibleHashTable (K V : Type) where
  hash_fn : K → Nat
  header_max_depth : Nat
  directory_max_depth : Nat
  bucket_max_size : Nat
  header_page_id : Int
  pages : Int → PageContent K V
  next_page_id : Int
  pool_size : Nat

namespace DiskExtendibleHashTable

variable {K V : Type} [DecidableEq K]

/-- Modelled from the spec: Hash(key), the hash function's value as a uint32. -/
def Hash (t : DiskExtendibleHashTable K V) (key : K) : Nat := t.hash_fn key % 2 ^ 32

/-- A write to a page through a write guard. -/
def setPage (t : DiskExtendibleHashTable K V) (page_id : Int) (c : PageContent K V) :
    DiskExtendibleHashTable K V :=
  { t with pages := fun p => if p = page_id then c else t.pages p }

/-- The header view of a page of the pool. -/
def fetchHeader (t : DiskExtendibleHashTable K V) (page_id : Int) : Option HeaderPage :=
  match t.pages page_id with
  | .header h => some h
  | _ => none

/-- The directory view of a page of the pool. -/
def fetchDirectory (t : DiskExtendibleHashTable K V) (page_id : Int) : Option DirectoryPage :=
  match t.pages page_id with
  | .directory d => some d
  | _ => none

/-- The bucket view of a page of the pool. -/
def fetchBucket (t : DiskExtendibleHashTable K V) (page_id : Int) :
    Option (BucketPage K V) :=
  match t.pages page_id with
  | .bucket b => some b
  | _ => none

/-- The pool has a frame to give while held pages are pinned by the guards that
are alive: FetchPage and NewPage take a frame from the free list or evict a page
that is not pinned (buffer_pool_manager.cpp lines 42-53 and 102-111), and return
nullptr when there is none. -/
def hasFrame (t : DiskExtendibleHashTable K V) (held : Nat) : Bool :=
  decide (held < t.pool_size)

/-- FetchPageRead or FetchPageWrite (buffer_pool_manager.cpp lines 236-246) of
a page while held pages are pinned, followed by the header view of the guard
(As, AsMut): none when the pool returns nullptr, the view of the guard then
dereferencing a null page, and when the page is not a header page. -/
def FetchHeaderPage (t : DiskExtendibleHashTable K V) (held : Nat) (page_id : Int) :
    Option HeaderPage :=
  if t.hasFrame held then t.fetchHeader page_id else none

/-- FetchPageRead or FetchPageWrite of a page while held pages are pinned,
followed by the directory view of the guard; none as for FetchHeaderPage. -/
def FetchDirectoryPage (t : DiskExtendibleHashTable K V) (held : Nat) (page_id : Int) :
    Option DirectoryPage :=
  if t.hasFrame held then t.fetchDirectory page_id else none

/-- FetchPageRead or FetchPageWrite of a page while held pages are pinned,
followed by the bucket view of the guard; none as for FetchHeaderPage. -/
def FetchBucketPage (t : DiskExtendibleHashTable K V) (held : Nat) (page_id : Int) :
    Option (BucketPage K V) :=
  if t.hasFrame held then t.fetchBucket page_id else none

/-- AllocatePage (buffer_pool_manager.cpp line 228): the next page id. -/
def allocatePage (t : DiskExtendibleHashTable K V) : Int × DiskExtendibleHashTable K V :=
  (t.next_page_id, { t with next_page_id := t.next_page_id + 1 })

/-- NewPageGuarded (buffer_pool_manager.cpp lines 248-250, NewPage lines 36-77)
while held pages are pinned: the page id written to the argument and the pool
after the call; none when NewPage returns nullptr, which leaves the argument as
it was and gives a guard whose page is null. -/
def newPage (t : DiskExtendibleHashTable K V) (held : Nat) :
    Option (Int × DiskExtendibleHashTable K V) :=
  if t.hasFrame held then some t.allocatePage else none

/-- The calls bpm_->DeletePage of Remove (lines 255 and 260): each is made while
a read guard on the same page is alive (check_guard, merge_guard), so the page is
pinned and BufferPoolManager::DeletePage returns false without any change. -/
def deletePinnedPage (t : DiskExtendibleHashTable K V) (_page_id : Int) :
    DiskExtendibleHashTable K V := t

/-- GetValue (lines 50-90): the value pushed to result, none inside for false.
Each guard is dropped before the next page is fetched, so no page is pinned at
any of the three fetches. -/
def GetValue (t : DiskExtendibleHashTable K V) (key : K) : Option (Option V) :=
  match t.FetchHeaderPage 0 t.header_page_id with
  | none => none
  | some header_page =>
    let hash := t.Hash key
    let dirIndex := header_page.HashToDirectoryIndex hash
    let directory_page_id := header_page.GetDirectoryPageId dirIndex
    if directory_page_id = INVALID_PAGE_ID then some none
    else
      match t.FetchDirectoryPage 0 directory_page_id with
      | none => none
      | some directory_page =>
        let bucketIndex := directory_page.HashToBucketIndex hash
        if HTABLE_DIRECTORY_ARRAY_SIZE ≤ bucketIndex then none
        else
          let bucket_page_id := directory_page.GetBucketPageId bucketIndex
          if bucket_page_id = INVALID_PAGE_ID then some none
          else
            match t.FetchBucketPage 0 bucket_page_id with
            | none => none
            | some bucket_page => some (bucket_page.Lookup key)

/-- InsertToNewBucket (lines 175-185), called while held pages are pinned by the
guards of the callers; the directory page is written back to directory_page_id.
None when NewPageGuarded gives a guard whose page is null (line 180 dereferences
it) and when bucket_idx is outside the arrays (line 182). -/
def InsertToNewBucket (t : DiskExtendibleHashTable K V) (held : Nat) (directory_page_id : Int)
    (directory : DirectoryPage) (bucket_idx : Nat) (key : K) (value : V) :
    Option (Bool × DiskExtendibleHashTable K V) :=
  match t.newPage held with
  | none => none
  | some np =>
    let bucket_page_id := np.1
    let bucket_page : BucketPage K V := BucketPage.Init t.bucket_max_size
    if HTABLE_DIRECTORY_ARRAY_SIZE ≤ bucket_idx then none
    else
      let directory2 := directory.SetBucketPageId bucket_idx bucket_page_id
      let t2 := np.2.setPage directory_page_id (.directory directory2)
      match bucket_page.Insert key value with
      | some bucket2 => some (true, t2.setPage bucket_page_id (.bucket bucket2))
      | none => some (false, t2.setPage bucket_page_id (.bucket bucket_page))

/-- InsertToNewDirectory (lines 162-173), called while held pages are pinned by
the guards of the caller. None when NewPageGuarded gives a guard whose page is
null (line 167 dereferences it), when Init fills cells outside the arrays (1 <<
max_depth of them, lines 27-28 of the directory page), and as for
InsertToNewBucket, which is called with the guard of the new directory page
alive. -/
def InsertToNewDirectory (t : DiskExtendibleHashTable K V) (held : Nat) (header : HeaderPage)
    (directory_idx : Nat) (hash : Nat) (key : K) (value : V) :
    Option (Bool × DiskExtendibleHashTable K V) :=
  match t.newPage held with
  | none => none
  | some np =>
    let directory_page_id := np.1
    if HTABLE_DIRECTORY_ARRAY_SIZE < 1 <<< t.directory_max_depth then none
    else
      let directory_page := DirectoryPage.Init t.directory_max_depth
      let header2 := header.SetDirectoryPageId directory_idx directory_page_id
      let t2 := np.2.setPage t.header_page_id (.header header2)
      let bucket_idx := directory_page.HashToBucketIndex hash
      InsertToNewBucket t2 (held + 1) directory_page_id directory_page bucket_idx key value

/-- The redistribution loop of SplitBucket (lines 330-341): false inside is the
return of false at line 339, and none a target_idx outside the arrays (line
332). -/
def splitLoop (t : DiskExtendibleHashTable K V) (directory : DirectoryPage) (bucket_idx : Nat)
    (split_page_id : Int) :
    List (K × V) → BucketPage K V → BucketPage K V →
      Option (Bool × BucketPage K V × BucketPage K V)
  | [], bucket, split_bucket => some (true, bucket, split_bucket)
  | entry :: rest, bucket, split_bucket =>
    let target_idx := directory.HashToBucketIndex (t.Hash entry.1)
    if HTABLE_DIRECTORY_ARRAY_SIZE ≤ target_idx then none
    else
      let target_page_id := directory.GetBucketPageId target_idx
      if target_page_id = directory.GetBucketPageId bucket_idx then
        splitLoop t directory bucket_idx split_page_id rest
          ((bucket.Insert entry.1 entry.2).getD bucket) split_bucket
      else if target_page_id = split_page_id then
        splitLoop t directory bucket_idx split_page_id rest bucket
          ((split_bucket.Insert entry.1 entry.2).getD split_bucket)
      else some (false, bucket, split_bucket)

/-- SplitBucket (lines 298-344), for the bucket page bucket_page_id and the
directory page directory_page_id, both written back, called while held pages are
pinned by the guards of the caller; the directory page is modified in place, so
what Insert did to it stays on the early return too. None when NewPageGuarded
gives a guard whose page is null: split_page_id, which has no initialiser (line
303), is then read without having been set (line 305); and when split_idx or
bucket_idx is outside the arrays (lines 314-316), and as for splitLoop. -/
def SplitBucket (t : DiskExtendibleHashTable K V) (held : Nat) (directory_page_id : Int)
    (directory : DirectoryPage) (bucket_page_id : Int) (bucket : BucketPage K V)
    (bucket_idx : Nat) : Option (Bool × DiskExtendibleHashTable K V) :=
  match t.newPage held with
  | none => none
  | some np =>
    let split_page_id := np.1
    if split_page_id = INVALID_PAGE_ID then
      some (false, np.2.setPage directory_page_id (.directory directory))
    else
      let split_bucket : BucketPage K V := BucketPage.Init t.bucket_max_size
      let split_idx := directory.GetSplitImageIndex bucket_idx
      if HTABLE_DIRECTORY_ARRAY_SIZE ≤ split_idx ∨ HTABLE_DIRECTORY_ARRAY_SIZE ≤ bucket_idx then
        none
      else
        let local_depth := directory.GetLocalDepth bucket_idx
        let directory2 := (directory.SetBucketPageId split_idx split_page_id).SetLocalDepth
          split_idx local_depth
        match splitLoop t directory2 bucket_idx split_page_id bucket.entries bucket.Clear
            split_bucket with
        | none => none
        | some r =>
          some (r.1, ((np.2.setPage directory_page_id (.directory directory2)).setPage
            split_page_id (.bucket r.2.2)).setPage bucket_page_id (.bucket r.2.1))

/-- The loop of Insert that follows IncrGlobalDepth (lines 144-149), for i from
h up to the new directory size. -/
def insertCopy (directory : DirectoryPage) (h : Nat) : Nat → DirectoryPage
  | 0 => directory
  | n + 1 =>
    let d1 := insertCopy directory h n
    let i := h + n
    (d1.SetBucketPageId i (d1.GetBucketPageId (i - h))).SetLocalDepth i (d1.GetLocalDepth (i - h))

/-- The directory page that Insert passes to SplitBucket (lines 136-152): grown
when the local depth of the slot is the global depth (IncrGlobalDepth and the
loop of lines 144-149), and with the local depths of the slot and of the slot h
above it incremented (lines 151-152). -/
def grownDirectory (directory_page : DirectoryPage) (bucket_index : Nat) : DirectoryPage :=
  let h := 1 <<< directory_page.GetGlobalDepth
  let directory1 :=
    if directory_page.GetLocalDepth bucket_index = directory_page.GetGlobalDepth then
      insertCopy directory_page.IncrGlobalDepth h
        ((1 <<< directory_page.IncrGlobalDepth.GetGlobalDepth) - h)
    else directory_page
  (directory1.IncrLocalDepth bucket_index).IncrLocalDepth (bucket_index + h)

/-- The body of Insert up to its recursive call (lines 96-158): on the left what
the call returns without calling Insert again, on the right the index on which
line 159 calls Insert again. The header guard is alive when InsertToNewDirectory
is called (line 113) and dropped before the directory page is fetched (line
116); the directory guard is alive when InsertToNewBucket is called (line 124)
and when the bucket page is fetched (line 128), and both are alive in
SplitBucket. None also when a slot outside the arrays of the directory page is
accessed: bucket_index (line 122), a slot of the doubled directory (lines
142-149, the slots below 2 << global_depth), and bucket_index + h (line 152). -/
def insertBody (t : DiskExtendibleHashTable K V) (key : K) (value : V) :
    Option ((Bool × DiskExtendibleHashTable K V) ⊕ DiskExtendibleHashTable K V) :=
  match t.GetValue key with
  | none => none
  | some (some _) => some (.inl (false, t))
  | some none =>
    let hash_key := t.Hash key
    match t.FetchHeaderPage 0 t.header_page_id with
    | none => none
    | some header_page =>
      let directory_index := header_page.HashToDirectoryIndex hash_key
      let directory_page_id := header_page.GetDirectoryPageId directory_index
      if directory_page_id = INVALID_PAGE_ID then
        (InsertToNewDirectory t 1 header_page directory_index hash_key key value).map .inl
      else
        match t.FetchDirectoryPage 0 directory_page_id with
        | none => none
        | some directory_page =>
          let bucket_index := directory_page.HashToBucketIndex hash_key
          if HTABLE_DIRECTORY_ARRAY_SIZE ≤ bucket_index then none
          else
            let bucket_page_id := directory_page.GetBucketPageId bucket_index
            if bucket_page_id = INVALID_PAGE_ID then
              (InsertToNewBucket t 1 directory_page_id directory_page bucket_index key
                value).map .inl
            else
              match t.FetchBucketPage 1 bucket_page_id with
              | none => none
              | some bucket_page =>
                match bucket_page.Insert key value with
                | some bucket2 => some (.inl (true, t.setPage bucket_page_id (.bucket bucket2)))
                | none =>
                  let h := 1 <<< directory_page.GetGlobalDepth
                  if directory_page.GetLocalDepth bucket_index
                        = directory_page.GetGlobalDepth ∧
                      directory_page.GetGlobalDepth ≥ directory_page.GetMaxDepth then
                    some (.inl (false, t))
                  else if (directory_page.GetLocalDepth bucket_index
                        = directory_page.GetGlobalDepth ∧
                      HTABLE_DIRECTORY_ARRAY_SIZE < 2 * h) ∨
                      HTABLE_DIRECTORY_ARRAY_SIZE ≤ bucket_index + h then
                    none
                  else
                    match SplitBucket t 2 directory_page_id
                        (grownDirectory directory_page bucket_index) bucket_page_id
                        bucket_page bucket_index with
                    | none => none
                    | some s =>
                      if !s.1 then some (.inl (false, s.2))
                      else some (.inr s.2)

/-- Insert (lines 95-160): its body, and the recursive call of line 159, made
after both guards are dropped (lines 157-158); the call uses one unit of fuel,
and none is also returned when the fuel is used up. -/
def Insert : Nat → DiskExtendibleHashTable K V → K → V →
    Option (Bool × DiskExtendibleHashTable K V)
  | 0, _, _, _ => none
  | fuel + 1, t, key, value =>
    match t.insertBody key value with
    | none => none
    | some (.inl x) => some x
    | some (.inr s) => Insert fuel s key value

/-- UpdateDirectoryMapping (lines 189-207), the loop for i from 0 up to n - 1. -/
def updateLoop (new_bucket_idx : Nat) (new_bucket_page_id : Int) (new_local_depth : Nat)
    (local_depth_mask : Nat) (directory : DirectoryPage) : Nat → DirectoryPage
  | 0 => directory
  | i + 1 =>
    let d1 := updateLoop new_bucket_idx new_bucket_page_id new_local_depth local_depth_mask
      directory i
    if d1.GetBucketPageId i = d1.GetBucketPageId new_bucket_idx then
      if (i &&& local_depth_mask) ≠ 0 then
        (d1.SetBucketPageId i new_bucket_page_id).SetLocalDepth i new_local_depth
      else d1.SetLocalDepth i new_local_depth
    else d1

/-- UpdateDirectoryMapping (lines 189-207). -/
def UpdateDirectoryMapping (directory : DirectoryPage) (new_bucket_idx : Nat)
    (new_bucket_page_id : Int) (new_local_depth : Nat) (local_depth_mask : Nat) :
    DirectoryPage :=
  updateLoop new_bucket_idx new_bucket_page_id new_local_depth local_depth_mask directory
    (1 <<< directory.GetGlobalDepth)

/-- The loop of Remove over the slots to update (lines 267-270), for i from 0 up
to n - 1. -/
def removeUpdateLoop (check_page_id : Int) (local_depth mask_idx : Nat)
    (directory : DirectoryPage) : Nat → DirectoryPage
  | 0 => directory
  | i + 1 =>
    let d1 := removeUpdateLoop check_page_id local_depth mask_idx directory i
    let tmp_idx := (i <<< local_depth) + mask_idx
    UpdateDirectoryMapping d1 tmp_idx check_page_id local_depth 0

/-- The merge loop of Remove (lines 243-271); check is the page that check_page
points to. Each round uses one unit of fuel; none is also returned when the fuel
is used up. The directory guard and check_guard are alive when the merge page is
fetched (line 249), so the fetch needs a third frame unless the merge page is
the page of check_guard. None also when a slot outside the arrays is accessed:
merge_bucket_index (lines 247-248), bucket_index (line 262), and in the loop of
lines 267-270 the slots tmp_idx and, in UpdateDirectoryMapping, every slot below
1 << global_depth. -/
def mergeLoop (bucket_index global_depth : Nat) :
    Nat → DiskExtendibleHashTable K V → DirectoryPage → Int → Nat →
      Option (DiskExtendibleHashTable K V × DirectoryPage)
  | 0, _, _, _, _ => none
  | fuel + 1, t, directory_page, check_page_id, local_depth =>
    if local_depth > 0 then
      let convert_mask := 1 <<< (local_depth - 1)
      let merge_bucket_index := bucket_index ^^^ convert_mask
      if HTABLE_DIRECTORY_ARRAY_SIZE ≤ merge_bucket_index then none
      else
        let merge_local_depth := directory_page.GetLocalDepth merge_bucket_index
        let merge_page_id := directory_page.GetBucketPageId merge_bucket_index
        if merge_page_id ≠ check_page_id ∧ !t.hasFrame 2 then none
        else
          match t.fetchBucket check_page_id, t.fetchBucket merge_page_id with
          | some check_page, some merge_page =>
            if merge_local_depth ≠ local_depth ∨
                (!check_page.IsEmpty && !merge_page.IsEmpty) then
              some (t, directory_page)
            else
              let t1 := if check_page.IsEmpty then t.deletePinnedPage check_page_id
                        else t.deletePinnedPage merge_page_id
              let check_page_id1 := if check_page.IsEmpty then merge_page_id else check_page_id
              let directory1 := directory_page.DecrLocalDepth bucket_index
              let local_depth1 := directory1.GetLocalDepth bucket_index
              let local_depth_mask := directory1.GetLocalDepthMask bucket_index
              let mask_idx := bucket_index &&& local_depth_mask
              let update_count := 1 <<< (global_depth - local_depth1)
              if HTABLE_DIRECTORY_ARRAY_SIZE < 1 <<< directory1.GetGlobalDepth ∨
                  HTABLE_DIRECTORY_ARRAY_SIZE ≤
                    ((update_count - 1) <<< local_depth1) + mask_idx then
                none
              else
                let directory2 := removeUpdateLoop check_page_id1 local_depth1 mask_idx
                  directory1 update_count
                mergeLoop bucket_index global_depth fuel t1 directory2 check_page_id1
                  local_depth1
          | _, _ => none
    else some (t, directory_page)

/-- The shrink loop of Remove (lines 272-274); the global depth falls in every
round, so the depth itself is fuel enough. None when CanShrink reads a cell
outside the arrays: its loop (lines 84-88) runs over the slots below Size() up
to the first one whose local depth is the global depth. -/
def shrinkLoop : Nat → DirectoryPage → Option DirectoryPage
  | 0, d => some d
  | fuel + 1, d =>
    if d.global_depth ≠ 0 ∧ HTABLE_DIRECTORY_ARRAY_SIZE < d.Size ∧
        (List.range HTABLE_DIRECTORY_ARRAY_SIZE).all
          (fun i => decide (d.local_depths i ≠ d.global_depth)) then
      none
    else if d.CanShrink then shrinkLoop fuel d.DecrGlobalDepth else some d

/-- Remove (lines 213-276). The header guard is dropped before the directory
page is fetched (line 223), the directory guard is alive from line 224 on, the
bucket guard is dropped at line 234, and check_guard pins the bucket page again
(line 239). None also when bucket_index is outside the arrays (line 227). -/
def Remove (t : DiskExtendibleHashTable K V) (key : K) :
    Option (Bool × DiskExtendibleHashTable K V) :=
  let hash := t.Hash key
  match t.FetchHeaderPage 0 t.header_page_id with
  | none => none
  | some header_page =>
    let directory_index := header_page.HashToDirectoryIndex hash
    let directory_page_id := header_page.GetDirectoryPageId directory_index
    if directory_page_id = INVALID_PAGE_ID then some (false, t)
    else
      match t.FetchDirectoryPage 0 directory_page_id with
      | none => none
      | some directory_page =>
        let bucket_index := directory_page.HashToBucketIndex hash
        if HTABLE_DIRECTORY_ARRAY_SIZE ≤ bucket_index then none
        else
          let bucket_page_id := directory_page.GetBucketPageId bucket_index
          if bucket_page_id = INVALID_PAGE_ID then some (false, t)
          else
            match t.FetchBucketPage 1 bucket_page_id with
            | none => none
            | some bucket_page =>
              match bucket_page.Remove key with
              | none => some (false, t)
              | some bucket2 =>
                let t1 := t.setPage bucket_page_id (.bucket bucket2)
                let local_depth := directory_page.GetLocalDepth bucket_index
                let global_depth := directory_page.GetGlobalDepth
                match mergeLoop bucket_index global_depth (local_depth + 1) t1 directory_page
                    bucket_page_id local_depth with
                | none => none
                | some (t2, directory2) =>
                  match shrinkLoop directory2.global_depth directory2 with
                  | none => none
                  | some directory3 =>
                    some (true, t2.setPage directory_page_id (.directory directory3))

/-- The index the claims start from: the header page exists (page id 0) with
every directory slot invalid, and no other page has been allocated; the buffer
pool is the index's own and has 50 frames. The constructor in the source (lines
33-45) leaves header_page_id_ unset. -/
def withHeader (hash_fn : K → Nat) (header_max_depth directory_max_depth bucket_max_size : Nat) :
    DiskExtendibleHashTable K V :=
  { hash_fn := hash_fn, header_max_depth := header_max_depth,
    directory_max_depth := directory_max_depth, bucket_max_size := bucket_max_size,
    header_page_id := 0,
    pages := fun p => if p = 0 then .header (HeaderPage.Init header_max_depth) else .unwritten,
    next_page_id := 1, pool_size := 50 }

/-- The calls of a script on the index. -/
inductive Call (K V : Type) where
  | insert (key : K) (value : V)
  | remove (key : K)

/-- Run a script: each Insert with the given fuel; the results of the calls in
order, and the final state. -/
def runCalls (fuel : Nat) : DiskExtendibleHashTable K V → List (Call K V) →
    Option (List Bool × DiskExtendibleHashTable K V)
  | t, [] => some ([], t)
  | t, .insert key value :: rest =>
    match Insert fuel t key value with
    | none => none
    | some (r, t2) =>
      match runCalls fuel t2 rest with
      | none => none
      | some (rs, t3) => some (r :: rs, t3)
  | t, .remove key :: rest =>
    match Remove t key with
    | none => none
    | some (r, t2) =>
      match runCalls fuel t2 rest with
      | none => none
      | some (rs, t3) => some (r :: rs, t3)

end DiskExtendibleHashTable

/-! ### Directory invariants and the states of the index that can occur -/

namespace DirectoryPage

/-- Invariant D1: the global depth is at most max_depth, and every active slot
(below 2^global_depth) has a local depth at most the global depth. -/
def D1 (d : DirectoryPage) : Prop :=
  d.global_depth ≤ d.max_depth ∧
  ∀ i, i < 2 ^ d.global_depth → d.local_depths i ≤ d.global_depth

/-- Invariant D2: two active slots that hold the same bucket page id have the
same local depth ld and are congruent modulo 2^ld. -/
def D2 (d : DirectoryPage) : Prop :=
  ∀ i, i < 2 ^ d.global_depth → ∀ j, j < 2 ^ d.global_depth →
    d.bucket_page_ids i = d.bucket_page_ids j →
    d.local_depths i = d.local_depths j ∧
    i % 2 ^ d.local_depths i = j % 2 ^ d.local_depths i

instance (d : DirectoryPage) : Decidable d.D1 := by
  unfold D1
  infer_instance

instance (d : DirectoryPage) : Decidable d.D2 := by
  unfold D2
  infer_instance

/-- The directory of global depth 1 that IncrGlobalDepth makes of a freshly
initialised directory of max_depth 1. -/
def depthOne : DirectoryPage := (Init 1).IncrGlobalDepth

/-- A directory of max_depth 2 and global depth 1 whose two slots hold the
bucket pages 2 and 3, each with local depth 1. -/
def twoBuckets : DirectoryPage :=
  { max_depth := 2, global_depth := 1,
    local_depths := fun i => if i < 2 then 1 else 0,
    bucket_page_ids := fun i => if i = 0 then 2 else if i = 1 then 3 else INVALID_PAGE_ID }

end DirectoryPage

namespace DiskExtendibleHashTable

variable {K V : Type} [DecidableEq K]

/-- The states of the index that can occur: the index whose header page exists
and has no directory yet, and what Insert (with any fuel for its recursion) and
Remove make of a state that can occur when they return; the buffer pool may
have any number of frames when a call starts. The directory pages are created
and initialised by Insert. -/
inductive Reachable : DiskExtendibleHashTable K V → Prop
  | init (hash_fn : K → Nat) (header_max_depth directory_max_depth bucket_max_size : Nat) :
      Reachable (withHeader hash_fn header_max_depth directory_max_depth bucket_max_size)
  | insert {t t2 : DiskExtendibleHashTable K V} (fuel : Nat) (key : K) (value : V) (r : Bool) :
      Reachable t → Insert fuel t key value = some (r, t2) → Reachable t2
  | remove {t t2 : DiskExtendibleHashTable K V} (key : K) (r : Bool) :
      Reachable t → Remove t key = some (r, t2) → Reachable t2
  | pool {t : DiskExtendibleHashTable K V} (pool_size : Nat) :
      Reachable t → Reachable { t with pool_size := pool_size }

/-- The directory page of the index with int keys hashed by the identity,
directory_max_depth 2 and bucket_max_size 1, after the calls given (its page id
is 1: the first page allocated after the header). -/
def directoryAfter (calls : List (Call Nat Nat)) : Option DirectoryPage :=
  (runCalls 8 (withHeader (fun k : Nat => k) 1 2 1) calls).bind
    (fun x => x.2.fetchDirectory 1)

end DiskExtendibleHashTable

/-! ### The constructor, and what a key sees of the index -/

namespace DiskExtendibleHashTable

variable {K V : Type} [DecidableEq K]

/-- The constructor (lines 33-45): the member initialisers store the hash
function and the three sizes, and the body is empty. No page is allocated, and
header_page_id_ is not assigned: the value it happens to hold is the parameter
header_page_id. The buffer pool passed in is fresh, none of its pages written,
and has 50 frames. -/
def new (hash_fn : K → Nat) (header_max_depth directory_max_depth bucket_max_size : Nat)
    (header_page_id : Int) : DiskExtendibleHashTable K V :=
  { hash_fn := hash_fn, header_max_depth := header_max_depth,
    directory_max_depth := directory_max_depth, bucket_max_size := bucket_max_size,
    header_page_id := header_page_id, pages := fun _ => .unwritten, next_page_id := 0,
    pool_size := 50 }

/-- The directory page that Insert, Remove and GetValue reach for a key (lines
103-119), none when the header slot of the key is invalid or a fetch fails. -/
def directoryOf (t : DiskExtendibleHashTable K V) (key : K) : Option DirectoryPage :=
  match t.fetchHeader t.header_page_id with
  | none => none
  | some header_page =>
    let directory_page_id :=
      header_page.GetDirectoryPageId (header_page.HashToDirectoryIndex (t.Hash key))
    if directory_page_id = INVALID_PAGE_ID then none else t.fetchDirectory directory_page_id

/-- The keys stored in the bucket page of a directory slot, in the order of the
page. -/
def bucketKeys (t : DiskExtendibleHashTable K V) (d : DirectoryPage) (slot : Nat) :
    Option (List K) :=
  (t.fetchBucket (d.GetBucketPageId slot)).map (fun b => b.entries.map Prod.fst)

/-- What boundary scenario 3 observes of the index: the results of the calls,
the global depth of the directory, and the keys in the bucket pages of the slots
0 and 1 (none for a slot without a bucket page). -/
structure SplitView where
  results : List Bool
  global_depth : Nat
  slot0 : Option (List Nat)
  slot1 : Option (List Nat)
  deriving DecidableEq, Repr

/-- The index of boundary scenario 3 (int keys hashed by the identity,
directory_max_depth 2, bucket_max_size 2) after the calls given. -/
def splitScenario (calls : List (Call Nat Nat)) : Option SplitView :=
  match runCalls 8 (withHeader (fun k : Nat => k) 1 2 2) calls with
  | none => none
  | some (rs, t) =>
    match t.directoryOf 0 with
    | none => none
    | some d => some ⟨rs, d.global_depth, t.bucketKeys d 0, t.bucketKeys d 1⟩

/-- The slots 0 to 3 of a directory page: bucket page id and local depth. -/
def DirectoryPage.slots (d : DirectoryPage) : List (Int × Nat) :=
  (List.range 4).map (fun i => (d.bucket_page_ids i, d.local_depths i))

end DiskExtendibleHashTable

/-! ### The recursion of Insert, and the pages the index refers to -/

namespace PageContent

variable {K V : Type}

end PageContent

namespace DiskExtendibleHashTable

variable {K V : Type} [DecidableEq K]

end DiskExtendibleHashTable

/-! # Part II: lemmas and properties -/


/-! ## Trie: lemmas on the children map -/

@[simp] theorem TrieNode.children_mk {V : Type} (c : List (Char × TrieNode V)) (v : Option V) :
    (TrieNode.mk c v).children = c := rfl

@[simp] theorem TrieNode.value_mk {V : Type} (c : List (Char × TrieNode V)) (v : Option V) :
    (TrieNode.mk c v).value = v := rfl

namespace Children

variable {V : Type}

theorem find_assign_self (c : Char) (n : TrieNode V) (m : Children V) {x : TrieNode V}
    (h : find c m = some x) : find c (assign c n m) = some n := by
  induction m with
  | nil => simp [find] at h
  | cons p m ih =>
    obtain ⟨d, y⟩ := p
    by_cases hd : d = c
    · simp [assign, find, hd]
    · simp [assign, find, hd] at h ⊢
      exact ih h

theorem find_assign_ne (c c2 : Char) (n : TrieNode V) (m : Children V) (hne : c2 ≠ c) :
    find c2 (assign c n m) = find c2 m := by
  induction m with
  | nil => rfl
  | cons p m ih =>
    obtain ⟨d, x⟩ := p
    by_cases hd : d = c
    · subst hd
      have : ¬ d = c2 := fun e => hne e.symm
      simp [assign, find, this]
    · by_cases hd2 : d = c2
      · subst hd2
        simp [assign, find, hd]
      · simp [assign, find, hd, hd2, ih]

theorem find_append_single (c c2 : Char) (n : TrieNode V) (m : Children V) :
    find c2 (m ++ [(c, n)]) = match find c2 m with
      | some x => some x
      | none => if c = c2 then some n else none := by
  induction m with
  | nil => simp [find]
  | cons p m ih =>
    obtain ⟨d, x⟩ := p
    by_cases hd : d = c2
    · simp [find, hd]
    · simp [find, hd, ih]

theorem find_insert_self (c : Char) (n : TrieNode V) (m : Children V)
    (h : find c m = none) : find c (insert c n m) = some n := by
  simp [insert, h, find_append_single]

theorem find_insert_ne (c c2 : Char) (n : TrieNode V) (m : Children V) (hne : c2 ≠ c) :
    find c2 (insert c n m) = find c2 m := by
  unfold insert
  cases hf : find c m with
  | some x => rfl
  | none =>
    have : ¬ c = c2 := fun e => hne e.symm
    simp only [find_append_single, this, if_false]
    cases find c2 m <;> rfl

theorem find_erase_self (c : Char) (m : Children V) : find c (erase c m) = none := by
  induction m with
  | nil => rfl
  | cons p m ih =>
    obtain ⟨d, x⟩ := p
    by_cases hd : d = c
    · simpa [erase, List.filter, hd] using ih
    · simpa [erase, List.filter, hd, find] using ih

theorem find_erase_ne (c c2 : Char) (m : Children V) (hne : c2 ≠ c) :
    find c2 (erase c m) = find c2 m := by
  induction m with
  | nil => rfl
  | cons p m ih =>
    obtain ⟨d, x⟩ := p
    by_cases hd : d = c
    · subst hd
      have : ¬ d = c2 := fun e => hne e.symm
      simpa [erase, List.filter, find, this] using ih
    · by_cases hd2 : d = c2
      · subst hd2
        simp [erase, List.filter, hd, find]
      · simpa [erase, List.filter, hd, find, hd2] using ih

theorem find_none_of_empty (c : Char) (m : Children V) (h : empty m = true) :
    find c m = none := by
  cases m with
  | nil => rfl
  | cons p m => simp [empty] at h

end Children

namespace Trie

variable {V : Type}

/-! ## Trie: Put reaches the key it writes -/

theorem getWalk_append (p q : List Char) (n : TrieNode V) :
    getWalk (p ++ q) n = match getWalk p n with
      | some x => getWalk q x
      | none => none := by
  induction p generalizing n with
  | nil => rfl
  | cons c cs ih =>
    simp only [List.cons_append, getWalk]
    cases Children.find c n.children with
    | none => rfl
    | some child => exact ih child

theorem putWalk_path (rest : List Char) (parent : TrieNode V) (stack : NodeStack V)
    (h : rest ≠ []) :
    (putWalk rest parent stack).1 ≠ [] ∧
      ((putWalk rest parent stack).2.map Prod.fst).reverse ++ (putWalk rest parent stack).1
        = (stack.map Prod.fst).reverse ++ rest := by
  induction rest generalizing parent stack with
  | nil => exact absurd rfl h
  | cons c cs ih =>
    cases cs with
    | nil => simp [putWalk]
    | cons c2 cs =>
      simp only [putWalk]
      cases Children.find c parent.children with
      | none => simp
      | some child =>
        have := ih child ((c, child) :: stack) (by simp)
        simpa using this

theorem putPad_path (rest : List Char) (stack : NodeStack V) (h : rest ≠ []) :
    ∃ c, (putPad rest stack).1 = [c] ∧
      ((putPad rest stack).2.map Prod.fst).reverse ++ [c]
        = (stack.map Prod.fst).reverse ++ rest := by
  induction rest generalizing stack with
  | nil => exact absurd rfl h
  | cons c cs ih =>
    cases cs with
    | nil => exact ⟨c, by simp [putPad]⟩
    | cons c2 cs =>
      simp only [putPad]
      obtain ⟨d, h1, h2⟩ := ih ((c, TrieNode.mk [] none) :: stack) (by simp)
      exact ⟨d, h1, by simpa using h2⟩

theorem putUnwind_path (L : Nat) (hL : 2 ≤ L) (stack : NodeStack V) (it : Nat) (ks : Char)
    (slot : TrieNode V) :
    ∃ p slot2, slot2.value = slot.value ∧ (it + 1 ≠ L → slot2 = slot) ∧
      (stack.map Prod.fst).reverse ++ [ks] = (putUnwind L stack it ks slot).1 :: p ∧
      ∀ q, getWalk (p ++ q) (putUnwind L stack it ks slot).2 = getWalk q slot2 := by
  induction stack generalizing it ks slot with
  | nil => exact ⟨[], slot, rfl, fun _ => rfl, by simp [putUnwind], fun q => by simp [putUnwind]⟩
  | cons top stack ih =>
    obtain ⟨c, top⟩ := top
    simp only [putUnwind]
    cases hf : Children.find ks top.children with
    | none =>
      simp only []
      obtain ⟨p, s2, _, hs2, hp, hq⟩ :=
        ih 0 c (TrieNode.mk (Children.insert ks slot top.children) top.value)
      have hs2e := hs2 (by omega)
      refine ⟨p ++ [ks], slot, rfl, fun _ => rfl, ?_, ?_⟩
      · simp only [List.map_cons, List.reverse_cons]
        rw [hp]; simp
      · intro q
        rw [List.append_assoc, hq, hs2e]
        simp [getWalk, Children.find_insert_self _ _ _ hf]
    | some old =>
      simp only []
      by_cases hfirst : it + 1 = L
      · have hdec : decide (it + 1 = L) = true := by simp [hfirst]
        simp only [hdec, if_true]
        obtain ⟨p, s2, _, hs2, hp, hq⟩ :=
          ih (it - 1) c (TrieNode.mk (Children.assign ks (TrieNode.mk old.children slot.value)
            top.children) top.value)
        have hs2e := hs2 (by omega)
        refine ⟨p ++ [ks], TrieNode.mk old.children slot.value, rfl,
          fun hne => absurd hfirst hne, ?_, ?_⟩
        · simp only [List.map_cons, List.reverse_cons]
          rw [hp]; simp
        · intro q
          rw [List.append_assoc, hq, hs2e]
          simp [getWalk, Children.find_assign_self _ _ _ hf]
      · have hdec : decide (it + 1 = L) = false := by simp [hfirst]
        simp only [hdec, Bool.false_eq_true, if_false]
        obtain ⟨p, s2, _, hs2, hp, hq⟩ :=
          ih it c (TrieNode.mk (Children.assign ks slot top.children) top.value)
        have hs2e := hs2 hfirst
        refine ⟨p ++ [ks], slot, rfl, fun _ => rfl, ?_, ?_⟩
        · simp only [List.map_cons, List.reverse_cons]
          rw [hp]; simp
        · intro q
          rw [List.append_assoc, hq, hs2e]
          simp [getWalk, Children.find_assign_self _ _ _ hf]

/-- The node that Put leaves at the key carries the value that was put. -/
theorem GetRaw_Put_self (t : Trie V) (key : List Char) (v : V) :
    (t.Put key v).GetRaw key = some v := by
  cases key with
  | nil => simp [Put, GetRaw, getWalk, TrieNode.is_value_node]
  | cons c cs =>
    cases cs with
    | nil =>
      simp only [Put, List.isEmpty_cons, Bool.false_eq_true, if_false, putWalk, putPad,
        List.headD_cons, putUnwind]
      cases hf : Children.find c (match t.root with
          | some r => r
          | none => TrieNode.mk [] none).children with
      | none =>
        simp [GetRaw, getWalk, Children.find_insert_self _ _ _ hf, TrieNode.is_value_node]
      | some old =>
        simp [GetRaw, getWalk, Children.find_assign_self _ _ _ hf,
          TrieNode.is_value_node]
    | cons c2 cs =>
      simp only [Put, List.isEmpty_cons, Bool.false_eq_true, if_false]
      generalize hroot : (match t.root with
          | some r => r
          | none => TrieNode.mk [] none) = new_root
      obtain ⟨hw1, hw2⟩ := putWalk_path (c :: c2 :: cs) new_root [] (by simp)
      obtain ⟨d, hp1, hp2⟩ := putPad_path (putWalk (c :: c2 :: cs) new_root []).1
        (putWalk (c :: c2 :: cs) new_root []).2 hw1
      rw [hw2] at hp2
      simp only [hp1, List.headD_cons]
      obtain ⟨p, s2, hv, _, hpath, hq⟩ := putUnwind_path (c :: c2 :: cs).length (by simp)
        (putPad (putWalk (c :: c2 :: cs) new_root []).1 (putWalk (c :: c2 :: cs) new_root []).2).2
        ((c :: c2 :: cs).length - 1) d (TrieNode.mk [] (some v))
      rw [hp2] at hpath
      simp only [List.map_nil, List.reverse_nil, List.nil_append] at hpath
      generalize putUnwind (c :: c2 :: cs).length
        (putPad (putWalk (c :: c2 :: cs) new_root []).1 (putWalk (c :: c2 :: cs) new_root []).2).2
        ((c :: c2 :: cs).length - 1) d (TrieNode.mk [] (some v)) = r at hpath hq
      have hq0 := hq []
      simp only [List.append_nil, getWalk] at hq0
      rw [hpath]
      cases hf : Children.find r.1 new_root.children with
      | none =>
        simp [GetRaw, getWalk, Children.find_insert_self _ _ _ hf, hq0,
          TrieNode.is_value_node, hv]
      | some old =>
        simp [GetRaw, getWalk, Children.find_assign_self _ _ _ hf, hq0,
          TrieNode.is_value_node, hv]

/-! ## Trie: Remove leaves no value at the key it removes -/

theorem Linked_cons (kc c : Char) (top : TrieNode V) (rest : NodeStack V) :
    Linked kc ((c, top) :: rest) ↔
      (Children.find kc top.children).isSome = true ∧ Linked c rest := Iff.rfl

theorem removeRebuild_path (stack : NodeStack V) (kc : Char) (slot r : TrieNode V)
    (h : removeRebuild kc slot stack = some r) (q : List Char) :
    getWalk (stackKey kc stack ++ q) r = getWalk q slot := by
  induction stack generalizing kc slot q with
  | nil =>
    simp only [removeRebuild, Option.some.injEq] at h
    subst h
    rfl
  | cons top rest ih =>
    obtain ⟨c, top⟩ := top
    simp only [removeRebuild, Children.assignAt] at h
    cases hf : Children.find kc top.children with
    | none => simp [hf] at h
    | some old =>
      simp only [hf] at h
      have := ih c _ h (kc :: q)
      simp only [stackKey, List.append_assoc, List.singleton_append]
      rw [this]
      simp [getWalk, Children.find_assign_self _ _ _ hf]

theorem removeRebuild_some (stack : NodeStack V) (kc : Char) (slot : TrieNode V)
    (h : Linked kc stack) : ∃ r, removeRebuild kc slot stack = some r := by
  induction stack generalizing kc slot with
  | nil => exact ⟨slot, rfl⟩
  | cons top rest ih =>
    obtain ⟨c, top⟩ := top
    rw [Linked_cons] at h
    obtain ⟨h1, h2⟩ := h
    cases hf : Children.find kc top.children with
    | none => simp [hf] at h1
    | some old =>
      simp only [removeRebuild, Children.assignAt, hf]
      exact ih c _ h2

theorem removeWalk_spec (key : List Char) (top : Char × TrieNode V) (below stack : NodeStack V)
    (h : removeWalk key top below = some stack) (hl : Linked top.1 below) :
    ∃ kc slot rest, stack = (kc, slot) :: rest ∧ Linked kc rest ∧
      stackKey kc rest = stackKey top.1 below ++ key ∧
      rest.length = below.length + key.length := by
  induction key generalizing top below with
  | nil =>
    simp only [removeWalk, Option.some.injEq] at h
    subst h
    exact ⟨top.1, top.2, below, rfl, hl, by simp, by simp⟩
  | cons c cs ih =>
    simp only [removeWalk] at h
    cases hf : Children.find c top.2.children with
    | none => simp [hf] at h
    | some child =>
      simp only [hf] at h
      obtain ⟨kc, slot, rest, h1, h2, h3, h4⟩ := ih (c, child) (top :: below) h
        (by
          obtain ⟨tc, tn⟩ := top
          rw [Linked_cons]
          exact ⟨by simp [hf], hl⟩)
      refine ⟨kc, slot, rest, h1, h2, ?_, ?_⟩
      · rw [h3]
        obtain ⟨tc, tn⟩ := top
        simp [stackKey]
      · rw [h4]; simp; omega

theorem removeWalk_none (key : List Char) (top : Char × TrieNode V) (below : NodeStack V)
    (h : removeWalk key top below = none) : getWalk key top.2 = none := by
  induction key generalizing top below with
  | nil => simp [removeWalk] at h
  | cons c cs ih =>
    simp only [removeWalk] at h
    simp only [getWalk]
    cases hf : Children.find c top.2.children with
    | none => rfl
    | some child =>
      simp only [hf] at h
      exact ih (c, child) (top :: below) h

theorem removePrune_spec (below : NodeStack V) (top : Char × TrieNode V) (suffix : List Char)
    (hs : getWalk suffix top.2 = none) (hl : Linked top.1 below) :
    NoValueAt (stackKey top.1 below ++ suffix) (removePrune top below) := by
  induction below generalizing top suffix with
  | nil =>
    exact ⟨top.1, top.2, [], suffix, rfl, trivial, rfl, fun n hn => by simp [hs] at hn⟩
  | cons b rest ih =>
    obtain ⟨c2, below⟩ := b
    obtain ⟨tc, tn⟩ := top
    simp only [removePrune]
    split
    · have hl2 : Linked c2 rest := ((Linked_cons tc c2 below rest).1 hl).2
      have := ih (c2, TrieNode.mk (Children.erase tc below.children) below.value) (tc :: suffix)
        (by simp [getWalk, Children.find_erase_self]) hl2
      simpa [stackKey] using this
    · exact ⟨tc, tn, (c2, below) :: rest, suffix, rfl, hl, rfl, fun n hn => by simp [hs] at hn⟩

theorem removeStrip_spec (key : List Char) (kc : Char) (slot : TrieNode V) (rest : NodeStack V)
    (hl : Linked kc rest) (hk : stackKey kc rest = key) (hne : rest ≠ []) :
    ∃ stack2, removeStrip ((kc, slot) :: rest) = some stack2 ∧ NoValueAt key stack2 := by
  cases rest with
  | nil => exact absurd rfl hne
  | cons b rest =>
    obtain ⟨c2, below⟩ := b
    simp only [removeStrip]
    have hl2 := (Linked_cons kc c2 below rest).1 hl
    by_cases hv : slot.is_value_node = true
    · simp only [hv, if_true]
      by_cases he : Children.empty slot.children = true
      · simp only [he, if_true]
        refine ⟨_, rfl, ?_⟩
        have := removePrune_spec rest (c2, TrieNode.mk (Children.erase kc below.children)
          below.value) [kc] (by simp [getWalk, Children.find_erase_self]) hl2.2
        rw [← hk]
        simpa [stackKey] using this
      · simp only [he, Bool.false_eq_true, if_false]
        cases hf : Children.find kc below.children with
        | none => simp [hf] at hl2
        | some old =>
          simp only [Children.assignAt, hf]
          refine ⟨_, rfl, c2, _, rest, [kc], rfl, hl2.2, ?_, ?_⟩
          · rw [← hk]; simp [stackKey]
          · intro n hn
            simp [getWalk, Children.find_assign_self _ _ _ hf] at hn
            subst hn
            rfl
    · simp only [hv, Bool.false_eq_true, if_false]
      refine ⟨_, rfl, kc, slot, (c2, below) :: rest, [], rfl, hl, by simp [hk], ?_⟩
      intro n hn
      simp only [getWalk, Option.some.injEq] at hn
      subst hn
      simpa [TrieNode.is_value_node] using hv

/-- Remove returns a trie, and that trie holds no value at the removed key. -/
theorem GetRaw_Remove_self (t : Trie V) (key : List Char) :
    ∃ t2, t.Remove key = some t2 ∧ t2.GetRaw key = none := by
  cases key with
  | nil => exact ⟨⟨none⟩, by simp [Remove], rfl⟩
  | cons c cs =>
    simp only [Remove, List.isEmpty_cons, Bool.false_eq_true, if_false]
    cases hr : t.root with
    | none => exact ⟨⟨none⟩, rfl, rfl⟩
    | some root =>
      simp only []
      cases hw : removeWalk (c :: cs) ('a', root) [] with
      | none =>
        refine ⟨⟨some root⟩, rfl, ?_⟩
        have := removeWalk_none _ _ _ hw
        simp only [GetRaw]
        simp only [] at this
        rw [this]
      | some stack =>
        simp only []
        obtain ⟨kc, slot, rest, h1, h2, h3, h4⟩ := removeWalk_spec _ _ _ _ hw trivial
        subst h1
        obtain ⟨stack2, hs, kc2, slot2, rest2, suffix, hst, hl, hkey, hnv⟩ :=
          removeStrip_spec (c :: cs) kc slot rest h2 (by simpa [stackKey] using h3)
            (by intro e; rw [e] at h4; simp at h4)
        subst hst
        simp only [hs]
        obtain ⟨r, hreb⟩ := removeRebuild_some rest2 kc2 slot2 hl
        simp only [hreb]
        have hpath := removeRebuild_path rest2 kc2 slot2 r hreb suffix
        rw [hkey] at hpath
        split
        · exact ⟨_, rfl, rfl⟩
        · refine ⟨_, rfl, ?_⟩
          simp only [GetRaw, hpath]
          cases hg : getWalk suffix slot2 with
          | none => rfl
          | some n => simp [TrieNode.is_value_node, hnv n hg]

end Trie

/-! ## Trie: the properties -/

/-- C2. Put then Get round trip: for every trie (the empty trie too), every key
(the empty key too), every value type T and value v of that type, Get of T at
the key in the trie returned by Put is v. -/
theorem Trie.put_get_round_trip {Ty : Type} {El : Ty → Type} [DecidableEq Ty]
    (t : Trie (Dyn Ty El)) (T : Ty) (key : List Char) (v : El T) :
    (t.PutT T key v).Get T key = some v := by
  simp [Trie.Get, Trie.PutT, Trie.GetRaw_Put_self, Dyn.cast]

/-- C3. Put of a one-character key drops the children of the node it replaces:
with the key ab holding 1, putting 2 at the key a returns a trie in which Get of
ab is nullptr, while the claim says it is still 1. -/
theorem Trie.put_single_char_drops_children :
    ((⟨none⟩ : TypedTrie).PutT .uint32 "ab".toList 1).Get .uint32 "ab".toList = some 1 ∧
    ((((⟨none⟩ : TypedTrie).PutT .uint32 "ab".toList 1).PutT .uint32 "a".toList 2).Get
      .uint32 "ab".toList) = none := by
  decide

/-- C4. Remove of the empty key returns the empty trie: with the key a holding
1, removing the empty key returns a trie in which Get of a is nullptr, while the
claim says it is still 1. -/
theorem Trie.remove_empty_key_drops_all :
    ((⟨none⟩ : TypedTrie).PutT .uint32 "a".toList 1).Get .uint32 "a".toList = some 1 ∧
    (((⟨none⟩ : TypedTrie).PutT .uint32 "a".toList 1).Remove []).map
      (fun t2 => t2.Get .uint32 "a".toList) = some none := by
  decide

/-- C5. Remove then Get: for every trie and key, Remove returns a trie, and Get
at the removed key in it is nullptr, whatever value type is asked for. -/
theorem Trie.remove_get_null {Ty : Type} {El : Ty → Type} [DecidableEq Ty]
    (t : Trie (Dyn Ty El)) (key : List Char) :
    ∃ t2, t.Remove key = some t2 ∧ ∀ T : Ty, t2.Get T key = none := by
  obtain ⟨t2, h1, h2⟩ := Trie.GetRaw_Remove_self t key
  exact ⟨t2, h1, fun T => by simp [Trie.Get, h2]⟩

/-! ## LRU-K replacer: lemmas -/

namespace NodeStore

theorem mem_of_mem_erase {f : Int} {m : NodeStore} {p : Int × LRUKNode}
    (h : p ∈ erase f m) : p ∈ m :=
  (List.mem_filter.1 h).1

theorem mem_modify {f : Int} {g : LRUKNode → LRUKNode} {m : NodeStore} {p : Int × LRUKNode}
    (h : p ∈ modify f g m) : p ∈ m ∨ ∃ n, (f, n) ∈ m ∧ p = (f, g n) := by
  obtain ⟨q, hq, rfl⟩ := List.mem_map.1 h
  by_cases hf : q.1 = f
  · right
    refine ⟨q.2, ?_, by simp [hf]⟩
    rw [← hf]
    exact hq
  · left
    simpa [hf] using hq

theorem mem_touch {f : Int} {m : NodeStore} {p : Int × LRUKNode}
    (h : p ∈ touch f m) : p = (f, LRUKNode.fresh) ∨ p ∈ m := by
  unfold touch at h
  cases hf : find f m with
  | none =>
    simp only [hf, insert, List.mem_cons] at h
    exact h
  | some n =>
    simp only [hf] at h
    exact Or.inr h

end NodeStore

namespace LRUKReplacer

theorem stampsBelowClock_of_reachable {r : LRUKReplacer} (h : Reachable r) :
    StampsBelowClock r := by
  induction h with
  | init num_frames k mode => intro p hp; simp [new] at hp
  | @recordAccess r r2 f _ hstep ih =>
    unfold RecordAccess at hstep
    by_cases hr : r.rangeAssertFails f = true
    · simp [hr] at hstep
    · simp only [hr, Bool.false_eq_true, if_false, Option.some.injEq] at hstep
      subst hstep
      intro p hp ts hts
      simp only at hp ⊢
      rcases NodeStore.mem_modify hp with hp | ⟨n, hn, rfl⟩
      · rcases NodeStore.mem_touch hp with rfl | hp
        · simp [LRUKNode.fresh] at hts
        · exact Nat.lt_succ_of_lt (ih p hp ts hts)
      · simp only [LRUKNode.Access, List.mem_append, List.mem_singleton] at hts
        rcases hts with hts | rfl
        · rcases NodeStore.mem_touch hn with hn | hn
          · simp only [Prod.mk.injEq, true_and] at hn
            subst hn
            simp [LRUKNode.fresh] at hts
          · exact Nat.lt_succ_of_lt (ih _ hn ts hts)
        · exact Nat.lt_succ_self _
  | @setEvictable r r2 f b _ hstep ih =>
    have hstore : ∀ q ∈ r.node_store.touch f, ∀ t ∈ q.2.history, t < r.current_timestamp := by
      intro q hq t ht
      rcases NodeStore.mem_touch hq with rfl | hq
      · simp [LRUKNode.fresh] at ht
      · exact ih q hq t ht
    unfold SetEvictable at hstep
    by_cases hr : r.rangeAssertFails f = true
    · simp [hr] at hstep
    · simp only [hr, Bool.false_eq_true, if_false] at hstep
      cases hf : NodeStore.find f (r.node_store.touch f) with
      | none => simp [hf] at hstep
      | some node =>
        simp only [hf] at hstep
        by_cases hb : (node.is_evictable != b) = true
        · simp only [hb, if_true, Option.some.injEq] at hstep
          subst hstep
          intro p hp ts hts
          simp only at hp ⊢
          rcases NodeStore.mem_modify hp with hp | ⟨n, hn, rfl⟩
          · exact hstore p hp ts hts
          · exact hstore _ hn ts (by simpa [LRUKNode.verse_evictable] using hts)
        · simp only [hb, Bool.false_eq_true, if_false, Option.some.injEq] at hstep
          subst hstep
          exact hstore
  | @remove r r2 f _ hstep ih =>
    unfold Remove at hstep
    by_cases hr : r.removeRangeAssertFails f = true
    · simp [hr] at hstep
    · simp only [hr, Bool.false_eq_true, if_false] at hstep
      cases hf : NodeStore.find f r.node_store with
      | none =>
        simp only [hf, Option.some.injEq] at hstep
        subst hstep
        exact ih
      | some node =>
        simp only [hf] at hstep
        by_cases he : r.notEvictableAssertFails node f = true
        · simp [he] at hstep
        · simp only [he, Bool.false_eq_true, if_false, Option.some.injEq] at hstep
          subst hstep
          intro p hp ts hts
          exact ih p (NodeStore.mem_of_mem_erase hp) ts hts
  | @evict r r2 res _ hstep ih =>
    unfold Evict at hstep
    cases hl : evictLoop r.k r.current_timestamp r.node_store ⟨0, false, false, 0⟩ with
    | none => simp [hl] at hstep
    | some v =>
      simp only [hl] at hstep
      by_cases he : v.evict = true
      · simp only [he, Bool.not_true, Bool.false_eq_true, if_false, Option.some.injEq,
          Prod.mk.injEq] at hstep
        rw [← hstep.2]
        intro p hp ts hts
        exact ih p (NodeStore.mem_of_mem_erase hp) ts hts
      · simp only [he, Bool.not_false, if_true, Option.some.injEq, Prod.mk.injEq] at hstep
        rw [← hstep.2]
        exact ih
  | @reorder r store _ hperm ih =>
    intro p hp ts hts
    exact ih p (hperm.subset hp) ts hts

theorem replacer_reachable_of_run {r r2 : LRUKReplacer} (ops : List Op) (h : Reachable r)
    (hrun : r.run ops = some r2) : Reachable r2 := by
  induction ops generalizing r with
  | nil =>
    simp only [run, Option.some.injEq] at hrun
    subst hrun
    exact h
  | cons op ops ih =>
    simp only [run] at hrun
    cases hs : r.step op with
    | none => simp [hs] at hrun
    | some r1 =>
      simp only [hs] at hrun
      refine ih ?_ hrun
      cases op with
      | recordAccess f => exact Reachable.recordAccess f h hs
      | setEvictable f b => exact Reachable.setEvictable f b h hs
      | remove f => exact Reachable.remove f h hs
      | evict =>
        simp only [step, Option.map_eq_some'] at hs
        obtain ⟨⟨res, r3⟩, h1, h2⟩ := hs
        simp only at h2
        subst h2
        exact Reachable.evict res h h1

end LRUKReplacer

namespace LRUKReplacer

theorem kthLoop_succ (xs : List Nat) (c : Nat) : kthLoop xs (c + 1) 0 = xs.getD c 0 := by
  induction c generalizing xs with
  | zero =>
    cases xs with
    | nil => rfl
    | cons x xs => simp [kthLoop]
  | succ c ih =>
    cases xs with
    | nil => rfl
    | cons x xs =>
      simp only [kthLoop, List.getD_cons_succ]
      rw [if_neg (by omega)]
      exact ih xs

theorem kthStamp_eq_kthMostRecent (k : Nat) (n : LRUKNode) (hk : 1 ≤ k) :
    kthStamp k n.history = kthMostRecent k n := by
  obtain ⟨c, rfl⟩ : ∃ c, k = c + 1 := ⟨k - 1, by omega⟩
  simp [kthStamp, kthMostRecent, kthLoop_succ]

theorem clock_pos_of_stamped {cur : Nat} {n : LRUKNode} (hs : Stamped cur n) : 0 < cur := by
  obtain ⟨hne, hlt⟩ := hs
  cases hh : n.history with
  | nil => exact absurd hh hne
  | cons x xs =>
    have := hlt x (by simp [hh])
    omega

theorem kthStamp_lt {cur k : Nat} {n : LRUKNode} (hs : Stamped cur n)
    (hk : k ≤ n.history.length) : kthStamp k n.history < cur := by
  cases k with
  | zero => simpa [kthStamp, kthLoop] using clock_pos_of_stamped hs
  | succ c =>
    rw [kthStamp, kthLoop_succ]
    have hc : c < n.history.reverse.length := by simp; omega
    rw [List.getD_eq_getElem _ _ hc]
    exact hs.2 _ (List.mem_reverse.1 (List.getElem_mem hc))

theorem getLast?_eq_backStamp {cur : Nat} {n : LRUKNode} (hs : Stamped cur n) :
    n.history.getLast? = some (backStamp n) := by
  unfold backStamp
  cases hh : n.history.getLast? with
  | none => exact absurd (List.getLast?_eq_none_iff.1 hh) hs.1
  | some b => rfl

theorem backStamp_lt {cur : Nat} {n : LRUKNode} (hs : Stamped cur n) : backStamp n < cur := by
  have h := getLast?_eq_backStamp hs
  exact hs.2 _ (List.mem_of_getLast?_eq_some h)

theorem loopInv_start (k cur : Nat) : LoopInv k cur [] ⟨0, false, false, 0⟩ :=
  ⟨fun _ => ⟨rfl, rfl, fun p hp => by simp at hp⟩, fun h => by simp at h⟩

theorem evictStep_inv (k cur : Nat) (pre : NodeStore) (v : EvictVars) (it : Int × LRUKNode)
    (hinv : LoopInv k cur pre v) (hs : it.2.is_evictable = true → Stamped cur it.2) :
    ∃ v2, evictStep k cur v it = some v2 ∧ LoopInv k cur (pre ++ [it]) v2 := by
  obtain ⟨f, n⟩ := it
  obtain ⟨hF, hT⟩ := hinv
  simp only at hs
  unfold evictStep
  by_cases he : n.is_evictable = true
  swap
  · simp only [he, Bool.false_eq_true, if_false]
    refine ⟨v, rfl, ?_, ?_⟩
    · intro hv
      obtain ⟨h1, h2, h3⟩ := hF hv
      refine ⟨h1, h2, ?_⟩
      intro p hp
      rcases List.mem_append.1 hp with hp | hp
      · exact h3 p hp
      · simp only [List.mem_singleton] at hp
        subst hp
        simpa using he
    · intro hv
      obtain ⟨m, hm, hme, hinf, hfull⟩ := hT hv
      refine ⟨m, List.mem_append_left _ hm, hme, ?_, ?_⟩
      · intro hi
        obtain ⟨a, b, c⟩ := hinf hi
        refine ⟨a, b, ?_⟩
        intro q hq hqe hql
        rcases List.mem_append.1 hq with hq | hq
        · exact c q hq hqe hql
        · simp only [List.mem_singleton] at hq
          subst hq
          exact absurd hqe he
      · intro hi
        obtain ⟨a, b, c⟩ := hfull hi
        refine ⟨a, b, ?_⟩
        intro q hq hqe
        rcases List.mem_append.1 hq with hq | hq
        · exact c q hq hqe
        · simp only [List.mem_singleton] at hq
          subst hq
          exact absurd hqe he
  · replace hs := hs he
    simp only [he, if_true]
    by_cases hlen : n.history_entry < k
    · simp only [hlen, if_true, getLast?_eq_backStamp hs]
      have hlen2 : n.history.length < k := hlen
      by_cases hcond : (v.inf && decide (v.max_distance ≥ cur - backStamp n)) = true
      · simp only [hcond, Bool.not_true, Bool.false_eq_true, if_false]
        simp only [Bool.and_eq_true, decide_eq_true_eq] at hcond
        obtain ⟨hvi, hge⟩ := hcond
        have hve : v.evict = true := by
          by_contra hne
          have := (hF (by simpa using hne)).1
          simp [hvi] at this
        obtain ⟨m, hm, hme, hinf, _⟩ := hT hve
        obtain ⟨a, b, c⟩ := hinf hvi
        refine ⟨_, rfl, fun h => by simp at h, fun _ => ?_⟩
        refine ⟨m, List.mem_append_left _ hm, hme, fun _ => ⟨a, b, ?_⟩,
          fun h => by simp [hvi] at h⟩
        intro q hq hqe hql
        rcases List.mem_append.1 hq with hq | hq
        · exact c q hq hqe hql
        · simp only [List.mem_singleton] at hq
          subst hq
          exact hge
      · simp only [hcond, Bool.not_false, if_true]
        refine ⟨_, rfl, fun h => by simp at h, fun _ => ?_⟩
        refine ⟨n, by simp, he, fun _ => ⟨hlen2, rfl, ?_⟩, fun h => by simp at h⟩
        intro q hq hqe hql
        simp only
        rcases List.mem_append.1 hq with hq | hq
        · by_cases hve : v.evict = true
          · obtain ⟨m, hm, hme, hinf, hfull⟩ := hT hve
            by_cases hvi : v.inf = true
            · obtain ⟨a, b, c⟩ := hinf hvi
              have := c q hq hqe hql
              simp only [hvi, Bool.true_and, decide_eq_true_eq, not_le] at hcond
              omega
            · have := ((hfull (by simpa using hvi)).2.2 q hq hqe).1
              omega
          · have := (hF (by simpa using hve)).2.2 q hq
            rw [this] at hqe
            exact absurd hqe (by simp)
        · simp only [List.mem_singleton] at hq
          subst hq
          exact le_refl _
    · simp only [hlen, if_false]
      have hlen2 : k ≤ n.history.length := Nat.le_of_not_lt hlen
      have hkth := kthStamp_lt hs hlen2
      by_cases hvi : v.inf = true
      · simp only [hvi, Bool.not_true, Bool.false_eq_true, if_false]
        have hve : v.evict = true := by
          by_contra hne
          have := (hF (by simpa using hne)).1
          simp [hvi] at this
        obtain ⟨m, hm, hme, hinf, _⟩ := hT hve
        obtain ⟨a, b, c⟩ := hinf hvi
        refine ⟨_, rfl, fun h => by simp at h, fun _ => ?_⟩
        refine ⟨m, List.mem_append_left _ hm, hme, fun _ => ⟨a, b, ?_⟩,
          fun h => by simp [hvi] at h⟩
        intro q hq hqe hql
        rcases List.mem_append.1 hq with hq | hq
        · exact c q hq hqe hql
        · simp only [List.mem_singleton] at hq
          subst hq
          simp only at hql
          omega
      · have hvi2 : v.inf = false := by simpa using hvi
        simp only [hvi2, Bool.not_false, if_true]
        by_cases htake : v.max_distance < cur - kthStamp k n.history
        · simp only [htake, if_true]
          refine ⟨_, rfl, fun h => by simp at h, fun _ => ?_⟩
          refine ⟨n, by simp, he, fun h => by simp [hvi2] at h, fun _ => ⟨rfl, ?_, ?_⟩⟩
          · simp only
            omega
          · intro q hq hqe
            simp only
            rcases List.mem_append.1 hq with hq | hq
            · by_cases hve : v.evict = true
              · obtain ⟨m, hm, hme, _, hfull⟩ := hT hve
                have := (hfull hvi2).2.2 q hq hqe
                exact ⟨this.1, by omega⟩
              · have := (hF (by simpa using hve)).2.2 q hq
                rw [this] at hqe
                exact absurd hqe (by simp)
            · simp only [List.mem_singleton] at hq
              subst hq
              exact ⟨hlen2, le_refl _⟩
        · simp only [htake, if_false]
          have hve : v.evict = true := by
            by_contra hne
            have := (hF (by simpa using hne)).2.1
            omega
          obtain ⟨m, hm, hme, _, hfull⟩ := hT hve
          obtain ⟨a, b, c⟩ := hfull hvi2
          refine ⟨_, rfl, fun h => by simp at h, fun _ => ?_⟩
          refine ⟨m, List.mem_append_left _ hm, hme, fun h => by simp [hvi2] at h,
            fun _ => ⟨a, b, ?_⟩⟩
          intro q hq hqe
          rcases List.mem_append.1 hq with hq | hq
          · exact c q hq hqe
          · simp only [List.mem_singleton] at hq
            subst hq
            exact ⟨hlen2, by simp only; omega⟩

theorem evictLoop_inv (k cur : Nat) (rest pre : NodeStore) (v : EvictVars)
    (hinv : LoopInv k cur pre v)
    (hs : ∀ p ∈ rest, p.2.is_evictable = true → Stamped cur p.2) :
    ∃ v2, evictLoop k cur rest v = some v2 ∧ LoopInv k cur (pre ++ rest) v2 := by
  induction rest generalizing pre v with
  | nil => exact ⟨v, rfl, by simpa using hinv⟩
  | cons it rest ih =>
    obtain ⟨v1, h1, hinv1⟩ := evictStep_inv k cur pre v it hinv (hs it (by simp))
    obtain ⟨v2, h2, hinv2⟩ := ih (pre ++ [it]) v1 hinv1 (fun p hp => hs p (by simp [hp]))
    refine ⟨v2, ?_, by simpa using hinv2⟩
    simp only [evictLoop, h1, h2]

/-- What Evict does in a state whose evictable nodes have a recorded access and
whose timestamps lie before the clock. -/
theorem evict_spec (r : LRUKReplacer) (hb : StampsBelowClock r)
    (hacc : ∀ p ∈ r.node_store, p.2.is_evictable = true → p.2.history ≠ []) :
    ∃ v, evictLoop r.k r.current_timestamp r.node_store ⟨0, false, false, 0⟩ = some v ∧
      LoopInv r.k r.current_timestamp r.node_store v ∧
      r.Evict = some (if v.evict then some v.frame_to_evict else none,
        if v.evict then { r with node_store := r.node_store.erase v.frame_to_evict,
                                 curr_size := decrSize r.curr_size } else r) := by
  obtain ⟨v, h1, h2⟩ := evictLoop_inv r.k r.current_timestamp r.node_store [] _
    (loopInv_start r.k r.current_timestamp) (fun p hp he => ⟨hacc p hp he, hb p hp⟩)
  refine ⟨v, h1, by simpa using h2, ?_⟩
  unfold Evict
  rw [h1]
  cases hve : v.evict <;> simp [hve]

end LRUKReplacer

/-! ## LRU-K replacer: the properties -/

namespace LRUKReplacer

theorem scenarioState_reachable : Reachable scenarioState :=
  replacer_reachable_of_run scenarioOps (Reachable.init 7 2 .abort) (by decide)

theorem tieState_reachable : Reachable tieState :=
  replacer_reachable_of_run tieOps (Reachable.init 7 3 .abort) (by decide)

end LRUKReplacer

/-- C6. LRU-K victim choice: in every replacer state that can occur and in which
each tracked frame has at least one recorded access, Evict returns; it returns
no frame exactly when no tracked frame is evictable; a frame it returns is
tracked and evictable, has fewer than k recorded accesses if some evictable
frame has fewer than k, and otherwise (k at least 1) has the smallest k-th most
recent access timestamp of all evictable frames. -/
theorem LRUKReplacer.evict_victim_choice (r : LRUKReplacer) (hr : r.Reachable)
    (hacc : ∀ p ∈ r.node_store, p.2.history ≠ []) :
    ∃ res r2, r.Evict = some (res, r2) ∧
      (res = none ↔ ∀ p ∈ r.node_store, p.2.is_evictable = false) ∧
      ∀ f, res = some f → ∃ n, (f, n) ∈ r.node_store ∧ n.is_evictable = true ∧
        ((∃ p ∈ r.node_store, p.2.is_evictable = true ∧ p.2.history.length < r.k) →
          n.history.length < r.k) ∧
        ((∀ p ∈ r.node_store, p.2.is_evictable = true → r.k ≤ p.2.history.length) →
          1 ≤ r.k → ∀ p ∈ r.node_store, p.2.is_evictable = true →
            LRUKReplacer.kthMostRecent r.k n ≤ LRUKReplacer.kthMostRecent r.k p.2) := by
  have hb := LRUKReplacer.stampsBelowClock_of_reachable hr
  obtain ⟨v, _, ⟨hF, hT⟩, hev⟩ := LRUKReplacer.evict_spec r hb (fun p hp _ => hacc p hp)
  refine ⟨_, _, hev, ?_, ?_⟩
  · cases hve : v.evict with
    | false => simpa using (hF hve).2.2
    | true =>
      obtain ⟨n, hn, hne, _⟩ := hT hve
      simp only [if_true]
      constructor
      · intro h
        exact absurd h (by simp)
      · intro h
        have := h _ hn
        simp only at this
        rw [this] at hne
        exact absurd hne (by simp)
  · intro f hf
    cases hve : v.evict with
    | false => simp [hve] at hf
    | true =>
      simp only [hve, if_true, Option.some.injEq] at hf
      subst hf
      obtain ⟨n, hn, hne, hinf, hfull⟩ := hT hve
      refine ⟨n, hn, hne, ?_, ?_⟩
      · rintro ⟨p, hp, hpe, hpl⟩
        cases hvi : v.inf with
        | true => exact (hinf hvi).1
        | false =>
          have := ((hfull hvi).2.2 p hp hpe).1
          omega
      · intro hall hk p hp hpe
        have hnl : r.k ≤ n.history.length := hall _ hn hne
        have hpl := hall p hp hpe
        cases hvi : v.inf with
        | true =>
          have := (hinf hvi).1
          omega
        | false =>
          obtain ⟨h1, _, h3⟩ := hfull hvi
          have h4 := (h3 p hp hpe).2
          rw [h1] at h4
          have h5 : LRUKReplacer.kthStamp r.k p.2.history < r.current_timestamp :=
            LRUKReplacer.kthStamp_lt ⟨hacc p hp, hb p hp⟩ hpl
          rw [← LRUKReplacer.kthStamp_eq_kthMostRecent r.k n hk,
            ← LRUKReplacer.kthStamp_eq_kthMostRecent r.k p.2 hk]
          omega

/-- C6, at the state of the spec's scenario (k = 2, accesses 1, 2, 3, 4, 5, 1, 2,
3, 1, 2, 4, all evictable): the state can occur, every tracked frame has a
recorded access, and Evict returns frame 5. -/
theorem LRUKReplacer.evict_victim_choice_witness :
    LRUKReplacer.scenarioState.Reachable ∧
    (∀ p ∈ LRUKReplacer.scenarioState.node_store, p.2.history ≠ []) ∧
    LRUKReplacer.scenarioState.Evict.map Prod.fst = some (some 5) ∧
    ∃ res r2, LRUKReplacer.scenarioState.Evict = some (res, r2) ∧
      (res = none ↔ ∀ p ∈ LRUKReplacer.scenarioState.node_store, p.2.is_evictable = false) ∧
      ∀ f, res = some f → ∃ n, (f, n) ∈ LRUKReplacer.scenarioState.node_store ∧
        n.is_evictable = true ∧
        ((∃ p ∈ LRUKReplacer.scenarioState.node_store,
            p.2.is_evictable = true ∧ p.2.history.length < LRUKReplacer.scenarioState.k) →
          n.history.length < LRUKReplacer.scenarioState.k) ∧
        ((∀ p ∈ LRUKReplacer.scenarioState.node_store, p.2.is_evictable = true →
            LRUKReplacer.scenarioState.k ≤ p.2.history.length) →
          1 ≤ LRUKReplacer.scenarioState.k →
          ∀ p ∈ LRUKReplacer.scenarioState.node_store, p.2.is_evictable = true →
            LRUKReplacer.kthMostRecent LRUKReplacer.scenarioState.k n ≤
              LRUKReplacer.kthMostRecent LRUKReplacer.scenarioState.k p.2) :=
  ⟨LRUKReplacer.scenarioState_reachable, by decide, by decide,
    LRUKReplacer.evict_victim_choice LRUKReplacer.scenarioState
      LRUKReplacer.scenarioState_reachable (by decide)⟩

/-- C7, as stated, fails: with k = 3, frame 1 accessed at times 0 and 2 and frame
2 at time 1, both evictable and both with fewer than k accesses, frame 1 has the
smallest earliest access, and Evict returns frame 2. -/
theorem LRUKReplacer.evict_tie_break_not_earliest :
    LRUKReplacer.tieState.Reachable ∧ 1 ≤ LRUKReplacer.tieState.k ∧
    LRUKReplacer.tieState.node_store = [(2, ⟨[1], true⟩), (1, ⟨[0, 2], true⟩)] ∧
    LRUKReplacer.frontStamp ⟨[0, 2], true⟩ < LRUKReplacer.frontStamp ⟨[1], true⟩ ∧
    LRUKReplacer.tieState.Evict.map Prod.fst = some (some 2) :=
  ⟨LRUKReplacer.tieState_reachable, by decide, rfl, by decide, by decide⟩

/-- C7, amended. Tie-break among the frames of infinite distance: in every
replacer state that can occur, in which every evictable frame has at least one
recorded access and some evictable frame has fewer than k, Evict returns an
evictable frame with fewer than k recorded accesses whose most recent access
timestamp is the smallest among the evictable frames with fewer than k. -/
theorem LRUKReplacer.evict_tie_break_most_recent (r : LRUKReplacer) (hr : r.Reachable)
    (hacc : ∀ p ∈ r.node_store, p.2.is_evictable = true → p.2.history ≠ [])
    (hinf : ∃ p ∈ r.node_store, p.2.is_evictable = true ∧ p.2.history.length < r.k) :
    ∃ f n r2, r.Evict = some (some f, r2) ∧ (f, n) ∈ r.node_store ∧
      n.is_evictable = true ∧ n.history.length < r.k ∧
      ∀ p ∈ r.node_store, p.2.is_evictable = true → p.2.history.length < r.k →
        LRUKReplacer.backStamp n ≤ LRUKReplacer.backStamp p.2 := by
  have hb := LRUKReplacer.stampsBelowClock_of_reachable hr
  obtain ⟨v, _, ⟨hF, hT⟩, hev⟩ := LRUKReplacer.evict_spec r hb hacc
  obtain ⟨p0, hp0, hp0e, hp0l⟩ := hinf
  have hve : v.evict = true := by
    by_contra hne
    have := (hF (by simpa using hne)).2.2 p0 hp0
    rw [this] at hp0e
    exact absurd hp0e (by simp)
  obtain ⟨n, hn, hne, hinf2, hfull⟩ := hT hve
  have hvi : v.inf = true := by
    by_contra hne2
    have := ((hfull (by simpa using hne2)).2.2 p0 hp0 hp0e).1
    omega
  obtain ⟨h1, h2, h3⟩ := hinf2 hvi
  simp only [hve, if_true] at hev
  refine ⟨v.frame_to_evict, n, _, hev, hn, hne, h1, ?_⟩
  intro p hp hpe hpl
  have h4 := h3 p hp hpe hpl
  rw [h2] at h4
  have h5 : LRUKReplacer.backStamp p.2 < r.current_timestamp :=
    LRUKReplacer.backStamp_lt ⟨hacc p hp hpe, hb p hp⟩
  omega

/-- C7, amended, at the state with k = 3, frame 1 accessed at times 0 and 2 and
frame 2 at time 1, both evictable. -/
theorem LRUKReplacer.evict_tie_break_most_recent_witness :
    ∃ f n r2, LRUKReplacer.tieState.Evict = some (some f, r2) ∧
      (f, n) ∈ LRUKReplacer.tieState.node_store ∧
      n.is_evictable = true ∧ n.history.length < LRUKReplacer.tieState.k ∧
      ∀ p ∈ LRUKReplacer.tieState.node_store, p.2.is_evictable = true →
        p.2.history.length < LRUKReplacer.tieState.k →
        LRUKReplacer.backStamp n ≤ LRUKReplacer.backStamp p.2 :=
  LRUKReplacer.evict_tie_break_most_recent LRUKReplacer.tieState
    LRUKReplacer.tieState_reachable (by decide) (by decide)

/-- C8. Remove erases the node and leaves curr_size_ as it was: after
RecordAccess(1), SetEvictable(1, true) and Remove(1) on a new replacer of 7
frames with k = 2, whatever a reached assertion does (none is reached), Size()
is 1 while no node is tracked and so no tracked node is evictable; the claim
says the two counts are equal. -/
theorem LRUKReplacer.remove_keeps_size (mode : AssertMode) :
    ((LRUKReplacer.new 7 2 mode).run [.recordAccess 1, .setEvictable 1 true, .remove 1]).map
      (fun r => (r.Size, r.evictableCount, r.node_store)) = some (1, 0, []) := by
  cases mode <;> decide

/-! ## Replacer: how the operations change the tracked frames -/

namespace NodeStore

theorem modify_cons (g : Int) (h : LRUKNode → LRUKNode) (q : Int) (n : LRUKNode)
    (m : NodeStore) :
    modify g h ((q, n) :: m) = (if q = g then (q, h n) else (q, n)) :: modify g h m := rfl

theorem find_modify (f g : Int) (h : LRUKNode → LRUKNode) (m : NodeStore) :
    find f (modify g h m) = if f = g then (find f m).map h else find f m := by
  induction m with
  | nil => simp [modify, find]
  | cons p m ih =>
    obtain ⟨q, n⟩ := p
    rw [modify_cons]
    by_cases hq : q = g
    · rw [if_pos hq]
      by_cases hf : q = f
      · have hfg : f = g := hf ▸ hq
        simp only [find, if_pos hf, if_pos hfg, Option.map_some']
      · simp only [find, if_neg hf]
        exact ih
    · rw [if_neg hq]
      by_cases hf : q = f
      · have hfg : ¬ f = g := hf ▸ hq
        simp only [find, if_pos hf, if_neg hfg]
      · simp only [find, if_neg hf]
        exact ih

theorem find_erase_node (f g : Int) (m : NodeStore) :
    find f (erase g m) = if f = g then none else find f m := by
  induction m with
  | nil => simp [erase, find]
  | cons p m ih =>
    obtain ⟨q, n⟩ := p
    unfold erase at ih ⊢
    by_cases hq : q = g
    · subst hq
      by_cases hf : f = q
      · subst hf
        simpa [List.filter, find] using ih
      · have hf2 : ¬ q = f := fun e => hf e.symm
        simpa [List.filter, find, hf, hf2] using ih
    · by_cases hf : q = f
      · subst hf
        simp [List.filter, find, hq]
      · simpa [List.filter, find, hq, hf] using ih

theorem find_touch (f g : Int) (m : NodeStore) :
    find f (touch g m) = if f = g then some ((find g m).getD LRUKNode.fresh) else find f m := by
  unfold touch
  cases hg : find g m with
  | none =>
    by_cases hf : f = g
    · subst hf
      simp [insert, find]
    · have hf2 : ¬ g = f := fun e => hf e.symm
      simp [insert, find, hf, hf2]
  | some n =>
    by_cases hf : f = g
    · subst hf
      simp [hg]
    · simp [hf]

theorem find_eq_none_iff (f : Int) (m : NodeStore) :
    find f m = none ↔ f ∉ m.map Prod.fst := by
  induction m with
  | nil => simp [find]
  | cons p m ih =>
    obtain ⟨q, n⟩ := p
    by_cases hq : q = f
    · subst hq
      simp [find]
    · have hq2 : ¬ f = q := fun e => hq e.symm
      simp only [find, hq, if_false, ih, List.map_cons, List.mem_cons, hq2, false_or]

theorem find_eq_some_iff (f : Int) (n : LRUKNode) (m : NodeStore) (hm : KeysNodup m) :
    find f m = some n ↔ (f, n) ∈ m := by
  induction m with
  | nil => simp [find]
  | cons p m ih =>
    obtain ⟨q, x⟩ := p
    have hm2 : KeysNodup m := (List.nodup_cons.1 hm).2
    have hq : q ∉ m.map Prod.fst := (List.nodup_cons.1 hm).1
    by_cases hqf : q = f
    · subst hqf
      simp only [find, if_true, Option.some.injEq, List.mem_cons, Prod.mk.injEq, true_and]
      constructor
      · intro h; exact Or.inl h.symm
      · rintro (h | h)
        · exact h.symm
        · exact absurd (List.mem_map.2 ⟨(q, n), h, rfl⟩) hq
    · have hqf2 : ¬ f = q := fun e => hqf e.symm
      simp only [find, hqf, if_false, ih hm2, List.mem_cons, Prod.mk.injEq, hqf2, false_and,
        false_or]

theorem find_perm (f : Int) {m m2 : NodeStore} (hm : KeysNodup m) (hp : m2.Perm m) :
    find f m2 = find f m := by
  have hm2 : KeysNodup m2 := (hp.map Prod.fst).nodup_iff.2 hm
  cases h : find f m with
  | none =>
    rw [find_eq_none_iff] at h ⊢
    intro hmem
    exact h ((hp.map Prod.fst).subset hmem)
  | some n =>
    rw [find_eq_some_iff f n m hm] at h
    rw [find_eq_some_iff f n m2 hm2]
    exact hp.symm.subset h

theorem keysNodup_modify (g : Int) (h : LRUKNode → LRUKNode) (m : NodeStore)
    (hm : KeysNodup m) : KeysNodup (modify g h m) := by
  have : (modify g h m).map Prod.fst = m.map Prod.fst := by
    unfold modify
    rw [List.map_map]
    apply List.map_congr_left
    intro p _
    by_cases hp : p.1 = g <;> simp [hp]
  unfold KeysNodup
  rw [this]
  exact hm

theorem keysNodup_erase (g : Int) (m : NodeStore) (hm : KeysNodup m) :
    KeysNodup (erase g m) := by
  unfold KeysNodup erase
  exact hm.sublist ((List.filter_sublist m).map Prod.fst)

theorem keysNodup_touch (g : Int) (m : NodeStore) (hm : KeysNodup m) :
    KeysNodup (touch g m) := by
  unfold touch
  cases hg : find g m with
  | none =>
    simp only [insert, KeysNodup, List.map_cons, List.nodup_cons]
    exact ⟨(find_eq_none_iff g m).1 hg, hm⟩
  | some n => exact hm

end NodeStore

namespace LRUKReplacer

theorem recordAccess_find {r r2 : LRUKReplacer} {g : Int} (h : r.RecordAccess g = some r2)
    (f : Int) :
    NodeStore.find f r2.node_store =
      if f = g then
        some (((NodeStore.find g r.node_store).getD LRUKNode.fresh).Access r.current_timestamp)
      else NodeStore.find f r.node_store := by
  unfold RecordAccess at h
  by_cases hr : r.rangeAssertFails g = true
  · simp [hr] at h
  · simp only [hr, Bool.false_eq_true, if_false, Option.some.injEq] at h
    subst h
    simp only [NodeStore.find_modify, NodeStore.find_touch]
    by_cases hf : f = g
    · simp [hf]
    · simp [hf]

theorem recordAccess_keysNodup {r r2 : LRUKReplacer} {g : Int}
    (h : r.RecordAccess g = some r2) (hn : NodeStore.KeysNodup r.node_store) :
    NodeStore.KeysNodup r2.node_store := by
  unfold RecordAccess at h
  by_cases hr : r.rangeAssertFails g = true
  · simp [hr] at h
  · simp only [hr, Bool.false_eq_true, if_false, Option.some.injEq] at h
    subst h
    exact NodeStore.keysNodup_modify g (fun n => n.Access r.current_timestamp) _
      (NodeStore.keysNodup_touch g _ hn)

theorem setEvictable_find {r r2 : LRUKReplacer} {g : Int} {b : Bool}
    (h : r.SetEvictable g b = some r2) (f : Int) :
    NodeStore.find f r2.node_store =
      if f = g then
        some { ((NodeStore.find g r.node_store).getD LRUKNode.fresh) with is_evictable := b }
      else NodeStore.find f r.node_store := by
  unfold SetEvictable at h
  by_cases hr : r.rangeAssertFails g = true
  · simp [hr] at h
  · simp only [hr, Bool.false_eq_true, if_false] at h
    have hfg : NodeStore.find g (r.node_store.touch g)
        = some ((NodeStore.find g r.node_store).getD LRUKNode.fresh) := by
      simp [NodeStore.find_touch]
    simp only [hfg] at h
    by_cases hb : ((((NodeStore.find g r.node_store).getD LRUKNode.fresh)).is_evictable != b)
        = true
    · simp only [hb, if_true, Option.some.injEq] at h
      subst h
      simp only [NodeStore.find_modify, NodeStore.find_touch]
      by_cases hf : f = g
      · subst hf
        have : (!((NodeStore.find f r.node_store).getD LRUKNode.fresh).is_evictable) = b := by
          cases hx : ((NodeStore.find f r.node_store).getD LRUKNode.fresh).is_evictable <;>
            cases b <;> simp_all
        simp [LRUKNode.verse_evictable, this]
      · simp [hf]
    · simp only [hb, Bool.false_eq_true, if_false, Option.some.injEq] at h
      subst h
      simp only [NodeStore.find_touch]
      by_cases hf : f = g
      · subst hf
        have : ((NodeStore.find f r.node_store).getD LRUKNode.fresh).is_evictable = b := by
          cases hx : ((NodeStore.find f r.node_store).getD LRUKNode.fresh).is_evictable <;>
            cases b <;> simp_all
        simp [← this]
      · simp [hf]

theorem setEvictable_keysNodup {r r2 : LRUKReplacer} {g : Int} {b : Bool}
    (h : r.SetEvictable g b = some r2) (hn : NodeStore.KeysNodup r.node_store) :
    NodeStore.KeysNodup r2.node_store := by
  unfold SetEvictable at h
  by_cases hr : r.rangeAssertFails g = true
  · simp [hr] at h
  · simp only [hr, Bool.false_eq_true, if_false] at h
    cases hf : NodeStore.find g (r.node_store.touch g) with
    | none => simp [hf] at h
    | some node =>
      simp only [hf] at h
      by_cases hb : (node.is_evictable != b) = true
      · simp only [hb, if_true, Option.some.injEq] at h
        subst h
        exact NodeStore.keysNodup_modify _ _ _ (NodeStore.keysNodup_touch _ _ hn)
      · simp only [hb, Bool.false_eq_true, if_false, Option.some.injEq] at h
        subst h
        exact NodeStore.keysNodup_touch _ _ hn

theorem remove_find {r r2 : LRUKReplacer} {g : Int} (h : r.Remove g = some r2) (f : Int) :
    NodeStore.find f r2.node_store = if f = g then none else NodeStore.find f r.node_store := by
  unfold Remove at h
  by_cases hr : r.removeRangeAssertFails g = true
  · simp [hr] at h
  · simp only [hr, Bool.false_eq_true, if_false] at h
    cases hf : NodeStore.find g r.node_store with
    | none =>
      simp only [hf, Option.some.injEq] at h
      subst h
      by_cases hfg : f = g
      · subst hfg
        simp [hf]
      · simp [hfg]
    | some node =>
      simp only [hf] at h
      by_cases he : r.notEvictableAssertFails node g = true
      · simp [he] at h
      · simp only [he, Bool.false_eq_true, if_false, Option.some.injEq] at h
        subst h
        exact NodeStore.find_erase_node f g r.node_store

theorem remove_keysNodup {r r2 : LRUKReplacer} {g : Int} (h : r.Remove g = some r2)
    (hn : NodeStore.KeysNodup r.node_store) : NodeStore.KeysNodup r2.node_store := by
  unfold Remove at h
  by_cases hr : r.removeRangeAssertFails g = true
  · simp [hr] at h
  · simp only [hr, Bool.false_eq_true, if_false] at h
    cases hf : NodeStore.find g r.node_store with
    | none =>
      simp only [hf, Option.some.injEq] at h
      subst h
      exact hn
    | some node =>
      simp only [hf] at h
      by_cases he : r.notEvictableAssertFails node g = true
      · simp [he] at h
      · simp only [he, Bool.false_eq_true, if_false, Option.some.injEq] at h
        subst h
        exact NodeStore.keysNodup_erase _ _ hn

theorem evict_find {r r2 : LRUKReplacer} {res : Option Int} (h : r.Evict = some (res, r2))
    (f : Int) :
    NodeStore.find f r2.node_store =
      if res = some f then none else NodeStore.find f r.node_store := by
  unfold Evict at h
  cases hl : evictLoop r.k r.current_timestamp r.node_store ⟨0, false, false, 0⟩ with
  | none => simp [hl] at h
  | some v =>
    simp only [hl] at h
    by_cases he : v.evict = true
    · simp only [he, Bool.not_true, Bool.false_eq_true, if_false, Option.some.injEq,
        Prod.mk.injEq] at h
      obtain ⟨h1, h2⟩ := h
      subst h1 h2
      simp only [NodeStore.find_erase_node, Option.some.injEq]
      by_cases hf : f = v.frame_to_evict
      · simp [hf]
      · have : ¬ v.frame_to_evict = f := fun e => hf e.symm
        simp [hf, this]
    · simp only [he, Bool.not_false, if_true, Option.some.injEq, Prod.mk.injEq] at h
      obtain ⟨h1, h2⟩ := h
      subst h1 h2
      simp

theorem evict_keysNodup {r r2 : LRUKReplacer} {res : Option Int} (h : r.Evict = some (res, r2))
    (hn : NodeStore.KeysNodup r.node_store) : NodeStore.KeysNodup r2.node_store := by
  unfold Evict at h
  cases hl : evictLoop r.k r.current_timestamp r.node_store ⟨0, false, false, 0⟩ with
  | none => simp [hl] at h
  | some v =>
    simp only [hl] at h
    by_cases he : v.evict = true
    · simp only [he, Bool.not_true, Bool.false_eq_true, if_false, Option.some.injEq,
        Prod.mk.injEq] at h
      rw [← h.2]
      exact NodeStore.keysNodup_erase _ _ hn
    · simp only [he, Bool.not_false, if_true, Option.some.injEq, Prod.mk.injEq] at h
      rw [← h.2]
      exact hn

end LRUKReplacer
/-! ## Buffer pool manager: how the operations are composed -/

namespace BufferPoolManager

variable {D : Type}

theorem pageAt_setPage (b : BufferPoolManager D) (f g : Int) (pg : Page D) (hf : 0 ≤ f) :
    (b.setPage f pg).pageAt g =
      if g = f then (b.pageAt f).map (fun _ => pg) else b.pageAt g := by
  unfold pageAt setPage
  by_cases hg : 0 ≤ g
  · simp only [hg, if_true, hf, List.getElem?_set']
    by_cases hgf : g = f
    · subst hgf
      simp
      cases b.pages[g.toNat]? <;> rfl
    · have : ¬ f.toNat = g.toNat := by omega
      simp [hgf, this]
  · have hgf : ¬ g = f := by omega
    simp [hg, hgf]

theorem nonneg_of_pageAt {b : BufferPoolManager D} {f : Int} {pg : Page D}
    (h : b.pageAt f = some pg) : 0 ≤ f := by
  unfold pageAt at h
  by_cases hf : 0 ≤ f
  · exact hf
  · simp [hf] at h

/-- What pickFrame returns: a frame popped from the free list, or, the free list
being empty, the answer of Evict. -/
theorem pickFrame_inv {b b1 : BufferPoolManager D} {res : Option Int}
    (h : b.pickFrame = some (res, b1)) :
    (∃ f, b.free_list.getLast? = some f ∧ res = some f ∧
        b1 = { b with free_list := b.free_list.dropLast }) ∨
    (b.free_list = [] ∧ ∃ r, b.replacer.Evict = some (res, r) ∧
        b1 = { b with replacer := r }) := by
  unfold pickFrame at h
  cases hl : b.free_list.getLast? with
  | some f =>
    simp only [hl, Option.some.injEq, Prod.mk.injEq] at h
    exact Or.inl ⟨f, rfl, h.1.symm, h.2.symm⟩
  | none =>
    simp only [hl] at h
    right
    refine ⟨List.getLast?_eq_none_iff.1 hl, ?_⟩
    cases he : b.replacer.Evict with
    | none => simp [he] at h
    | some x =>
      obtain ⟨res2, r⟩ := x
      cases res2 with
      | none =>
        simp only [he, Option.some.injEq, Prod.mk.injEq] at h
        obtain ⟨h1, h2⟩ := h
        subst h1 h2
        have hr : r = b.replacer := by
          unfold LRUKReplacer.Evict at he
          cases hl2 : LRUKReplacer.evictLoop b.replacer.k b.replacer.current_timestamp
              b.replacer.node_store ⟨0, false, false, 0⟩ with
          | none => simp [hl2] at he
          | some v =>
            simp only [hl2] at he
            by_cases hv : v.evict = true
            · simp [hv] at he
            · simp only [hv, Bool.not_false, if_true, Option.some.injEq, Prod.mk.injEq,
                true_and] at he
              exact he.symm
        exact ⟨r, rfl, by rw [hr]⟩
      | some f =>
        simp only [he, Option.some.injEq, Prod.mk.injEq] at h
        obtain ⟨h1, h2⟩ := h
        subst h1 h2
        exact ⟨r, rfl, rfl⟩

theorem bindFrame_inv [Inhabited D] {b b3 : BufferPoolManager D} {f pid : Int} {page : Page D}
    (h : b.bindFrame f page pid = some b3) :
    ∃ r1 r2, b.replacer.RecordAccess f = some r1 ∧ r1.SetEvictable f false = some r2 ∧
      b3 = { (b.setPage f { page with page_id := pid, pin_count := 1, data := default }) with
             page_table := (b.page_table.erase page.page_id).emplace pid f, replacer := r2 } := by
  unfold bindFrame at h
  cases h1 : b.replacer.RecordAccess f with
  | none => simp [h1] at h
  | some r1 =>
    simp only [h1] at h
    cases h2 : r1.SetEvictable f false with
    | none => simp [h2] at h
    | some r2 =>
      simp only [h2, Option.some.injEq] at h
      exact ⟨r1, r2, rfl, h2, h.symm⟩

theorem NewPage_inv [Inhabited D] {b b3 : BufferPoolManager D} {res : Option (Int × Int)}
    (h : b.NewPage = some (res, b3)) :
    (res = none ∧ b3 = b ∧ b.pickFrame = some (none, b)) ∨
    (∃ f b1 page, b.pickFrame = some (some f, b1) ∧ b1.pageAt f = some page ∧
      res = some (b1.next_page_id, f) ∧
      bindFrame { b1 with disk := (writeBack b1.disk page).1,
                          next_page_id := b1.next_page_id + 1 } f
        (writeBack b1.disk page).2 b1.next_page_id = some b3) := by
  unfold NewPage at h
  cases hp : b.pickFrame with
  | none => simp [hp] at h
  | some x =>
    obtain ⟨fr, b1⟩ := x
    cases fr with
    | none =>
      simp only [hp, Option.some.injEq, Prod.mk.injEq] at h
      obtain ⟨h1, h2⟩ := h
      subst h1 h2
      left
      rcases pickFrame_inv hp with ⟨f, _, hf, _⟩ | ⟨_, r, _, hb1⟩
      · simp at hf
      · have : b1 = b := by
          unfold pickFrame at hp
          cases hl : b.free_list.getLast? with
          | some f => simp [hl] at hp
          | none =>
            simp only [hl] at hp
            cases he : b.replacer.Evict with
            | none => simp [he] at hp
            | some y =>
              obtain ⟨res2, r2⟩ := y
              cases res2 with
              | none =>
                simp only [he, Option.some.injEq, Prod.mk.injEq, true_and] at hp
                exact hp.symm
              | some f => simp [he] at hp
        subst this
        exact ⟨rfl, rfl, rfl⟩
    | some f =>
      simp only [hp] at h
      right
      cases hpg : b1.pageAt f with
      | none => simp [hpg] at h
      | some page =>
        simp only [hpg] at h
        cases hb : (bindFrame
            { b1 with disk := (writeBack b1.disk page).1, next_page_id := b1.next_page_id + 1 }
            f (writeBack b1.disk page).2 b1.next_page_id) with
        | none => simp [hb] at h
        | some b4 =>
          simp only [hb, Option.some.injEq, Prod.mk.injEq] at h
          obtain ⟨h1, h2⟩ := h
          subst h1 h2
          exact ⟨f, b1, page, rfl, hpg, rfl, hb⟩

theorem FetchPage_inv [Inhabited D] {b b3 : BufferPoolManager D} {page_id : Int} {res : Option Int}
    (h : b.FetchPage page_id = some (res, b3)) :
    (res = none ∧ b3 = b) ∨
    (page_id ≠ INVALID_PAGE_ID ∧ ∃ f page r1 r2, b.page_table.find page_id = some f ∧
      b.pageAt f = some page ∧ b.replacer.RecordAccess f = some r1 ∧
      r1.SetEvictable f false = some r2 ∧ res = some f ∧
      b3 = { (b.setPage f { page with pin_count := page.pin_count + 1 }) with replacer := r2 }) ∨
    (page_id ≠ INVALID_PAGE_ID ∧ b.page_table.find page_id = none ∧
      ∃ f b1 page b2 page3, b.pickFrame = some (some f, b1) ∧ b1.pageAt f = some page ∧
      bindFrame { b1 with disk := (writeBack b1.disk page).1 } f (writeBack b1.disk page).2
        page_id = some b2 ∧
      b2.pageAt f = some page3 ∧ res = some f ∧
      b3 = b2.setPage f { page3 with data := Disk.read page_id b2.disk }) := by
  unfold FetchPage at h
  by_cases hi : page_id = INVALID_PAGE_ID
  · simp only [hi, if_true, Option.some.injEq, Prod.mk.injEq] at h
    exact Or.inl ⟨h.1.symm, h.2.symm⟩
  · simp only [hi, if_false] at h
    cases hf : b.page_table.find page_id with
    | some f =>
      simp only [hf] at h
      cases hpg : b.pageAt f with
      | none => simp [hpg] at h
      | some page =>
        simp only [hpg] at h
        cases h1 : b.replacer.RecordAccess f with
        | none => simp [h1] at h
        | some r1 =>
          simp only [h1] at h
          cases h2 : r1.SetEvictable f false with
          | none => simp [h2] at h
          | some r2 =>
            simp only [h2, Option.some.injEq, Prod.mk.injEq] at h
            exact Or.inr (Or.inl ⟨hi, f, page, r1, r2, rfl, hpg, h1, h2, h.1.symm, h.2.symm⟩)
    | none =>
      simp only [hf] at h
      cases hp : b.pickFrame with
      | none => simp [hp] at h
      | some x =>
        obtain ⟨fr, b1⟩ := x
        cases fr with
        | none =>
          simp only [hp, Option.some.injEq, Prod.mk.injEq] at h
          obtain ⟨h1, h2⟩ := h
          subst h1 h2
          left
          refine ⟨rfl, ?_⟩
          unfold pickFrame at hp
          cases hl : b.free_list.getLast? with
          | some f => simp [hl] at hp
          | none =>
            simp only [hl] at hp
            cases he : b.replacer.Evict with
            | none => simp [he] at hp
            | some y =>
              obtain ⟨res2, r2⟩ := y
              cases res2 with
              | none =>
                simp only [he, Option.some.injEq, Prod.mk.injEq, true_and] at hp
                exact hp.symm
              | some f => simp [he] at hp
        | some f =>
          simp only [hp] at h
          right; right
          refine ⟨hi, rfl, ?_⟩
          cases hpg : b1.pageAt f with
          | none => simp [hpg] at h
          | some page =>
            simp only [hpg] at h
            cases hb : (bindFrame { b1 with disk := (writeBack b1.disk page).1 } f
                (writeBack b1.disk page).2 page_id) with
            | none => simp [hb] at h
            | some b2 =>
              simp only [hb] at h
              cases hpg3 : b2.pageAt f with
              | none => simp [hpg3] at h
              | some page3 =>
                simp only [hpg3, Option.some.injEq, Prod.mk.injEq] at h
                exact ⟨f, b1, page, b2, page3, rfl, hpg, hb, hpg3, h.1.symm, h.2.symm⟩

theorem UnpinPage_inv {b b3 : BufferPoolManager D} {page_id : Int} {is_dirty res : Bool}
    (h : b.UnpinPage page_id is_dirty = some (res, b3)) :
    (res = false ∧ b3 = b) ∨
    (∃ f page, b.page_table.find page_id = some f ∧ b.pageAt f = some page ∧
      ((page.pin_count = 0 ∧ res = false ∧
          b3 = b.setPage f { page with is_dirty := is_dirty || page.is_dirty }) ∨
       (page.pin_count = 1 ∧ res = true ∧ ∃ r, b.replacer.SetEvictable f true = some r ∧
          b3 = { (b.setPage f { page with is_dirty := is_dirty || page.is_dirty,
                                          pin_count := 0 }) with replacer := r }) ∨
       (1 < page.pin_count ∧ res = true ∧
          b3 = b.setPage f { page with is_dirty := is_dirty || page.is_dirty,
                                       pin_count := page.pin_count - 1 }))) := by
  unfold UnpinPage at h
  by_cases hi : page_id = INVALID_PAGE_ID
  · simp only [hi, if_true, Option.some.injEq, Prod.mk.injEq] at h
    exact Or.inl ⟨h.1.symm, h.2.symm⟩
  · simp only [hi, if_false] at h
    cases hf : b.page_table.find page_id with
    | none =>
      simp only [hf, Option.some.injEq, Prod.mk.injEq] at h
      exact Or.inl ⟨h.1.symm, h.2.symm⟩
    | some f =>
      simp only [hf] at h
      cases hpg : b.pageAt f with
      | none => simp [hpg] at h
      | some page =>
        simp only [hpg] at h
        right
        refine ⟨f, page, rfl, hpg, ?_⟩
        by_cases h0 : page.pin_count = 0
        · rw [if_pos h0] at h
          simp only [Option.some.injEq, Prod.mk.injEq] at h
          exact Or.inl ⟨h0, h.1.symm, h.2.symm⟩
        · rw [if_neg h0] at h
          by_cases h1 : page.pin_count - 1 = 0
          · rw [if_pos h1] at h
            cases hs : b.replacer.SetEvictable f true with
            | none => simp [hs] at h
            | some r =>
              simp only [hs, Option.some.injEq, Prod.mk.injEq] at h
              refine Or.inr (Or.inl ⟨by omega, h.1.symm, r, rfl, ?_⟩)
              rw [← h.2, h1]
          · rw [if_neg h1] at h
            simp only [Option.some.injEq, Prod.mk.injEq] at h
            exact Or.inr (Or.inr ⟨by omega, h.1.symm, h.2.symm⟩)

theorem FlushPage_inv {b b3 : BufferPoolManager D} {page_id : Int} {res : Bool}
    (h : b.FlushPage page_id = some (res, b3)) :
    (res = false ∧ b3 = b) ∨
    (∃ f page, b.page_table.find page_id = some f ∧ b.pageAt f = some page ∧ res = true ∧
      b3 = { (b.setPage f { page with is_dirty := false }) with
             disk := (page.page_id, page.data) :: b.disk }) := by
  unfold FlushPage at h
  by_cases hi : page_id = INVALID_PAGE_ID
  · simp only [hi, if_true, Option.some.injEq, Prod.mk.injEq] at h
    exact Or.inl ⟨h.1.symm, h.2.symm⟩
  · simp only [hi, if_false] at h
    cases hf : b.page_table.find page_id with
    | none =>
      simp only [hf, Option.some.injEq, Prod.mk.injEq] at h
      exact Or.inl ⟨h.1.symm, h.2.symm⟩
    | some f =>
      simp only [hf] at h
      cases hpg : b.pageAt f with
      | none => simp [hpg] at h
      | some page =>
        simp only [hpg, Option.some.injEq, Prod.mk.injEq] at h
        exact Or.inr ⟨f, page, rfl, hpg, h.1.symm, h.2.symm⟩

theorem DeletePage_inv [Inhabited D] {b b3 : BufferPoolManager D} {page_id : Int} {res : Bool}
    (h : b.DeletePage page_id = some (res, b3)) :
    (b3 = b) ∨
    (page_id ≠ INVALID_PAGE_ID ∧ ∃ f page r, b.page_table.find page_id = some f ∧
      b.pageAt f = some page ∧ page.pin_count = 0 ∧ b.replacer.Remove f = some r ∧ res = true ∧
      b3 = { b with page_table := b.page_table.erase page_id,
                    free_list := b.free_list ++ [f],
                    replacer := r,
                    pages := b.pages.set f.toNat
                      { page with data := default, page_id := INVALID_PAGE_ID,
                                  is_dirty := false, pin_count := 0 } }) := by
  unfold DeletePage at h
  by_cases hi : page_id = INVALID_PAGE_ID
  · simp only [hi, if_true, Option.some.injEq, Prod.mk.injEq] at h
    exact Or.inl h.2.symm
  · simp only [hi, if_false] at h
    cases hf : b.page_table.find page_id with
    | none =>
      simp only [hf, Option.some.injEq, Prod.mk.injEq] at h
      exact Or.inl h.2.symm
    | some f =>
      simp only [hf] at h
      cases hpg : b.pageAt f with
      | none => simp [hpg] at h
      | some page =>
        simp only [hpg] at h
        by_cases hpin : page.pin_count > 0
        · simp only [hpin, if_true, Option.some.injEq, Prod.mk.injEq] at h
          exact Or.inl h.2.symm
        · simp only [hpin, if_false] at h
          cases hr : b.replacer.Remove f with
          | none => simp [hr] at h
          | some r =>
            simp only [hr, Option.some.injEq, Prod.mk.injEq] at h
            exact Or.inr ⟨hi, f, page, r, rfl, hpg, by omega, hr, h.1.symm, h.2.symm⟩

end BufferPoolManager
/-! ## Buffer pool manager: pinned frames are not evictable (BP2, BP3) -/

namespace LRUKReplacer

theorem evictable_of_bind {r r1 r2 : LRUKReplacer} {f g : Int}
    (h1 : r.RecordAccess f = some r1) (h2 : r1.SetEvictable f false = some r2)
    (he : r2.node_store.evictable g) : g ≠ f ∧ r.node_store.evictable g := by
  obtain ⟨n, hn, hne⟩ := he
  rw [setEvictable_find h2 g] at hn
  by_cases hg : g = f
  · simp only [hg, if_true, Option.some.injEq] at hn
    subst hn
    simp at hne
  · simp only [hg, if_false] at hn
    rw [recordAccess_find h1 g, if_neg hg] at hn
    exact ⟨hg, n, hn, hne⟩

theorem not_evictable_of_bind {r r1 r2 : LRUKReplacer} {f : Int}
    (h1 : r.RecordAccess f = some r1) (h2 : r1.SetEvictable f false = some r2) :
    ¬ r2.node_store.evictable f :=
  fun he => (evictable_of_bind h1 h2 he).1 rfl

theorem evictable_of_evict {r r2 : LRUKReplacer} {res : Option Int} {g : Int}
    (h : r.Evict = some (res, r2)) (he : r2.node_store.evictable g) :
    r.node_store.evictable g := by
  obtain ⟨n, hn, hne⟩ := he
  rw [evict_find h g] at hn
  by_cases hg : res = some g
  · simp [hg] at hn
  · simp only [hg, if_false] at hn
    exact ⟨n, hn, hne⟩

theorem evictable_of_remove {r r2 : LRUKReplacer} {f g : Int}
    (h : r.Remove f = some r2) (he : r2.node_store.evictable g) :
    r.node_store.evictable g := by
  obtain ⟨n, hn, hne⟩ := he
  rw [remove_find h g] at hn
  by_cases hg : g = f
  · simp [hg] at hn
  · simp only [hg, if_false] at hn
    exact ⟨n, hn, hne⟩

theorem evictable_of_setEvictable {r r2 : LRUKReplacer} {f g : Int} {b : Bool}
    (h : r.SetEvictable f b = some r2) (he : r2.node_store.evictable g) :
    g = f ∨ r.node_store.evictable g := by
  obtain ⟨n, hn, hne⟩ := he
  rw [setEvictable_find h g] at hn
  by_cases hg : g = f
  · exact Or.inl hg
  · simp only [hg, if_false] at hn
    exact Or.inr ⟨n, hn, hne⟩

end LRUKReplacer

namespace BufferPoolManager

variable {D : Type}

theorem pickFrame_effect {b b1 : BufferPoolManager D} {res : Option Int}
    (h : b.pickFrame = some (res, b1)) :
    b1.pages = b.pages ∧ b1.page_table = b.page_table ∧ b1.pool_size = b.pool_size ∧
    b1.next_page_id = b.next_page_id ∧ b1.disk = b.disk ∧
    (∀ g, b1.evictable g → b.evictable g) ∧
    (b.replacer.node_store.KeysNodup → b1.replacer.node_store.KeysNodup) := by
  rcases pickFrame_inv h with ⟨f, _, _, rfl⟩ | ⟨_, r, he, rfl⟩
  · exact ⟨rfl, rfl, rfl, rfl, rfl, fun g hg => hg, fun hn => hn⟩
  · exact ⟨rfl, rfl, rfl, rfl, rfl, fun g hg => LRUKReplacer.evictable_of_evict he hg,
      fun hn => LRUKReplacer.evict_keysNodup he hn⟩

theorem flushLoop_length (disk : Disk D) (pages : List (Page D)) :
    (flushLoop disk pages).2.length = pages.length := by
  induction pages generalizing disk with
  | nil => rfl
  | cons pg rest ih => simp [flushLoop, ih]

theorem flushOne_snd (d1 d2 : Disk D) (pg : Page D) :
    (flushOne d1 pg).2 = (flushOne d2 pg).2 := by
  unfold flushOne
  by_cases h : pg.page_id = INVALID_PAGE_ID <;> simp [h]

theorem flushLoop_getElem? (disk : Disk D) (pages : List (Page D)) (i : Nat) :
    (flushLoop disk pages).2[i]? = (pages[i]?).map (fun pg => (flushOne disk pg).2) := by
  induction pages generalizing disk i with
  | nil => simp [flushLoop]
  | cons pg rest ih =>
    cases i with
    | zero => simp [flushLoop]
    | succ i =>
      simp only [flushLoop, List.getElem?_cons_succ, ih]
      cases rest[i]? with
      | none => rfl
      | some x => simp [flushOne_snd (flushOne disk pg).1 disk x]

theorem pageAt_FlushAllPages (b : BufferPoolManager D) (g : Int) :
    b.FlushAllPages.pageAt g = (b.pageAt g).map (fun pg => (flushOne b.disk pg).2) := by
  unfold pageAt FlushAllPages
  by_cases hg : 0 ≤ g
  · simp only [hg, if_true, flushLoop_getElem?]
  · simp [hg]

theorem flushOne_pin (disk : Disk D) (pg : Page D) :
    (flushOne disk pg).2.pin_count = pg.pin_count ∧ (flushOne disk pg).2.page_id = pg.page_id := by
  unfold flushOne
  by_cases h : pg.page_id = INVALID_PAGE_ID <;> simp [h]

/-- Step lemma: every operation keeps the replacer's map well formed and the
pinned frames not evictable. -/
theorem bp2_newPage [Inhabited D] {b b3 : BufferPoolManager D} {res : Option (Int × Int)}
    (h : b.NewPage = some (res, b3)) (hn : b.replacer.node_store.KeysNodup) (h2 : BP2 b) :
    b3.replacer.node_store.KeysNodup ∧ BP2 b3 := by
  rcases NewPage_inv h with ⟨_, rfl, _⟩ | ⟨f, b1, page, hp, hpg, _, hb⟩
  · exact ⟨hn, h2⟩
  · obtain ⟨hpages, _, _, _, _, hev, hnd⟩ := pickFrame_effect hp
    obtain ⟨r1, r2, hr1, hr2, rfl⟩ := bindFrame_inv hb
    have hf := nonneg_of_pageAt hpg
    refine ⟨LRUKReplacer.setEvictable_keysNodup hr2
      (LRUKReplacer.recordAccess_keysNodup hr1 (hnd hn)), ?_⟩
    intro g pg hg hpin he
    obtain ⟨hgf, he1⟩ := LRUKReplacer.evictable_of_bind hr1 hr2 he
    have hg2 : (b1.setPage f { (writeBack b1.disk page).2 with
        page_id := b1.next_page_id, pin_count := 1, data := default }).pageAt g = some pg := hg
    rw [pageAt_setPage _ _ _ _ hf, if_neg hgf] at hg2
    have hg3 : b.pageAt g = some pg := by
      unfold pageAt at hg2 ⊢
      rw [← hpages]
      exact hg2
    exact h2 g pg hg3 hpin (hev g he1)

theorem bp2_fetchPage [Inhabited D] {b b3 : BufferPoolManager D} {page_id : Int}
    {res : Option Int} (h : b.FetchPage page_id = some (res, b3))
    (hn : b.replacer.node_store.KeysNodup) (h2 : BP2 b) :
    b3.replacer.node_store.KeysNodup ∧ BP2 b3 := by
  rcases FetchPage_inv h with ⟨_, rfl⟩ | ⟨_, f, page, r1, r2, _, hpg, hr1, hr2, _, rfl⟩ |
      ⟨_, _, f, b1, page, b2, page3, hp, hpg, hb, hpg3, _, rfl⟩
  · exact ⟨hn, h2⟩
  · have hf := nonneg_of_pageAt hpg
    refine ⟨LRUKReplacer.setEvictable_keysNodup hr2
      (LRUKReplacer.recordAccess_keysNodup hr1 hn), ?_⟩
    intro g pg hg hpin he
    obtain ⟨hgf, he1⟩ := LRUKReplacer.evictable_of_bind hr1 hr2 he
    have hg2 : (b.setPage f { page with pin_count := page.pin_count + 1 }).pageAt g
        = some pg := hg
    rw [pageAt_setPage _ _ _ _ hf, if_neg hgf] at hg2
    exact h2 g pg hg2 hpin he1
  · obtain ⟨hpages, _, _, _, _, hev, hnd⟩ := pickFrame_effect hp
    obtain ⟨r1, r2, hr1, hr2, rfl⟩ := bindFrame_inv hb
    have hf := nonneg_of_pageAt hpg
    refine ⟨LRUKReplacer.setEvictable_keysNodup hr2
      (LRUKReplacer.recordAccess_keysNodup hr1 (hnd hn)), ?_⟩
    intro g pg hg hpin he
    obtain ⟨hgf, he1⟩ := LRUKReplacer.evictable_of_bind hr1 hr2 he
    rw [pageAt_setPage _ _ _ _ hf, if_neg hgf] at hg
    have hg2 : (b1.setPage f { (writeBack b1.disk page).2 with
        page_id := page_id, pin_count := 1, data := default }).pageAt g = some pg := hg
    rw [pageAt_setPage _ _ _ _ hf, if_neg hgf] at hg2
    have hg3 : b.pageAt g = some pg := by
      unfold pageAt at hg2 ⊢
      rw [← hpages]
      exact hg2
    exact h2 g pg hg3 hpin (hev g he1)

theorem bp2_unpinPage {b b3 : BufferPoolManager D} {page_id : Int} {is_dirty res : Bool}
    (h : b.UnpinPage page_id is_dirty = some (res, b3))
    (hn : b.replacer.node_store.KeysNodup) (h2 : BP2 b) :
    b3.replacer.node_store.KeysNodup ∧ BP2 b3 := by
  rcases UnpinPage_inv h with ⟨_, rfl⟩ | ⟨f, page, _, hpg, hcase⟩
  · exact ⟨hn, h2⟩
  · have hf := nonneg_of_pageAt hpg
    rcases hcase with ⟨h0, _, rfl⟩ | ⟨h1, _, r, hr, rfl⟩ | ⟨h1, _, rfl⟩
    · refine ⟨hn, ?_⟩
      intro g pg hg hpin he
      rw [pageAt_setPage _ _ _ _ hf] at hg
      by_cases hgf : g = f
      · subst hgf
        simp only [if_true, hpg, Option.map_some', Option.some.injEq] at hg
        subst hg
        simp only at hpin
        omega
      · rw [if_neg hgf] at hg
        exact h2 g pg hg hpin he
    · refine ⟨LRUKReplacer.setEvictable_keysNodup hr hn, ?_⟩
      intro g pg hg hpin he
      have hg2 : (b.setPage f { page with
          is_dirty := is_dirty || page.is_dirty, pin_count := 0 }).pageAt g = some pg := hg
      rw [pageAt_setPage _ _ _ _ hf] at hg2
      by_cases hgf : g = f
      · subst hgf
        simp only [if_true, hpg, Option.map_some', Option.some.injEq] at hg2
        subst hg2
        simp at hpin
      · rw [if_neg hgf] at hg2
        rcases LRUKReplacer.evictable_of_setEvictable hr he with hgf2 | he1
        · exact hgf hgf2
        · exact h2 g pg hg2 hpin he1
    · refine ⟨hn, ?_⟩
      intro g pg hg hpin he
      rw [pageAt_setPage _ _ _ _ hf] at hg
      by_cases hgf : g = f
      · subst hgf
        exact h2 g page hpg (by omega) he
      · rw [if_neg hgf] at hg
        exact h2 g pg hg hpin he

theorem bp2_flushPage {b b3 : BufferPoolManager D} {page_id : Int} {res : Bool}
    (h : b.FlushPage page_id = some (res, b3))
    (hn : b.replacer.node_store.KeysNodup) (h2 : BP2 b) :
    b3.replacer.node_store.KeysNodup ∧ BP2 b3 := by
  rcases FlushPage_inv h with ⟨_, rfl⟩ | ⟨f, page, _, hpg, _, rfl⟩
  · exact ⟨hn, h2⟩
  · have hf := nonneg_of_pageAt hpg
    refine ⟨hn, ?_⟩
    intro g pg hg hpin he
    have hg2 : (b.setPage f { page with is_dirty := false }).pageAt g = some pg := hg
    rw [pageAt_setPage _ _ _ _ hf] at hg2
    by_cases hgf : g = f
    · subst hgf
      simp only [if_true, hpg, Option.map_some', Option.some.injEq] at hg2
      subst hg2
      exact h2 g page hpg hpin he
    · rw [if_neg hgf] at hg2
      exact h2 g pg hg2 hpin he

theorem bp2_flushAllPages {b : BufferPoolManager D}
    (hn : b.replacer.node_store.KeysNodup) (h2 : BP2 b) :
    b.FlushAllPages.replacer.node_store.KeysNodup ∧ BP2 b.FlushAllPages := by
  refine ⟨hn, ?_⟩
  intro g pg hg hpin he
  rw [pageAt_FlushAllPages] at hg
  cases hb : b.pageAt g with
  | none => simp [hb] at hg
  | some pg0 =>
    simp only [hb, Option.map_some', Option.some.injEq] at hg
    subst hg
    rw [(flushOne_pin b.disk pg0).1] at hpin
    exact h2 g pg0 hb hpin he

theorem bp2_deletePage [Inhabited D] {b b3 : BufferPoolManager D} {page_id : Int} {res : Bool}
    (h : b.DeletePage page_id = some (res, b3))
    (hn : b.replacer.node_store.KeysNodup) (h2 : BP2 b) :
    b3.replacer.node_store.KeysNodup ∧ BP2 b3 := by
  rcases DeletePage_inv h with rfl | ⟨_, f, page, r, _, hpg, _, hr, _, rfl⟩
  · exact ⟨hn, h2⟩
  · have hf := nonneg_of_pageAt hpg
    refine ⟨LRUKReplacer.remove_keysNodup hr hn, ?_⟩
    intro g pg hg hpin he
    have hg2 : (b.setPage f { page with
        data := default, page_id := INVALID_PAGE_ID, is_dirty := false,
        pin_count := 0 }).pageAt g = some pg := hg
    rw [pageAt_setPage _ _ _ _ hf] at hg2
    by_cases hgf : g = f
    · subst hgf
      simp only [if_true, hpg, Option.map_some', Option.some.injEq] at hg2
      subst hg2
      simp at hpin
    · rw [if_neg hgf] at hg2
      exact h2 g pg hg2 hpin (LRUKReplacer.evictable_of_remove hr he)

theorem bp2_of_reachable [Inhabited D] {b : BufferPoolManager D} (h : Reachable b) :
    b.replacer.node_store.KeysNodup ∧ BP2 b := by
  induction h with
  | init pool_size replacer_k mode =>
    refine ⟨by simp [new, LRUKReplacer.new, NodeStore.KeysNodup], ?_⟩
    intro g pg _ _ he
    obtain ⟨n, hn, _⟩ := he
    simp [new, LRUKReplacer.new, NodeStore.find] at hn
  | newPage res _ hstep ih => exact bp2_newPage hstep ih.1 ih.2
  | fetchPage page_id res _ hstep ih => exact bp2_fetchPage hstep ih.1 ih.2
  | unpinPage page_id is_dirty res _ hstep ih => exact bp2_unpinPage hstep ih.1 ih.2
  | flushPage page_id res _ hstep ih => exact bp2_flushPage hstep ih.1 ih.2
  | flushAllPages _ ih => exact bp2_flushAllPages ih.1 ih.2
  | deletePage page_id res _ hstep ih => exact bp2_deletePage hstep ih.1 ih.2
  | @reorder b store _ hperm ih =>
    refine ⟨(hperm.map Prod.fst).nodup_iff.2 ih.1, ?_⟩
    intro g pg hg hpin he
    obtain ⟨n, hn, hne⟩ := he
    have hn2 : NodeStore.find g store = some n := hn
    rw [NodeStore.find_perm g ih.1 hperm] at hn2
    exact ih.2 g pg hg hpin ⟨n, hn2, hne⟩

end BufferPoolManager
/-! ## Buffer pool manager: the free list and the page table (BP1) -/

namespace PageTable

theorem find_erase_page (q p : Int) (t : PageTable) :
    find q (erase p t) = if q = p then none else find q t := by
  induction t with
  | nil => simp [erase, find]
  | cons e t ih =>
    obtain ⟨k, f⟩ := e
    unfold erase at ih ⊢
    by_cases hk : k = p
    · subst hk
      by_cases hq : q = k
      · subst hq
        simpa [List.filter, find] using ih
      · have hq2 : ¬ k = q := fun e => hq e.symm
        simpa [List.filter, find, hq, hq2] using ih
    · by_cases hq : k = q
      · subst hq
        simp [List.filter, find, hk]
      · simpa [List.filter, find, hk, hq] using ih

theorem find_emplace (q p f : Int) (t : PageTable) :
    find q (emplace p f t) =
      if (find p t).isSome then find q t else if q = p then some f else find q t := by
  unfold emplace
  cases hp : find p t with
  | some g => simp
  | none =>
    by_cases hq : q = p
    · subst hq
      simp [find]
    · have hq2 : ¬ p = q := fun e => hq e.symm
      simp [find, hq, hq2]

end PageTable

theorem List.not_mem_dropLast_of_getLast? {α : Type} {l : List α} {a : α} (hn : l.Nodup)
    (h : l.getLast? = some a) : a ∉ l.dropLast := by
  have hl : l = l.dropLast ++ [a] := by
    have hne : l ≠ [] := by
      intro e
      rw [e] at h
      simp at h
    rw [List.getLast?_eq_getLast l hne] at h
    simp only [Option.some.injEq] at h
    rw [← h]
    exact (List.dropLast_append_getLast hne).symm
  intro hmem
  rw [hl] at hn
  have := List.disjoint_of_nodup_append hn hmem
  simp at this

theorem List.mem_dropLast_of_ne_getLast? {α : Type} {l : List α} {a b : α}
    (h : l.getLast? = some a) (hb : b ∈ l) (hne : b ≠ a) : b ∈ l.dropLast := by
  have hl : l = l.dropLast ++ [a] := by
    have hne : l ≠ [] := by
      intro e
      rw [e] at h
      simp at h
    rw [List.getLast?_eq_getLast l hne] at h
    simp only [Option.some.injEq] at h
    rw [← h]
    exact (List.dropLast_append_getLast hne).symm
  rw [hl] at hb
  rcases List.mem_append.1 hb with hb | hb
  · exact hb
  · simp only [List.mem_singleton] at hb
    exact absurd hb hne

namespace NodeStore

theorem keys_modify (g : Int) (h : LRUKNode → LRUKNode) (m : NodeStore) :
    (modify g h m).map Prod.fst = m.map Prod.fst := by
  unfold modify
  rw [List.map_map]
  apply List.map_congr_left
  intro p _
  by_cases hp : p.1 = g <;> simp [hp]

theorem keys_touch {g f : Int} {m : NodeStore} (h : f ∈ (touch g m).map Prod.fst) :
    f = g ∨ f ∈ m.map Prod.fst := by
  unfold touch at h
  cases hg : find g m with
  | none =>
    simp only [hg, insert, List.map_cons, List.mem_cons] at h
    exact h
  | some n =>
    simp only [hg] at h
    exact Or.inr h

theorem keys_erase {g f : Int} {m : NodeStore} (h : f ∈ (erase g m).map Prod.fst) :
    f ∈ m.map Prod.fst := by
  unfold erase at h
  exact ((List.filter_sublist m).map Prod.fst).subset h

end NodeStore

namespace LRUKReplacer

theorem recordAccess_keys {r r2 : LRUKReplacer} {g f : Int} (h : r.RecordAccess g = some r2)
    (hf : f ∈ r2.node_store.map Prod.fst) : f = g ∨ f ∈ r.node_store.map Prod.fst := by
  unfold RecordAccess at h
  by_cases hr : r.rangeAssertFails g = true
  · simp [hr] at h
  · simp only [hr, Bool.false_eq_true, if_false, Option.some.injEq] at h
    subst h
    simp only [NodeStore.keys_modify] at hf
    exact NodeStore.keys_touch hf

theorem setEvictable_keys {r r2 : LRUKReplacer} {g f : Int} {b : Bool}
    (h : r.SetEvictable g b = some r2)
    (hf : f ∈ r2.node_store.map Prod.fst) : f = g ∨ f ∈ r.node_store.map Prod.fst := by
  unfold SetEvictable at h
  by_cases hr : r.rangeAssertFails g = true
  · simp [hr] at h
  · simp only [hr, Bool.false_eq_true, if_false] at h
    cases hfd : NodeStore.find g (r.node_store.touch g) with
    | none => simp [hfd] at h
    | some node =>
      simp only [hfd] at h
      by_cases hb : (node.is_evictable != b) = true
      · simp only [hb, if_true, Option.some.injEq] at h
        subst h
        simp only [NodeStore.keys_modify] at hf
        exact NodeStore.keys_touch hf
      · simp only [hb, Bool.false_eq_true, if_false, Option.some.injEq] at h
        subst h
        exact NodeStore.keys_touch hf

theorem remove_keys {r r2 : LRUKReplacer} {g f : Int} (h : r.Remove g = some r2)
    (hf : f ∈ r2.node_store.map Prod.fst) : f ∈ r.node_store.map Prod.fst := by
  unfold Remove at h
  by_cases hr : r.removeRangeAssertFails g = true
  · simp [hr] at h
  · simp only [hr, Bool.false_eq_true, if_false] at h
    cases hfd : NodeStore.find g r.node_store with
    | none =>
      simp only [hfd, Option.some.injEq] at h
      subst h
      exact hf
    | some node =>
      simp only [hfd] at h
      by_cases he : r.notEvictableAssertFails node g = true
      · simp [he] at h
      · simp only [he, Bool.false_eq_true, if_false, Option.some.injEq] at h
        subst h
        exact NodeStore.keys_erase hf

theorem evictStep_frame {k cur : Nat} {v v2 : EvictVars} {it : Int × LRUKNode}
    (h : evictStep k cur v it = some v2) :
    (v2.frame_to_evict = v.frame_to_evict ∨ v2.frame_to_evict = it.1) := by
  unfold evictStep at h
  by_cases he : it.2.is_evictable = true
  · simp only [he, if_true] at h
    by_cases hl : it.2.history_entry < k
    · simp only [hl, if_true] at h
      cases hb : it.2.history.getLast? with
      | none => simp [hb] at h
      | some back =>
        simp only [hb] at h
        split at h
        · simp only [Option.some.injEq] at h
          subst h
          exact Or.inr rfl
        · simp only [Option.some.injEq] at h
          subst h
          exact Or.inl rfl
    · simp only [hl, if_false] at h
      split at h
      · split at h
        · simp only [Option.some.injEq] at h
          subst h
          exact Or.inr rfl
        · simp only [Option.some.injEq] at h
          subst h
          exact Or.inl rfl
      · simp only [Option.some.injEq] at h
        subst h
        exact Or.inl rfl
  · simp only [he, Bool.false_eq_true, if_false, Option.some.injEq] at h
    subst h
    exact Or.inl rfl

theorem evictLoop_frame {k cur : Nat} (store : NodeStore) {v v2 : EvictVars}
    (h : evictLoop k cur store v = some v2) :
    v2.frame_to_evict = v.frame_to_evict ∨ v2.frame_to_evict ∈ store.map Prod.fst := by
  induction store generalizing v with
  | nil =>
    simp only [evictLoop, Option.some.injEq] at h
    subst h
    exact Or.inl rfl
  | cons it rest ih =>
    simp only [evictLoop] at h
    cases hs : evictStep k cur v it with
    | none => simp [hs] at h
    | some v1 =>
      simp only [hs] at h
      rcases ih h with h1 | h1
      · rcases evictStep_frame hs with h2 | h2
        · exact Or.inl (h1.trans h2)
        · exact Or.inr (by simp [h1, h2])
      · exact Or.inr (by simp [h1])

/-- A frame that Evict returns is tracked, or it is frame 0 and some frame is
tracked. -/
theorem evict_frame {r r2 : LRUKReplacer} {f : Int} (h : r.Evict = some (some f, r2)) :
    (f ∈ r.node_store.map Prod.fst ∨ (f = 0 ∧ r.node_store ≠ [])) ∧
    ∀ g ∈ r2.node_store.map Prod.fst, g ∈ r.node_store.map Prod.fst := by
  unfold Evict at h
  cases hl : evictLoop r.k r.current_timestamp r.node_store ⟨0, false, false, 0⟩ with
  | none => simp [hl] at h
  | some v =>
    simp only [hl] at h
    by_cases he : v.evict = true
    · simp only [he, Bool.not_true, Bool.false_eq_true, if_false, Option.some.injEq,
        Prod.mk.injEq] at h
      obtain ⟨h1, h2⟩ := h
      subst h1 h2
      refine ⟨?_, fun g hg => NodeStore.keys_erase hg⟩
      rcases evictLoop_frame r.node_store hl with h3 | h3
      · right
        refine ⟨h3, ?_⟩
        intro hnil
        rw [hnil] at hl
        simp only [evictLoop, Option.some.injEq] at hl
        subst hl
        simp at he
      · exact Or.inl h3
    · simp [he] at h

end LRUKReplacer
namespace BufferPoolManager

variable {D : Type}

theorem pageAt_set (b : BufferPoolManager D) (f g : Int) (pg : Page D) (hf : 0 ≤ f)
    (pool_size : Nat) (table : PageTable) (fl : List Int) (r : LRUKReplacer) (next : Int)
    (d : Disk D) :
    pageAt { pool_size := pool_size, pages := b.pages.set f.toNat pg, page_table := table,
             free_list := fl, replacer := r, next_page_id := next, disk := d } g =
      if g = f then (b.pageAt f).map (fun _ => pg) else b.pageAt g :=
  pageAt_setPage b f g pg hf

/-- Operations that leave the free list and the page table alone, and the page
id of every frame, keep the bookkeeping coherent. -/
theorem Coherent.transfer [Inhabited D] {b b2 : BufferPoolManager D} (h : Coherent b)
    (hfl : b2.free_list = b.free_list) (hpt : b2.page_table = b.page_table)
    (hps : b2.pool_size = b.pool_size) (hnx : b.next_page_id ≤ b2.next_page_id)
    (hpages : ∀ g pg, b.pageAt g = some pg →
      ∃ pg2, b2.pageAt g = some pg2 ∧ pg2.page_id = pg.page_id)
    (htr : ∀ g ∈ b2.replacer.node_store.map Prod.fst, 0 ≤ g ∧ g < b.pool_size) :
    Coherent b2 where
  free_nodup := by rw [hfl]; exact h.free_nodup
  free_frames := by
    intro f hf
    rw [hfl] at hf
    obtain ⟨h1, h2, h3, pg, h4, h5⟩ := h.free_frames f hf
    obtain ⟨pg2, h6, h7⟩ := hpages f pg h4
    exact ⟨h1, by rw [hps]; exact h2, by rw [hpt]; exact h3, pg2, h6, h7.trans h5⟩
  bound_frames := by
    intro p f hf
    rw [hpt] at hf
    obtain ⟨h1, h2, h3, h4, pg, h5, h6⟩ := h.bound_frames p f hf
    obtain ⟨pg2, h7, h8⟩ := hpages f pg h5
    exact ⟨h1, by rw [hps]; exact h2, h3, lt_of_lt_of_le h4 hnx, pg2, h7, h8.trans h6⟩
  covered := by
    intro f h1 h2
    rw [hps] at h2
    rw [hfl, hpt]
    exact h.covered f h1 h2
  tracked := by
    intro g hg
    rw [hps]
    exact htr g hg
  next_nonneg := le_trans h.next_nonneg hnx

/-- The rebinding of a frame f, taken from the free list or evicted, to the page
id pid keeps the bookkeeping coherent. -/
theorem coherent_rebind [Inhabited D] (b : BufferPoolManager D) (hc : Coherent b)
    (f pid next2 old : Int) (page2 : Page D) (fl : List Int) (r2 : LRUKReplacer) (d : Disk D)
    (hrange : 0 ≤ f ∧ f < b.pool_size) (hpage : ∃ pg, b.pageAt f = some pg)
    (hid : page2.page_id = pid) (hpid : pid ≠ INVALID_PAGE_ID)
    (hfresh : b.page_table.find pid = none) (hlt : pid < next2)
    (hle : b.next_page_id ≤ next2)
    (hE : ∀ q, b.page_table.find q = some f → q = old)
    (hF : ∀ g, b.page_table.find old = some g → g = f)
    (hfl1 : fl.Nodup) (hfl2 : ∀ g ∈ fl, g ∈ b.free_list ∧ g ≠ f)
    (hfl3 : ∀ g ∈ b.free_list, g ≠ f → g ∈ fl)
    (hkeys : ∀ g ∈ r2.node_store.map Prod.fst, g = f ∨ g ∈ b.replacer.node_store.map Prod.fst) :
    Coherent { pool_size := b.pool_size, pages := b.pages.set f.toNat page2,
               page_table := (b.page_table.erase old).emplace pid f, free_list := fl,
               replacer := r2, next_page_id := next2, disk := d } := by
  have hfind : ∀ q, PageTable.find q ((b.page_table.erase old).emplace pid f) =
      if q = pid then some f else if q = old then none else b.page_table.find q := by
    intro q
    rw [PageTable.find_emplace, PageTable.find_erase_page, PageTable.find_erase_page]
    by_cases hpo : pid = old
    · simp [hpo]
    · simp [hpo, hfresh]
  obtain ⟨pg0, hpg0⟩ := hpage
  constructor
  · exact hfl1
  · intro g hg
    obtain ⟨hg1, hg2⟩ := hfl2 g hg
    obtain ⟨h1, h2, h3, pg, h4, h5⟩ := hc.free_frames g hg1
    refine ⟨h1, h2, ?_, pg, ?_, h5⟩
    · intro q hq
      simp only [hfind] at hq
      by_cases hqp : q = pid
      · simp only [hqp, if_true, Option.some.injEq] at hq
        exact hg2 hq.symm
      · simp only [hqp, if_false] at hq
        by_cases hqo : q = old
        · simp [hqo] at hq
        · simp only [hqo, if_false] at hq
          exact h3 q hq
    · rw [pageAt_set _ _ _ _ hrange.1, if_neg hg2]
      exact h4
  · intro q g hq
    simp only [hfind] at hq
    by_cases hqp : q = pid
    · simp only [hqp, if_true, Option.some.injEq] at hq
      subst hq
      refine ⟨hrange.1, hrange.2, by rw [hqp]; exact hpid, by rw [hqp]; exact hlt, page2, ?_,
        by rw [hqp]; exact hid⟩
      rw [pageAt_set _ _ _ _ hrange.1, if_pos rfl, hpg0]
      rfl
    · simp only [hqp, if_false] at hq
      by_cases hqo : q = old
      · simp [hqo] at hq
      · simp only [hqo, if_false] at hq
        obtain ⟨h1, h2, h3, h4, pg, h5, h6⟩ := hc.bound_frames q g hq
        have hgf : g ≠ f := by
          intro e
          rw [e] at hq
          exact hqo (hE q hq)
        refine ⟨h1, h2, h3, lt_of_lt_of_le h4 hle, pg, ?_, h6⟩
        rw [pageAt_set _ _ _ _ hrange.1, if_neg hgf]
        exact h5
  · intro g h1 h2
    by_cases hgf : g = f
    · right
      exact ⟨pid, by rw [hfind, if_pos rfl, hgf]⟩
    · rcases hc.covered g h1 h2 with hfree | ⟨q, hq⟩
      · exact Or.inl (hfl3 g hfree hgf)
      · right
        refine ⟨q, ?_⟩
        have hqp : q ≠ pid := by
          intro e
          rw [e, hfresh] at hq
          exact absurd hq (by simp)
        have hqo : q ≠ old := by
          intro e
          rw [e] at hq
          exact hgf (hF g hq)
        rw [hfind, if_neg hqp, if_neg hqo]
        exact hq
  · intro g hg
    rcases hkeys g hg with e | hg2
    · rw [e]
      exact hrange
    · exact hc.tracked g hg2
  · exact le_trans hc.next_nonneg hle

/-- The frame that pickFrame hands out, in a coherent pool. -/
theorem pickFrame_coherent [Inhabited D] {b b1 : BufferPoolManager D} {f : Int}
    (hc : Coherent b) (h : b.pickFrame = some (some f, b1)) :
    (0 ≤ f ∧ f < b.pool_size) ∧
    (∃ pg, b.pageAt f = some pg ∧
      (∀ q, b.page_table.find q = some f → q = pg.page_id) ∧
      (∀ g, b.page_table.find pg.page_id = some g → g = f)) ∧
    b1.free_list.Nodup ∧ (∀ g ∈ b1.free_list, g ∈ b.free_list ∧ g ≠ f) ∧
    (∀ g ∈ b.free_list, g ≠ f → g ∈ b1.free_list) ∧
    (∀ g ∈ b1.replacer.node_store.map Prod.fst, g ∈ b.replacer.node_store.map Prod.fst) := by
  rcases pickFrame_inv h with ⟨f2, hlast, hres, rfl⟩ | ⟨hnil, r, hev, rfl⟩
  · simp only [Option.some.injEq] at hres
    subst hres
    have hmem : f ∈ b.free_list := List.mem_of_getLast?_eq_some hlast
    obtain ⟨h1, h2, h3, pg, h4, h5⟩ := hc.free_frames f hmem
    refine ⟨⟨h1, h2⟩, ⟨pg, h4, ?_, ?_⟩, ?_, ?_, ?_, fun g hg => hg⟩
    · intro q hq
      exact absurd hq (h3 q)
    · intro g hg
      rw [h5] at hg
      exact absurd rfl (hc.bound_frames _ g hg).2.2.1
    · exact hc.free_nodup.sublist (List.dropLast_sublist _)
    · intro g hg
      refine ⟨(List.dropLast_sublist _).subset hg, ?_⟩
      intro e
      rw [e] at hg
      exact List.not_mem_dropLast_of_getLast? hc.free_nodup hlast hg
    · intro g hg hne
      exact List.mem_dropLast_of_ne_getLast? hlast hg hne
  · obtain ⟨hfr, hkeys⟩ := LRUKReplacer.evict_frame hev
    have hrange : 0 ≤ f ∧ f < b.pool_size := by
      rcases hfr with hfr | ⟨h0, hne⟩
      · exact hc.tracked f hfr
      · cases hs : b.replacer.node_store with
        | nil => exact absurd hs hne
        | cons p rest =>
          have := hc.tracked p.1 (by simp [hs])
          rw [h0]
          exact ⟨le_refl _, by omega⟩
    refine ⟨hrange, ?_, ?_, ?_, ?_, hkeys⟩
    · rcases hc.covered f hrange.1 hrange.2 with hfree | ⟨p, hp⟩
      · rw [hnil] at hfree
        simp at hfree
      · obtain ⟨_, _, _, _, pg, h5, h6⟩ := hc.bound_frames p f hp
        refine ⟨pg, h5, ?_, ?_⟩
        · intro q hq
          obtain ⟨_, _, _, _, pg2, h7, h8⟩ := hc.bound_frames q f hq
          rw [h5] at h7
          simp only [Option.some.injEq] at h7
          rw [← h8, ← h7]
        · intro g hg
          rw [h6, hp] at hg
          simp only [Option.some.injEq] at hg
          exact hg.symm
    · simp [hnil]
    · intro g hg
      simp only [hnil] at hg
      simp at hg
    · intro g hg
      rw [hnil] at hg
      simp at hg

end BufferPoolManager
namespace BufferPoolManager

variable {D : Type}

theorem setPage_same_id {b : BufferPoolManager D} {f : Int} {page new : Page D}
    (hpg : b.pageAt f = some page) (hid : new.page_id = page.page_id) :
    ∀ g pg, b.pageAt g = some pg →
      ∃ pg2, (b.setPage f new).pageAt g = some pg2 ∧ pg2.page_id = pg.page_id := by
  intro g pg hg
  rw [pageAt_setPage _ _ _ _ (nonneg_of_pageAt hpg)]
  by_cases hgf : g = f
  · subst hgf
    rw [hpg] at hg
    simp only [Option.some.injEq] at hg
    subst hg
    exact ⟨new, by simp [hpg], hid⟩
  · exact ⟨pg, by simp [hgf, hg], rfl⟩

theorem writeBack_page_id (disk : Disk D) (page : Page D) :
    (writeBack disk page).2.page_id = page.page_id := by
  unfold writeBack
  by_cases h : page.is_dirty = true <;> simp [h]

theorem coherent_acquire [Inhabited D] {b b1 b3 : BufferPoolManager D} {f pid next2 : Int}
    {page : Page D} {d : Disk D} (hc : Coherent b)
    (hp : b.pickFrame = some (some f, b1)) (hpg : b1.pageAt f = some page)
    (hpid : pid ≠ INVALID_PAGE_ID) (hfresh : b.page_table.find pid = none)
    (hlt : pid < next2) (hle : b.next_page_id ≤ next2)
    (hb : bindFrame { b1 with disk := d, next_page_id := next2 } f
      (writeBack b1.disk page).2 pid = some b3) :
    Coherent b3 := by
  obtain ⟨hrange, ⟨pg, hpg0, hE, hF⟩, hfl1, hfl2, hfl3, hk⟩ := pickFrame_coherent hc hp
  obtain ⟨hpages, htable, hps, _, _, _, _⟩ := pickFrame_effect hp
  obtain ⟨r1, r2, hr1, hr2, rfl⟩ := bindFrame_inv hb
  have hpage : page = pg := by
    have : b1.pageAt f = b.pageAt f := by
      unfold pageAt
      rw [hpages]
    rw [this, hpg0] at hpg
    simp only [Option.some.injEq] at hpg
    exact hpg.symm
  subst hpage
  have hkeys : ∀ g ∈ r2.node_store.map Prod.fst,
      g = f ∨ g ∈ b.replacer.node_store.map Prod.fst := by
    intro g hg
    rcases LRUKReplacer.setEvictable_keys hr2 hg with e | hg1
    · exact Or.inl e
    · rcases LRUKReplacer.recordAccess_keys hr1 hg1 with e | hg2
      · exact Or.inl e
      · exact Or.inr (hk g hg2)
  have := coherent_rebind b hc f pid next2 page.page_id
    { (writeBack b1.disk page).2 with page_id := pid, pin_count := 1, data := default }
    b1.free_list r2 d hrange ⟨page, hpg0⟩ rfl hpid hfresh hlt hle hE hF hfl1 hfl2 hfl3 hkeys
  rw [← hpages, ← htable, ← hps, ← writeBack_page_id b1.disk page] at this
  exact this

theorem coherent_newPage [Inhabited D] {b b3 : BufferPoolManager D} {res : Option (Int × Int)}
    (hc : Coherent b) (h : b.NewPage = some (res, b3)) : Coherent b3 := by
  rcases NewPage_inv h with ⟨_, rfl, _⟩ | ⟨f, b1, page, hp, hpg, _, hb⟩
  · exact hc
  · obtain ⟨_, _, _, hnext, _, _, _⟩ := pickFrame_effect hp
    rw [hnext] at hb
    refine coherent_acquire hc hp hpg ?_ ?_ (by omega) (by omega) hb
    · have := hc.next_nonneg
      unfold INVALID_PAGE_ID
      omega
    · cases hf : b.page_table.find b.next_page_id with
      | none => rfl
      | some g =>
        have := (hc.bound_frames _ g hf).2.2.2.1
        omega

theorem coherent_fetchPage [Inhabited D] {b b3 : BufferPoolManager D} {page_id : Int}
    {res : Option Int} (hc : Coherent b) (hlt : page_id < b.next_page_id)
    (h : b.FetchPage page_id = some (res, b3)) : Coherent b3 := by
  rcases FetchPage_inv h with ⟨_, rfl⟩ | ⟨_, f, page, r1, r2, hfind, hpg, hr1, hr2, _, rfl⟩ |
      ⟨hinv, hmiss, f, b1, page, b2, page3, hp, hpg, hb, hpg3, _, rfl⟩
  · exact hc
  · refine hc.transfer rfl rfl rfl (le_refl _) (setPage_same_id hpg rfl) ?_
    intro g hg
    rcases LRUKReplacer.setEvictable_keys hr2 hg with e | hg1
    · rw [e]
      exact ⟨(hc.bound_frames _ _ hfind).1, (hc.bound_frames _ _ hfind).2.1⟩
    · rcases LRUKReplacer.recordAccess_keys hr1 hg1 with e | hg2
      · rw [e]
        exact ⟨(hc.bound_frames _ _ hfind).1, (hc.bound_frames _ _ hfind).2.1⟩
      · exact hc.tracked g hg2
  · obtain ⟨_, _, _, hnext, _, _, _⟩ := pickFrame_effect hp
    have hb2 : bindFrame { b1 with
        disk := (writeBack b1.disk page).1, next_page_id := b.next_page_id }
        f (writeBack b1.disk page).2 page_id = some b2 := by
      rw [← hnext]
      exact hb
    have hc2 : Coherent b2 := coherent_acquire hc hp hpg hinv hmiss hlt (le_refl _) hb2
    exact hc2.transfer rfl rfl rfl (le_refl _) (setPage_same_id hpg3 rfl) hc2.tracked

theorem coherent_unpinPage [Inhabited D] {b b3 : BufferPoolManager D} {page_id : Int}
    {is_dirty res : Bool} (hc : Coherent b)
    (h : b.UnpinPage page_id is_dirty = some (res, b3)) : Coherent b3 := by
  rcases UnpinPage_inv h with ⟨_, rfl⟩ | ⟨f, page, hfind, hpg, hcase⟩
  · exact hc
  · rcases hcase with ⟨_, _, rfl⟩ | ⟨_, _, r, hr, rfl⟩ | ⟨_, _, rfl⟩
    · exact hc.transfer rfl rfl rfl (le_refl _) (setPage_same_id hpg rfl) hc.tracked
    · refine hc.transfer rfl rfl rfl (le_refl _) (setPage_same_id hpg rfl) ?_
      intro g hg
      rcases LRUKReplacer.setEvictable_keys hr hg with e | hg1
      · rw [e]
        exact ⟨(hc.bound_frames _ _ hfind).1, (hc.bound_frames _ _ hfind).2.1⟩
      · exact hc.tracked g hg1
    · exact hc.transfer rfl rfl rfl (le_refl _) (setPage_same_id hpg rfl) hc.tracked

theorem coherent_flushPage [Inhabited D] {b b3 : BufferPoolManager D} {page_id : Int}
    {res : Bool} (hc : Coherent b) (h : b.FlushPage page_id = some (res, b3)) :
    Coherent b3 := by
  rcases FlushPage_inv h with ⟨_, rfl⟩ | ⟨f, page, _, hpg, _, rfl⟩
  · exact hc
  · exact hc.transfer rfl rfl rfl (le_refl _) (setPage_same_id hpg rfl) hc.tracked

theorem coherent_flushAllPages [Inhabited D] {b : BufferPoolManager D} (hc : Coherent b) :
    Coherent b.FlushAllPages := by
  refine hc.transfer rfl rfl rfl (le_refl _) ?_ hc.tracked
  intro g pg hg
  rw [pageAt_FlushAllPages, hg]
  exact ⟨_, rfl, (flushOne_pin b.disk pg).2⟩

theorem coherent_deletePage [Inhabited D] {b b3 : BufferPoolManager D} {page_id : Int}
    {res : Bool} (hc : Coherent b) (h : b.DeletePage page_id = some (res, b3)) :
    Coherent b3 := by
  rcases DeletePage_inv h with rfl | ⟨_, f, page, r, hfind, hpg, _, hr, _, rfl⟩
  · exact hc
  · obtain ⟨hf0, hf1, _, _, pg, hpg2, hid⟩ := hc.bound_frames _ _ hfind
    rw [hpg] at hpg2
    simp only [Option.some.injEq] at hpg2
    subst hpg2
    have hnotfree : f ∉ b.free_list := fun hm => (hc.free_frames f hm).2.2.1 page_id hfind
    have hE : ∀ q, b.page_table.find q = some f → q = page_id := by
      intro q hq
      obtain ⟨_, _, _, _, pg2, h7, h8⟩ := hc.bound_frames q f hq
      rw [hpg] at h7
      simp only [Option.some.injEq] at h7
      rw [← h8, ← h7, hid]
    constructor
    · exact List.Nodup.append hc.free_nodup (List.nodup_singleton f) (by simpa using hnotfree)
    · intro g hg
      simp only [List.mem_append, List.mem_singleton] at hg
      rcases hg with hg | rfl
      · obtain ⟨h1, h2, h3, pg, h4, h5⟩ := hc.free_frames g hg
        have hgf : g ≠ f := fun e => hnotfree (e ▸ hg)
        refine ⟨h1, h2, ?_, pg, ?_, h5⟩
        · intro q hq
          simp only [PageTable.find_erase_page] at hq
          by_cases hqp : q = page_id
          · simp [hqp] at hq
          · simp only [hqp, if_false] at hq
            exact h3 q hq
        · rw [pageAt_set _ _ _ _ hf0, if_neg hgf]
          exact h4
      · refine ⟨hf0, hf1, ?_, { page with
            data := default, page_id := INVALID_PAGE_ID, is_dirty := false,
            pin_count := 0 }, ?_, rfl⟩
        · intro q hq
          simp only [PageTable.find_erase_page] at hq
          by_cases hqp : q = page_id
          · simp [hqp] at hq
          · simp only [hqp, if_false] at hq
            exact hqp (hE q hq)
        · rw [pageAt_set _ _ _ _ hf0, if_pos rfl, hpg]
          rfl
    · intro q g hq
      simp only [PageTable.find_erase_page] at hq
      by_cases hqp : q = page_id
      · simp [hqp] at hq
      · simp only [hqp, if_false] at hq
        obtain ⟨h1, h2, h3, h4, pg, h5, h6⟩ := hc.bound_frames q g hq
        have hgf : g ≠ f := by
          intro e
          rw [e] at hq
          exact hqp (hE q hq)
        refine ⟨h1, h2, h3, h4, pg, ?_, h6⟩
        rw [pageAt_set _ _ _ _ hf0, if_neg hgf]
        exact h5
    · intro g h1 h2
      rcases hc.covered g h1 h2 with hfree | ⟨q, hq⟩
      · exact Or.inl (List.mem_append_left _ hfree)
      · by_cases hqp : q = page_id
        · left
          rw [hqp, hfind] at hq
          simp only [Option.some.injEq] at hq
          simp [hq]
        · right
          exact ⟨q, by simp only [PageTable.find_erase_page, hqp, if_false]; exact hq⟩
    · intro g hg
      exact hc.tracked g (LRUKReplacer.remove_keys hr hg)
    · exact hc.next_nonneg

theorem coherent_new [Inhabited D] (pool_size replacer_k : Nat) (mode : AssertMode) :
    Coherent (new pool_size replacer_k mode : BufferPoolManager D) := by
  constructor
  · simp only [new]
    exact (List.nodup_range pool_size).map (fun a b h => Int.ofNat.inj h)
  · intro f hf
    simp only [new, List.mem_map, List.mem_range] at hf
    obtain ⟨i, hi, rfl⟩ := hf
    refine ⟨Int.ofNat_nonneg i, Int.ofNat_lt.2 hi,
      fun p hp => by simp [new, PageTable.find] at hp, Page.init D, ?_, rfl⟩
    simp [pageAt, new, hi]
  · intro p f hf
    simp [new, PageTable.find] at hf
  · intro f h1 h2
    left
    simp only [new, List.mem_map, List.mem_range]
    simp only [new] at h2
    exact ⟨f.toNat, by omega, by simp [Int.toNat_of_nonneg h1]⟩
  · intro g hg
    simp [new, LRUKReplacer.new] at hg
  · simp [new]

theorem coherent_of_reachableAllocated [Inhabited D] {b : BufferPoolManager D}
    (h : ReachableAllocated b) : Coherent b := by
  induction h with
  | init pool_size replacer_k mode => exact coherent_new pool_size replacer_k mode
  | newPage res _ hstep ih => exact coherent_newPage ih hstep
  | fetchPage page_id res _ hlt hstep ih => exact coherent_fetchPage ih hlt hstep
  | unpinPage page_id is_dirty res _ hstep ih => exact coherent_unpinPage ih hstep
  | flushPage page_id res _ hstep ih => exact coherent_flushPage ih hstep
  | flushAllPages _ ih => exact coherent_flushAllPages ih
  | deletePage page_id res _ hstep ih => exact coherent_deletePage ih hstep
  | @reorder b store _ hperm ih =>
    refine ih.transfer rfl rfl rfl (le_refl _) (fun g pg hg => ⟨pg, hg, rfl⟩) ?_
    intro g hg
    exact ih.tracked g ((hperm.map Prod.fst).subset hg)

theorem bp1_of_coherent [Inhabited D] {b : BufferPoolManager D} (hc : Coherent b) : BP1 b := by
  intro f h1 h2
  rcases hc.covered f h1 h2 with hfree | ⟨p, hp⟩
  · left
    refine ⟨hfree, ?_⟩
    rintro ⟨p, hp⟩
    exact (hc.free_frames f hfree).2.2.1 p hp
  · right
    exact ⟨fun hfree => (hc.free_frames f hfree).2.2.1 p hp, p, hp⟩

theorem reachableAllocated_of_run [Inhabited D] {b b2 : BufferPoolManager D} (ops : List Op)
    (h : ReachableAllocated b)
    (hrun : b.run ops = some b2)
    (hops : ∀ op ∈ ops, ∀ p, op = Op.fetchPage p → False) : ReachableAllocated b2 := by
  induction ops generalizing b with
  | nil =>
    simp only [run, Option.some.injEq] at hrun
    subst hrun
    exact h
  | cons op ops ih =>
    simp only [run] at hrun
    cases hs : b.step op with
    | none => simp [hs] at hrun
    | some b1 =>
      simp only [hs] at hrun
      refine ih ?_ hrun (fun o ho => hops o (List.mem_cons_of_mem _ ho))
      cases op with
      | newPage =>
        simp only [step, Option.map_eq_some'] at hs
        obtain ⟨⟨res, b4⟩, h1, h2⟩ := hs
        simp only at h2
        subst h2
        exact ReachableAllocated.newPage res h h1
      | fetchPage p => exact absurd rfl (fun e => hops (Op.fetchPage p) (by simp) p e)
      | unpinPage p d =>
        simp only [step, Option.map_eq_some'] at hs
        obtain ⟨⟨res, b4⟩, h1, h2⟩ := hs
        simp only at h2
        subst h2
        exact ReachableAllocated.unpinPage p d res h h1
      | flushPage p =>
        simp only [step, Option.map_eq_some'] at hs
        obtain ⟨⟨res, b4⟩, h1, h2⟩ := hs
        simp only at h2
        subst h2
        exact ReachableAllocated.flushPage p res h h1
      | flushAllPages =>
        simp only [step, Option.some.injEq] at hs
        subst hs
        exact ReachableAllocated.flushAllPages h
      | deletePage p =>
        simp only [step, Option.map_eq_some'] at hs
        obtain ⟨⟨res, b4⟩, h1, h2⟩ := hs
        simp only at h2
        subst h2
        exact ReachableAllocated.deletePage p res h h1

theorem pool_reachable_of_run [Inhabited D] {b b2 : BufferPoolManager D} (ops : List Op)
    (h : Reachable b) (hrun : b.run ops = some b2) : Reachable b2 := by
  induction ops generalizing b with
  | nil =>
    simp only [run, Option.some.injEq] at hrun
    subst hrun
    exact h
  | cons op ops ih =>
    simp only [run] at hrun
    cases hs : b.step op with
    | none => simp [hs] at hrun
    | some b1 =>
      simp only [hs] at hrun
      refine ih ?_ hrun
      cases op with
      | newPage =>
        simp only [step, Option.map_eq_some'] at hs
        obtain ⟨⟨res, b4⟩, h1, h2⟩ := hs
        simp only at h2
        subst h2
        exact Reachable.newPage res h h1
      | fetchPage p =>
        simp only [step, Option.map_eq_some'] at hs
        obtain ⟨⟨res, b4⟩, h1, h2⟩ := hs
        simp only at h2
        subst h2
        exact Reachable.fetchPage p res h h1
      | unpinPage p d =>
        simp only [step, Option.map_eq_some'] at hs
        obtain ⟨⟨res, b4⟩, h1, h2⟩ := hs
        simp only at h2
        subst h2
        exact Reachable.unpinPage p d res h h1
      | flushPage p =>
        simp only [step, Option.map_eq_some'] at hs
        obtain ⟨⟨res, b4⟩, h1, h2⟩ := hs
        simp only at h2
        subst h2
        exact Reachable.flushPage p res h h1
      | flushAllPages =>
        simp only [step, Option.some.injEq] at hs
        subst hs
        exact Reachable.flushAllPages h
      | deletePage p =>
        simp only [step, Option.map_eq_some'] at hs
        obtain ⟨⟨res, b4⟩, h1, h2⟩ := hs
        simp only at h2
        subst h2
        exact Reachable.deletePage p res h h1

end BufferPoolManager
/-! ## Buffer pool manager: the properties -/

namespace BufferPoolManager

theorem clashState_reachable : Reachable clashState :=
  pool_reachable_of_run [.fetchPage 0, .newPage] (Reachable.init 2 2 .abort) (by decide)

theorem onePageState_reachable : Reachable onePageState :=
  pool_reachable_of_run [.newPage] (Reachable.init 2 2 .abort) (by decide)

theorem onePageState_reachableAllocated : ReachableAllocated onePageState :=
  reachableAllocated_of_run [.newPage] (ReachableAllocated.init 2 2 .abort) (by decide) (by simp)

/-- BP3 for NewPage and FetchPage: the frame of a returned page is pinned and not
evictable. -/
theorem bp3 {D : Type} [Inhabited D] (b : BufferPoolManager D) :
    (∀ pid f b2, b.NewPage = some (some (pid, f), b2) →
      ∃ pg, b2.pageAt f = some pg ∧ 1 ≤ pg.pin_count ∧ ¬ b2.evictable f) ∧
    (∀ page_id f b2, b.FetchPage page_id = some (some f, b2) →
      ∃ pg, b2.pageAt f = some pg ∧ 1 ≤ pg.pin_count ∧ ¬ b2.evictable f) := by
  constructor
  · intro pid f b2 h
    rcases NewPage_inv h with ⟨hres, _, _⟩ | ⟨f2, b1, page, hp, hpg, hres, hb⟩
    · simp at hres
    · simp only [Option.some.injEq, Prod.mk.injEq] at hres
      obtain ⟨_, rfl⟩ := hres
      obtain ⟨r1, r2, hr1, hr2, rfl⟩ := bindFrame_inv hb
      refine ⟨{ (writeBack b1.disk page).2 with
        page_id := b1.next_page_id, pin_count := 1, data := default }, ?_, le_refl _,
        LRUKReplacer.not_evictable_of_bind hr1 hr2⟩
      have := pageAt_setPage b1 f f { (writeBack b1.disk page).2 with
        page_id := b1.next_page_id, pin_count := 1, data := default } (nonneg_of_pageAt hpg)
      rw [if_pos rfl, hpg] at this
      exact this
  · intro page_id f b2 h
    rcases FetchPage_inv h with ⟨hres, _⟩ | ⟨_, f2, page, r1, r2, _, hpg, hr1, hr2, hres, rfl⟩ |
        ⟨_, _, f2, b1, page, b3, page3, hp, hpg, hb, hpg3, hres, rfl⟩
    · simp at hres
    · simp only [Option.some.injEq] at hres
      subst hres
      refine ⟨{ page with pin_count := page.pin_count + 1 }, ?_, Nat.le_add_left 1 _,
        LRUKReplacer.not_evictable_of_bind hr1 hr2⟩
      have := pageAt_setPage b f f { page with pin_count := page.pin_count + 1 }
        (nonneg_of_pageAt hpg)
      rw [if_pos rfl, hpg] at this
      exact this
    · simp only [Option.some.injEq] at hres
      subst hres
      obtain ⟨r1, r2, hr1, hr2, rfl⟩ := bindFrame_inv hb
      have h3 := pageAt_setPage b1 f f { (writeBack b1.disk page).2 with
        page_id := page_id, pin_count := 1, data := default } (nonneg_of_pageAt hpg)
      rw [if_pos rfl, hpg] at h3
      have h4 : some page3 = some { (writeBack b1.disk page).2 with
          page_id := page_id, pin_count := 1, data := default } := hpg3.symm.trans h3
      simp only [Option.some.injEq] at h4
      subst h4
      refine ⟨{ (writeBack b1.disk page).2 with
        page_id := page_id, pin_count := 1,
        data := Disk.read page_id (writeBack b1.disk page).1 }, ?_, le_refl _,
        LRUKReplacer.not_evictable_of_bind hr1 hr2⟩
      rw [pageAt_setPage _ _ _ _ (nonneg_of_pageAt hpg), if_pos rfl, hpg3]
      rfl

end BufferPoolManager

/-- C9, as stated, fails: a pool of two frames after FetchPage(0) and NewPage()
can occur, and there frame 0 is neither in the free list nor a frame that the
page table maps a page id to (NewPage hands out page id 0, which the page table
already maps to frame 1, so emplace changes nothing). -/
theorem BufferPoolManager.bp1_fails_after_unallocated_fetch :
    BufferPoolManager.Reachable BufferPoolManager.clashState ∧
    (0 : Int) < BufferPoolManager.clashState.pool_size ∧
    (0 : Int) ∉ BufferPoolManager.clashState.free_list ∧
    (∀ p, BufferPoolManager.clashState.page_table.find p ≠ some 0) ∧
    ¬ BufferPoolManager.BP1 BufferPoolManager.clashState := by
  have hfind : ∀ p, BufferPoolManager.clashState.page_table.find p ≠ some 0 := by
    intro p hp
    simp only [BufferPoolManager.clashState, PageTable.find] at hp
    by_cases h0 : (0 : Int) = p
    · rw [if_pos h0] at hp
      exact absurd hp (by decide)
    · rw [if_neg h0] at hp
      exact absurd hp (by simp)
  refine ⟨BufferPoolManager.clashState_reachable, by decide, by decide, hfind, ?_⟩
  intro hbp
  rcases hbp 0 (le_refl _) (by decide) with ⟨hmem, _⟩ | ⟨_, p, hp⟩
  · exact absurd hmem (by decide)
  · exact hfind p hp

/-- C9, amended. Invariant BP1: in every pool state reached from construction by
NewPage, UnpinPage, FlushPage, FlushAllPages, DeletePage and FetchPage of page
ids that AllocatePage has handed out (ids below next_page_id_), every frame
index from 0 to pool_size - 1 is in exactly one of the free list and the set of
frames that the page table maps some page id to. -/
theorem BufferPoolManager.bp1_of_reachableAllocated {D : Type} [Inhabited D]
    (b : BufferPoolManager D) (h : b.ReachableAllocated) : b.BP1 :=
  BufferPoolManager.bp1_of_coherent (BufferPoolManager.coherent_of_reachableAllocated h)

/-- C9, amended, at the pool of two frames after one NewPage(). -/
theorem BufferPoolManager.bp1_of_reachableAllocated_witness :
    BufferPoolManager.onePageState.ReachableAllocated ∧ BufferPoolManager.onePageState.BP1 :=
  ⟨BufferPoolManager.onePageState_reachableAllocated,
    BufferPoolManager.bp1_of_reachableAllocated BufferPoolManager.onePageState
      BufferPoolManager.onePageState_reachableAllocated⟩

/-- C10. Invariants BP2 and BP3: in every pool state that can occur, a frame whose
page has a pin count above zero is not evictable in the replacer; and a NewPage
or FetchPage call that returns a page leaves that page's frame with a pin count
of at least one and not evictable. -/
theorem BufferPoolManager.pinned_frames_not_evictable {D : Type} [Inhabited D]
    (b : BufferPoolManager D) (h : b.Reachable) :
    b.BP2 ∧
    (∀ pid f b2, b.NewPage = some (some (pid, f), b2) →
      ∃ pg, b2.pageAt f = some pg ∧ 1 ≤ pg.pin_count ∧ ¬ b2.evictable f) ∧
    (∀ page_id f b2, b.FetchPage page_id = some (some f, b2) →
      ∃ pg, b2.pageAt f = some pg ∧ 1 ≤ pg.pin_count ∧ ¬ b2.evictable f) :=
  ⟨(BufferPoolManager.bp2_of_reachable h).2, (BufferPoolManager.bp3 b).1,
    (BufferPoolManager.bp3 b).2⟩

/-- C10, at the pool of two frames after one NewPage(), whose frame 1 is pinned. -/
theorem BufferPoolManager.pinned_frames_not_evictable_witness :
    BufferPoolManager.onePageState.Reachable ∧
    BufferPoolManager.onePageState.pageAt 1 = some ⟨0, 1, false, 0⟩ ∧
    (BufferPoolManager.onePageState.BP2 ∧
      (∀ pid f b2, BufferPoolManager.onePageState.NewPage = some (some (pid, f), b2) →
        ∃ pg, b2.pageAt f = some pg ∧ 1 ≤ pg.pin_count ∧ ¬ b2.evictable f) ∧
      (∀ page_id f b2, BufferPoolManager.onePageState.FetchPage page_id = some (some f, b2) →
        ∃ pg, b2.pageAt f = some pg ∧ 1 ≤ pg.pin_count ∧ ¬ b2.evictable f)) :=
  ⟨BufferPoolManager.onePageState_reachable, by decide,
    BufferPoolManager.pinned_frames_not_evictable BufferPoolManager.onePageState
      BufferPoolManager.onePageState_reachable⟩

/-! ## Disk extendible hash table: the properties -/

/-- C1. A merge in Remove loses a key that is still stored: on an index with
header depth 1, directory depth 1 and buckets of one entry, with the identity
as hash function, the calls Insert(0, 10), Insert(1, 11) and Remove(0) all
return true; before the Remove, GetValue(1) finds 11; after it GetValue(1)
returns false, while the claim says it still returns 11. -/
theorem DiskExtendibleHashTable.merge_loses_stored_key :
    ((DiskExtendibleHashTable.runCalls 8
        (DiskExtendibleHashTable.withHeader (fun k : Nat => k) 1 1 1 :
          DiskExtendibleHashTable Nat Nat)
        [.insert 0 10, .insert 1 11]).bind (fun r => r.2.GetValue 1)) = some (some 11) ∧
    ((DiskExtendibleHashTable.runCalls 8
        (DiskExtendibleHashTable.withHeader (fun k : Nat => k) 1 1 1 :
          DiskExtendibleHashTable Nat Nat)
        [.insert 0 10, .insert 1 11, .remove 0]).map Prod.fst) = some [true, true, true] ∧
    ((DiskExtendibleHashTable.runCalls 8
        (DiskExtendibleHashTable.withHeader (fun k : Nat => k) 1 1 1 :
          DiskExtendibleHashTable Nat Nat)
        [.insert 0 10, .insert 1 11, .remove 0]).bind (fun r => r.2.GetValue 1)) = some none := by
  decide

/-! ## Buffer pool manager: the bookkeeping of every state that can occur -/

namespace BufferPoolManager

variable {D : Type}

theorem pageAt_lt {b : BufferPoolManager D} {g : Int} {pg : Page D}
    (h : b.pageAt g = some pg) : 0 ≤ g ∧ g < b.pages.length := by
  unfold pageAt at h
  by_cases hg : 0 ≤ g
  · simp only [hg, if_true] at h
    obtain ⟨hh, _⟩ := List.getElem?_eq_some.1 h
    exact ⟨hg, by omega⟩
  · simp [hg] at h

theorem pageAt_of_lt (b : BufferPoolManager D) (g : Int) (h0 : 0 ≤ g)
    (h1 : g < b.pages.length) : ∃ pg, b.pageAt g = some pg := by
  unfold pageAt
  have h2 : g.toNat < b.pages.length := by omega
  exact ⟨b.pages[g.toNat], by simp [h0, List.getElem?_eq_getElem h2]⟩

theorem length_setPage (b : BufferPoolManager D) (f : Int) (pg : Page D) :
    (b.setPage f pg).pages.length = b.pages.length := by
  simp [setPage]

/-- Operations that leave the free list and the page table alone, and the page
id of every frame, keep the bookkeeping consistent when they dirty bound frames
only and make bound frames evictable only. -/
theorem Consistent.carry_over [Inhabited D] {b b2 : BufferPoolManager D} (h : Consistent b)
    (hfl : b2.free_list = b.free_list) (hpt : b2.page_table = b.page_table)
    (hps : b2.pool_size = b.pool_size) (hnx : b.next_page_id ≤ b2.next_page_id)
    (hlen : b2.pages.length = b.pages.length)
    (hpages : ∀ g pg, b.pageAt g = some pg → ∃ pg2, b2.pageAt g = some pg2 ∧
      pg2.page_id = pg.page_id ∧
      (pg2.is_dirty = true → pg.is_dirty = true ∨ b.page_table.find pg.page_id = some g))
    (hsize : b2.replacer.replacer_size = b.replacer.replacer_size)
    (hrep : b2.replacer.Reachable) (hnd : b2.replacer.node_store.KeysNodup)
    (hfwd : ∀ g n, NodeStore.find g b.replacer.node_store = some n → n.history ≠ [] →
      ∃ n2, NodeStore.find g b2.replacer.node_store = some n2 ∧ n2.history ≠ [])
    (hev : ∀ g, b2.evictable g →
      b.evictable g ∨ ∃ pg, b.pageAt g = some pg ∧ b.page_table.find pg.page_id = some g) :
    Consistent b2 where
  pages_len := by rw [hlen, hps]; exact h.pages_len
  size_eq := by rw [hsize, hps]; exact h.size_eq
  replacer_ok := hrep
  keys_nodup := hnd
  free_nodup := by rw [hfl]; exact h.free_nodup
  free_frames := by
    intro f hf
    rw [hfl] at hf
    obtain ⟨h1, h2, h3, pg, h4, h5, h6⟩ := h.free_frames f hf
    obtain ⟨pg2, h7, h8, h9⟩ := hpages f pg h4
    refine ⟨h1, by rw [hps]; exact h2, by rw [hpt]; exact h3, pg2, h7, h8.trans h5, ?_⟩
    cases hd : pg2.is_dirty with
    | false => rfl
    | true =>
      rcases h9 hd with h10 | h10
      · rw [h6] at h10
        exact absurd h10 (by simp)
      · exact absurd h10 (h3 _)
  bound_frames := by
    intro p f hf
    rw [hpt] at hf
    obtain ⟨h1, h2, h3, ⟨pg, h5, h6⟩, n, h7, h8⟩ := h.bound_frames p f hf
    obtain ⟨pg2, h9, h10, _⟩ := hpages f pg h5
    exact ⟨h1, by rw [hps]; exact h2, h3, ⟨pg2, h9, h10.trans h6⟩, hfwd f n h7 h8⟩
  evictable_bound := by
    intro g hg
    have hb : ∃ pg, b.pageAt g = some pg ∧ b.page_table.find pg.page_id = some g := by
      rcases hev g hg with h1 | h1
      · exact h.evictable_bound g h1
      · exact h1
    obtain ⟨pg, h1, h2⟩ := hb
    obtain ⟨pg2, h3, h4, _⟩ := hpages g pg h1
    exact ⟨pg2, h3, by rw [hpt, h4]; exact h2⟩
  dirty_bound := by
    intro f pg2 hpg2 hd
    obtain ⟨h0, h1⟩ := pageAt_lt hpg2
    rw [hlen] at h1
    obtain ⟨pg, hpg⟩ := pageAt_of_lt b f h0 h1
    obtain ⟨pg3, h3, h4, h5⟩ := hpages f pg hpg
    rw [hpg2] at h3
    simp only [Option.some.injEq] at h3
    subst h3
    rw [hpt, h4]
    rcases h5 hd with h6 | h6
    · exact h.dirty_bound f pg hpg h6
    · exact h6
  next_nonneg := le_trans h.next_nonneg hnx

/-- A write to the page of one frame that keeps its page id, and dirties it only
if the frame is bound. -/
theorem setPage_pages {b : BufferPoolManager D} {f : Int} {page new : Page D}
    (hpg : b.pageAt f = some page) (hid : new.page_id = page.page_id)
    (hd : new.is_dirty = true →
      page.is_dirty = true ∨ b.page_table.find page.page_id = some f) :
    ∀ g pg, b.pageAt g = some pg → ∃ pg2, (b.setPage f new).pageAt g = some pg2 ∧
      pg2.page_id = pg.page_id ∧
      (pg2.is_dirty = true → pg.is_dirty = true ∨ b.page_table.find pg.page_id = some g) := by
  intro g pg hg
  rw [pageAt_setPage _ _ _ _ (nonneg_of_pageAt hpg)]
  by_cases hgf : g = f
  · subst hgf
    rw [hpg] at hg
    simp only [Option.some.injEq] at hg
    subst hg
    exact ⟨new, by simp [hpg], hid, hd⟩
  · exact ⟨pg, by simp [hgf, hg], rfl, fun h => Or.inl h⟩

end BufferPoolManager

namespace LRUKReplacer

theorem recordAccess_size {r r2 : LRUKReplacer} {g : Int} (h : r.RecordAccess g = some r2) :
    r2.replacer_size = r.replacer_size := by
  unfold RecordAccess at h
  by_cases hr : r.rangeAssertFails g = true
  · simp [hr] at h
  · simp only [hr, Bool.false_eq_true, if_false, Option.some.injEq] at h
    subst h
    rfl

theorem setEvictable_size {r r2 : LRUKReplacer} {g : Int} {b : Bool}
    (h : r.SetEvictable g b = some r2) : r2.replacer_size = r.replacer_size := by
  unfold SetEvictable at h
  by_cases hr : r.rangeAssertFails g = true
  · simp [hr] at h
  · simp only [hr, Bool.false_eq_true, if_false] at h
    cases hf : NodeStore.find g (r.node_store.touch g) with
    | none => simp [hf] at h
    | some node =>
      simp only [hf] at h
      by_cases hb : (node.is_evictable != b) = true
      · simp only [hb, if_true, Option.some.injEq] at h
        subst h
        rfl
      · simp only [hb, Bool.false_eq_true, if_false, Option.some.injEq] at h
        subst h
        rfl

theorem remove_size {r r2 : LRUKReplacer} {g : Int} (h : r.Remove g = some r2) :
    r2.replacer_size = r.replacer_size := by
  unfold Remove at h
  by_cases hr : r.removeRangeAssertFails g = true
  · simp [hr] at h
  · simp only [hr, Bool.false_eq_true, if_false] at h
    cases hf : NodeStore.find g r.node_store with
    | none =>
      simp only [hf, Option.some.injEq] at h
      subst h
      rfl
    | some node =>
      simp only [hf] at h
      by_cases he : r.notEvictableAssertFails node g = true
      · simp [he] at h
      · simp only [he, Bool.false_eq_true, if_false, Option.some.injEq] at h
        subst h
        rfl

theorem evict_size {r r2 : LRUKReplacer} {res : Option Int} (h : r.Evict = some (res, r2)) :
    r2.replacer_size = r.replacer_size := by
  unfold Evict at h
  cases hl : evictLoop r.k r.current_timestamp r.node_store ⟨0, false, false, 0⟩ with
  | none => simp [hl] at h
  | some v =>
    simp only [hl] at h
    by_cases he : v.evict = true
    · simp only [he, Bool.not_true, Bool.false_eq_true, if_false, Option.some.injEq,
        Prod.mk.injEq] at h
      rw [← h.2]
    · simp only [he, Bool.not_false, if_true, Option.some.injEq, Prod.mk.injEq] at h
      rw [← h.2]

/-- What lines 74-75 of NewPage (again 92-93 and 125-126 of FetchPage) do to the
replacer: the frame is tracked with a recorded access and not evictable, the
other frames are as before. -/
theorem bind_replacer {r r1 r2 : LRUKReplacer} {f : Int}
    (h1 : r.RecordAccess f = some r1) (h2 : r1.SetEvictable f false = some r2) :
    r2.replacer_size = r.replacer_size ∧ (r.Reachable → r2.Reachable) ∧
    (r.node_store.KeysNodup → r2.node_store.KeysNodup) ∧
    (∃ n, NodeStore.find f r2.node_store = some n ∧ n.history ≠ [] ∧ n.is_evictable = false) ∧
    (∀ g, g ≠ f → NodeStore.find g r2.node_store = NodeStore.find g r.node_store) := by
  refine ⟨(setEvictable_size h2).trans (recordAccess_size h1),
    fun hr => Reachable.setEvictable f false (Reachable.recordAccess f hr h1) h2,
    fun hn => setEvictable_keysNodup h2 (recordAccess_keysNodup h1 hn), ?_, ?_⟩
  · refine ⟨_, by rw [setEvictable_find h2 f, if_pos rfl], ?_, rfl⟩
    rw [recordAccess_find h1 f, if_pos rfl]
    simp [LRUKNode.Access]
  · intro g hg
    rw [setEvictable_find h2 g, if_neg hg, recordAccess_find h1 g, if_neg hg]

/-- What SetEvictable does to the replacer: the flag of the frame is the one
given, its recorded accesses and the other frames are as before. -/
theorem setEvictable_replacer {r r2 : LRUKReplacer} {f : Int} {b : Bool}
    (h : r.SetEvictable f b = some r2) :
    ∀ g n, NodeStore.find g r.node_store = some n → n.history ≠ [] →
      ∃ n2, NodeStore.find g r2.node_store = some n2 ∧ n2.history ≠ [] := by
  intro g n hn hh
  rw [setEvictable_find h g]
  by_cases hg : g = f
  · subst hg
    rw [if_pos rfl, hn]
    exact ⟨_, rfl, hh⟩
  · rw [if_neg hg]
    exact ⟨n, hn, hh⟩

end LRUKReplacer

namespace BufferPoolManager

variable {D : Type}

theorem consistent_unpinPage [Inhabited D] {b b3 : BufferPoolManager D} {page_id : Int}
    {is_dirty res : Bool} (hc : Consistent b)
    (h : b.UnpinPage page_id is_dirty = some (res, b3)) : Consistent b3 := by
  rcases UnpinPage_inv h with ⟨_, rfl⟩ | ⟨f, page, hfind, hpg, hcase⟩
  · exact hc
  · obtain ⟨_, _, _, ⟨pg0, hpg0, hid0⟩, _⟩ := hc.bound_frames _ _ hfind
    rw [hpg] at hpg0
    simp only [Option.some.injEq] at hpg0
    subst hpg0
    have hbound : b.page_table.find page.page_id = some f := by rw [hid0]; exact hfind
    rcases hcase with ⟨_, _, rfl⟩ | ⟨_, _, r, hr, rfl⟩ | ⟨_, _, rfl⟩
    · exact hc.carry_over rfl rfl rfl (le_refl _) (length_setPage _ _ _)
        (setPage_pages hpg rfl (fun _ => Or.inr hbound)) rfl hc.replacer_ok hc.keys_nodup
        (fun g n hn hh => ⟨n, hn, hh⟩) (fun g hg => Or.inl hg)
    · refine hc.carry_over rfl rfl rfl (le_refl _) (length_setPage _ _ _)
        (setPage_pages hpg rfl (fun _ => Or.inr hbound)) (LRUKReplacer.setEvictable_size hr)
        (LRUKReplacer.Reachable.setEvictable f true hc.replacer_ok hr)
        (LRUKReplacer.setEvictable_keysNodup hr hc.keys_nodup)
        (LRUKReplacer.setEvictable_replacer hr) ?_
      intro g hg
      rcases LRUKReplacer.evictable_of_setEvictable hr hg with e | hg1
      · subst e
        exact Or.inr ⟨page, hpg, hbound⟩
      · exact Or.inl hg1
    · exact hc.carry_over rfl rfl rfl (le_refl _) (length_setPage _ _ _)
        (setPage_pages hpg rfl (fun _ => Or.inr hbound)) rfl hc.replacer_ok hc.keys_nodup
        (fun g n hn hh => ⟨n, hn, hh⟩) (fun g hg => Or.inl hg)

theorem consistent_flushPage [Inhabited D] {b b3 : BufferPoolManager D} {page_id : Int}
    {res : Bool} (hc : Consistent b) (h : b.FlushPage page_id = some (res, b3)) :
    Consistent b3 := by
  rcases FlushPage_inv h with ⟨_, rfl⟩ | ⟨f, page, _, hpg, _, rfl⟩
  · exact hc
  · exact hc.carry_over rfl rfl rfl (le_refl _) (length_setPage _ _ _)
      (setPage_pages hpg rfl (fun hd => by simp at hd)) rfl hc.replacer_ok hc.keys_nodup
      (fun g n hn hh => ⟨n, hn, hh⟩) (fun g hg => Or.inl hg)

theorem flushOne_dirty (disk : Disk D) (pg : Page D) :
    (flushOne disk pg).2.is_dirty = true → pg.is_dirty = true := by
  unfold flushOne
  by_cases h : pg.page_id = INVALID_PAGE_ID <;> simp [h]

theorem consistent_flushAllPages [Inhabited D] {b : BufferPoolManager D} (hc : Consistent b) :
    Consistent b.FlushAllPages := by
  refine hc.carry_over rfl rfl rfl (le_refl _) ?_ ?_ rfl hc.replacer_ok hc.keys_nodup
    (fun g n hn hh => ⟨n, hn, hh⟩) (fun g hg => Or.inl hg)
  · simp [FlushAllPages, flushLoop_length]
  · intro g pg hg
    rw [pageAt_FlushAllPages, hg]
    exact ⟨_, rfl, (flushOne_pin b.disk pg).2, fun hd => Or.inl (flushOne_dirty _ _ hd)⟩

theorem consistent_write [Inhabited D] {b b2 : BufferPoolManager D} {f : Int} {d : D}
    (hc : Consistent b) (h : b.writeData f d = some b2) : Consistent b2 := by
  unfold writeData at h
  cases hpg : b.pageAt f with
  | none => simp [hpg] at h
  | some pg =>
    simp only [hpg, Option.some.injEq] at h
    subst h
    exact hc.carry_over rfl rfl rfl (le_refl _) (length_setPage _ _ _)
      (setPage_pages hpg rfl (fun hd => Or.inl hd)) rfl hc.replacer_ok hc.keys_nodup
      (fun g n hn hh => ⟨n, hn, hh⟩) (fun g hg => Or.inl hg)

theorem consistent_reorder [Inhabited D] {b : BufferPoolManager D} (hc : Consistent b)
    (store : NodeStore) (hperm : store.Perm b.replacer.node_store) :
    Consistent { b with replacer := { b.replacer with node_store := store } } := by
  have hnd : NodeStore.KeysNodup store := (hperm.map Prod.fst).nodup_iff.2 hc.keys_nodup
  refine hc.carry_over rfl rfl rfl (le_refl _) rfl (fun g pg hg => ⟨pg, hg, rfl, fun hd => Or.inl hd⟩) rfl
    (LRUKReplacer.Reachable.reorder store hc.replacer_ok hperm) hnd ?_ ?_
  · intro g n hn hh
    exact ⟨n, by rw [← hn]; exact NodeStore.find_perm g hc.keys_nodup hperm, hh⟩
  · intro g hg
    left
    obtain ⟨n, hn, he⟩ := hg
    exact ⟨n, by rw [← hn]; exact (NodeStore.find_perm g hc.keys_nodup hperm).symm, he⟩

theorem consistent_fetchHit [Inhabited D] {b : BufferPoolManager D} {f : Int} {page : Page D}
    {r1 r2 : LRUKReplacer} (hc : Consistent b) (hpg : b.pageAt f = some page)
    (hr1 : b.replacer.RecordAccess f = some r1) (hr2 : r1.SetEvictable f false = some r2) :
    Consistent { (b.setPage f { page with pin_count := page.pin_count + 1 }) with
                 replacer := r2 } := by
  obtain ⟨hs, hre, hnd, ⟨n, hn, hh, _⟩, hoth⟩ := LRUKReplacer.bind_replacer hr1 hr2
  refine hc.carry_over rfl rfl rfl (le_refl _) (length_setPage _ _ _)
    (setPage_pages hpg rfl (fun hd => Or.inl hd)) hs (hre hc.replacer_ok) (hnd hc.keys_nodup)
    ?_ ?_
  · intro g n0 hn0 hh0
    by_cases hg : g = f
    · subst hg
      exact ⟨n, hn, hh⟩
    · exact ⟨n0, by rw [← hn0]; exact hoth g hg, hh0⟩
  · intro g hg
    exact Or.inl (LRUKReplacer.evictable_of_bind hr1 hr2 hg).2

end BufferPoolManager

namespace BufferPoolManager

variable {D : Type}

/-- In a consistent pool every evictable node of the replacer has a recorded
access. -/
theorem Consistent.evictable_stamped [Inhabited D] {b : BufferPoolManager D}
    (hc : Consistent b) :
    ∀ p ∈ b.replacer.node_store, p.2.is_evictable = true → p.2.history ≠ [] := by
  intro p hp he
  have hfind : NodeStore.find p.1 b.replacer.node_store = some p.2 :=
    (NodeStore.find_eq_some_iff p.1 p.2 _ hc.keys_nodup).2 hp
  obtain ⟨pg, _, hb⟩ := hc.evictable_bound p.1 ⟨p.2, hfind, he⟩
  obtain ⟨_, _, _, _, n, hn, hh⟩ := hc.bound_frames _ _ hb
  rw [hfind] at hn
  simp only [Option.some.injEq] at hn
  rw [hn]
  exact hh

/-- In a consistent pool Evict returns, with a frame exactly when some frame is
evictable, and the frame it returns is evictable. -/
theorem Consistent.evict_total [Inhabited D] {b : BufferPoolManager D} (hc : Consistent b) :
    ∃ res r2, b.replacer.Evict = some (res, r2) ∧
      (res = none ↔ ∀ g, ¬ b.evictable g) ∧ (∀ f, res = some f → b.evictable f) := by
  obtain ⟨v, _, hinv, hev⟩ := LRUKReplacer.evict_spec b.replacer
    (LRUKReplacer.stampsBelowClock_of_reachable hc.replacer_ok) hc.evictable_stamped
  refine ⟨_, _, hev, ?_, ?_⟩
  · cases hve : v.evict with
    | false =>
      simp only [Bool.false_eq_true, if_false, true_iff]
      rintro g ⟨n, hn, he⟩
      have hmem := (NodeStore.find_eq_some_iff g n _ hc.keys_nodup).1 hn
      have := (hinv.1 hve).2.2 (g, n) hmem
      simp only at this
      rw [this] at he
      exact absurd he (by simp)
    | true =>
      simp only [if_true]
      obtain ⟨n, hmem, he, _⟩ := hinv.2 hve
      constructor
      · intro e
        exact absurd e (by simp)
      · intro hall
        exact absurd ⟨n, (NodeStore.find_eq_some_iff _ n _ hc.keys_nodup).2 hmem, he⟩
          (hall v.frame_to_evict)
  · intro f hf
    cases hve : v.evict with
    | false => simp [hve] at hf
    | true =>
      simp only [hve, if_true, Option.some.injEq] at hf
      subst hf
      obtain ⟨n, hmem, he, _⟩ := hinv.2 hve
      exact ⟨n, (NodeStore.find_eq_some_iff _ n _ hc.keys_nodup).2 hmem, he⟩

/-- The frame that pickFrame hands out in a consistent pool, and what is left of
the free list and of the replacer. -/
theorem pickFrame_consistent [Inhabited D] {b b1 : BufferPoolManager D} {f : Int}
    (hc : Consistent b) (h : b.pickFrame = some (some f, b1)) :
    (0 ≤ f ∧ f < b.pool_size) ∧
    (∃ pg, b.pageAt f = some pg ∧
      (∀ q, b.page_table.find q = some f → q = pg.page_id) ∧
      (∀ g, b.page_table.find pg.page_id = some g → g = f)) ∧
    b1.free_list.Nodup ∧ (∀ g ∈ b1.free_list, g ∈ b.free_list ∧ g ≠ f) ∧
    b1.replacer.replacer_size = b.replacer.replacer_size ∧ b1.replacer.Reachable ∧
    b1.replacer.node_store.KeysNodup ∧
    (∀ g, g ≠ f → NodeStore.find g b1.replacer.node_store
      = NodeStore.find g b.replacer.node_store) := by
  rcases pickFrame_inv h with ⟨f2, hlast, hres, rfl⟩ | ⟨hnil, r, hev, rfl⟩
  · simp only [Option.some.injEq] at hres
    subst hres
    have hmem : f ∈ b.free_list := List.mem_of_getLast?_eq_some hlast
    obtain ⟨h1, h2, h3, pg, h4, h5, _⟩ := hc.free_frames f hmem
    refine ⟨⟨h1, h2⟩, ⟨pg, h4, ?_, ?_⟩, ?_, ?_, rfl, hc.replacer_ok, hc.keys_nodup,
      fun g _ => rfl⟩
    · intro q hq
      exact absurd hq (h3 q)
    · intro g hg
      rw [h5] at hg
      exact absurd rfl (hc.bound_frames _ g hg).2.2.1
    · exact hc.free_nodup.sublist (List.dropLast_sublist _)
    · intro g hg
      refine ⟨(List.dropLast_sublist _).subset hg, ?_⟩
      intro e
      rw [e] at hg
      exact List.not_mem_dropLast_of_getLast? hc.free_nodup hlast hg
  · obtain ⟨res, r2, hev2, _, hres⟩ := hc.evict_total
    rw [hev] at hev2
    simp only [Option.some.injEq, Prod.mk.injEq] at hev2
    have hef : b.evictable f := hres f hev2.1.symm
    obtain ⟨pg, hpg, hb⟩ := hc.evictable_bound f hef
    obtain ⟨h1, h2, _, _, _⟩ := hc.bound_frames _ _ hb
    refine ⟨⟨h1, h2⟩, ⟨pg, hpg, ?_, ?_⟩, ?_, ?_, LRUKReplacer.evict_size hev,
      LRUKReplacer.Reachable.evict (some f) hc.replacer_ok hev,
      LRUKReplacer.evict_keysNodup hev hc.keys_nodup, ?_⟩
    · intro q hq
      obtain ⟨_, _, _, ⟨pg2, h7, h8⟩, _⟩ := hc.bound_frames q f hq
      rw [hpg] at h7
      simp only [Option.some.injEq] at h7
      rw [← h8, ← h7]
    · intro g hg
      rw [hb] at hg
      simp only [Option.some.injEq] at hg
      exact hg.symm
    · simp [hnil]
    · intro g hg
      simp only [hnil] at hg
      simp at hg
    · intro g hg
      rw [LRUKReplacer.evict_find hev g]
      have : ¬ some f = some g := fun e => hg (Option.some.inj e).symm
      rw [if_neg this]

/-- The rebinding of a frame f, taken from the free list or evicted, to a page
id keeps the bookkeeping consistent, also when the page id is resident already
and emplace leaves the page table alone. -/
theorem consistent_rebind [Inhabited D] (b : BufferPoolManager D) (hc : Consistent b)
    (f pid next2 old : Int) (page2 : Page D) (fl : List Int) (r2 : LRUKReplacer) (d : Disk D)
    (hrange : 0 ≤ f ∧ f < b.pool_size) (hpage : ∃ pg, b.pageAt f = some pg)
    (hid : page2.page_id = pid) (hclean : page2.is_dirty = false)
    (hpid : pid ≠ INVALID_PAGE_ID) (hle : b.next_page_id ≤ next2)
    (hE : ∀ q, b.page_table.find q = some f → q = old)
    (hF : ∀ g, b.page_table.find old = some g → g = f)
    (hfl1 : fl.Nodup) (hfl2 : ∀ g ∈ fl, g ∈ b.free_list ∧ g ≠ f)
    (hsize : r2.replacer_size = b.replacer.replacer_size) (hrep : r2.Reachable)
    (hnd : r2.node_store.KeysNodup)
    (hnode : ∃ n, NodeStore.find f r2.node_store = some n ∧ n.history ≠ [] ∧
      n.is_evictable = false)
    (hoth : ∀ g, g ≠ f →
      NodeStore.find g r2.node_store = NodeStore.find g b.replacer.node_store) :
    Consistent { pool_size := b.pool_size, pages := b.pages.set f.toNat page2,
                 page_table := (b.page_table.erase old).emplace pid f, free_list := fl,
                 replacer := r2, next_page_id := next2, disk := d } := by
  have hnew : ∀ q g, PageTable.find q ((b.page_table.erase old).emplace pid f) = some g →
      (q = pid ∧ g = f) ∨ (q ≠ old ∧ g ≠ f ∧ b.page_table.find q = some g) := by
    intro q g hq
    have hkeep : PageTable.find q (b.page_table.erase old) = some g →
        q ≠ old ∧ g ≠ f ∧ b.page_table.find q = some g := by
      intro hq2
      rw [PageTable.find_erase_page] at hq2
      by_cases hqo : q = old
      · simp [hqo] at hq2
      · simp only [hqo, if_false] at hq2
        refine ⟨hqo, ?_, hq2⟩
        intro e
        rw [e] at hq2
        exact hqo (hE q hq2)
    rw [PageTable.find_emplace] at hq
    cases hp : PageTable.find pid (b.page_table.erase old) with
    | some g0 =>
      rw [hp] at hq
      simp only [Option.isSome_some, if_true] at hq
      exact Or.inr (hkeep hq)
    | none =>
      rw [hp] at hq
      simp only [Option.isSome_none, Bool.false_eq_true, if_false] at hq
      by_cases hqp : q = pid
      · rw [if_pos hqp] at hq
        simp only [Option.some.injEq] at hq
        exact Or.inl ⟨hqp, hq.symm⟩
      · rw [if_neg hqp] at hq
        exact Or.inr (hkeep hq)
  have hold : ∀ q g, b.page_table.find q = some g → g ≠ f →
      PageTable.find q ((b.page_table.erase old).emplace pid f) = some g := by
    intro q g hq hgf
    have hqo : q ≠ old := by
      intro e
      rw [e] at hq
      exact hgf (hF g hq)
    have hq2 : PageTable.find q (b.page_table.erase old) = some g := by
      rw [PageTable.find_erase_page, if_neg hqo]
      exact hq
    rw [PageTable.find_emplace]
    cases hp : PageTable.find pid (b.page_table.erase old) with
    | some g0 =>
      simp only [Option.isSome_some, if_true]
      exact hq2
    | none =>
      simp only [Option.isSome_none, Bool.false_eq_true, if_false]
      by_cases hqp : q = pid
      · rw [hqp, hp] at hq2
        exact absurd hq2 (by simp)
      · rw [if_neg hqp]
        exact hq2
  obtain ⟨pg0, hpg0⟩ := hpage
  obtain ⟨n, hn, hh, hne⟩ := hnode
  constructor
  · simp only [List.length_set]
    exact hc.pages_len
  · simp only
    rw [hsize]
    exact hc.size_eq
  · exact hrep
  · exact hnd
  · exact hfl1
  · intro g hg
    obtain ⟨hg1, hg2⟩ := hfl2 g hg
    obtain ⟨h1, h2, h3, pg, h4, h5⟩ := hc.free_frames g hg1
    refine ⟨h1, h2, ?_, pg, ?_, h5⟩
    · intro q hq
      rcases hnew q g hq with ⟨_, e⟩ | ⟨_, _, hq2⟩
      · exact hg2 e
      · exact h3 q hq2
    · rw [pageAt_set _ _ _ _ hrange.1, if_neg hg2]
      exact h4
  · intro q g hq
    rcases hnew q g hq with ⟨e1, e2⟩ | ⟨_, hgf, hq2⟩
    · subst e1 e2
      refine ⟨hrange.1, hrange.2, hpid, ⟨page2, ?_, hid⟩, n, hn, hh⟩
      rw [pageAt_set _ _ _ _ hrange.1, if_pos rfl, hpg0]
      rfl
    · obtain ⟨h1, h2, h3, ⟨pg, h5, h6⟩, n2, h7, h8⟩ := hc.bound_frames q g hq2
      refine ⟨h1, h2, h3, ⟨pg, ?_, h6⟩, n2, ?_, h8⟩
      · rw [pageAt_set _ _ _ _ hrange.1, if_neg hgf]
        exact h5
      · simp only
        rw [hoth g hgf]
        exact h7
  · intro g hg
    obtain ⟨n2, hn2, he2⟩ := hg
    simp only at hn2
    have hgf : g ≠ f := by
      intro e
      rw [e, hn] at hn2
      simp only [Option.some.injEq] at hn2
      rw [← hn2, hne] at he2
      exact absurd he2 (by simp)
    rw [hoth g hgf] at hn2
    obtain ⟨pg, h1, h2⟩ := hc.evictable_bound g ⟨n2, hn2, he2⟩
    refine ⟨pg, ?_, hold _ _ h2 hgf⟩
    rw [pageAt_set _ _ _ _ hrange.1, if_neg hgf]
    exact h1
  · intro g pg hpg hd
    rw [pageAt_set _ _ _ _ hrange.1] at hpg
    by_cases hgf : g = f
    · rw [if_pos hgf, hpg0] at hpg
      simp only [Option.map_some', Option.some.injEq] at hpg
      rw [← hpg, hclean] at hd
      exact absurd hd (by simp)
    · rw [if_neg hgf] at hpg
      exact hold _ _ (hc.dirty_bound g pg hpg hd) hgf
  · exact le_trans hc.next_nonneg hle

end BufferPoolManager

namespace BufferPoolManager

variable {D : Type}

theorem writeBack_clean (disk : Disk D) (page : Page D) :
    (writeBack disk page).2.is_dirty = false := by
  unfold writeBack
  cases h : page.is_dirty <;> simp [h]

theorem consistent_acquire [Inhabited D] {b b1 b3 : BufferPoolManager D} {f pid next2 : Int}
    {page : Page D} {d : Disk D} (hc : Consistent b)
    (hp : b.pickFrame = some (some f, b1)) (hpg : b1.pageAt f = some page)
    (hpid : pid ≠ INVALID_PAGE_ID) (hle : b.next_page_id ≤ next2)
    (hb : bindFrame { b1 with disk := d, next_page_id := next2 } f
      (writeBack b1.disk page).2 pid = some b3) :
    Consistent b3 := by
  obtain ⟨hrange, ⟨pg, hpg0, hE, hF⟩, hfl1, hfl2, hsz, hre, hnd, hoth⟩ :=
    pickFrame_consistent hc hp
  obtain ⟨hpages, htable, hps, _, _, _, _⟩ := pickFrame_effect hp
  obtain ⟨r1, r2, hr1, hr2, rfl⟩ := bindFrame_inv hb
  have hpage : page = pg := by
    have : b1.pageAt f = b.pageAt f := by
      unfold pageAt
      rw [hpages]
    rw [this, hpg0] at hpg
    simp only [Option.some.injEq] at hpg
    exact hpg.symm
  subst hpage
  obtain ⟨hs2, hre2, hnd2, hnode, hoth2⟩ := LRUKReplacer.bind_replacer hr1 hr2
  have := consistent_rebind b hc f pid next2 page.page_id
    { (writeBack b1.disk page).2 with page_id := pid, pin_count := 1, data := default }
    b1.free_list r2 d hrange ⟨page, hpg0⟩ rfl (writeBack_clean _ _) hpid hle hE hF hfl1 hfl2
    (hs2.trans hsz) (hre2 hre) (hnd2 hnd) hnode
    (fun g hg => (hoth2 g hg).trans (hoth g hg))
  rw [← hpages, ← htable, ← hps, ← writeBack_page_id b1.disk page] at this
  exact this

theorem consistent_newPage [Inhabited D] {b b3 : BufferPoolManager D} {res : Option (Int × Int)}
    (hc : Consistent b) (h : b.NewPage = some (res, b3)) : Consistent b3 := by
  rcases NewPage_inv h with ⟨_, rfl, _⟩ | ⟨f, b1, page, hp, hpg, _, hb⟩
  · exact hc
  · obtain ⟨_, _, _, hnx, _, _, _⟩ := pickFrame_effect hp
    have hnn := hc.next_nonneg
    refine consistent_acquire hc hp hpg ?_ (by omega) hb
    rw [hnx]
    unfold INVALID_PAGE_ID
    omega

theorem consistent_fetchPage [Inhabited D] {b b3 : BufferPoolManager D} {page_id : Int}
    {res : Option Int} (hc : Consistent b)
    (h : b.FetchPage page_id = some (res, b3)) : Consistent b3 := by
  rcases FetchPage_inv h with ⟨_, rfl⟩ | ⟨_, f, page, r1, r2, hfind, hpg, hr1, hr2, _, rfl⟩ |
      ⟨hinv, hmiss, f, b1, page, b2, page3, hp, hpg, hb, hpg3, _, rfl⟩
  · exact hc
  · exact consistent_fetchHit hc hpg hr1 hr2
  · have hb2 : bindFrame { b1 with
        disk := (writeBack b1.disk page).1, next_page_id := b1.next_page_id }
        f (writeBack b1.disk page).2 page_id = some b2 := hb
    obtain ⟨_, _, _, hnx, _, _, _⟩ := pickFrame_effect hp
    have hc2 : Consistent b2 := consistent_acquire hc hp hpg hinv (by omega) hb2
    exact hc2.carry_over rfl rfl rfl (le_refl _) (length_setPage _ _ _)
      (setPage_pages hpg3 rfl (fun hd => Or.inl hd)) rfl hc2.replacer_ok hc2.keys_nodup
      (fun g n hn hh => ⟨n, hn, hh⟩) (fun g hg => Or.inl hg)

theorem consistent_deletePage [Inhabited D] {b b3 : BufferPoolManager D} {page_id : Int}
    {res : Bool} (hc : Consistent b) (h : b.DeletePage page_id = some (res, b3)) :
    Consistent b3 := by
  rcases DeletePage_inv h with rfl | ⟨_, f, page, r, hfind, hpg, _, hr, _, rfl⟩
  · exact hc
  · obtain ⟨hf0, hf1, _, ⟨pg, hpg2, hid⟩, _⟩ := hc.bound_frames _ _ hfind
    rw [hpg] at hpg2
    simp only [Option.some.injEq] at hpg2
    subst hpg2
    have hnotfree : f ∉ b.free_list := fun hm => (hc.free_frames f hm).2.2.1 page_id hfind
    have hE : ∀ q, b.page_table.find q = some f → q = page_id := by
      intro q hq
      obtain ⟨_, _, _, ⟨pg2, h7, h8⟩, _⟩ := hc.bound_frames q f hq
      rw [hpg] at h7
      simp only [Option.some.injEq] at h7
      rw [← h8, ← h7, hid]
    have hkeep : ∀ q g, PageTable.find q (b.page_table.erase page_id) = some g →
        g ≠ f ∧ b.page_table.find q = some g := by
      intro q g hq
      rw [PageTable.find_erase_page] at hq
      by_cases hqp : q = page_id
      · simp [hqp] at hq
      · simp only [hqp, if_false] at hq
        refine ⟨?_, hq⟩
        intro e
        rw [e] at hq
        exact hqp (hE q hq)
    have hold : ∀ q g, b.page_table.find q = some g → g ≠ f →
        PageTable.find q (b.page_table.erase page_id) = some g := by
      intro q g hq hgf
      have hqp : q ≠ page_id := by
        intro e
        rw [e, hfind] at hq
        simp only [Option.some.injEq] at hq
        exact hgf hq.symm
      rw [PageTable.find_erase_page, if_neg hqp]
      exact hq
    constructor
    · simp only [List.length_set]
      exact hc.pages_len
    · simp only
      rw [LRUKReplacer.remove_size hr]
      exact hc.size_eq
    · exact LRUKReplacer.Reachable.remove f hc.replacer_ok hr
    · exact LRUKReplacer.remove_keysNodup hr hc.keys_nodup
    · exact List.Nodup.append hc.free_nodup (List.nodup_singleton f) (by simpa using hnotfree)
    · intro g hg
      simp only [List.mem_append, List.mem_singleton] at hg
      rcases hg with hg | rfl
      · obtain ⟨h1, h2, h3, pg, h4, h5⟩ := hc.free_frames g hg
        have hgf : g ≠ f := fun e => hnotfree (e ▸ hg)
        refine ⟨h1, h2, ?_, pg, ?_, h5⟩
        · intro q hq
          exact h3 q (hkeep q g hq).2
        · rw [pageAt_set _ _ _ _ hf0, if_neg hgf]
          exact h4
      · refine ⟨hf0, hf1, ?_, { page with
            data := default, page_id := INVALID_PAGE_ID, is_dirty := false,
            pin_count := 0 }, ?_, rfl, rfl⟩
        · intro q hq
          exact (hkeep q _ hq).1 rfl
        · rw [pageAt_set _ _ _ _ hf0, if_pos rfl, hpg]
          rfl
    · intro q g hq
      obtain ⟨hgf, hq2⟩ := hkeep q g hq
      obtain ⟨h1, h2, h3, ⟨pg, h5, h6⟩, n, h7, h8⟩ := hc.bound_frames q g hq2
      refine ⟨h1, h2, h3, ⟨pg, ?_, h6⟩, n, ?_, h8⟩
      · rw [pageAt_set _ _ _ _ hf0, if_neg hgf]
        exact h5
      · simp only
        rw [LRUKReplacer.remove_find hr g, if_neg hgf]
        exact h7
    · intro g hg
      obtain ⟨n, hn, he⟩ := hg
      simp only at hn
      rw [LRUKReplacer.remove_find hr g] at hn
      by_cases hgf : g = f
      · simp [hgf] at hn
      · rw [if_neg hgf] at hn
        obtain ⟨pg, h1, h2⟩ := hc.evictable_bound g ⟨n, hn, he⟩
        refine ⟨pg, ?_, hold _ _ h2 hgf⟩
        rw [pageAt_set _ _ _ _ hf0, if_neg hgf]
        exact h1
    · intro g pg hpg2 hd
      rw [pageAt_set _ _ _ _ hf0] at hpg2
      by_cases hgf : g = f
      · rw [if_pos hgf, hpg] at hpg2
        simp only [Option.map_some', Option.some.injEq] at hpg2
        rw [← hpg2] at hd
        exact absurd hd (by simp)
      · rw [if_neg hgf] at hpg2
        exact hold _ _ (hc.dirty_bound g pg hpg2 hd) hgf
    · exact hc.next_nonneg

theorem consistent_new [Inhabited D] (pool_size replacer_k : Nat) (mode : AssertMode) :
    Consistent (new pool_size replacer_k mode : BufferPoolManager D) := by
  constructor
  · simp [new]
  · simp [new, LRUKReplacer.new]
  · exact LRUKReplacer.Reachable.init pool_size replacer_k mode
  · simp [new, LRUKReplacer.new, NodeStore.KeysNodup]
  · simp only [new]
    exact (List.nodup_range pool_size).map (fun a b h => Int.ofNat.inj h)
  · intro f hf
    simp only [new, List.mem_map, List.mem_range] at hf
    obtain ⟨i, hi, rfl⟩ := hf
    refine ⟨Int.ofNat_nonneg i, Int.ofNat_lt.2 hi,
      fun p hp => by simp [new, PageTable.find] at hp, Page.init D, ?_, rfl, rfl⟩
    simp [pageAt, new, hi]
  · intro p f hf
    simp [new, PageTable.find] at hf
  · rintro g ⟨n, hn, _⟩
    simp [new, LRUKReplacer.new, NodeStore.find] at hn
  · intro f pg hpg hd
    have hlt := pageAt_lt hpg
    unfold pageAt at hpg
    simp only [hlt.1, if_true, new] at hpg
    have := List.getElem?_eq_some.1 hpg
    obtain ⟨_, h2⟩ := this
    simp only [List.getElem_replicate] at h2
    rw [← h2] at hd
    simp [Page.init] at hd
  · simp [new]

end BufferPoolManager

namespace BufferPoolManager

variable {D : Type}

theorem consistent_of_reachableWithWrites [Inhabited D] {b : BufferPoolManager D}
    (h : ReachableWithWrites b) : Consistent b := by
  induction h with
  | init pool_size replacer_k mode => exact consistent_new pool_size replacer_k mode
  | newPage res _ hstep ih => exact consistent_newPage ih hstep
  | fetchPage page_id res _ hstep ih => exact consistent_fetchPage ih hstep
  | unpinPage page_id is_dirty res _ hstep ih => exact consistent_unpinPage ih hstep
  | flushPage page_id res _ hstep ih => exact consistent_flushPage ih hstep
  | flushAllPages _ ih => exact consistent_flushAllPages ih
  | deletePage page_id res _ hstep ih => exact consistent_deletePage ih hstep
  | write f d _ hstep ih => exact consistent_write ih hstep
  | reorder store _ hperm ih => exact consistent_reorder ih store hperm

theorem reachableWithWrites_of_reachable [Inhabited D] {b : BufferPoolManager D}
    (h : Reachable b) : ReachableWithWrites b := by
  induction h with
  | init pool_size replacer_k mode => exact ReachableWithWrites.init pool_size replacer_k mode
  | newPage res _ hstep ih => exact ReachableWithWrites.newPage res ih hstep
  | fetchPage page_id res _ hstep ih => exact ReachableWithWrites.fetchPage page_id res ih hstep
  | unpinPage page_id is_dirty res _ hstep ih =>
    exact ReachableWithWrites.unpinPage page_id is_dirty res ih hstep
  | flushPage page_id res _ hstep ih => exact ReachableWithWrites.flushPage page_id res ih hstep
  | flushAllPages _ ih => exact ReachableWithWrites.flushAllPages ih
  | deletePage page_id res _ hstep ih =>
    exact ReachableWithWrites.deletePage page_id res ih hstep
  | reorder store _ hperm ih => exact ReachableWithWrites.reorder store ih hperm

theorem consistent_of_reachable [Inhabited D] {b : BufferPoolManager D}
    (h : Reachable b) : Consistent b :=
  consistent_of_reachableWithWrites (reachableWithWrites_of_reachable h)

theorem oneFramePinned_reachable (mode : AssertMode) : Reachable (oneFramePinned mode) :=
  pool_reachable_of_run [.newPage] (Reachable.init 1 2 mode) (by cases mode <;> decide)

theorem oneFrameUnpinned_reachable (mode : AssertMode) : Reachable (oneFrameUnpinned mode) :=
  pool_reachable_of_run [.newPage, .unpinPage 0 false] (Reachable.init 1 2 mode)
    (by cases mode <;> decide)

end BufferPoolManager

/-- C16. Page table consistency: in every pool state reachable from construction
through NewPage, FetchPage, UnpinPage, FlushPage, FlushAllPages and DeletePage,
page_table_ is injective (no two page ids map to the same frame), and whenever it
maps page id p to frame f, the page stored in frame f has page id p. -/
theorem BufferPoolManager.page_table_consistent {D : Type} [Inhabited D]
    (b : BufferPoolManager D) (hb : b.Reachable) :
    (∀ p q f, b.page_table.find p = some f → b.page_table.find q = some f → p = q) ∧
    (∀ p f, b.page_table.find p = some f → ∃ pg, b.pageAt f = some pg ∧ pg.page_id = p) := by
  have hc := BufferPoolManager.consistent_of_reachable hb
  refine ⟨?_, fun p f h => (hc.bound_frames p f h).2.2.2.1⟩
  intro p q f hp hq
  obtain ⟨pg, h1, h2⟩ := (hc.bound_frames p f hp).2.2.2.1
  obtain ⟨pg2, h3, h4⟩ := (hc.bound_frames q f hq).2.2.2.1
  rw [h1] at h3
  simp only [Option.some.injEq] at h3
  rw [← h2, ← h4, h3]

/-- C16 at the pool of two frames after FetchPage(0) and NewPage(), where the
page table holds the one entry 0 -> 1 and frame 1 holds page 0. -/
theorem BufferPoolManager.page_table_consistent_witness :
    BufferPoolManager.clashState.Reachable ∧
    (∀ p q f, BufferPoolManager.clashState.page_table.find p = some f →
      BufferPoolManager.clashState.page_table.find q = some f → p = q) ∧
    (∀ p f, BufferPoolManager.clashState.page_table.find p = some f →
      ∃ pg, BufferPoolManager.clashState.pageAt f = some pg ∧ pg.page_id = p) :=
  ⟨BufferPoolManager.clashState_reachable,
    BufferPoolManager.page_table_consistent BufferPoolManager.clashState
      BufferPoolManager.clashState_reachable⟩

/-! ## Buffer pool manager: when NewPage and FetchPage return a frame -/

namespace LRUKReplacer

theorem recordAccess_total (r : LRUKReplacer) (f : Int) (h0 : 0 ≤ f)
    (h1 : f < r.replacer_size) : ∃ r1, r.RecordAccess f = some r1 := by
  unfold RecordAccess
  have : r.rangeAssertFails f = false := by
    unfold rangeAssertFails outOfRange
    have e1 : decide (f < 0) = false := by simp; omega
    have e2 : decide ((r.replacer_size : Int) ≤ f) = false := by simp; omega
    simp [e1, e2]
  simp [this]

theorem setEvictable_total (r : LRUKReplacer) (f : Int) (b : Bool) (h0 : 0 ≤ f)
    (h1 : f < r.replacer_size) : ∃ r1, r.SetEvictable f b = some r1 := by
  unfold SetEvictable
  have : r.rangeAssertFails f = false := by
    unfold rangeAssertFails outOfRange
    have e1 : decide (f < 0) = false := by simp; omega
    have e2 : decide ((r.replacer_size : Int) ≤ f) = false := by simp; omega
    simp [e1, e2]
  have hfg : NodeStore.find f (r.node_store.touch f)
      = some ((NodeStore.find f r.node_store).getD LRUKNode.fresh) := by
    simp [NodeStore.find_touch]
  simp only [this, Bool.false_eq_true, if_false, hfg]
  split
  · exact ⟨_, rfl⟩
  · exact ⟨_, rfl⟩

end LRUKReplacer

namespace BufferPoolManager

variable {D : Type}

theorem bindFrame_total [Inhabited D] (b : BufferPoolManager D) (f pid : Int) (page : Page D)
    (h0 : 0 ≤ f) (h1 : f < b.replacer.replacer_size) :
    ∃ b3, b.bindFrame f page pid = some b3 := by
  obtain ⟨r1, hr1⟩ := LRUKReplacer.recordAccess_total b.replacer f h0 h1
  obtain ⟨r2, hr2⟩ := LRUKReplacer.setEvictable_total r1 f false h0
    (by rw [LRUKReplacer.recordAccess_size hr1]; exact h1)
  unfold bindFrame
  simp only [hr1, hr2]
  exact ⟨_, rfl⟩

/-- In a consistent pool pickFrame returns; it hands out no frame exactly when
the free list is empty and no frame is evictable, and then leaves the pool as it
is; a frame it hands out lies in the pool. -/
theorem pickFrame_total [Inhabited D] {b : BufferPoolManager D} (hc : Consistent b) :
    ∃ res b1, b.pickFrame = some (res, b1) ∧
      (res = none ↔ b.free_list = [] ∧ ∀ f, ¬ b.evictable f) ∧ (res = none → b1 = b) ∧
      (∀ f, res = some f → 0 ≤ f ∧ f < b1.replacer.replacer_size ∧
        ∃ pg, b1.pageAt f = some pg) := by
  unfold pickFrame
  cases hl : b.free_list.getLast? with
  | some f =>
    have hmem : f ∈ b.free_list := List.mem_of_getLast?_eq_some hl
    obtain ⟨h1, h2, _, pg, h4, _⟩ := hc.free_frames f hmem
    refine ⟨some f, _, rfl, ?_, ?_, ?_⟩
    · constructor
      · intro e
        exact absurd e (by simp)
      · rintro ⟨e, _⟩
        rw [e] at hmem
        simp at hmem
    · intro e
      exact absurd e (by simp)
    · intro g hg
      simp only [Option.some.injEq] at hg
      subst hg
      refine ⟨h1, ?_, pg, h4⟩
      simp only
      rw [hc.size_eq]
      exact h2
  | none =>
    have hnil : b.free_list = [] := List.getLast?_eq_none_iff.1 hl
    obtain ⟨res, r2, hev, hnone, hsome⟩ := hc.evict_total
    simp only [hev]
    cases res with
    | none =>
      refine ⟨none, b, rfl, ?_, fun _ => rfl, ?_⟩
      · simp only [true_iff]
        exact ⟨hnil, hnone.1 rfl⟩
      · intro f hf
        exact absurd hf (by simp)
    | some f =>
      refine ⟨some f, _, rfl, ?_, ?_, ?_⟩
      · constructor
        · intro e
          exact absurd e (by simp)
        · rintro ⟨_, hall⟩
          exact absurd (hsome f rfl) (hall f)
      · intro e
        exact absurd e (by simp)
      · intro g hg
        simp only [Option.some.injEq] at hg
        subst hg
        obtain ⟨pg, hpg, hb⟩ := hc.evictable_bound f (hsome f rfl)
        obtain ⟨h1, h2, _, _, _⟩ := hc.bound_frames _ _ hb
        refine ⟨h1, ?_, pg, hpg⟩
        simp only
        rw [LRUKReplacer.evict_size hev, hc.size_eq]
        exact h2

end BufferPoolManager

/-- C15. Pool exhaustion: in every pool state reachable from construction,
NewPage returns, and so does FetchPage of a valid page id that is not resident;
each returns nullptr exactly when the free list is empty and no frame is
evictable, and then it leaves the whole pool state unchanged; otherwise it returns
a page. -/
theorem BufferPoolManager.pool_exhaustion {D : Type} [Inhabited D]
    (b : BufferPoolManager D) (hb : b.Reachable) :
    (∃ res b2, b.NewPage = some (res, b2) ∧
      (res = none ↔ b.free_list = [] ∧ ∀ f, ¬ b.evictable f) ∧ (res = none → b2 = b)) ∧
    (∀ p, p ≠ INVALID_PAGE_ID → b.page_table.find p = none →
      ∃ res b2, b.FetchPage p = some (res, b2) ∧
        (res = none ↔ b.free_list = [] ∧ ∀ f, ¬ b.evictable f) ∧ (res = none → b2 = b)) := by
  have hc := BufferPoolManager.consistent_of_reachable hb
  obtain ⟨res, b1, hp, hiff, hsame, hframe⟩ := BufferPoolManager.pickFrame_total hc
  constructor
  · unfold BufferPoolManager.NewPage
    rw [hp]
    cases res with
    | none => exact ⟨none, b1, rfl, by simpa using hiff, fun _ => hsame rfl⟩
    | some f =>
      obtain ⟨h0, h1, pg, hpg⟩ := hframe f rfl
      obtain ⟨b3, hb3⟩ := BufferPoolManager.bindFrame_total
        { b1 with disk := (BufferPoolManager.writeBack b1.disk pg).1,
                  next_page_id := b1.next_page_id + 1 } f b1.next_page_id
        (BufferPoolManager.writeBack b1.disk pg).2 h0 h1
      simp only [hpg, hb3]
      refine ⟨_, _, rfl, ?_, fun e => absurd e (by simp)⟩
      constructor
      · intro e
        exact absurd e (by simp)
      · intro h
        exact absurd (hiff.2 h) (by simp)
  · intro p hinv hmiss
    unfold BufferPoolManager.FetchPage
    rw [if_neg hinv]
    simp only [hmiss, hp]
    cases res with
    | none => exact ⟨none, b1, rfl, by simpa using hiff, fun _ => hsame rfl⟩
    | some f =>
      obtain ⟨h0, h1, pg, hpg⟩ := hframe f rfl
      obtain ⟨b3, hb3⟩ := BufferPoolManager.bindFrame_total
        { b1 with disk := (BufferPoolManager.writeBack b1.disk pg).1 } f p
        (BufferPoolManager.writeBack b1.disk pg).2 h0 h1
      obtain ⟨r1, r2, _, _, hb3eq⟩ := BufferPoolManager.bindFrame_inv hb3
      have hpg3 : ∃ pg3, b3.pageAt f = some pg3 := by
        rw [hb3eq]
        have := BufferPoolManager.pageAt_setPage
          { b1 with disk := (BufferPoolManager.writeBack b1.disk pg).1 } f f
          { (BufferPoolManager.writeBack b1.disk pg).2 with
            page_id := p, pin_count := 1, data := default } h0
        rw [if_pos rfl] at this
        have hpg1 : BufferPoolManager.pageAt
            { b1 with disk := (BufferPoolManager.writeBack b1.disk pg).1 } f = some pg := hpg
        rw [hpg1] at this
        exact ⟨_, this⟩
      obtain ⟨pg3, hpg3⟩ := hpg3
      simp only [hpg, hb3, hpg3]
      refine ⟨_, _, rfl, ?_, fun e => absurd e (by simp)⟩
      constructor
      · intro e
        exact absurd e (by simp)
      · intro h
        exact absurd (hiff.2 h) (by simp)

/-- C15 on the spec's boundary scenario 1, a pool of one frame with k = 2:
NewPage gives page 0 and pins frame 0; the next NewPage gives nullptr and changes
nothing, the free list being empty and no frame evictable; UnpinPage(0, true)
gives true; the next NewPage gives page 1 in frame 0, and page 0 was written to
the disk. -/
theorem BufferPoolManager.pool_exhaustion_witness :
    (BufferPoolManager.oneFramePinned .abort).Reachable ∧
    (∃ res b2, (BufferPoolManager.oneFramePinned .abort).NewPage = some (res, b2) ∧
      (res = none ↔ (BufferPoolManager.oneFramePinned .abort).free_list = [] ∧
        ∀ f, ¬ (BufferPoolManager.oneFramePinned .abort).evictable f) ∧
      (res = none → b2 = BufferPoolManager.oneFramePinned .abort)) ∧
    (BufferPoolManager.new 1 2 .abort : BufferPoolManager Nat).NewPage
      = some (some (0, 0), BufferPoolManager.oneFramePinned .abort) ∧
    (BufferPoolManager.oneFramePinned .abort).NewPage
      = some (none, BufferPoolManager.oneFramePinned .abort) ∧
    ((BufferPoolManager.oneFramePinned .abort).UnpinPage 0 true).map Prod.fst = some true ∧
    (((BufferPoolManager.oneFramePinned .abort).run [.unpinPage 0 true]).bind
      (fun b => b.NewPage)).map (fun x => (x.1, x.2.disk)) = some (some (1, 0), [(0, 0)]) :=
  ⟨BufferPoolManager.oneFramePinned_reachable .abort,
    (BufferPoolManager.pool_exhaustion (BufferPoolManager.oneFramePinned .abort)
      (BufferPoolManager.oneFramePinned_reachable .abort)).1,
    by decide, by decide, by decide, by decide⟩

/-! ## Buffer pool manager: UnpinPage -/

namespace BufferPoolManager

variable {D : Type}

/-- What UnpinPage does for a resident page, by its pin count. -/
theorem UnpinPage_resident {b b3 : BufferPoolManager D} {page_id f : Int} {page : Page D}
    {is_dirty res : Bool} (hi : page_id ≠ INVALID_PAGE_ID)
    (hf : b.page_table.find page_id = some f) (hpg : b.pageAt f = some page)
    (h : b.UnpinPage page_id is_dirty = some (res, b3)) :
    (page.pin_count = 0 ∧ res = false ∧
        b3 = b.setPage f { page with is_dirty := is_dirty || page.is_dirty }) ∨
    (page.pin_count = 1 ∧ res = true ∧ ∃ r, b.replacer.SetEvictable f true = some r ∧
        b3 = { (b.setPage f { page with is_dirty := is_dirty || page.is_dirty,
                                        pin_count := 0 }) with replacer := r }) ∨
    (1 < page.pin_count ∧ res = true ∧
        b3 = b.setPage f { page with is_dirty := is_dirty || page.is_dirty,
                                     pin_count := page.pin_count - 1 }) := by
  unfold UnpinPage at h
  simp only [hi, if_false, hf, hpg] at h
  by_cases h0 : page.pin_count = 0
  · rw [if_pos h0] at h
    simp only [Option.some.injEq, Prod.mk.injEq] at h
    exact Or.inl ⟨h0, h.1.symm, h.2.symm⟩
  · rw [if_neg h0] at h
    by_cases h1 : page.pin_count - 1 = 0
    · rw [if_pos h1] at h
      cases hs : b.replacer.SetEvictable f true with
      | none => simp [hs] at h
      | some r =>
        simp only [hs, Option.some.injEq, Prod.mk.injEq] at h
        refine Or.inr (Or.inl ⟨by omega, h.1.symm, r, rfl, ?_⟩)
        rw [← h.2, h1]
    · rw [if_neg h1] at h
      simp only [Option.some.injEq, Prod.mk.injEq] at h
      exact Or.inr (Or.inr ⟨by omega, h.1.symm, h.2.symm⟩)

/-- What UnpinPage does for an invalid page id or a page that is not resident. -/
theorem UnpinPage_absent (b : BufferPoolManager D) (page_id : Int) (is_dirty : Bool)
    (h : page_id = INVALID_PAGE_ID ∨ b.page_table.find page_id = none) :
    b.UnpinPage page_id is_dirty = some (false, b) := by
  unfold UnpinPage
  by_cases hi : page_id = INVALID_PAGE_ID
  · simp [hi]
  · rcases h with h | h
    · exact absurd h hi
    · simp [hi, h]

/-- In a consistent pool UnpinPage returns. -/
theorem unpinPage_total [Inhabited D] {b : BufferPoolManager D} (hc : Consistent b)
    (page_id : Int) (is_dirty : Bool) :
    ∃ res b2, b.UnpinPage page_id is_dirty = some (res, b2) := by
  by_cases hi : page_id = INVALID_PAGE_ID
  · exact ⟨_, _, UnpinPage_absent b page_id is_dirty (Or.inl hi)⟩
  · cases hf : b.page_table.find page_id with
    | none => exact ⟨_, _, UnpinPage_absent b page_id is_dirty (Or.inr hf)⟩
    | some f =>
      obtain ⟨h0, h1, _, ⟨pg, hpg, _⟩, _⟩ := hc.bound_frames _ _ hf
      obtain ⟨r, hr⟩ := LRUKReplacer.setEvictable_total b.replacer f true h0
        (by rw [hc.size_eq]; exact h1)
      unfold UnpinPage
      simp only [hi, if_false, hf, hpg, hr]
      split
      · exact ⟨_, _, rfl⟩
      · split
        · exact ⟨_, _, rfl⟩
        · exact ⟨_, _, rfl⟩

end BufferPoolManager

/-- C12. UnpinPage result and effect: in every pool state reachable from
construction, for every page id p and flag fl, UnpinPage(p, fl) returns, and it
returns true exactly when p is resident with pin count above 0. In that case the
pin count of its frame decreases by exactly one, the dirty flag becomes the old
flag OR fl (so fl = false leaves it unchanged), the page id and the bytes stay,
the frame is evictable afterwards exactly when the pin count has reached zero, and
nothing else changes: the pages of the other frames, their evictability, the page
table, the free list, the disk and the next page id. -/
theorem BufferPoolManager.unpinPage_result_and_effect {D : Type} [Inhabited D]
    (b : BufferPoolManager D) (hb : b.Reachable) (p : Int) (fl : Bool) :
    ∃ res b2, b.UnpinPage p fl = some (res, b2) ∧
      (res = true ↔
        ∃ f pg, b.page_table.find p = some f ∧ b.pageAt f = some pg ∧ 0 < pg.pin_count) ∧
      (res = true → ∃ f pg pg2, b.page_table.find p = some f ∧ b.pageAt f = some pg ∧
        b2.pageAt f = some pg2 ∧ pg2.pin_count + 1 = pg.pin_count ∧
        pg2.is_dirty = (pg.is_dirty || fl) ∧ (fl = false → pg2.is_dirty = pg.is_dirty) ∧
        pg2.page_id = pg.page_id ∧ pg2.data = pg.data ∧
        (b2.evictable f ↔ pg2.pin_count = 0) ∧
        (∀ g, g ≠ f → b2.pageAt g = b.pageAt g ∧ (b2.evictable g ↔ b.evictable g)) ∧
        b2.page_table = b.page_table ∧ b2.free_list = b.free_list ∧ b2.disk = b.disk ∧
        b2.next_page_id = b.next_page_id ∧ b2.pool_size = b.pool_size) := by
  have hc := BufferPoolManager.consistent_of_reachable hb
  have hbp2 := (BufferPoolManager.bp2_of_reachable hb).2
  obtain ⟨res, b2, hU⟩ := BufferPoolManager.unpinPage_total hc p fl
  refine ⟨res, b2, hU, ?_⟩
  have habsent : (p = INVALID_PAGE_ID ∨ b.page_table.find p = none) →
      res = false ∧ ¬ ∃ f pg, b.page_table.find p = some f ∧ b.pageAt f = some pg ∧
        0 < pg.pin_count := by
    intro h
    rw [BufferPoolManager.UnpinPage_absent b p fl h] at hU
    simp only [Option.some.injEq, Prod.mk.injEq] at hU
    refine ⟨hU.1.symm, ?_⟩
    rintro ⟨f, pg, hf, _, _⟩
    rcases h with h | h
    · exact (hc.bound_frames _ _ hf).2.2.1 h
    · rw [h] at hf
      exact absurd hf (by simp)
  by_cases hi : p = INVALID_PAGE_ID
  · obtain ⟨h1, h2⟩ := habsent (Or.inl hi)
    subst h1
    exact ⟨⟨fun e => absurd e (by simp), fun e => absurd e h2⟩, fun e => absurd e (by simp)⟩
  · cases hf : b.page_table.find p with
    | none =>
      obtain ⟨h1, h2⟩ := habsent (Or.inr hf)
      subst h1
      rw [hf] at h2
      exact ⟨⟨fun e => absurd e (by simp), fun e => absurd e h2⟩, fun e => absurd e (by simp)⟩
    | some f =>
      obtain ⟨h0, _, _, ⟨pg, hpg, _⟩, _⟩ := hc.bound_frames _ _ hf
      have hpage : ∀ new : Page D, ∀ g, g ≠ f → (b.setPage f new).pageAt g = b.pageAt g := by
        intro new g hg
        rw [BufferPoolManager.pageAt_setPage _ _ _ _ h0, if_neg hg]
      have hself : ∀ new : Page D, (b.setPage f new).pageAt f = some new := by
        intro new
        rw [BufferPoolManager.pageAt_setPage _ _ _ _ h0, if_pos rfl, hpg]
        rfl
      rcases BufferPoolManager.UnpinPage_resident hi hf hpg hU with
        ⟨hp0, hres, _⟩ | ⟨hp1, hres, r, hr, hb2⟩ | ⟨hp2, hres, hb2⟩
      · subst hres
        refine ⟨⟨fun e => absurd e (by simp), ?_⟩, fun e => absurd e (by simp)⟩
        rintro ⟨f2, pg2, hf2, hpg2, hpos⟩
        simp only [Option.some.injEq] at hf2
        subst hf2
        rw [hpg] at hpg2
        simp only [Option.some.injEq] at hpg2
        subst hpg2
        omega
      · subst hres
        refine ⟨⟨fun _ => ⟨f, pg, rfl, hpg, by omega⟩, fun _ => rfl⟩, fun _ => ?_⟩
        refine ⟨f, pg, { pg with is_dirty := fl || pg.is_dirty, pin_count := 0 }, rfl, hpg,
          by rw [hb2]; exact hself _, by simp [hp1], Bool.or_comm _ _,
          fun e => by simp [e], rfl, rfl, ?_, ?_, by rw [hb2]; rfl, by rw [hb2]; rfl,
          by rw [hb2]; rfl, by rw [hb2]; rfl, by rw [hb2]; rfl⟩
        · refine ⟨fun _ => rfl, fun _ => ?_⟩
          rw [hb2]
          exact ⟨_, by
            show NodeStore.find f r.node_store = _
            rw [LRUKReplacer.setEvictable_find hr f, if_pos rfl], rfl⟩
        · intro g hg
          refine ⟨by rw [hb2]; exact hpage _ g hg, ?_⟩
          have hfind : NodeStore.find g b2.replacer.node_store
              = NodeStore.find g b.replacer.node_store := by
            rw [hb2]
            show NodeStore.find g r.node_store = _
            rw [LRUKReplacer.setEvictable_find hr g, if_neg hg]
          unfold BufferPoolManager.evictable NodeStore.evictable
          rw [hfind]
      · subst hres
        refine ⟨⟨fun _ => ⟨f, pg, rfl, hpg, by omega⟩, fun _ => rfl⟩, fun _ => ?_⟩
        refine ⟨f, pg, { pg with
            is_dirty := fl || pg.is_dirty, pin_count := pg.pin_count - 1 }, rfl, hpg,
          by rw [hb2]; exact hself _, by simp only; omega, Bool.or_comm _ _,
          fun e => by simp [e], rfl, rfl, ?_, ?_, by rw [hb2]; rfl, by rw [hb2]; rfl,
          by rw [hb2]; rfl, by rw [hb2]; rfl, by rw [hb2]; rfl⟩
        · constructor
          · intro he
            have hev : b.evictable f := by
              rw [hb2] at he
              exact he
            exact absurd hev (hbp2 f pg hpg (by omega))
          · intro e
            simp only at e
            omega
        · intro g hg
          refine ⟨by rw [hb2]; exact hpage _ g hg, ?_⟩
          rw [hb2]
          exact Iff.rfl

/-- C12 at the pool of one frame in which page 0 is pinned once: UnpinPage(0,
true) returns true, the pin count falls to 0, the page becomes dirty, and frame
0 becomes evictable. -/
theorem BufferPoolManager.unpinPage_result_and_effect_witness :
    (BufferPoolManager.oneFramePinned .abort).Reachable ∧
    ∃ res b2, (BufferPoolManager.oneFramePinned .abort).UnpinPage 0 true = some (res, b2) ∧
      (res = true ↔
        ∃ f pg, (BufferPoolManager.oneFramePinned .abort).page_table.find 0 = some f ∧
          (BufferPoolManager.oneFramePinned .abort).pageAt f = some pg ∧ 0 < pg.pin_count) ∧
      (res = true → ∃ f pg pg2,
        (BufferPoolManager.oneFramePinned .abort).page_table.find 0 = some f ∧
        (BufferPoolManager.oneFramePinned .abort).pageAt f = some pg ∧
        b2.pageAt f = some pg2 ∧ pg2.pin_count + 1 = pg.pin_count ∧
        pg2.is_dirty = (pg.is_dirty || true) ∧ (true = false → pg2.is_dirty = pg.is_dirty) ∧
        pg2.page_id = pg.page_id ∧ pg2.data = pg.data ∧
        (b2.evictable f ↔ pg2.pin_count = 0) ∧
        (∀ g, g ≠ f → b2.pageAt g = (BufferPoolManager.oneFramePinned .abort).pageAt g ∧
          (b2.evictable g ↔ (BufferPoolManager.oneFramePinned .abort).evictable g)) ∧
        b2.page_table = (BufferPoolManager.oneFramePinned .abort).page_table ∧
        b2.free_list = (BufferPoolManager.oneFramePinned .abort).free_list ∧
        b2.disk = (BufferPoolManager.oneFramePinned .abort).disk ∧
        b2.next_page_id = (BufferPoolManager.oneFramePinned .abort).next_page_id ∧
        b2.pool_size = (BufferPoolManager.oneFramePinned .abort).pool_size) :=
  ⟨BufferPoolManager.oneFramePinned_reachable .abort,
    BufferPoolManager.unpinPage_result_and_effect (BufferPoolManager.oneFramePinned .abort)
      (BufferPoolManager.oneFramePinned_reachable .abort) 0 true⟩

/-! ## Buffer pool manager: the write-back of a dirty page -/

namespace BufferPoolManager

variable {D : Type}

/-- What the disk holds for a page id after the write-back step. -/
theorem read_writeBack [Inhabited D] (disk : Disk D) (pg : Page D) (p : Int) :
    Disk.read p (writeBack disk pg).1 =
      if pg.is_dirty = true ∧ pg.page_id = p then pg.data else Disk.read p disk := by
  unfold writeBack
  by_cases hd : pg.is_dirty = true
  · by_cases hp : pg.page_id = p
    · simp [hd, hp, Disk.read]
    · simp [hd, hp, Disk.read]
  · simp [hd]

/-- The disk, the page table and the frames after a frame f, picked from the free
list or from the replacer, is written back and bound to the page id pid. -/
theorem acquire_effect [Inhabited D] {b b1 b3 : BufferPoolManager D} {f pid n : Int}
    {page : Page D} {res : Option Int} (hp : b.pickFrame = some (res, b1))
    (hpg : b1.pageAt f = some page)
    (hb : bindFrame { b1 with disk := (writeBack b1.disk page).1, next_page_id := n } f
      (writeBack b1.disk page).2 pid = some b3) :
    b.pageAt f = some page ∧
    b3.disk = (writeBack b.disk page).1 ∧
    b3.page_table = (b.page_table.erase page.page_id).emplace pid f ∧
    ∀ g, b3.pageAt g =
      if g = f then
        some { (writeBack b.disk page).2 with page_id := pid, pin_count := 1, data := default }
      else b.pageAt g := by
  obtain ⟨hpages, htable, _, _, hdisk, _, _⟩ := pickFrame_effect hp
  have hsame : ∀ g, b1.pageAt g = b.pageAt g := by
    intro g
    unfold pageAt
    rw [hpages]
  obtain ⟨r1, r2, _, _, rfl⟩ := bindFrame_inv hb
  refine ⟨by rw [← hsame, hpg], by show (writeBack b1.disk page).1 = _; rw [hdisk], ?_, ?_⟩
  · show (PageTable.erase (writeBack b1.disk page).2.page_id b1.page_table).emplace pid f = _
    rw [writeBack_page_id, htable]
  · intro g
    have h1 := pageAt_setPage b1 f g
      { (writeBack b1.disk page).2 with page_id := pid, pin_count := 1, data := default }
      (nonneg_of_pageAt hpg)
    rw [hpg, hsame g, Option.map_some'] at h1
    rw [← hdisk, ← h1]
    rfl

/-- The page table entry of a page id other than the one being bound. -/
theorem find_rebind (p old pid f : Int) (t : PageTable) (hne : p ≠ pid) :
    PageTable.find p ((PageTable.erase old t).emplace pid f) =
      if p = old then none else PageTable.find p t := by
  rw [PageTable.find_emplace]
  by_cases h : (PageTable.find pid (PageTable.erase old t)).isSome = true
  · rw [if_pos h, PageTable.find_erase_page]
  · rw [if_neg h, if_neg hne, PageTable.find_erase_page]

/-- The write-back of a frame keeps the bytes of page p on the disk. -/
theorem keeps_writeBack [Inhabited D] {b : BufferPoolManager D} {p f : Int} {d : D}
    {page : Page D} (hc : Consistent b) (hk : b.Keeps p d) (hpg : b.pageAt f = some page) :
    Disk.read p (writeBack b.disk page).1 = d := by
  rw [read_writeBack]
  by_cases hx : page.is_dirty = true ∧ page.page_id = p
  · rw [if_pos hx]
    have := hc.dirty_bound f page hpg hx.1
    rw [hx.2] at this
    exact hk.2 f page this hpg
  · rw [if_neg hx]
    exact hk.1

/-- A frame bound to another page id than p does not disturb the bytes of p. -/
theorem keeps_acquire [Inhabited D] {b b1 b3 : BufferPoolManager D} {f pid n p : Int} {d : D}
    {page : Page D} {res : Option Int} (hc : Consistent b) (hk : b.Keeps p d)
    (hne : p ≠ pid) (hp : b.pickFrame = some (res, b1)) (hpg : b1.pageAt f = some page)
    (hb : bindFrame { b1 with disk := (writeBack b1.disk page).1, next_page_id := n } f
      (writeBack b1.disk page).2 pid = some b3) :
    b3.Keeps p d ∧ (b3.page_table.find p = some f → False) := by
  obtain ⟨hpgb, hdisk, htable, hpages⟩ := acquire_effect hp hpg hb
  have hnot : b3.page_table.find p = some f → False := by
    intro hfind
    rw [htable, find_rebind _ _ _ _ _ hne] at hfind
    by_cases hpo : p = page.page_id
    · rw [if_pos hpo] at hfind
      exact absurd hfind (by simp)
    · rw [if_neg hpo] at hfind
      obtain ⟨_, _, _, ⟨pg, h1, h2⟩, _⟩ := hc.bound_frames _ _ hfind
      rw [hpgb] at h1
      simp only [Option.some.injEq] at h1
      subst h1
      exact hpo h2.symm
  refine ⟨⟨by rw [hdisk]; exact keeps_writeBack hc hk hpgb, ?_⟩, hnot⟩
  intro g pg hfind hg
  have hgf : g ≠ f := by
    intro e
    rw [e] at hfind
    exact hnot hfind
  rw [hpages g, if_neg hgf] at hg
  rw [htable, find_rebind _ _ _ _ _ hne] at hfind
  by_cases hpo : p = page.page_id
  · rw [if_pos hpo] at hfind
    exact absurd hfind (by simp)
  · rw [if_neg hpo] at hfind
    exact hk.2 g pg hfind hg

/-- A write to the page of one frame that leaves its bytes alone, or that is not
to the frame of page p, keeps the bytes of p. -/
theorem keeps_setPage [Inhabited D] {b : BufferPoolManager D} {f p : Int} {d : D}
    {page new : Page D} (hk : b.Keeps p d) (hpg : b.pageAt f = some page)
    (hdata : new.data = page.data ∨ b.page_table.find p ≠ some f) :
    ∀ g pg, b.page_table.find p = some g → (b.setPage f new).pageAt g = some pg →
      pg.data = d := by
  intro g pg hfind hg
  rw [pageAt_setPage _ _ _ _ (nonneg_of_pageAt hpg)] at hg
  by_cases hgf : g = f
  · subst hgf
    rw [if_pos rfl, hpg] at hg
    simp only [Option.map_some', Option.some.injEq] at hg
    subst hg
    rcases hdata with h1 | h1
    · rw [h1]
      exact hk.2 g page hfind hpg
    · exact absurd hfind h1
  · rw [if_neg hgf] at hg
    exact hk.2 g pg hfind hg

theorem keeps_newPage [Inhabited D] {b b2 : BufferPoolManager D} {res : Option (Int × Int)}
    {p : Int} {d : D} (hc : Consistent b) (hk : b.Keeps p d) (hlt : p < b.next_page_id)
    (h : b.NewPage = some (res, b2)) : b2.Keeps p d := by
  rcases NewPage_inv h with ⟨_, rfl, _⟩ | ⟨f, b1, page, hp, hpg1, _, hb⟩
  · exact hk
  · obtain ⟨_, _, _, hnext, _, _, _⟩ := pickFrame_effect hp
    exact (keeps_acquire hc hk (by omega) hp hpg1 hb).1

theorem keeps_fetchPage [Inhabited D] {b b2 : BufferPoolManager D} {q : Int} {res : Option Int}
    {p : Int} {d : D} (hc : Consistent b) (hk : b.Keeps p d)
    (h : b.FetchPage q = some (res, b2)) : b2.Keeps p d := by
  rcases FetchPage_inv h with ⟨_, rfl⟩ | ⟨_, f, page, r1, r2, hfind, hpg, _, _, _, rfl⟩ |
      ⟨_, hmiss, f, b1, page, b3, page3, hp, hpg1, hb, hpg3, _, rfl⟩
  · exact hk
  · exact ⟨hk.1, keeps_setPage hk hpg (Or.inl rfl)⟩
  · obtain ⟨hpgb, hdisk, htable, hpages⟩ := acquire_effect hp hpg1 hb
    have hread : Disk.read p b3.disk = d := by
      rw [hdisk]
      exact keeps_writeBack hc hk hpgb
    by_cases hqp : p = q
    · subst hqp
      refine ⟨hread, ?_⟩
      intro g pg hfind hg
      have hgf : b3.page_table.find p = some f := by
        rw [htable, PageTable.find_emplace, PageTable.find_erase_page]
        by_cases hpo : p = page.page_id
        · simp [hpo]
        · simp [hpo, hmiss]
      have hfind2 : b3.page_table.find p = some g := hfind
      rw [hgf] at hfind2
      simp only [Option.some.injEq] at hfind2
      subst hfind2
      rw [pageAt_setPage _ _ _ _ (nonneg_of_pageAt hpg3), if_pos rfl, hpg3] at hg
      simp only [Option.map_some', Option.some.injEq] at hg
      subst hg
      exact hread
    · obtain ⟨hk3, hnot⟩ := keeps_acquire hc hk hqp hp hpg1 hb
      exact ⟨hread, keeps_setPage hk3 hpg3 (Or.inr (fun e => hnot e))⟩

theorem keeps_unpinPage [Inhabited D] {b b2 : BufferPoolManager D} {q : Int}
    {is_dirty res : Bool} {p : Int} {d : D} (hk : b.Keeps p d)
    (h : b.UnpinPage q is_dirty = some (res, b2)) : b2.Keeps p d := by
  rcases UnpinPage_inv h with ⟨_, rfl⟩ | ⟨f, page, _, hpg, hcase⟩
  · exact hk
  · rcases hcase with ⟨_, _, rfl⟩ | ⟨_, _, r, _, rfl⟩ | ⟨_, _, rfl⟩
    · exact ⟨hk.1, keeps_setPage hk hpg (Or.inl rfl)⟩
    · exact ⟨hk.1, keeps_setPage hk hpg (Or.inl rfl)⟩
    · exact ⟨hk.1, keeps_setPage hk hpg (Or.inl rfl)⟩

theorem keeps_flushPage [Inhabited D] {b b2 : BufferPoolManager D} {q : Int} {res : Bool}
    {p : Int} {d : D} (hc : Consistent b) (hk : b.Keeps p d)
    (h : b.FlushPage q = some (res, b2)) : b2.Keeps p d := by
  rcases FlushPage_inv h with ⟨_, rfl⟩ | ⟨f, page, hfind, hpg, _, rfl⟩
  · exact hk
  · refine ⟨?_, keeps_setPage hk hpg (Or.inl rfl)⟩
    obtain ⟨_, _, _, ⟨pg, h1, h2⟩, _⟩ := hc.bound_frames _ _ hfind
    rw [hpg] at h1
    simp only [Option.some.injEq] at h1
    subst h1
    show Disk.read p ((page.page_id, page.data) :: b.disk) = d
    unfold Disk.read
    by_cases hqp : page.page_id = p
    · rw [if_pos hqp]
      rw [h2] at hqp
      rw [hqp] at hfind
      exact hk.2 f page hfind hpg
    · rw [if_neg hqp]
      exact hk.1

/-- The loop of FlushAllPages keeps the bytes of p on the disk when every frame
that holds p holds the bytes d. -/
theorem read_flushLoop [Inhabited D] (p : Int) (d : D) (pages : List (Page D)) (disk : Disk D)
    (hdisk : Disk.read p disk = d)
    (hpages : ∀ pg ∈ pages, pg.page_id = p → pg.data = d) :
    Disk.read p (flushLoop disk pages).1 = d := by
  induction pages generalizing disk with
  | nil => exact hdisk
  | cons pg rest ih =>
    show Disk.read p (flushLoop (flushOne disk pg).1 rest).1 = d
    apply ih
    · unfold flushOne
      by_cases hi : pg.page_id = INVALID_PAGE_ID
      · rw [if_pos hi]
        exact hdisk
      · rw [if_neg hi]
        show Disk.read p ((pg.page_id, pg.data) :: disk) = d
        unfold Disk.read
        by_cases hqp : pg.page_id = p
        · rw [if_pos hqp]
          exact hpages pg (List.mem_cons_self _ _) hqp
        · rw [if_neg hqp]
          exact hdisk
    · intro pg2 hmem
      exact hpages pg2 (List.mem_cons_of_mem _ hmem)

theorem keeps_flushAllPages [Inhabited D] {b : BufferPoolManager D} {p : Int} {d : D}
    (hc : Consistent b) (hcoh : Coherent b) (hp : p ≠ INVALID_PAGE_ID) (hk : b.Keeps p d) :
    b.FlushAllPages.Keeps p d := by
  constructor
  · show Disk.read p (flushLoop b.disk b.pages).1 = d
    apply read_flushLoop p d b.pages b.disk hk.1
    intro pg hmem hid
    obtain ⟨i, hi, hget⟩ := List.getElem_of_mem hmem
    have hat : b.pageAt (i : Int) = some pg := by
      unfold pageAt
      simp only [Int.natCast_nonneg, if_true, Int.toNat_ofNat]
      rw [List.getElem?_eq_getElem hi, hget]
    have hlt : (i : Int) < b.pool_size := by
      rw [← hc.pages_len]
      exact_mod_cast hi
    rcases hcoh.covered (i : Int) (Int.natCast_nonneg i) hlt with hfree | ⟨q, hq⟩
    · obtain ⟨_, _, _, pg2, h1, h2⟩ := hcoh.free_frames _ hfree
      rw [hat] at h1
      simp only [Option.some.injEq] at h1
      subst h1
      rw [hid] at h2
      exact absurd h2 hp
    · obtain ⟨_, _, _, _, pg2, h1, h2⟩ := hcoh.bound_frames _ _ hq
      rw [hat] at h1
      simp only [Option.some.injEq] at h1
      subst h1
      rw [hid] at h2
      rw [← h2] at hq
      exact hk.2 _ pg hq hat
  · intro g pg hfind hg
    rw [pageAt_FlushAllPages] at hg
    cases hpg : b.pageAt g with
    | none => simp [hpg] at hg
    | some pg0 =>
      simp only [hpg, Option.map_some', Option.some.injEq] at hg
      subst hg
      have : (flushOne b.disk pg0).2.data = pg0.data := by
        unfold flushOne
        by_cases hi : pg0.page_id = INVALID_PAGE_ID <;> simp [hi]
      rw [this]
      exact hk.2 g pg0 hfind hpg

theorem keeps_deletePage [Inhabited D] {b b2 : BufferPoolManager D} {q : Int} {res : Bool}
    {p : Int} {d : D} (hc : Consistent b) (hk : b.Keeps p d)
    (h : b.DeletePage q = some (res, b2)) : b2.Keeps p d := by
  rcases DeletePage_inv h with rfl | ⟨_, f, page, r, hfind, hpg, _, _, _, rfl⟩
  · exact hk
  · refine ⟨hk.1, ?_⟩
    intro g pg hfindp hg
    have hfindp2 : PageTable.find p (PageTable.erase q b.page_table) = some g := hfindp
    rw [PageTable.find_erase_page] at hfindp2
    by_cases hpq : p = q
    · rw [if_pos hpq] at hfindp2
      exact absurd hfindp2 (by simp)
    · rw [if_neg hpq] at hfindp2
      have hne : b.page_table.find p ≠ some f := by
        intro e
        obtain ⟨_, _, _, ⟨pg1, h1, h2⟩, _⟩ := hc.bound_frames _ _ e
        obtain ⟨_, _, _, ⟨pg2, h3, h4⟩, _⟩ := hc.bound_frames _ _ hfind
        rw [h1] at h3
        simp only [Option.some.injEq] at h3
        subst h3
        exact hpq (h2.symm.trans h4)
      exact keeps_setPage hk hpg (Or.inr hne) g pg hfindp2 hg

theorem keeps_write [Inhabited D] {b b2 : BufferPoolManager D} {f : Int} {d2 : D}
    {p : Int} {d : D} (hk : b.Keeps p d) (hne : b.page_table.find p ≠ some f)
    (h : b.writeData f d2 = some b2) : b2.Keeps p d := by
  unfold writeData at h
  cases hpg : b.pageAt f with
  | none => simp [hpg] at h
  | some pg =>
    simp only [hpg, Option.some.injEq] at h
    subst h
    exact ⟨hk.1, keeps_setPage hk hpg (Or.inr hne)⟩

theorem coherent_write [Inhabited D] {b b2 : BufferPoolManager D} {f : Int} {d : D}
    (hc : Coherent b) (h : b.writeData f d = some b2) : Coherent b2 := by
  unfold writeData at h
  cases hpg : b.pageAt f with
  | none => simp [hpg] at h
  | some pg =>
    simp only [hpg, Option.some.injEq] at h
    subst h
    exact hc.transfer rfl rfl rfl (le_refl _) (setPage_same_id hpg rfl) hc.tracked

theorem coherent_of_reachableAllocatedWithWrites [Inhabited D] {b : BufferPoolManager D}
    (h : ReachableAllocatedWithWrites b) : Coherent b := by
  induction h with
  | init pool_size replacer_k mode => exact coherent_new pool_size replacer_k mode
  | newPage res _ hstep ih => exact coherent_newPage ih hstep
  | fetchPage page_id res _ hlt hstep ih => exact coherent_fetchPage ih hlt hstep
  | unpinPage page_id is_dirty res _ hstep ih => exact coherent_unpinPage ih hstep
  | flushPage page_id res _ hstep ih => exact coherent_flushPage ih hstep
  | flushAllPages _ ih => exact coherent_flushAllPages ih
  | deletePage page_id res _ hstep ih => exact coherent_deletePage ih hstep
  | write f d _ hstep ih => exact coherent_write ih hstep
  | @reorder b store _ hperm ih =>
    refine ih.transfer rfl rfl rfl (le_refl _) (fun g pg hg => ⟨pg, hg, rfl⟩) ?_
    intro g hg
    exact ih.tracked g ((hperm.map Prod.fst).subset hg)

theorem reachableWithWrites_of_allocated [Inhabited D] {b : BufferPoolManager D}
    (h : ReachableAllocatedWithWrites b) : ReachableWithWrites b := by
  induction h with
  | init pool_size replacer_k mode => exact ReachableWithWrites.init pool_size replacer_k mode
  | newPage res _ hstep ih => exact ReachableWithWrites.newPage res ih hstep
  | fetchPage page_id res _ _ hstep ih =>
    exact ReachableWithWrites.fetchPage page_id res ih hstep
  | unpinPage page_id is_dirty res _ hstep ih =>
    exact ReachableWithWrites.unpinPage page_id is_dirty res ih hstep
  | flushPage page_id res _ hstep ih => exact ReachableWithWrites.flushPage page_id res ih hstep
  | flushAllPages _ ih => exact ReachableWithWrites.flushAllPages ih
  | deletePage page_id res _ hstep ih =>
    exact ReachableWithWrites.deletePage page_id res ih hstep
  | write f d _ hstep ih => exact ReachableWithWrites.write f d ih hstep
  | reorder store _ hperm ih => exact ReachableWithWrites.reorder store ih hperm

/-- The next page id never falls. -/
theorem next_page_id_mono [Inhabited D] {b b2 : BufferPoolManager D} {p : Int}
    (h : Undisturbed p b b2) : b.next_page_id ≤ b2.next_page_id := by
  induction h with
  | refl => exact le_refl _
  | newPage res _ hstep ih =>
    rcases NewPage_inv hstep with ⟨_, rfl, _⟩ | ⟨f, b1, page, hp, _, _, hb⟩
    · exact ih
    · obtain ⟨_, _, _, hnext, _, _, _⟩ := pickFrame_effect hp
      obtain ⟨r1, r2, _, _, rfl⟩ := bindFrame_inv hb
      show _ ≤ b1.next_page_id + 1
      omega
  | fetchPage page_id res _ _ hstep ih =>
    rcases FetchPage_inv hstep with ⟨_, rfl⟩ | ⟨_, f, page, r1, r2, _, _, _, _, _, rfl⟩ |
        ⟨_, _, f, b1, page, b3, page3, hp, _, hb, _, _, rfl⟩
    · exact ih
    · exact ih
    · obtain ⟨_, _, _, hnext, _, _, _⟩ := pickFrame_effect hp
      obtain ⟨r1, r2, _, _, rfl⟩ := bindFrame_inv hb
      show _ ≤ b1.next_page_id
      omega
  | unpinPage page_id is_dirty res _ hstep ih =>
    rcases UnpinPage_inv hstep with ⟨_, rfl⟩ | ⟨f, page, _, _, hcase⟩
    · exact ih
    · rcases hcase with ⟨_, _, rfl⟩ | ⟨_, _, r, _, rfl⟩ | ⟨_, _, rfl⟩ <;> exact ih
  | flushPage page_id res _ hstep ih =>
    rcases FlushPage_inv hstep with ⟨_, rfl⟩ | ⟨f, page, _, _, _, rfl⟩ <;> exact ih
  | flushAllPages _ ih => exact ih
  | deletePage page_id res _ hstep ih =>
    rcases DeletePage_inv hstep with rfl | ⟨_, f, page, r, _, _, _, _, _, rfl⟩ <;> exact ih
  | @write b1 b2 f d _ _ hstep ih =>
    unfold writeData at hstep
    cases hpg : b1.pageAt f with
    | none => simp [hpg] at hstep
    | some pg =>
      simp only [hpg, Option.some.injEq] at hstep
      subst hstep
      exact ih
  | reorder store _ _ ih => exact ih

/-- The calls that leave the bytes of page p alone keep them, on the disk and in
the frame of p while p is resident. -/
theorem Undisturbed.keeps [Inhabited D] {b b2 : BufferPoolManager D} {p : Int} {d : D}
    (h : Undisturbed p b b2) (hr : ReachableAllocatedWithWrites b)
    (hp : p ≠ INVALID_PAGE_ID) (hlt : p < b.next_page_id) (hk : b.Keeps p d) :
    ReachableAllocatedWithWrites b2 ∧ b2.Keeps p d := by
  induction h with
  | refl => exact ⟨hr, hk⟩
  | newPage res hu hstep ih =>
    obtain ⟨hr1, hk1⟩ := ih
    exact ⟨ReachableAllocatedWithWrites.newPage res hr1 hstep,
      keeps_newPage (consistent_of_reachableWithWrites (reachableWithWrites_of_allocated hr1))
        hk1 (lt_of_lt_of_le hlt (next_page_id_mono hu)) hstep⟩
  | fetchPage page_id res hu hq hstep ih =>
    obtain ⟨hr1, hk1⟩ := ih
    exact ⟨ReachableAllocatedWithWrites.fetchPage page_id res hr1 hq hstep,
      keeps_fetchPage (consistent_of_reachableWithWrites (reachableWithWrites_of_allocated hr1))
        hk1 hstep⟩
  | unpinPage page_id is_dirty res hu hstep ih =>
    obtain ⟨hr1, hk1⟩ := ih
    exact ⟨ReachableAllocatedWithWrites.unpinPage page_id is_dirty res hr1 hstep,
      keeps_unpinPage hk1 hstep⟩
  | flushPage page_id res hu hstep ih =>
    obtain ⟨hr1, hk1⟩ := ih
    exact ⟨ReachableAllocatedWithWrites.flushPage page_id res hr1 hstep,
      keeps_flushPage (consistent_of_reachableWithWrites (reachableWithWrites_of_allocated hr1))
        hk1 hstep⟩
  | flushAllPages hu ih =>
    obtain ⟨hr1, hk1⟩ := ih
    exact ⟨ReachableAllocatedWithWrites.flushAllPages hr1,
      keeps_flushAllPages
        (consistent_of_reachableWithWrites (reachableWithWrites_of_allocated hr1))
        (coherent_of_reachableAllocatedWithWrites hr1) hp hk1⟩
  | deletePage page_id res hu hstep ih =>
    obtain ⟨hr1, hk1⟩ := ih
    exact ⟨ReachableAllocatedWithWrites.deletePage page_id res hr1 hstep,
      keeps_deletePage (consistent_of_reachableWithWrites (reachableWithWrites_of_allocated hr1))
        hk1 hstep⟩
  | write f d2 hu hne hstep ih =>
    obtain ⟨hr1, hk1⟩ := ih
    exact ⟨ReachableAllocatedWithWrites.write f d2 hr1 hstep, keeps_write hk1 hne hstep⟩
  | reorder store hu hperm ih =>
    obtain ⟨hr1, hk1⟩ := ih
    exact ⟨ReachableAllocatedWithWrites.reorder store hr1 hperm, hk1⟩

/-- A successful FetchPage(p) returns a page with the bytes that are kept for p. -/
theorem fetch_returns_kept [Inhabited D] {b b2 : BufferPoolManager D} {p f : Int} {d : D}
    (hc : Consistent b) (hk : b.Keeps p d) (h : b.FetchPage p = some (some f, b2)) :
    ∃ pg, b2.pageAt f = some pg ∧ pg.data = d := by
  have hk2 := keeps_fetchPage hc hk h
  rcases FetchPage_inv h with ⟨hres, _⟩ | ⟨_, f2, page, r1, r2, hfind, hpg, _, _, hres, rfl⟩ |
      ⟨_, hmiss, f2, b1, page, b3, page3, hp, hpg1, hb, hpg3, hres, rfl⟩
  · exact absurd hres (by simp)
  · simp only [Option.some.injEq] at hres
    subst hres
    have hat : (b.setPage f { page with pin_count := page.pin_count + 1 }).pageAt f
        = some { page with pin_count := page.pin_count + 1 } := by
      rw [pageAt_setPage _ _ _ _ (nonneg_of_pageAt hpg), if_pos rfl, hpg]
      rfl
    exact ⟨_, hat, hk2.2 f _ hfind hat⟩
  · simp only [Option.some.injEq] at hres
    subst hres
    obtain ⟨_, _, htable, _⟩ := acquire_effect hp hpg1 hb
    have hgf : b3.page_table.find p = some f := by
      rw [htable, PageTable.find_emplace, PageTable.find_erase_page]
      by_cases hpo : p = page.page_id
      · simp [hpo]
      · simp [hpo, hmiss]
    have hat : (b3.setPage f { page3 with data := Disk.read p b3.disk }).pageAt f
        = some { page3 with data := Disk.read p b3.disk } := by
      rw [pageAt_setPage _ _ _ _ (nonneg_of_pageAt hpg3), if_pos rfl, hpg3]
      rfl
    exact ⟨_, hat, hk2.2 f _ hgf hat⟩

/-- The disk and the page table after a NewPage that reuses frame f. -/
theorem NewPage_evicts [Inhabited D] {b b2 : BufferPoolManager D} {pid f : Int} {pg : Page D}
    (h : b.NewPage = some (some (pid, f), b2)) (hpg : b.pageAt f = some pg) :
    b2.disk = (writeBack b.disk pg).1 ∧
    b2.page_table = (b.page_table.erase pg.page_id).emplace pid f ∧
    pid = b.next_page_id := by
  rcases NewPage_inv h with ⟨hres, _, _⟩ | ⟨f2, b1, page, hp, hpg1, hres, hb⟩
  · exact absurd hres (by simp)
  · simp only [Option.some.injEq, Prod.mk.injEq] at hres
    obtain ⟨hpid, rfl⟩ := hres
    obtain ⟨hpgb, hdisk, htable, _⟩ := acquire_effect hp hpg1 hb
    rw [hpg] at hpgb
    simp only [Option.some.injEq] at hpgb
    subst hpgb
    obtain ⟨_, _, _, hnext, _, _, _⟩ := pickFrame_effect hp
    exact ⟨hdisk, by rw [htable, hpid], by rw [hpid, hnext]⟩

/-- The disk and the page table after a FetchPage that reuses frame f for a page
that was not resident. -/
theorem FetchPage_evicts [Inhabited D] {b b2 : BufferPoolManager D} {q f : Int} {pg : Page D}
    (hmiss : b.page_table.find q = none) (h : b.FetchPage q = some (some f, b2))
    (hpg : b.pageAt f = some pg) :
    b2.disk = (writeBack b.disk pg).1 ∧
    b2.page_table = (b.page_table.erase pg.page_id).emplace q f := by
  rcases FetchPage_inv h with ⟨hres, _⟩ | ⟨_, f2, page, r1, r2, hfind, _⟩ |
      ⟨_, _, f2, b1, page, b3, page3, hp, hpg1, hb, hpg3, hres, rfl⟩
  · exact absurd hres (by simp)
  · rw [hmiss] at hfind
    exact absurd hfind (by simp)
  · simp only [Option.some.injEq] at hres
    subst hres
    obtain ⟨hpgb, hdisk, htable, _⟩ := acquire_effect hp hpg1 hb
    rw [hpg] at hpgb
    simp only [Option.some.injEq] at hpgb
    subst hpgb
    exact ⟨hdisk, htable⟩

/-- The bytes that the disk holds for a page that is not resident are kept. -/
theorem keeps_of_absent [Inhabited D] {b : BufferPoolManager D} {p : Int} {d : D}
    (hdisk : Disk.read p b.disk = d) (hfind : b.page_table.find p = none) : b.Keeps p d :=
  ⟨hdisk, fun g pg hg _ => by rw [hfind] at hg; exact absurd hg (by simp)⟩

end BufferPoolManager
/-- C11. Writeback before rebind, with the disk as a map from page id to page
bytes (Disk.read). (1) In every pool state that can occur when callers write into
the pages they hold: when NewPage, or a FetchPage of a page that is not resident,
reuses a frame whose current page p is dirty with bytes d, the disk holds d for p
after the call. (2) In every pool state that can occur when, besides, FetchPage
is only asked for allocated page ids: after such a NewPage or FetchPage, and
after any series of calls that follows it (NewPage, FetchPage of allocated ids,
UnpinPage, FlushPage, FlushAllPages, DeletePage, and callers' writes into the
frames of other pages), a successful FetchPage(p) returns a page whose bytes are
d; and after FlushPage(p) for a resident page p with bytes d and any such series
of calls, the eviction of p among them, a successful FetchPage(p) returns a page
whose bytes are d. -/
theorem BufferPoolManager.writeback_before_rebind {D : Type} [Inhabited D]
    (b : BufferPoolManager D) :
    (b.ReachableWithWrites →
      (∀ pid f b2 pg, b.NewPage = some (some (pid, f), b2) → b.pageAt f = some pg →
        pg.is_dirty = true → Disk.read pg.page_id b2.disk = pg.data) ∧
      (∀ q f b2 pg, b.page_table.find q = none → b.FetchPage q = some (some f, b2) →
        b.pageAt f = some pg → pg.is_dirty = true →
        Disk.read pg.page_id b2.disk = pg.data)) ∧
    (b.ReachableAllocatedWithWrites →
      (∀ pid f b2 pg b3 f4 b4, b.NewPage = some (some (pid, f), b2) →
        b.pageAt f = some pg → pg.is_dirty = true →
        BufferPoolManager.Undisturbed pg.page_id b2 b3 →
        b3.FetchPage pg.page_id = some (some f4, b4) →
        ∃ pg4, b4.pageAt f4 = some pg4 ∧ pg4.data = pg.data) ∧
      (∀ q f b2 pg b3 f4 b4, q < b.next_page_id → b.page_table.find q = none →
        b.FetchPage q = some (some f, b2) → b.pageAt f = some pg → pg.is_dirty = true →
        BufferPoolManager.Undisturbed pg.page_id b2 b3 →
        b3.FetchPage pg.page_id = some (some f4, b4) →
        ∃ pg4, b4.pageAt f4 = some pg4 ∧ pg4.data = pg.data) ∧
      (∀ p f pg b1 b2 f4 b4, b.page_table.find p = some f → b.pageAt f = some pg →
        b.FlushPage p = some (true, b1) → BufferPoolManager.Undisturbed p b1 b2 →
        b2.FetchPage p = some (some f4, b4) →
        ∃ pg4, b4.pageAt f4 = some pg4 ∧ pg4.data = pg.data)) := by
  constructor
  · intro hb
    constructor
    · intro pid f b2 pg hstep hpg hd
      rw [(BufferPoolManager.NewPage_evicts hstep hpg).1, BufferPoolManager.read_writeBack,
        if_pos ⟨hd, rfl⟩]
    · intro q f b2 pg hmiss hstep hpg hd
      rw [(BufferPoolManager.FetchPage_evicts hmiss hstep hpg).1,
        BufferPoolManager.read_writeBack, if_pos ⟨hd, rfl⟩]
  · intro hb
    have hc := BufferPoolManager.consistent_of_reachableWithWrites
      (BufferPoolManager.reachableWithWrites_of_allocated hb)
    have hcoh := BufferPoolManager.coherent_of_reachableAllocatedWithWrites hb
    have hlater : ∀ (b2 b3 b4 : BufferPoolManager D) (p f4 : Int) (d : D),
        b2.ReachableAllocatedWithWrites → p ≠ INVALID_PAGE_ID → p < b2.next_page_id →
        b2.Keeps p d → BufferPoolManager.Undisturbed p b2 b3 →
        b3.FetchPage p = some (some f4, b4) →
        ∃ pg4, b4.pageAt f4 = some pg4 ∧ pg4.data = d := by
      intro b2 b3 b4 p f4 d hr2 hp hlt hk hun hfetch
      obtain ⟨hr3, hk3⟩ := hun.keeps hr2 hp hlt hk
      exact BufferPoolManager.fetch_returns_kept
        (BufferPoolManager.consistent_of_reachableWithWrites
          (BufferPoolManager.reachableWithWrites_of_allocated hr3)) hk3 hfetch
    refine ⟨?_, ?_, ?_⟩
    · intro pid f b2 pg b3 f4 b4 hstep hpg hd hun hfetch
      have hfind := hc.dirty_bound f pg hpg hd
      obtain ⟨_, _, hp, hlt, _⟩ := hcoh.bound_frames _ _ hfind
      obtain ⟨hdisk, htable, hpid⟩ := BufferPoolManager.NewPage_evicts hstep hpg
      have hne : pg.page_id ≠ pid := by omega
      have hmono := BufferPoolManager.next_page_id_mono
        (BufferPoolManager.Undisturbed.newPage (some (pid, f))
          (BufferPoolManager.Undisturbed.refl (p := pg.page_id) b) hstep)
      refine hlater b2 b3 b4 _ f4 _ (BufferPoolManager.ReachableAllocatedWithWrites.newPage _
        hb hstep) hp (lt_of_lt_of_le hlt hmono) ?_ hun hfetch
      apply BufferPoolManager.keeps_of_absent
      · rw [hdisk, BufferPoolManager.read_writeBack, if_pos ⟨hd, rfl⟩]
      · rw [htable, BufferPoolManager.find_rebind _ _ _ _ _ hne, if_pos rfl]
    · intro q f b2 pg b3 f4 b4 hq hmiss hstep hpg hd hun hfetch
      have hfind := hc.dirty_bound f pg hpg hd
      obtain ⟨_, _, hp, hlt, _⟩ := hcoh.bound_frames _ _ hfind
      obtain ⟨hdisk, htable⟩ := BufferPoolManager.FetchPage_evicts hmiss hstep hpg
      have hne : pg.page_id ≠ q := by
        intro e
        rw [e, hmiss] at hfind
        exact absurd hfind (by simp)
      have hmono := BufferPoolManager.next_page_id_mono
        (BufferPoolManager.Undisturbed.fetchPage q (some f)
          (BufferPoolManager.Undisturbed.refl (p := pg.page_id) b) hq hstep)
      refine hlater b2 b3 b4 _ f4 _ (BufferPoolManager.ReachableAllocatedWithWrites.fetchPage
        _ _ hb hq hstep) hp (lt_of_lt_of_le hlt hmono) ?_ hun hfetch
      apply BufferPoolManager.keeps_of_absent
      · rw [hdisk, BufferPoolManager.read_writeBack, if_pos ⟨hd, rfl⟩]
      · rw [htable, BufferPoolManager.find_rebind _ _ _ _ _ hne, if_pos rfl]
    · intro p f pg b1 b2 f4 b4 hfind hpg hflush hun hfetch
      obtain ⟨_, _, hp, hlt, _⟩ := hcoh.bound_frames _ _ hfind
      have hmono := BufferPoolManager.next_page_id_mono
        (BufferPoolManager.Undisturbed.flushPage p true
          (BufferPoolManager.Undisturbed.refl (p := p) b) hflush)
      refine hlater b1 b2 b4 p f4 _ (BufferPoolManager.ReachableAllocatedWithWrites.flushPage
        _ _ hb hflush) hp (lt_of_lt_of_le hlt hmono) ?_ hun hfetch
      obtain ⟨_, _, _, ⟨pg0, hpg0, hid⟩, _⟩ := hc.bound_frames _ _ hfind
      rw [hpg] at hpg0
      simp only [Option.some.injEq] at hpg0
      subst hpg0
      rcases BufferPoolManager.FlushPage_inv hflush with ⟨hres, _⟩ |
          ⟨f2, page, hfind2, hpg2, _, rfl⟩
      · exact absurd hres (by simp)
      · rw [hfind] at hfind2
        simp only [Option.some.injEq] at hfind2
        subst hfind2
        rw [hpg] at hpg2
        simp only [Option.some.injEq] at hpg2
        subst hpg2
        constructor
        · show Disk.read p ((pg.page_id, pg.data) :: b.disk) = pg.data
          simp [Disk.read, hid]
        · intro g pg2 hg hat
          have hg2 : b.page_table.find p = some g := hg
          rw [hfind] at hg2
          simp only [Option.some.injEq] at hg2
          subst hg2
          have hat2 : (b.setPage f { pg with is_dirty := false }).pageAt f = some pg2 := hat
          rw [BufferPoolManager.pageAt_setPage _ _ _ _ (BufferPoolManager.nonneg_of_pageAt hpg),
            if_pos rfl, hpg] at hat2
          simp only [Option.map_some', Option.some.injEq] at hat2
          subst hat2
          rfl

namespace BufferPoolManager

theorem oneFrameDirty_reachable : ReachableAllocatedWithWrites oneFrameDirty :=
  ReachableAllocatedWithWrites.unpinPage 0 true true
    (ReachableAllocatedWithWrites.write 0 7
      (ReachableAllocatedWithWrites.newPage (some (0, 0))
        (ReachableAllocatedWithWrites.init 1 2 .abort)
        (by decide : (new 1 2 .abort : BufferPoolManager Nat).NewPage
          = some (some (0, 0), oneFramePinned .abort)))
      (by decide : (oneFramePinned .abort).writeData 0 7 = some oneFrameWritten))
    (by decide : oneFrameWritten.UnpinPage 0 true = some (true, oneFrameDirty))

theorem clashDirty_reachable : ReachableWithWrites clashDirty :=
  ReachableWithWrites.unpinPage 0 true true
    (ReachableWithWrites.write 1 7 (reachableWithWrites_of_reachable clashState_reachable)
      (by decide : clashState.writeData 1 7 = some clashWritten))
    (by decide : clashWritten.UnpinPage 0 true = some (true, clashDirty))

end BufferPoolManager

/-- C11 at the pool of one frame whose page 0 is dirty with the bytes 7: the
NewPage that reuses frame 0 leaves 7 on the disk for page 0, and after
UnpinPage(1, false), FlushAllPages, a second NewPage that evicts page 1,
UnpinPage(2, true), FlushPage(2) and DeletePage(1), the call FetchPage(0)
returns a page whose bytes are 7; the same bytes come back when FlushPage(0) is
called before the first NewPage. -/
theorem BufferPoolManager.writeback_before_rebind_witness :
    BufferPoolManager.oneFrameDirty.ReachableAllocatedWithWrites ∧
    BufferPoolManager.oneFrameDirty.ReachableWithWrites ∧
    ((∀ pid f b2 pg, BufferPoolManager.oneFrameDirty.NewPage = some (some (pid, f), b2) →
        BufferPoolManager.oneFrameDirty.pageAt f = some pg →
        pg.is_dirty = true → Disk.read pg.page_id b2.disk = pg.data) ∧
      (∀ q f b2 pg, BufferPoolManager.oneFrameDirty.page_table.find q = none →
        BufferPoolManager.oneFrameDirty.FetchPage q = some (some f, b2) →
        BufferPoolManager.oneFrameDirty.pageAt f = some pg → pg.is_dirty = true →
        Disk.read pg.page_id b2.disk = pg.data)) ∧
    ((∀ pid f b2 pg b3 f4 b4, BufferPoolManager.oneFrameDirty.NewPage
          = some (some (pid, f), b2) →
        BufferPoolManager.oneFrameDirty.pageAt f = some pg → pg.is_dirty = true →
        BufferPoolManager.Undisturbed pg.page_id b2 b3 →
        b3.FetchPage pg.page_id = some (some f4, b4) →
        ∃ pg4, b4.pageAt f4 = some pg4 ∧ pg4.data = pg.data) ∧
      (∀ q f b2 pg b3 f4 b4, q < BufferPoolManager.oneFrameDirty.next_page_id →
        BufferPoolManager.oneFrameDirty.page_table.find q = none →
        BufferPoolManager.oneFrameDirty.FetchPage q = some (some f, b2) →
        BufferPoolManager.oneFrameDirty.pageAt f = some pg → pg.is_dirty = true →
        BufferPoolManager.Undisturbed pg.page_id b2 b3 →
        b3.FetchPage pg.page_id = some (some f4, b4) →
        ∃ pg4, b4.pageAt f4 = some pg4 ∧ pg4.data = pg.data) ∧
      (∀ p f pg b1 b2 f4 b4, BufferPoolManager.oneFrameDirty.page_table.find p = some f →
        BufferPoolManager.oneFrameDirty.pageAt f = some pg →
        BufferPoolManager.oneFrameDirty.FlushPage p = some (true, b1) →
        BufferPoolManager.Undisturbed p b1 b2 →
        b2.FetchPage p = some (some f4, b4) →
        ∃ pg4, b4.pageAt f4 = some pg4 ∧ pg4.data = pg.data)) ∧
    (BufferPoolManager.oneFrameDirty.NewPage).map (fun x => (x.1, Disk.read 0 x.2.disk))
      = some (some (1, 0), 7) ∧
    ((((BufferPoolManager.oneFrameDirty.NewPage).bind
      (fun x => x.2.run [.unpinPage 1 false, .flushAllPages, .newPage, .unpinPage 2 true,
        .flushPage 2, .deletePage 1])).bind (fun y => y.FetchPage 0)).bind
      (fun z => z.2.pageAt 0)).map (fun pg => pg.data) = some 7 ∧
    (((((BufferPoolManager.oneFrameDirty.FlushPage 0).bind (fun w => w.2.NewPage)).bind
      (fun x => x.2.run [.unpinPage 1 false, .flushAllPages, .newPage, .unpinPage 2 true,
        .flushPage 2, .deletePage 1])).bind (fun y => y.FetchPage 0)).bind
      (fun z => z.2.pageAt 0)).map (fun pg => pg.data) = some 7 :=
  ⟨BufferPoolManager.oneFrameDirty_reachable,
    BufferPoolManager.reachableWithWrites_of_allocated
      BufferPoolManager.oneFrameDirty_reachable,
    (BufferPoolManager.writeback_before_rebind BufferPoolManager.oneFrameDirty).1
      (BufferPoolManager.reachableWithWrites_of_allocated
        BufferPoolManager.oneFrameDirty_reachable),
    (BufferPoolManager.writeback_before_rebind BufferPoolManager.oneFrameDirty).2
      BufferPoolManager.oneFrameDirty_reachable,
    by decide, by decide, by decide⟩

/-- C11, where it fails. In the pool of two frames reached by FetchPage(0) for
the page id 0 that was never allocated, NewPage() (which allocates the id 0 again
and leaves frame 0 with the page id 0 outside the page table), a write of the
bytes 7 into the page in frame 1 and UnpinPage(0, true), the next NewPage reuses
frame 1, whose page 0 is dirty with the bytes 7, and the disk holds 7 for page 0
after the call. FlushAllPages then writes the zeroed bytes of frame 0 for the
page id 0, and after UnpinPage(1, false) the call FetchPage(0), page 0 not being
resident, succeeds and returns a page whose bytes are 0. -/
theorem BufferPoolManager.writeback_lost_after_unallocated_fetch :
    BufferPoolManager.clashDirty.ReachableWithWrites ∧
    ((BufferPoolManager.new 2 2 .abort : BufferPoolManager Nat).run
      [.fetchPage 0, .newPage]).bind (fun b => b.writeData 1 7)
      = some BufferPoolManager.clashWritten ∧
    BufferPoolManager.clashWritten.UnpinPage 0 true
      = some (true, BufferPoolManager.clashDirty) ∧
    BufferPoolManager.clashDirty.pageAt 1 = some ⟨0, 0, true, 7⟩ ∧
    (BufferPoolManager.clashDirty.NewPage).map
      (fun x => (x.1, x.2.page_table.find 0, Disk.read 0 x.2.disk))
      = some (some (1, 1), none, 7) ∧
    ((BufferPoolManager.clashDirty.NewPage).bind
      (fun x => x.2.run [.flushAllPages, .unpinPage 1 false])).map
      (fun b => (b.page_table.find 0, Disk.read 0 b.disk)) = some (none, 0) ∧
    (((BufferPoolManager.clashDirty.NewPage).bind
      (fun x => x.2.run [.flushAllPages, .unpinPage 1 false])).bind
      (fun b => b.FetchPage 0)).map (fun z => (z.1, (z.2.pageAt 1).map (fun pg => pg.data)))
      = some (some 1, some 0) :=
  ⟨BufferPoolManager.clashDirty_reachable, by decide, by decide, by decide, by decide,
    by decide, by decide⟩

/-- C13. UnpinPage failure is not atomic. In the pool of one frame reached by
NewPage and UnpinPage(0, false), page 0 is resident with pin count 0 and clean;
UnpinPage(0, true) returns false, and yet the pool state has changed: the dirty
flag of the frame of page 0 is set (line 146 runs before the test of line 148).
This holds for every behaviour of the BUSTUB_ASSERT macro. -/
theorem BufferPoolManager.unpinPage_failure_sets_dirty (mode : AssertMode) :
    (BufferPoolManager.new 1 2 mode : BufferPoolManager Nat).run
      [.newPage, .unpinPage 0 false] = some (BufferPoolManager.oneFrameUnpinned mode) ∧
    ((BufferPoolManager.oneFrameUnpinned mode).pageAt 0).map (fun pg => pg.is_dirty)
      = some false ∧
    ((BufferPoolManager.oneFrameUnpinned mode).UnpinPage 0 true).map Prod.fst = some false ∧
    ((BufferPoolManager.oneFrameUnpinned mode).UnpinPage 0 true).map Prod.snd
      ≠ some (BufferPoolManager.oneFrameUnpinned mode) ∧
    (((BufferPoolManager.oneFrameUnpinned mode).UnpinPage 0 true).bind
      (fun x => x.2.pageAt 0)).map (fun pg => pg.is_dirty) = some true := by
  cases mode <;> decide

/-- C14. DeletePage of an unpinned page that lives in frame 0 does not return.
In the pool of one frame reached by NewPage and UnpinPage(0, false), page 0 is
resident in frame 0 with pin count 0; DeletePage(0) calls Remove(0) on the
replacer, whose range test (line 99: frame_id <= 0) sends frame 0 to
BUSTUB_ASSERT: the call ends the program, both when a reached assertion aborts
and when the macro asserts its second argument (the frame id 0). Only with
assertions compiled out does the call return true with frame 0 in the free list. -/
theorem BufferPoolManager.deletePage_frame_zero_aborts :
    (BufferPoolManager.new 1 2 .abort : BufferPoolManager Nat).run
      [.newPage, .unpinPage 0 false] = some (BufferPoolManager.oneFrameUnpinned .abort) ∧
    (BufferPoolManager.oneFrameUnpinned .abort).page_table.find 0 = some 0 ∧
    ((BufferPoolManager.oneFrameUnpinned .abort).pageAt 0).map (fun pg => pg.pin_count)
      = some 0 ∧
    (BufferPoolManager.oneFrameUnpinned .abort).DeletePage 0 = none ∧
    (BufferPoolManager.oneFrameUnpinned .unlessNonzero).DeletePage 0 = none ∧
    ((BufferPoolManager.oneFrameUnpinned .ignore).DeletePage 0).map
      (fun x => (x.1, x.2.free_list)) = some (true, [0]) := by
  decide

/-! ## Directory page: how the operations keep D1 -/

namespace DirectoryPage

theorem incrCopy_global (d : DirectoryPage) (n : Nat) :
    (incrCopy d n).global_depth = d.global_depth ∧ (incrCopy d n).max_depth = d.max_depth := by
  induction n with
  | zero => exact ⟨rfl, rfl⟩
  | succ n ih => exact ih

/-- The arrays after n rounds of the loop of IncrGlobalDepth: the first n slots
of the upper half hold copies of the slots of the lower half. -/
theorem incrCopy_slots (d : DirectoryPage) (n : Nat) (hn : n ≤ 2 ^ d.global_depth) (k : Nat) :
    (incrCopy d n).local_depths k =
      (if 2 ^ d.global_depth ≤ k ∧ k < 2 ^ d.global_depth + n
        then d.local_depths (k - 2 ^ d.global_depth) else d.local_depths k) ∧
    (incrCopy d n).bucket_page_ids k =
      (if 2 ^ d.global_depth ≤ k ∧ k < 2 ^ d.global_depth + n
        then d.bucket_page_ids (k - 2 ^ d.global_depth) else d.bucket_page_ids k) := by
  induction n generalizing k with
  | zero =>
    have : ¬ (2 ^ d.global_depth ≤ k ∧ k < 2 ^ d.global_depth + 0) := by omega
    simp only [incrCopy, if_neg this, and_self]
  | succ n ih =>
    have hn2 : n ≤ 2 ^ d.global_depth := by omega
    have hg := (incrCopy_global d n).1
    have hsrc := ih hn2 n
    have hnot : ¬ (2 ^ d.global_depth ≤ n ∧ n < 2 ^ d.global_depth + n) := by omega
    rw [if_neg hnot, if_neg hnot] at hsrc
    simp only [incrCopy, setAt, hg, Nat.one_shiftLeft]
    by_cases hk : k = 2 ^ d.global_depth + n
    · have hc : 2 ^ d.global_depth ≤ k ∧ k < 2 ^ d.global_depth + (n + 1) := by omega
      have hsub : k - 2 ^ d.global_depth = n := by omega
      rw [if_pos hk, if_pos hk, if_pos hc, if_pos hc, hsub]
      exact hsrc
    · rw [if_neg hk, if_neg hk]
      have hk2 := ih hn2 k
      by_cases hc : 2 ^ d.global_depth ≤ k ∧ k < 2 ^ d.global_depth + n
      · have hc2 : 2 ^ d.global_depth ≤ k ∧ k < 2 ^ d.global_depth + (n + 1) := by omega
        rw [if_pos hc, if_pos hc] at hk2
        rw [if_pos hc2, if_pos hc2]
        exact hk2
      · have hc2 : ¬ (2 ^ d.global_depth ≤ k ∧ k < 2 ^ d.global_depth + (n + 1)) := by omega
        rw [if_neg hc, if_neg hc] at hk2
        rw [if_neg hc2, if_neg hc2]
        exact hk2

/-- What IncrGlobalDepth does below max_depth: the global depth grows by one,
and every slot of the new active range holds what the slot of the old range
with the same low bits held. -/
theorem IncrGlobalDepth_slots (d : DirectoryPage) (hlt : d.global_depth < d.max_depth) :
    d.IncrGlobalDepth.global_depth = d.global_depth + 1 ∧
    d.IncrGlobalDepth.max_depth = d.max_depth ∧
    ∀ k, k < 2 ^ (d.global_depth + 1) →
      d.IncrGlobalDepth.local_depths k = d.local_depths (k % 2 ^ d.global_depth) ∧
      d.IncrGlobalDepth.bucket_page_ids k = d.bucket_page_ids (k % 2 ^ d.global_depth) := by
  have hnot : ¬ d.global_depth ≥ d.max_depth := by omega
  unfold IncrGlobalDepth
  rw [if_neg hnot]
  simp only [Nat.one_shiftLeft]
  obtain ⟨hg, hm⟩ := incrCopy_global d (2 ^ d.global_depth)
  refine ⟨by rw [hg], hm, ?_⟩
  intro k hk
  have hs := incrCopy_slots d (2 ^ d.global_depth) (le_refl _) k
  have hpow : 2 ^ (d.global_depth + 1) = 2 ^ d.global_depth + 2 ^ d.global_depth := by
    rw [pow_succ]
    omega
  by_cases hc : 2 ^ d.global_depth ≤ k
  · have hc2 : 2 ^ d.global_depth ≤ k ∧ k < 2 ^ d.global_depth + 2 ^ d.global_depth := by omega
    have hmod : k % 2 ^ d.global_depth = k - 2 ^ d.global_depth := by
      rw [Nat.mod_eq_sub_mod hc, Nat.mod_eq_of_lt (by omega)]
    rw [if_pos hc2, if_pos hc2] at hs
    rw [hmod]
    exact hs
  · have hc2 : ¬ (2 ^ d.global_depth ≤ k ∧ k < 2 ^ d.global_depth + 2 ^ d.global_depth) := by
      omega
    have hmod : k % 2 ^ d.global_depth = k := Nat.mod_eq_of_lt (by omega)
    rw [if_neg hc2, if_neg hc2] at hs
    rw [hmod]
    exact hs

theorem IncrGlobalDepth_full (d : DirectoryPage) (hge : d.global_depth ≥ d.max_depth) :
    d.IncrGlobalDepth = d := by
  unfold IncrGlobalDepth
  rw [if_pos hge]

theorem HashToBucketIndex_lt (d : DirectoryPage) (hash : Nat) :
    d.HashToBucketIndex hash < 2 ^ d.global_depth := by
  unfold HashToBucketIndex GetGlobalDepthMask GetGlobalDepth
  rw [Nat.one_shiftLeft]
  have h1 : hash &&& (2 ^ d.global_depth - 1) ≤ 2 ^ d.global_depth - 1 := Nat.and_le_right
  have h2 : 0 < 2 ^ d.global_depth := by positivity
  omega

end DirectoryPage

/-! ## Hash index: every directory page satisfies D1 -/

namespace DiskExtendibleHashTable

variable {K V : Type}

theorem fetchDirectory_some {t : DiskExtendibleHashTable K V} {p : Int} {d : DirectoryPage}
    (h : t.fetchDirectory p = some d) : t.pages p = .directory d := by
  unfold fetchDirectory at h
  cases hp : t.pages p with
  | directory d2 =>
    simp only [hp, Option.some.injEq] at h
    rw [h]
  | unwritten => simp [hp] at h
  | header x => simp [hp] at h
  | bucket x => simp [hp] at h

end DiskExtendibleHashTable

namespace DiskExtendibleHashTable

variable {K V : Type}

theorem reachable_of_runCalls [DecidableEq K] (fuel : Nat) (calls : List (Call K V)) :
    ∀ (t t2 : DiskExtendibleHashTable K V) (rs : List Bool), Reachable t →
      runCalls fuel t calls = some (rs, t2) → Reachable t2 := by
  induction calls with
  | nil =>
    intro t t2 rs hr h
    simp only [runCalls, Option.some.injEq, Prod.mk.injEq] at h
    rw [← h.2]
    exact hr
  | cons c rest ih =>
    intro t t2 rs hr h
    cases c with
    | insert key value =>
      simp only [runCalls] at h
      cases hi : Insert fuel t key value with
      | none => simp [hi] at h
      | some x =>
        obtain ⟨r, t1⟩ := x
        simp only [hi] at h
        cases hrest : runCalls fuel t1 rest with
        | none => simp [hrest] at h
        | some y =>
          obtain ⟨rs2, t3⟩ := y
          simp only [hrest, Option.some.injEq, Prod.mk.injEq] at h
          rw [← h.2]
          exact ih t1 t3 rs2 (Reachable.insert fuel key value r hr hi) hrest
    | remove key =>
      simp only [runCalls] at h
      cases hi : Remove t key with
      | none => simp [hi] at h
      | some x =>
        obtain ⟨r, t1⟩ := x
        simp only [hi] at h
        cases hrest : runCalls fuel t1 rest with
        | none => simp [hrest] at h
        | some y =>
          obtain ⟨rs2, t3⟩ := y
          simp only [hrest, Option.some.injEq, Prod.mk.injEq] at h
          rw [← h.2]
          exact ih t1 t3 rs2 (Reachable.remove key r hr hi) hrest

end DiskExtendibleHashTable

/-! ## Directory page and hash index: the properties -/

/-- C17. GetSplitImageIndex adds where the claim has XOR. In a directory of
global depth 1, GetSplitImageIndex(1) is 2, not 1 XOR 1 = 0, and 2 is not an
active slot. In the directory of global depth 2 that Insert(0), Insert(2),
Insert(1) build (int keys hashed by the identity, directory_max_depth 2,
bucket_max_size 1), GetSplitImageIndex(3), the call that Insert(3) makes, is 5,
not 3 XOR 2 = 1, and 5 is not an active slot. -/
theorem DirectoryPage.getSplitImageIndex_adds :
    DirectoryPage.depthOne.global_depth = 1 ∧
    DirectoryPage.depthOne.GetSplitImageIndex 1 = 2 ∧
    1 ^^^ (1 <<< (DirectoryPage.depthOne.global_depth - 1)) = 0 ∧
    ¬ DirectoryPage.depthOne.GetSplitImageIndex 1 < 2 ^ DirectoryPage.depthOne.global_depth ∧
    (DiskExtendibleHashTable.directoryAfter [.insert 0 0, .insert 2 2, .insert 1 1]).map
      (fun d => (d.global_depth, d.GetSplitImageIndex 3, 3 ^^^ (1 <<< (d.global_depth - 1))))
      = some (2, 5, 1) := by
  decide

/-- C18. D2 does not survive Insert. With int keys hashed by the identity,
directory_max_depth 2 and bucket_max_size 1, the calls Insert(0), Insert(2),
Insert(1), Insert(3) return true, true, true, false and leave a directory of
global depth 2 in which the active slots 1 and 3 hold the same bucket page id 3
with the local depths 1 and 2: the state is reachable and its directory page
violates D2. -/
theorem DiskExtendibleHashTable.split_breaks_D2 :
    (∃ rs t d, DiskExtendibleHashTable.runCalls 8
        (DiskExtendibleHashTable.withHeader (fun k : Nat => k) 1 2 1)
        [.insert 0 0, .insert 2 2, .insert 1 1, .insert 3 3] = some (rs, t) ∧
      rs = [true, true, true, false] ∧ t.Reachable ∧ t.pages 1 = .directory d ∧ ¬ d.D2) ∧
    (DiskExtendibleHashTable.directoryAfter [.insert 0 0, .insert 2 2, .insert 1 1]).map
      (fun d => decide d.D2) = some true ∧
    (DiskExtendibleHashTable.directoryAfter
      [.insert 0 0, .insert 2 2, .insert 1 1, .insert 3 3]).map
      (fun d => (d.global_depth, d.bucket_page_ids 1, d.bucket_page_ids 3, d.local_depths 1,
        d.local_depths 3)) = some (2, 3, 3, 1, 2) := by
  refine ⟨?_, by decide, by decide⟩
  have hres : (DiskExtendibleHashTable.runCalls 8
      (DiskExtendibleHashTable.withHeader (fun k : Nat => k) 1 2 1)
      [.insert 0 0, .insert 2 2, .insert 1 1, .insert 3 3]).map Prod.fst
      = some [true, true, true, false] := by decide
  have hD2 : (DiskExtendibleHashTable.directoryAfter
      [.insert 0 0, .insert 2 2, .insert 1 1, .insert 3 3]).map (fun d => decide d.D2)
      = some false := by decide
  unfold DiskExtendibleHashTable.directoryAfter at hD2
  cases h : DiskExtendibleHashTable.runCalls 8
      (DiskExtendibleHashTable.withHeader (fun k : Nat => k) 1 2 1)
      [.insert 0 0, .insert 2 2, .insert 1 1, .insert 3 3] with
  | none =>
    rw [h] at hres
    exact absurd hres (by simp)
  | some x =>
    rw [h] at hres hD2
    simp only [Option.map_some', Option.some.injEq] at hres
    simp only [Option.some_bind] at hD2
    cases hd : x.2.fetchDirectory 1 with
    | none =>
      rw [hd] at hD2
      exact absurd hD2 (by simp)
    | some d =>
      rw [hd] at hD2
      simp only [Option.map_some', Option.some.injEq, decide_eq_false_iff_not] at hD2
      exact ⟨x.1, x.2, d, rfl, hres,
        DiskExtendibleHashTable.reachable_of_runCalls 8 _ _ x.2 x.1
          (DiskExtendibleHashTable.Reachable.init _ 1 2 1) h,
        DiskExtendibleHashTable.fetchDirectory_some hd, hD2⟩

/-- C20. IncrGlobalDepth: for every directory page that satisfies D1 and D2, if
global_depth = max_depth the call changes nothing; otherwise it increments
global_depth by one, copies bucket_page_ids[i] and local_depths[i] to slot
i + 2^global_depth for every active slot i, leaves the original active slots
unchanged, and the resulting page satisfies D2 again. -/
theorem DirectoryPage.incrGlobalDepth_effect (d : DirectoryPage) (h1 : d.D1) (h2 : d.D2) :
    (d.global_depth = d.max_depth → d.IncrGlobalDepth = d) ∧
    (d.global_depth ≠ d.max_depth →
      d.IncrGlobalDepth.global_depth = d.global_depth + 1 ∧
      d.IncrGlobalDepth.max_depth = d.max_depth ∧
      (∀ i, i < 2 ^ d.global_depth →
        d.IncrGlobalDepth.bucket_page_ids (i + 2 ^ d.global_depth) = d.bucket_page_ids i ∧
        d.IncrGlobalDepth.local_depths (i + 2 ^ d.global_depth) = d.local_depths i ∧
        d.IncrGlobalDepth.bucket_page_ids i = d.bucket_page_ids i ∧
        d.IncrGlobalDepth.local_depths i = d.local_depths i) ∧
      d.IncrGlobalDepth.D2) := by
  constructor
  · intro he
    exact DirectoryPage.IncrGlobalDepth_full d (by omega)
  · intro hne
    have hlt : d.global_depth < d.max_depth := by
      have := h1.1
      omega
    obtain ⟨hg, hm, hs⟩ := DirectoryPage.IncrGlobalDepth_slots d hlt
    have hpow : 2 ^ (d.global_depth + 1) = 2 ^ d.global_depth + 2 ^ d.global_depth := by
      rw [pow_succ]
      omega
    refine ⟨hg, hm, ?_, ?_⟩
    · intro i hi
      have hup := hs (i + 2 ^ d.global_depth) (by omega)
      have hlow := hs i (by omega)
      rw [Nat.add_mod_right, Nat.mod_eq_of_lt hi] at hup
      rw [Nat.mod_eq_of_lt hi] at hlow
      exact ⟨hup.2, hup.1, hlow.2, hlow.1⟩
    · intro i hi j hj hids
      rw [hg] at hi hj
      obtain ⟨hli, hbi⟩ := hs i hi
      obtain ⟨hlj, hbj⟩ := hs j hj
      rw [hbi, hbj] at hids
      have hi2 : i % 2 ^ d.global_depth < 2 ^ d.global_depth := Nat.mod_lt _ (by positivity)
      have hj2 : j % 2 ^ d.global_depth < 2 ^ d.global_depth := Nat.mod_lt _ (by positivity)
      obtain ⟨hld, hcong⟩ := h2 _ hi2 _ hj2 hids
      rw [hli, hlj]
      refine ⟨hld, ?_⟩
      have hdvd : 2 ^ d.local_depths (i % 2 ^ d.global_depth) ∣ 2 ^ d.global_depth :=
        pow_dvd_pow 2 (h1.2 _ hi2)
      rw [Nat.mod_mod_of_dvd _ hdvd, Nat.mod_mod_of_dvd _ hdvd] at hcong
      exact hcong

/-- C20 at a directory of max_depth 2 and global depth 1 whose slots 0 and 1
hold the bucket pages 2 and 3 with local depth 1. -/
theorem DirectoryPage.incrGlobalDepth_effect_witness :
    DirectoryPage.twoBuckets.D1 ∧ DirectoryPage.twoBuckets.D2 ∧
    (DirectoryPage.twoBuckets.global_depth ≠ DirectoryPage.twoBuckets.max_depth →
      DirectoryPage.twoBuckets.IncrGlobalDepth.global_depth
        = DirectoryPage.twoBuckets.global_depth + 1 ∧
      DirectoryPage.twoBuckets.IncrGlobalDepth.max_depth = DirectoryPage.twoBuckets.max_depth ∧
      (∀ i, i < 2 ^ DirectoryPage.twoBuckets.global_depth →
        DirectoryPage.twoBuckets.IncrGlobalDepth.bucket_page_ids
          (i + 2 ^ DirectoryPage.twoBuckets.global_depth)
          = DirectoryPage.twoBuckets.bucket_page_ids i ∧
        DirectoryPage.twoBuckets.IncrGlobalDepth.local_depths
          (i + 2 ^ DirectoryPage.twoBuckets.global_depth)
          = DirectoryPage.twoBuckets.local_depths i ∧
        DirectoryPage.twoBuckets.IncrGlobalDepth.bucket_page_ids i
          = DirectoryPage.twoBuckets.bucket_page_ids i ∧
        DirectoryPage.twoBuckets.IncrGlobalDepth.local_depths i
          = DirectoryPage.twoBuckets.local_depths i) ∧
      DirectoryPage.twoBuckets.IncrGlobalDepth.D2) ∧
    (List.range 4).map DirectoryPage.twoBuckets.IncrGlobalDepth.bucket_page_ids
      = [2, 3, 2, 3] :=
  ⟨by decide, by decide,
    (DirectoryPage.incrGlobalDepth_effect DirectoryPage.twoBuckets (by decide)
      (by decide)).2,
    by decide⟩

/-! ## Trie: Get checks the type of the stored value -/

/-- C25. Trie Get is type-checked: for every trie, key, value type T and value
of that type, Get of any other type U at the key in the trie returned by Put of
T is nullptr; and Get of any type is nullptr when the root is null, when the
path of the key is missing, or when the path ends at a node without a value. -/
theorem Trie.get_type_checked {Ty : Type} {El : Ty → Type} [DecidableEq Ty]
    (t : Trie (Dyn Ty El)) (T U : Ty) (key : List Char) (v : El T) (hne : U ≠ T) :
    (t.PutT T key v).Get U key = none ∧
    ((∀ root, t.root = some root → ∀ n, Trie.getWalk key root = some n → n.value = none) →
      ∀ W : Ty, t.Get W key = none) := by
  constructor
  · have hTU : ¬ T = U := fun e => hne e.symm
    simp [Trie.Get, Trie.PutT, Trie.GetRaw_Put_self, Dyn.cast, hTU]
  · intro h W
    unfold Trie.Get Trie.GetRaw
    cases hr : t.root with
    | none => rfl
    | some root =>
      simp only []
      cases hw : Trie.getWalk key root with
      | none => rfl
      | some n => simp [TrieNode.is_value_node, h root hr n hw]

/-- C25 at the trie holding the uint32 value 1 at the key ab: after Put of the
uint32 value 2 at ab, Get of a string at ab is nullptr. -/
theorem Trie.get_type_checked_witness :
    (((⟨none⟩ : TypedTrie).PutT .uint32 "ab".toList 1).PutT .uint32 "ab".toList 2).Get
      .string "ab".toList = none ∧
    ((∀ root, ((⟨none⟩ : TypedTrie).PutT .uint32 "ab".toList 1).root = some root →
        ∀ n, Trie.getWalk "ab".toList root = some n → n.value = none) →
      ∀ W : ValueType, ((⟨none⟩ : TypedTrie).PutT .uint32 "ab".toList 1).Get W "ab".toList
        = none) :=
  Trie.get_type_checked ((⟨none⟩ : TypedTrie).PutT .uint32 "ab".toList 1) .uint32 .string
    "ab".toList 2 (by decide)

/-! ## Directory page: growth keeps the slot of every hash -/

/-- C28. Directory growth does not move any key: for every directory page with
global_depth below max_depth and every hash (the 32-bit values among them), the
bucket page id and the local depth at the slot HashToBucketIndex selects after
IncrGlobalDepth are those at the slot it selected before the call, and the slot
selected is an active one, before the call and after it. -/
theorem DirectoryPage.incrGlobalDepth_keeps_hash_slot (d : DirectoryPage) (hash : Nat)
    (hlt : d.global_depth < d.max_depth) :
    d.IncrGlobalDepth.GetBucketPageId (d.IncrGlobalDepth.HashToBucketIndex hash)
      = d.GetBucketPageId (d.HashToBucketIndex hash) ∧
    d.IncrGlobalDepth.GetLocalDepth (d.IncrGlobalDepth.HashToBucketIndex hash)
      = d.GetLocalDepth (d.HashToBucketIndex hash) ∧
    d.HashToBucketIndex hash < 2 ^ d.global_depth ∧
    d.IncrGlobalDepth.HashToBucketIndex hash < 2 ^ d.IncrGlobalDepth.global_depth := by
  obtain ⟨hg, _, hs⟩ := DirectoryPage.IncrGlobalDepth_slots d hlt
  have hnew := DirectoryPage.HashToBucketIndex_lt d.IncrGlobalDepth hash
  have hidx : d.IncrGlobalDepth.HashToBucketIndex hash % 2 ^ d.global_depth
      = d.HashToBucketIndex hash := by
    unfold DirectoryPage.HashToBucketIndex DirectoryPage.GetGlobalDepthMask
      DirectoryPage.GetGlobalDepth
    rw [hg, Nat.one_shiftLeft, Nat.one_shiftLeft, Nat.and_pow_two_sub_one_eq_mod,
      Nat.and_pow_two_sub_one_eq_mod]
    exact Nat.mod_mod_of_dvd hash (pow_dvd_pow 2 (Nat.le_succ _))
  have hk := hs (d.IncrGlobalDepth.HashToBucketIndex hash) (by rw [← hg]; exact hnew)
  rw [hidx] at hk
  exact ⟨hk.2, hk.1, DirectoryPage.HashToBucketIndex_lt d hash, hnew⟩

/-- C28 at a directory of max_depth 2 and global depth 1 whose slots 0 and 1
hold the bucket pages 2 and 3, for the hash 7. -/
theorem DirectoryPage.incrGlobalDepth_keeps_hash_slot_witness :
    DirectoryPage.twoBuckets.IncrGlobalDepth.GetBucketPageId
        (DirectoryPage.twoBuckets.IncrGlobalDepth.HashToBucketIndex 7)
      = DirectoryPage.twoBuckets.GetBucketPageId (DirectoryPage.twoBuckets.HashToBucketIndex 7) ∧
    DirectoryPage.twoBuckets.IncrGlobalDepth.GetLocalDepth
        (DirectoryPage.twoBuckets.IncrGlobalDepth.HashToBucketIndex 7)
      = DirectoryPage.twoBuckets.GetLocalDepth (DirectoryPage.twoBuckets.HashToBucketIndex 7) ∧
    DirectoryPage.twoBuckets.HashToBucketIndex 7 < 2 ^ DirectoryPage.twoBuckets.global_depth ∧
    DirectoryPage.twoBuckets.IncrGlobalDepth.HashToBucketIndex 7
      < 2 ^ DirectoryPage.twoBuckets.IncrGlobalDepth.global_depth :=
  DirectoryPage.incrGlobalDepth_keeps_hash_slot DirectoryPage.twoBuckets 7 (by decide)

/-! ## LRU-K replacer: a node tracked without a recorded access -/

/-- C29. SetEvictable tracks a frame that has no recorded access: on a freshly
constructed replacer, whatever BUSTUB_ASSERT does, SetEvictable(1, true) returns
and leaves frame 1 tracked and evictable with an empty history, and the Evict
that follows reads history().back() of that empty history, while the claim says
every tracked node has a recorded access. -/
theorem LRUKReplacer.setEvictable_tracks_empty_history (mode : AssertMode) :
    ∃ r, (LRUKReplacer.new 7 2 mode).SetEvictable 1 true = some r ∧ r.Reachable ∧
      NodeStore.find 1 r.node_store = some ⟨[], true⟩ ∧ r.Evict = none := by
  have h : ∃ r, (LRUKReplacer.new 7 2 mode).SetEvictable 1 true = some r ∧
      NodeStore.find 1 r.node_store = some ⟨[], true⟩ ∧ r.Evict = none := by
    cases mode <;> exact ⟨_, rfl, by decide, by decide⟩
  obtain ⟨r, h1, h2, h3⟩ := h
  exact ⟨r, h1, LRUKReplacer.Reachable.setEvictable 1 true (LRUKReplacer.Reachable.init 7 2 mode) h1,
    h2, h3⟩

/-! ## Hash index: the split scenario, the merge step and the header page -/

namespace DiskExtendibleHashTable

/-- With the mask 0 that Remove passes (line 269), UpdateDirectoryMapping
writes local depths only: every bucket page id stays where it is. -/
theorem updateLoop_mask_zero (idx : Nat) (pid : Int) (ld : Nat) (d : DirectoryPage) (n : Nat) :
    (updateLoop idx pid ld 0 d n).bucket_page_ids = d.bucket_page_ids := by
  induction n with
  | zero => rfl
  | succ n ih =>
    simp only [updateLoop, Nat.and_zero, ne_eq, not_true_eq_false, if_false]
    split
    · exact ih
    · exact ih

end DiskExtendibleHashTable

/-- C22. Literal split scenario, with its last step as the code has it. With
bucket_max_size 2 and directory_max_depth 2, the keys 0, 1, 2, 3 (hashed by the
identity) inserted in this order into an empty index all return true. After the
first two the global depth is 0 and both keys are in the bucket of slot 0, which
is full. The insert of 2 overflows it and leaves global depth 1 with the even
keys 0, 2 in the bucket of slot 0 and the odd key 1 in the bucket of slot 1. The
insert of 3 finds room in the odd bucket: it overflows nothing and leaves the
global depth at 1. -/
theorem DiskExtendibleHashTable.split_scenario_depth_one :
    DiskExtendibleHashTable.splitScenario [.insert 0 10, .insert 1 11]
      = some ⟨[true, true], 0, some [0, 1], none⟩ ∧
    DiskExtendibleHashTable.splitScenario [.insert 0 10, .insert 1 11, .insert 2 12]
      = some ⟨[true, true, true], 1, some [0, 2], some [1]⟩ ∧
    DiskExtendibleHashTable.splitScenario
        [.insert 0 10, .insert 1 11, .insert 2 12, .insert 3 13]
      = some ⟨[true, true, true, true], 1, some [0, 2], some [1, 3]⟩ := by
  decide

/-- C22, the step that fails: after the inserts of 0, 1, 2, 3 the global depth
is 1, while the claim says the insert of 3 leaves global depth 2. -/
theorem DiskExtendibleHashTable.split_scenario_not_depth_two :
    (DiskExtendibleHashTable.splitScenario
        [.insert 0 10, .insert 1 11, .insert 2 12, .insert 3 13]).map (fun x => x.global_depth)
      = some 1 ∧
    (DiskExtendibleHashTable.splitScenario
        [.insert 0 10, .insert 1 11, .insert 2 12, .insert 3 13]).map (fun x => x.global_depth)
      ≠ some 2 := by
  decide

/-- C23. The merge step of Remove rewrites no directory slot. With the mask 0
that Remove passes, UpdateDirectoryMapping leaves every bucket page id where it
is, whatever the directory. With int keys hashed by the identity,
directory_max_depth 2 and bucket_max_size 1, the calls Insert(0), Insert(2),
Insert(3), Insert(1) leave the slots 0 to 3 on the bucket pages 2, 3, 4, 5, each
with local depth 2; Remove(2) empties page 4 and merges it with page 2, the
survivor; afterwards the global depth is still 2 and slot 2, now of local depth
1, still holds page 4, while the claim says it holds the survivor. -/
theorem DiskExtendibleHashTable.merge_keeps_bucket_page_ids :
    (∀ (d : DirectoryPage) (idx : Nat) (pid : Int) (ld : Nat),
      (DiskExtendibleHashTable.UpdateDirectoryMapping d idx pid ld 0).bucket_page_ids
        = d.bucket_page_ids) ∧
    (DiskExtendibleHashTable.directoryAfter
        [.insert 0 0, .insert 2 2, .insert 3 3, .insert 1 1]).map
      (fun d => (d.global_depth, DiskExtendibleHashTable.DirectoryPage.slots d))
      = some (2, [(2, 2), (3, 2), (4, 2), (5, 2)]) ∧
    (DiskExtendibleHashTable.runCalls 8
        (DiskExtendibleHashTable.withHeader (fun k : Nat => k) 1 2 1)
        [.insert 0 0, .insert 2 2, .insert 3 3, .insert 1 1, .remove 2]).map
      (fun x => (x.1, (x.2.fetchBucket 2).map (fun b => b.entries),
        (x.2.fetchBucket 4).map (fun b => b.entries)))
      = some ([true, true, true, true, true], some [(0, 0)], some []) ∧
    (DiskExtendibleHashTable.directoryAfter
        [.insert 0 0, .insert 2 2, .insert 3 3, .insert 1 1, .remove 2]).map
      (fun d => (d.global_depth, DiskExtendibleHashTable.DirectoryPage.slots d))
      = some (2, [(2, 1), (3, 2), (4, 1), (5, 2)]) := by
  refine ⟨?_, by decide, by decide, by decide⟩
  intro d idx pid ld
  exact DiskExtendibleHashTable.updateLoop_mask_zero idx pid ld d _

/-- C24. No header page is created. The index that the constructor returns on a
fresh buffer pool has no page written, whatever value header_page_id_ holds; on
it GetValue does not return false and Insert does not return true: both read
the page header_page_id_ through the header view, and that page was never
initialised. The claim says the header page exists by then. -/
theorem DiskExtendibleHashTable.fresh_index_has_no_header {K V : Type} [DecidableEq K]
    (hash_fn : K → Nat) (header_max_depth directory_max_depth bucket_max_size : Nat)
    (header_page_id : Int) (key : K) :
    (∀ p, (DiskExtendibleHashTable.new hash_fn header_max_depth directory_max_depth
      bucket_max_size header_page_id : DiskExtendibleHashTable K V).fetchHeader p = none) ∧
    (DiskExtendibleHashTable.new hash_fn header_max_depth directory_max_depth
      bucket_max_size header_page_id : DiskExtendibleHashTable K V).GetValue key = none ∧
    ∀ (fuel : Nat) (value : V),
      DiskExtendibleHashTable.Insert fuel
        (DiskExtendibleHashTable.new hash_fn header_max_depth directory_max_depth
          bucket_max_size header_page_id) key value = none := by
  refine ⟨fun p => rfl, rfl, ?_⟩
  intro fuel value
  cases fuel with
  | zero => rfl
  | succ fuel => rfl

/-! ## Trie: Remove keeps the other keys -/

namespace Trie

variable {V : Type}

theorem valueAt_nil (n : TrieNode V) : valueAt [] n = n.value := rfl

theorem valueAt_cons (c : Char) (q : List Char) (n : TrieNode V) :
    valueAt (c :: q) n = match Children.find c n.children with
      | some child => valueAt q child
      | none => none := by
  unfold valueAt
  simp only [getWalk]
  cases Children.find c n.children <;> rfl

theorem GetRaw_eq_valueAt (t : Trie V) (key : List Char) :
    t.GetRaw key = match t.root with
      | some root => valueAt key root
      | none => none := by
  unfold GetRaw valueAt
  cases t.root with
  | none => rfl
  | some root =>
    simp only []
    cases getWalk key root with
    | none => rfl
    | some n =>
      cases hv : n.value with
      | none => simp [TrieNode.is_value_node, hv]
      | some v => simp [TrieNode.is_value_node, hv]

/-- A node without children and without a value stores nothing. -/
theorem valueAt_of_bare (n : TrieNode V) (he : Children.empty n.children = true)
    (hv : n.is_value_node = false) (k : List Char) : valueAt k n = none := by
  cases k with
  | nil =>
    rw [valueAt_nil]
    cases h : n.value with
    | none => rfl
    | some v => simp [TrieNode.is_value_node, h] at hv
  | cons c q => rw [valueAt_cons, Children.find_none_of_empty c _ he]

theorem agree_assign (kc : Char) (suffix : List Char) (top old slot : TrieNode V)
    (hf : Children.find kc top.children = some old) (h : AgreeExcept suffix old slot) :
    AgreeExcept (kc :: suffix) top
      (TrieNode.mk (Children.assign kc slot top.children) top.value) := by
  intro k hk
  cases k with
  | nil => rfl
  | cons c q =>
    rw [valueAt_cons, valueAt_cons, TrieNode.children_mk]
    by_cases hc : c = kc
    · subst hc
      rw [hf, Children.find_assign_self _ _ _ hf]
      exact h q (fun e => hk (by rw [e]))
    · rw [Children.find_assign_ne _ _ _ _ hc]

theorem agree_erase (kc : Char) (suffix : List Char) (top old : TrieNode V)
    (hf : Children.find kc top.children = some old)
    (h : ∀ k, k ≠ suffix → valueAt k old = none) :
    AgreeExcept (kc :: suffix) top
      (TrieNode.mk (Children.erase kc top.children) top.value) := by
  intro k hk
  cases k with
  | nil => rfl
  | cons c q =>
    rw [valueAt_cons, valueAt_cons, TrieNode.children_mk]
    by_cases hc : c = kc
    · subst hc
      rw [hf, Children.find_erase_self]
      exact h q (fun e => hk (by rw [e]))
    · rw [Children.find_erase_ne _ _ _ hc]

theorem linked_of_attached (stack : NodeStack V) (kc : Char) (old : TrieNode V)
    (h : Attached kc old stack) : Linked kc stack := by
  induction stack generalizing kc old with
  | nil => trivial
  | cons top rest ih =>
    obtain ⟨c, top⟩ := top
    exact ⟨by rw [h.1]; rfl, ih c top h.2⟩

theorem rebuild_agree (stack : NodeStack V) (kc : Char) (old slot r : TrieNode V)
    (suffix : List Char) (ha : Attached kc old stack) (h : AgreeExcept suffix old slot)
    (hr : removeRebuild kc slot stack = some r) :
    AgreeExcept (stackKey kc stack ++ suffix) (bottom old stack) r := by
  induction stack generalizing kc old slot suffix with
  | nil =>
    simp only [removeRebuild, Option.some.injEq] at hr
    subst hr
    simpa [stackKey, bottom] using h
  | cons top rest ih =>
    obtain ⟨c, top⟩ := top
    obtain ⟨hf, ha2⟩ := ha
    simp only [removeRebuild, Children.assignAt, hf] at hr
    have := ih c top _ (kc :: suffix) ha2 (agree_assign kc suffix top old slot hf h) hr
    simpa [stackKey, bottom] using this

theorem removeWalk_attached (key : List Char) (top : Char × TrieNode V)
    (below stack : NodeStack V) (h : removeWalk key top below = some stack)
    (ha : Attached top.1 top.2 below) :
    ∃ kc slot rest, stack = (kc, slot) :: rest ∧ Attached kc slot rest ∧
      stackKey kc rest = stackKey top.1 below ++ key ∧
      bottom slot rest = bottom top.2 below ∧
      rest.length = below.length + key.length := by
  induction key generalizing top below with
  | nil =>
    simp only [removeWalk, Option.some.injEq] at h
    subst h
    exact ⟨top.1, top.2, below, rfl, ha, by simp, rfl, by simp⟩
  | cons c cs ih =>
    simp only [removeWalk] at h
    cases hf : Children.find c top.2.children with
    | none => simp [hf] at h
    | some child =>
      simp only [hf] at h
      obtain ⟨tc, tn⟩ := top
      obtain ⟨kc, slot, rest, h1, h2, h3, h4, h5⟩ := ih (c, child) ((tc, tn) :: below) h
        ⟨hf, ha⟩
      refine ⟨kc, slot, rest, h1, h2, ?_, ?_, ?_⟩
      · rw [h3]
        simp [stackKey]
      · rw [h4]
        rfl
      · rw [h5]
        simp
        omega

theorem prune_patch (below : NodeStack V) (top : Char × TrieNode V) (old : TrieNode V)
    (suffix : List Char) (ha : Attached top.1 old below) (h : AgreeExcept suffix old top.2) :
    Patch (stackKey top.1 below ++ suffix) (bottom old below) (removePrune top below) := by
  induction below generalizing top old suffix with
  | nil => exact ⟨top.1, top.2, [], old, suffix, rfl, trivial, rfl, rfl, h⟩
  | cons b rest ih =>
    obtain ⟨c2, bn⟩ := b
    obtain ⟨tc, tn⟩ := top
    obtain ⟨hf, ha2⟩ := ha
    simp only [removePrune]
    split
    · rename_i hcond
      simp only [Bool.and_eq_true, Bool.not_eq_true'] at hcond
      have hnone : ∀ k, k ≠ suffix → valueAt k old = none := by
        intro k hk
        rw [h k hk]
        exact valueAt_of_bare tn hcond.1 hcond.2 k
      have := ih (c2, TrieNode.mk (Children.erase tc bn.children) bn.value) bn (tc :: suffix)
        ha2 (agree_erase tc suffix bn old hf hnone)
      simpa [stackKey, bottom] using this
    · exact ⟨tc, tn, (c2, bn) :: rest, old, suffix, rfl, ⟨hf, ha2⟩, rfl, rfl, h⟩

theorem strip_patch (key : List Char) (kc : Char) (slot : TrieNode V) (rest : NodeStack V)
    (ha : Attached kc slot rest) (hk : stackKey kc rest = key) (hne : rest ≠ []) :
    ∃ stack2, removeStrip ((kc, slot) :: rest) = some stack2 ∧
      Patch key (bottom slot rest) stack2 := by
  cases rest with
  | nil => exact absurd rfl hne
  | cons b rest =>
    obtain ⟨c2, bn⟩ := b
    obtain ⟨hf, ha2⟩ := ha
    simp only [removeStrip]
    by_cases hv : slot.is_value_node = true
    · simp only [hv, if_true]
      by_cases he : Children.empty slot.children = true
      · simp only [he, if_true]
        refine ⟨_, rfl, ?_⟩
        have hnone : ∀ k, k ≠ [] → valueAt k slot = none := by
          intro k hk2
          cases k with
          | nil => exact absurd rfl hk2
          | cons c q => rw [valueAt_cons, Children.find_none_of_empty c _ he]
        have := prune_patch rest (c2, TrieNode.mk (Children.erase kc bn.children) bn.value)
          bn [kc] ha2 (agree_erase kc [] bn slot hf hnone)
        rw [← hk]
        simpa [stackKey, bottom] using this
      · simp only [he, Bool.false_eq_true, if_false, Children.assignAt, hf]
        refine ⟨_, rfl, c2, _, rest, bn, [kc], rfl, ha2, rfl, ?_, ?_⟩
        · rw [← hk]
          simp [stackKey]
        · refine agree_assign kc [] bn slot _ hf ?_
          intro k hk2
          cases k with
          | nil => exact absurd rfl hk2
          | cons c q => rw [valueAt_cons, valueAt_cons, TrieNode.children_mk]
    · simp only [hv, Bool.false_eq_true, if_false]
      exact ⟨_, rfl, kc, slot, (c2, bn) :: rest, slot, [], rfl, ⟨hf, ha2⟩, rfl,
        by simp [hk], fun _ _ => rfl⟩

/-- Remove of a non-empty key returns a trie that stores, at every other key,
what the trie stored. -/
theorem GetRaw_Remove_other (t : Trie V) (key key2 : List Char) (hne : key ≠ [])
    (hk : key2 ≠ key) : ∃ t2, t.Remove key = some t2 ∧ t2.GetRaw key2 = t.GetRaw key2 := by
  cases key with
  | nil => exact absurd rfl hne
  | cons c cs =>
    simp only [Remove, List.isEmpty_cons, Bool.false_eq_true, if_false]
    cases hr : t.root with
    | none => exact ⟨⟨none⟩, rfl, by simp [GetRaw, hr]⟩
    | some root =>
      simp only []
      cases hw : removeWalk (c :: cs) ('a', root) [] with
      | none => exact ⟨⟨some root⟩, rfl, by simp [GetRaw, hr]⟩
      | some stack =>
        simp only []
        obtain ⟨kc, slot, rest, h1, h2, h3, h4, h5⟩ := removeWalk_attached _ _ _ _ hw trivial
        subst h1
        obtain ⟨stack2, hs, kc2, slot2, rest2, old2, suffix, hst, hat, hbot, hkey, hag⟩ :=
          strip_patch (c :: cs) kc slot rest h2 (by simpa [stackKey] using h3)
            (by intro e; rw [e] at h5; simp at h5)
        subst hst
        simp only [hs]
        obtain ⟨r, hreb⟩ := removeRebuild_some rest2 kc2 slot2 (linked_of_attached _ _ _ hat)
        simp only [hreb]
        have hall := rebuild_agree rest2 kc2 old2 slot2 r suffix hat hag hreb
        rw [hkey, hbot, h4] at hall
        simp only [bottom] at hall
        have hk2 := hall key2 hk
        split
        · rename_i hcond
          simp only [Bool.and_eq_true, Bool.not_eq_true'] at hcond
          refine ⟨_, rfl, ?_⟩
          rw [GetRaw_eq_valueAt, GetRaw_eq_valueAt, hr]
          simp only []
          rw [hk2]
          exact (valueAt_of_bare r hcond.2 hcond.1 key2).symm
        · refine ⟨_, rfl, ?_⟩
          rw [GetRaw_eq_valueAt, GetRaw_eq_valueAt, hr]
          simp only []
          exact hk2.symm

end Trie

/-- C30. Trie Remove of a non-empty key keeps every other key: for every trie,
every non-empty key k and every key k2 different from k (the empty key, the
prefixes and the extensions of k too), Remove(k) returns a trie, and Get at k2
in it equals Get at k2 in the trie, whatever value type is asked for. -/
theorem Trie.remove_keeps_other_keys {Ty : Type} {El : Ty → Type} [DecidableEq Ty]
    (t : Trie (Dyn Ty El)) (key key2 : List Char) (hne : key ≠ []) (hk : key2 ≠ key) :
    ∃ t2, t.Remove key = some t2 ∧ ∀ T : Ty, t2.Get T key2 = t.Get T key2 := by
  obtain ⟨t2, h1, h2⟩ := Trie.GetRaw_Remove_other t key key2 hne hk
  exact ⟨t2, h1, fun T => by simp [Trie.Get, h2]⟩

/-- C30 at the trie holding 1 at the key a and 2 at the key ab: Remove of ab
keeps the value at its prefix a. -/
theorem Trie.remove_keeps_other_keys_witness :
    ∃ t2, (((⟨none⟩ : TypedTrie).PutT .uint32 "a".toList 1).PutT .uint32 "ab".toList 2).Remove
        "ab".toList = some t2 ∧
      ∀ T : ValueType, t2.Get T "a".toList
        = (((⟨none⟩ : TypedTrie).PutT .uint32 "a".toList 1).PutT .uint32 "ab".toList 2).Get T
            "a".toList :=
  Trie.remove_keeps_other_keys
    (((⟨none⟩ : TypedTrie).PutT .uint32 "a".toList 1).PutT .uint32 "ab".toList 2)
    "ab".toList "a".toList (by decide) (by decide)

/-! ## Trie: Put and Remove keep the trie well-pruned -/

namespace Children

variable {V : Type}

theorem find_assign_some (c c2 : Char) (n ch : TrieNode V) (m : Children V)
    (h : find c2 (assign c n m) = some ch) : ch = n ∨ find c2 m = some ch := by
  induction m with
  | nil => simp [assign, find] at h
  | cons p m ih =>
    obtain ⟨d, x⟩ := p
    by_cases hd : d = c
    · subst hd
      by_cases hd2 : d = c2
      · simp only [assign, if_true, find, hd2, Option.some.injEq] at h
        exact Or.inl h.symm
      · simp only [assign, if_true, find, hd2, if_false] at h
        right
        simp only [find, hd2, if_false]
        exact h
    · by_cases hd2 : d = c2
      · subst hd2
        simp only [assign, hd, if_false, find, if_true] at h ⊢
        exact Or.inr h
      · simp only [assign, hd, if_false, find, hd2] at h ⊢
        exact ih h

theorem find_insert_some (c c2 : Char) (n ch : TrieNode V) (m : Children V)
    (h : find c2 (insert c n m) = some ch) : ch = n ∨ find c2 m = some ch := by
  unfold insert at h
  cases hf : find c m with
  | some x =>
    rw [hf] at h
    exact Or.inr h
  | none =>
    rw [hf] at h
    simp only [find_append_single] at h
    cases hf2 : find c2 m with
    | some y =>
      rw [hf2] at h
      exact Or.inr h
    | none =>
      rw [hf2] at h
      by_cases hc : c = c2
      · simp only [hc, if_true, Option.some.injEq] at h
        exact Or.inl h.symm
      · simp [hc] at h

theorem find_erase_some (c c2 : Char) (ch : TrieNode V) (m : Children V)
    (h : find c2 (erase c m) = some ch) : find c2 m = some ch := by
  by_cases hc : c2 = c
  · subst hc
    rw [find_erase_self] at h
    exact absurd h (by simp)
  · rw [find_erase_ne _ _ _ hc] at h
    exact h

theorem nonempty_of_find (c : Char) (x : TrieNode V) (m : Children V)
    (h : find c m = some x) : empty m = false := by
  cases he : empty m with
  | false => rfl
  | true =>
    rw [find_none_of_empty c m he] at h
    exact absurd h (by simp)

end Children

namespace Trie

variable {V : Type}

theorem good_child {n ch : TrieNode V} {c : Char} (hp : Pruned n)
    (hf : Children.find c n.children = some ch) : Good ch := by
  intro k x hw he
  refine hp (c :: k) x (by simp) ?_ he
  simp only [getWalk, hf]
  exact hw

theorem pruned_of_children {n : TrieNode V}
    (h : ∀ c ch, Children.find c n.children = some ch → Good ch) : Pruned n := by
  intro k x hk hw he
  cases k with
  | nil => exact absurd rfl hk
  | cons c q =>
    simp only [getWalk] at hw
    cases hf : Children.find c n.children with
    | none => simp [hf] at hw
    | some ch =>
      simp only [hf] at hw
      exact h c ch hf q x hw he

theorem pruned_of_good {n : TrieNode V} (h : Good n) : Pruned n :=
  fun k x _ hw he => h k x hw he

theorem good_of_pruned {n : TrieNode V} (hp : Pruned n)
    (hn : Children.empty n.children = true → n.is_value_node = true) : Good n := by
  intro k x hw he
  cases k with
  | nil =>
    simp only [getWalk, Option.some.injEq] at hw
    subst hw
    exact hn he
  | cons c q => exact hp (c :: q) x (by simp) hw he

/-- A node whose children are a new node and children of a pruned node. -/
theorem good_with_child {top slot : TrieNode V} {m : Children V} {v : Option V} {kc : Char}
    (hp : Pruned top) (hs : Good slot)
    (hm : ∀ c ch, Children.find c m = some ch → ch = slot ∨
      Children.find c top.children = some ch)
    (hkc : (Children.find kc m).isSome = true) : Good (TrieNode.mk m v) := by
  refine good_of_pruned (pruned_of_children ?_) ?_
  · intro c ch hf
    rw [TrieNode.children_mk] at hf
    rcases hm c ch hf with e | hold
    · rw [e]
      exact hs
    · exact good_child hp hold
  · intro he
    rw [TrieNode.children_mk] at he
    rw [Children.find_none_of_empty kc m he] at hkc
    exact absurd hkc (by simp)

theorem pruned_bare : Pruned (TrieNode.mk ([] : Children V) none) := by
  refine pruned_of_children ?_
  intro c ch hf
  simp [Children.find] at hf

theorem good_value_node {m : Children V} {v : V} {old : TrieNode V} (hp : Pruned old)
    (hm : m = old.children) : Good (TrieNode.mk m (some v)) := by
  refine good_of_pruned (pruned_of_children ?_) (fun _ => rfl)
  intro c ch hf
  rw [TrieNode.children_mk, hm] at hf
  exact good_child hp hf

theorem putWalk_pruned (rest : List Char) (parent : TrieNode V) (stack : NodeStack V)
    (hp : Pruned parent) (hs : AllPruned stack) : AllPruned (putWalk rest parent stack).2 := by
  induction rest generalizing parent stack with
  | nil => exact hs
  | cons c cs ih =>
    cases cs with
    | nil => exact hs
    | cons c2 cs =>
      simp only [putWalk]
      cases hf : Children.find c parent.children with
      | none => exact hs
      | some child =>
        simp only []
        have hc : Pruned child := pruned_of_good (good_child hp hf)
        refine ih child ((c, child) :: stack) hc ?_
        intro p hpm
        rcases List.mem_cons.1 hpm with e | hin
        · rw [e]
          exact hc
        · exact hs p hin

theorem putPad_pruned (rest : List Char) (stack : NodeStack V) (hs : AllPruned stack) :
    AllPruned (putPad rest stack).2 := by
  induction rest generalizing stack with
  | nil => exact hs
  | cons c cs ih =>
    cases cs with
    | nil => exact hs
    | cons c2 cs =>
      simp only [putPad]
      refine ih ((c, TrieNode.mk [] none) :: stack) ?_
      intro p hpm
      rcases List.mem_cons.1 hpm with e | hin
      · rw [e]
        exact pruned_bare
      · exact hs p hin

theorem putUnwind_good (L : Nat) (stack : NodeStack V) (it : Nat) (ks : Char)
    (slot : TrieNode V) (hL : stack ≠ [] → 2 ≤ L) (hs : AllPruned stack) (hg : Good slot)
    (hv : it + 1 = L → slot.is_value_node = true) :
    Good (putUnwind L stack it ks slot).2 := by
  induction stack generalizing it ks slot with
  | nil => exact hg
  | cons top stack ih =>
    obtain ⟨c, top⟩ := top
    have hL2 : 2 ≤ L := hL (by simp)
    have htop : Pruned top := hs (c, top) (List.mem_cons_self _ _)
    have hrest : AllPruned stack := fun p hp => hs p (List.mem_cons_of_mem _ hp)
    simp only [putUnwind]
    cases hf : Children.find ks top.children with
    | none =>
      simp only []
      refine ih 0 c _ (fun _ => hL2) hrest ?_ (fun h => by omega)
      exact good_with_child htop hg (fun c2 ch h => Children.find_insert_some _ _ _ _ _ h)
        (by rw [Children.find_insert_self ks slot _ hf]; rfl)
    | some old =>
      simp only []
      by_cases hfirst : it + 1 = L
      · have hdec : decide (it + 1 = L) = true := by simp [hfirst]
        simp only [hdec, if_true]
        refine ih (it - 1) c _ (fun _ => hL2) hrest ?_ (fun h => by omega)
        have hval := hv hfirst
        have hslot2 : Good (TrieNode.mk old.children slot.value) := by
          cases hsv : slot.value with
          | none => simp [TrieNode.is_value_node, hsv] at hval
          | some v => exact good_value_node (pruned_of_good (good_child htop hf)) rfl
        exact good_with_child htop hslot2
          (fun c2 ch h => Children.find_assign_some _ _ _ _ _ h)
          (by rw [Children.find_assign_self ks _ _ hf]; rfl)
      · have hdec : decide (it + 1 = L) = false := by simp [hfirst]
        simp only [hdec, Bool.false_eq_true, if_false]
        refine ih it c _ (fun _ => hL2) hrest ?_ (fun h => absurd h hfirst)
        exact good_with_child htop hg (fun c2 ch h => Children.find_assign_some _ _ _ _ _ h)
          (by rw [Children.find_assign_self ks _ _ hf]; rfl)

theorem wellPruned_of_good {r : TrieNode V} (h : Good r) : WellPruned (⟨some r⟩ : Trie V) := by
  refine ⟨pruned_of_good h, ?_⟩
  rintro ⟨he, hv⟩
  have := h [] r rfl he
  rw [this] at hv
  exact absurd hv (by simp)

theorem wellPruned_Put_root (new_root : TrieNode V) (key : List Char) (v : V)
    (hroot : Pruned new_root) : WellPruned ((⟨some new_root⟩ : Trie V).Put key v) := by
  simp only [Put]
  by_cases hk : key.isEmpty = true
  · simp only [hk, if_true]
    exact wellPruned_of_good (good_value_node hroot rfl)
  · simp only [hk, Bool.false_eq_true, if_false]
    have hstack : AllPruned (putPad (putWalk key new_root []).1 (putWalk key new_root []).2).2 :=
      putPad_pruned _ _ (putWalk_pruned key new_root [] hroot (fun p hp => by simp at hp))
    have hL : (putPad (putWalk key new_root []).1 (putWalk key new_root []).2).2 ≠ [] →
        2 ≤ key.length := by
      intro hne
      cases key with
      | nil => simp at hk
      | cons c cs =>
        cases cs with
        | nil => simp [putWalk, putPad] at hne
        | cons c2 cs => simp
    have hg := putUnwind_good key.length _ (key.length - 1)
      ((putPad (putWalk key new_root []).1 (putWalk key new_root []).2).1.headD default)
      (TrieNode.mk [] (some v)) hL hstack (good_value_node (pruned_bare) rfl) (fun _ => rfl)
    generalize putUnwind key.length
      (putPad (putWalk key new_root []).1 (putWalk key new_root []).2).2 (key.length - 1)
      ((putPad (putWalk key new_root []).1 (putWalk key new_root []).2).1.headD default)
      (TrieNode.mk [] (some v)) = r at hg
    cases hf : Children.find r.1 new_root.children with
    | none =>
      simp only []
      exact wellPruned_of_good (good_with_child hroot hg
        (fun c2 ch h => Children.find_insert_some _ _ _ _ _ h)
        (by rw [Children.find_insert_self r.1 r.2 _ hf]; rfl))
    | some old =>
      simp only []
      exact wellPruned_of_good (good_with_child hroot hg
        (fun c2 ch h => Children.find_assign_some _ _ _ _ _ h)
        (by rw [Children.find_assign_self r.1 _ _ hf]; rfl))

theorem wellPruned_Put (t : Trie V) (key : List Char) (v : V) (ht : WellPruned t) :
    WellPruned (t.Put key v) := by
  obtain ⟨root⟩ := t
  cases root with
  | none =>
    have h : (⟨none⟩ : Trie V).Put key v = (⟨some (TrieNode.mk [] none)⟩ : Trie V).Put key v :=
      rfl
    rw [h]
    exact wellPruned_Put_root _ key v pruned_bare
  | some r => exact wellPruned_Put_root r key v ht.1

end Trie

namespace Trie

variable {V : Type}

theorem allPruned_cons {p : Char × TrieNode V} {stack : NodeStack V} (hp : Pruned p.2)
    (hs : AllPruned stack) : AllPruned (p :: stack) := by
  intro q hq
  rcases List.mem_cons.1 hq with e | hin
  · rw [e]
    exact hp
  · exact hs q hin

theorem pruned_erase {n : TrieNode V} (hp : Pruned n) (c : Char) :
    Pruned (TrieNode.mk (Children.erase c n.children) n.value) := by
  refine pruned_of_children ?_
  intro c2 ch hf
  rw [TrieNode.children_mk] at hf
  exact good_child hp (Children.find_erase_some _ _ _ _ hf)

theorem removeWalk_pruned (key : List Char) (top : Char × TrieNode V)
    (below stack : NodeStack V) (h : removeWalk key top below = some stack)
    (hp : Pruned top.2) (hg : below ≠ [] → Good top.2) (hs : AllPruned below) :
    ∃ kc slot rest, stack = (kc, slot) :: rest ∧ Pruned slot ∧ (rest ≠ [] → Good slot) ∧
      AllPruned rest := by
  induction key generalizing top below with
  | nil =>
    simp only [removeWalk, Option.some.injEq] at h
    subst h
    exact ⟨top.1, top.2, below, rfl, hp, hg, hs⟩
  | cons c cs ih =>
    simp only [removeWalk] at h
    cases hf : Children.find c top.2.children with
    | none => simp [hf] at h
    | some child =>
      simp only [hf] at h
      have hc : Good child := good_child hp hf
      exact ih (c, child) (top :: below) h (pruned_of_good hc) (fun _ => hc)
        (allPruned_cons hp hs)

theorem removePrune_pruned (below : NodeStack V) (top : Char × TrieNode V)
    (hp : Pruned top.2) (hs : AllPruned below) :
    ∃ kc slot rest, removePrune top below = (kc, slot) :: rest ∧ Pruned slot ∧
      (rest ≠ [] → Good slot) ∧ AllPruned rest := by
  induction below generalizing top with
  | nil => exact ⟨top.1, top.2, [], rfl, hp, fun h => absurd rfl h, hs⟩
  | cons b rest ih =>
    obtain ⟨c2, bn⟩ := b
    have hbn : Pruned bn := hs (c2, bn) (List.mem_cons_self _ _)
    have hrest : AllPruned rest := fun p hpm => hs p (List.mem_cons_of_mem _ hpm)
    simp only [removePrune]
    split
    · exact ih (c2, TrieNode.mk (Children.erase top.1 bn.children) bn.value)
        (pruned_erase hbn top.1) hrest
    · rename_i hcond
      refine ⟨top.1, top.2, (c2, bn) :: rest, rfl, hp, fun _ => ?_, hs⟩
      refine good_of_pruned hp ?_
      intro he
      cases hv : top.2.is_value_node with
      | true => rfl
      | false => simp [he, hv] at hcond

theorem removeStrip_pruned (kc : Char) (slot : TrieNode V) (rest stack2 : NodeStack V)
    (h : removeStrip ((kc, slot) :: rest) = some stack2)
    (hp : Pruned slot) (hg : rest ≠ [] → Good slot) (hs : AllPruned rest) :
    ∃ kc2 slot2 rest2, stack2 = (kc2, slot2) :: rest2 ∧ Pruned slot2 ∧
      (rest2 ≠ [] → Good slot2) ∧ AllPruned rest2 := by
  cases rest with
  | nil =>
    simp only [removeStrip] at h
    split at h
    · exact absurd h (by simp)
    · simp only [Option.some.injEq] at h
      subst h
      exact ⟨kc, slot, [], rfl, hp, hg, hs⟩
  | cons b rest =>
    obtain ⟨c2, bn⟩ := b
    have hbn : Pruned bn := hs (c2, bn) (List.mem_cons_self _ _)
    have hrest : AllPruned rest := fun p hpm => hs p (List.mem_cons_of_mem _ hpm)
    simp only [removeStrip] at h
    by_cases hv : slot.is_value_node = true
    · simp only [hv, if_true] at h
      by_cases he : Children.empty slot.children = true
      · simp only [he, if_true, Option.some.injEq] at h
        subst h
        exact removePrune_pruned rest (c2, TrieNode.mk (Children.erase kc bn.children) bn.value)
          (pruned_erase hbn kc) hrest
      · simp only [he, Bool.false_eq_true, if_false, Children.assignAt] at h
        cases hf : Children.find kc bn.children with
        | none => simp [hf] at h
        | some old =>
          simp only [hf, Option.some.injEq] at h
          subst h
          have hnew : Good (TrieNode.mk slot.children (none : Option V)) := by
            refine good_of_pruned (pruned_of_children ?_) ?_
            · intro c ch hc
              rw [TrieNode.children_mk] at hc
              exact good_child hp hc
            · intro he2
              rw [TrieNode.children_mk] at he2
              exact absurd he2 he
          have hnode : Good (TrieNode.mk
              (Children.assign kc (TrieNode.mk slot.children none) bn.children) bn.value) :=
            good_with_child hbn hnew (fun c ch hc => Children.find_assign_some _ _ _ _ _ hc)
              (by rw [Children.find_assign_self kc _ _ hf]; rfl)
          exact ⟨c2, _, rest, rfl, pruned_of_good hnode, fun _ => hnode, hrest⟩
    · simp only [hv, Bool.false_eq_true, if_false, Option.some.injEq] at h
      subst h
      exact ⟨kc, slot, (c2, bn) :: rest, rfl, hp, hg, hs⟩

theorem removeRebuild_pruned (stack : NodeStack V) (kc : Char) (slot r : TrieNode V)
    (h : removeRebuild kc slot stack = some r) (hp : Pruned slot)
    (hg : stack ≠ [] → Good slot) (hs : AllPruned stack) : Pruned r := by
  induction stack generalizing kc slot with
  | nil =>
    simp only [removeRebuild, Option.some.injEq] at h
    subst h
    exact hp
  | cons top rest ih =>
    obtain ⟨c, top⟩ := top
    have htop : Pruned top := hs (c, top) (List.mem_cons_self _ _)
    have hrest : AllPruned rest := fun p hpm => hs p (List.mem_cons_of_mem _ hpm)
    simp only [removeRebuild, Children.assignAt] at h
    cases hf : Children.find kc top.children with
    | none => simp [hf] at h
    | some old =>
      simp only [hf] at h
      have hnode : Good (TrieNode.mk (Children.assign kc slot top.children) top.value) :=
        good_with_child htop (hg (by simp))
          (fun c2 ch hc => Children.find_assign_some _ _ _ _ _ hc)
          (by rw [Children.find_assign_self kc _ _ hf]; rfl)
      exact ih c _ h (pruned_of_good hnode) (fun _ => hnode) hrest

theorem wellPruned_Remove (t t2 : Trie V) (key : List Char) (ht : WellPruned t)
    (h : t.Remove key = some t2) : WellPruned t2 := by
  unfold Remove at h
  by_cases hk : key.isEmpty = true
  · simp only [hk, if_true, Option.some.injEq] at h
    subst h
    trivial
  · simp only [hk, Bool.false_eq_true, if_false] at h
    cases hr : t.root with
    | none =>
      simp only [hr, Option.some.injEq] at h
      subst h
      trivial
    | some root =>
      have hroot : Pruned root := by
        unfold WellPruned at ht
        rw [hr] at ht
        exact ht.1
      simp only [hr] at h
      cases hw : removeWalk key ('a', root) [] with
      | none =>
        simp only [hw, Option.some.injEq] at h
        subst h
        unfold WellPruned at ht ⊢
        rw [hr] at ht
        exact ht
      | some stack =>
        simp only [hw] at h
        obtain ⟨kc, slot, rest, h1, h2, h3, h4⟩ := removeWalk_pruned key ('a', root) [] stack hw
          hroot (fun hne => absurd rfl hne) (fun p hp => by simp at hp)
        subst h1
        cases hs : removeStrip ((kc, slot) :: rest) with
        | none => simp [hs] at h
        | some stack2 =>
          obtain ⟨kc2, slot2, rest2, e, g2, g3, g4⟩ :=
            removeStrip_pruned kc slot rest stack2 hs h2 h3 h4
          subst e
          simp only [hs] at h
          cases hreb : removeRebuild kc2 slot2 rest2 with
          | none => simp [hreb] at h
          | some r =>
            simp only [hreb] at h
            have hpr : Pruned r := removeRebuild_pruned rest2 kc2 slot2 r hreb g2 g3 g4
            split at h
            · simp only [Option.some.injEq] at h
              subst h
              trivial
            · rename_i hcond
              simp only [Option.some.injEq] at h
              subst h
              refine ⟨hpr, ?_⟩
              rintro ⟨he, hv⟩
              simp [he, hv] at hcond

end Trie

/-- C27. Trie pruning invariant: the empty trie is well-pruned, and for every
well-pruned trie, every key and every value, the trie that Put returns is
well-pruned, and Remove returns a trie, which is well-pruned. -/
theorem Trie.pruning_invariant {V : Type} (t : Trie V) (key : List Char) (v : V)
    (ht : t.WellPruned) :
    (⟨none⟩ : Trie V).WellPruned ∧ (t.Put key v).WellPruned ∧
    ∃ t2, t.Remove key = some t2 ∧ t2.WellPruned := by
  refine ⟨trivial, Trie.wellPruned_Put t key v ht, ?_⟩
  obtain ⟨t2, h, _⟩ := Trie.GetRaw_Remove_self t key
  exact ⟨t2, h, Trie.wellPruned_Remove t t2 key ht h⟩

/-- C27 at the trie holding 1 at the key ab, which Put returns on the empty trie
and so is well-pruned: Put of 2 at the key ab and Remove of ab return
well-pruned tries. -/
theorem Trie.pruning_invariant_witness :
    ((⟨none⟩ : Trie Nat).Put "ab".toList 1).WellPruned ∧
    (⟨none⟩ : Trie Nat).WellPruned ∧
    (((⟨none⟩ : Trie Nat).Put "ab".toList 1).Put "ab".toList 2).WellPruned ∧
    ∃ t2, ((⟨none⟩ : Trie Nat).Put "ab".toList 1).Remove "ab".toList = some t2 ∧
      t2.WellPruned :=
  ⟨Trie.wellPruned_Put ⟨none⟩ "ab".toList 1 trivial,
    Trie.pruning_invariant ((⟨none⟩ : Trie Nat).Put "ab".toList 1) "ab".toList 2
      (Trie.wellPruned_Put ⟨none⟩ "ab".toList 1 trivial)⟩

/-! ## Hash index: the recursion of Insert -/

namespace DiskExtendibleHashTable

variable {K V : Type}

end DiskExtendibleHashTable

/-! ## Hash index: the pages fit together -/

namespace DirectoryPage

end DirectoryPage

namespace DiskExtendibleHashTable

variable {K V : Type}

end DiskExtendibleHashTable

namespace DiskExtendibleHashTable

variable {K V : Type}

end DiskExtendibleHashTable

/-! ## Hash index: the directory page that Insert splits -/

namespace DiskExtendibleHashTable

variable {K V : Type}

end DiskExtendibleHashTable

/-! ## Hash index: what the body of Insert does -/

namespace DiskExtendibleHashTable

variable {K V : Type}

end DiskExtendibleHashTable
namespace DiskExtendibleHashTable

variable {K V : Type}

end DiskExtendibleHashTable
/-! ## Hash index: Remove keeps the pages together -/

namespace DiskExtendibleHashTable

variable {K V : Type}

end DiskExtendibleHashTable

/-! ## Hash index: the local depth of the key's slot grows with every retry -/

namespace DirectoryPage

end DirectoryPage

namespace DiskExtendibleHashTable

variable {K V : Type}

end DiskExtendibleHashTable
/-! ## Hash index: Insert returns, and a key inserted is found -/

namespace BucketPage

variable {K V : Type}

end BucketPage

namespace DiskExtendibleHashTable

variable {K V : Type}

end DiskExtendibleHashTable

/-! ## Hash index: duplicate inserts and the termination of Insert -/

end Bustub
